import Mathlib

/-!
Graph store and search engines: shallow embedding.

The C structures of `graphs.h` are embedded as Lean structures.  A pointer to a
vertex (`vertex_t *`) is the position of that vertex in the graph's vertex
list; `NULL` is `none`.  Heap arrays (`size_t *`, `vertex_t **`) are lists read
with `List.getD` and written with `List.set`.  `size_t` values are natural
numbers reduced modulo `2 ^ 64` where the C arithmetic can wrap.  Recursive
functions take a `fuel` argument that bounds the recursion depth and return
`none` when it runs out; the theorems show which fuel is always enough.
Console output (`printf`) is kept as a log of the vertices or cells printed.
-/

namespace Alu



/-- An `edge_t`: destination vertex pointer and weight; the `next` link is the list tail. -/
structure Edge where
  dest : Nat
  weight : Int
deriving DecidableEq, Repr

/-- A `vertex_t`; the `next` link is the tail of the graph's vertex list. -/
structure Vertex where
  index : Nat
  content : String
  x : Int
  y : Int
  nb_edges : Nat
  edges : List Edge
deriving DecidableEq, Repr

instance : Inhabited Vertex := ⟨⟨0, "", 0, 0, 0, []⟩⟩

/-- A `graph_t`: vertex count and the linked list of vertices. -/
structure Graph where
  nb_vertices : Nat
  vertices : List Vertex
deriving DecidableEq, Repr

/-- Dereference of a vertex pointer. -/
def Graph.vtx (g : Graph) (p : Nat) : Vertex := g.vertices.getD p default

/-- The value of `ULONG_MAX` for a 64-bit `unsigned long` / `size_t`. -/
def ULONG_MAX : Nat := 18446744073709551615

/-- The sum `a + w` computed in `size_t`, where `w` is an `int` converted to `size_t`. -/
def size_add (a : Nat) (w : Int) : Nat := (((a : Int) + w) % 18446744073709551616).toNat

/-! ## pathfinding/2-dijkstra_graph.c -/

/-- The `for` loop of `find_minimum_distance_vertex`: the pair
`(minimum_dist, *vertex_idx)` after scanning indices `0 .. n-1`. -/
def min_distance_scan (n : Nat) (distances processed : List Nat) : Nat × Nat :=
  (List.range n).foldl
    (fun acc iterator =>
      if processed.getD iterator 0 = 0 ∧ distances.getD iterator 0 < acc.1 then
        (distances.getD iterator 0, iterator)
      else acc)
    (ULONG_MAX, ULONG_MAX)

/-- The `while (current_vertex)` loop of `find_minimum_distance_vertex`: walk the
vertex list from position `pos` and return the first vertex whose `index` field is `idx`. -/
def locate_vertex (idx : Nat) : List Vertex → Nat → Option Nat
  | [], _ => none
  | v :: rest, pos => if v.index = idx then some pos else locate_vertex idx rest (pos + 1)

/-- Model of `find_minimum_distance_vertex`: the returned vertex pointer and the
value left in `*vertex_idx`. -/
def find_minimum_distance_vertex (graph : Graph) (distances processed : List Nat)
    (vertex_idx : Nat) : Option Nat × Nat :=
  match graph.vertices with
  | [] => (none, vertex_idx)
  | _ :: _ =>
    let idx := (min_distance_scan graph.nb_vertices distances processed).2
    if idx = ULONG_MAX then (none, idx)
    else (locate_vertex idx graph.vertices 0, idx)

/-- The arrays owned by one `dijkstra_graph` call, with the log of printed vertices. -/
structure DijkstraState where
  distances : List Nat
  processed : List Nat
  predecessor_map : List (Option Nat)
  checked : List Nat
deriving DecidableEq, Repr

/-- The neighbour loop of `execute_dijkstra_iteration` over the remaining edge list. -/
def relax_neighbors (graph : Graph) (active_vertex vertex_index : Nat) :
    List Edge → DijkstraState → DijkstraState
  | [], st => st
  | current_edge :: rest, st =>
    if st.processed.getD vertex_index 0 = 0 then
      let tentative_distance := size_add (st.distances.getD vertex_index 0) current_edge.weight
      let dest_index := (graph.vtx current_edge.dest).index
      if st.distances.getD dest_index 0 > tentative_distance then
        relax_neighbors graph active_vertex vertex_index rest
          { st with
            distances := st.distances.set dest_index tentative_distance
            predecessor_map := st.predecessor_map.set dest_index (some active_vertex) }
      else relax_neighbors graph active_vertex vertex_index rest st
    else st

/-- Model of `execute_dijkstra_iteration`; `none` when the recursion is deeper than `fuel`. -/
def execute_dijkstra_iteration (graph : Graph) (destination : Nat) :
    Nat → DijkstraState → Nat → Option DijkstraState
  | 0, _, _ => none
  | fuel + 1, st, current_idx =>
    match find_minimum_distance_vertex graph st.distances st.processed current_idx with
    | (none, _) => some st
    | (some active_vertex, current_idx) =>
      let vertex_index := (graph.vtx active_vertex).index
      let st1 := relax_neighbors graph active_vertex vertex_index (graph.vtx active_vertex).edges
        { st with checked := st.checked ++ [active_vertex] }
      let st2 := { st1 with processed := st1.processed.set vertex_index 1 }
      if st2.processed.getD (graph.vtx destination).index 0 = 1 then some st2
      else execute_dijkstra_iteration graph destination fuel st2 current_idx

/-- The `while` loop of `reconstruct_shortest_path`; the queue is a list and
`queue_push_front` is `::`.  `none` when the loop runs longer than `fuel`. -/
def reconstruct_trace (graph : Graph) (predecessor_map : List (Option Nat)) (source : Nat) :
    Nat → Nat → List String → Option (List String)
  | 0, _, _ => none
  | fuel + 1, current_idx, result_queue =>
    match predecessor_map.getD current_idx none with
    | none => some result_queue
    | some p =>
      if current_idx < graph.nb_vertices then
        if (graph.vtx p).index = (graph.vtx source).index then
          some ((graph.vtx p).content :: result_queue)
        else
          reconstruct_trace graph predecessor_map source fuel (graph.vtx p).index
            ((graph.vtx p).content :: result_queue)
      else some result_queue

/-- Model of `reconstruct_shortest_path`, started on the empty queue. -/
def reconstruct_shortest_path (graph : Graph) (predecessor_map : List (Option Nat))
    (source destination : Nat) (fuel : Nat) : Option (List String) :=
  match predecessor_map.getD (graph.vtx destination).index none with
  | none => some []
  | some _ =>
    reconstruct_trace graph predecessor_map source fuel (graph.vtx destination).index
      [(graph.vtx destination).content]

/-- Model of `allocate_dijkstra_structures` followed by `distance_array[start->index] = 0`. -/
def dijkstra_initial (graph : Graph) (start : Nat) : DijkstraState :=
  { distances := (List.replicate graph.nb_vertices ULONG_MAX).set (graph.vtx start).index 0
    processed := List.replicate graph.nb_vertices 0
    predecessor_map := List.replicate graph.nb_vertices none
    checked := [] }

/-- Model of `dijkstra_graph`.  The outer `none` means that `fuel` ran out; the inner
value is the returned queue, `none` for `NULL`. -/
def dijkstra_graph (fuel : Nat) (graph : Option Graph) (start target : Option Nat) :
    Option (Option (List String)) :=
  match graph, start, target with
  | some graph, some start, some target =>
    match execute_dijkstra_iteration graph target fuel (dijkstra_initial graph start) 0 with
    | none => none
    | some st =>
      match reconstruct_shortest_path graph st.predecessor_map start target fuel with
      | none => none
      | some [] => some none
      | some (front :: rest) => some (some (front :: rest))
  | _, _, _ => some none

/-- The graph of the end-to-end example: A→B(1), B→D(1), A→C(5), C→D(1). -/
def exampleABCD : Graph :=
  { nb_vertices := 4
    vertices :=
      [ ⟨0, "A", 0, 0, 2, [⟨1, 1⟩, ⟨2, 5⟩]⟩,
        ⟨1, "B", 0, 0, 1, [⟨3, 1⟩]⟩,
        ⟨2, "C", 0, 0, 1, [⟨3, 1⟩]⟩,
        ⟨3, "D", 0, 0, 0, []⟩ ] }

/-! ## Specification vocabulary for graphs -/

/-- Number of vertices in the vertex list. -/
def Graph.size (g : Graph) : Nat := g.vertices.length

/-- A graph as `graph_add_vertex` and `graph_add_edge` build it: the count field matches
the list and fits a `size_t`, the vertex at position `i` carries index `i`, every edge
points to a vertex of the graph, `nb_edges` counts the edge list, labels are distinct. -/
def WellFormed (g : Graph) : Prop :=
  g.nb_vertices = g.size ∧ g.nb_vertices ≤ ULONG_MAX ∧
  (∀ i, i < g.size → (g.vtx i).index = i) ∧
  (∀ i, i < g.size → ∀ e ∈ (g.vtx i).edges, e.dest < g.size) ∧
  (∀ i, i < g.size → (g.vtx i).nb_edges = (g.vtx i).edges.length) ∧
  (∀ i, i < g.size → ∀ j, j < g.size → (g.vtx i).content = (g.vtx j).content → i = j)

instance (g : Graph) : Decidable (WellFormed g) := by
  delta WellFormed; infer_instance

/-- Every edge weight is non-negative. -/
def NonNegWeights (g : Graph) : Prop :=
  ∀ i, i < g.size → ∀ e ∈ (g.vtx i).edges, 0 ≤ e.weight

instance (g : Graph) : Decidable (NonNegWeights g) := by
  delta NonNegWeights; infer_instance

/-- The vertex sequence `p` is a walk along edges of `g` and `W` is the sum of the weights
of the edges chosen for its steps. -/
def PathCost (g : Graph) : List Nat → Int → Prop
  | [], _ => False
  | [v], W => v < g.size ∧ W = 0
  | u :: v :: rest, W =>
    u < g.size ∧ ∃ e ∈ (g.vtx u).edges, e.dest = v ∧ PathCost g (v :: rest) (W - e.weight)

/-- A walk of `g` from `s` to `t` with total weight `W`. -/
def WalkFromTo (g : Graph) (s t : Nat) (p : List Nat) (W : Int) : Prop :=
  PathCost g p W ∧ p.head? = some s ∧ p.getLast? = some t

/-- The vertex `t` can be reached from `s` by following zero or more edges. -/
def Reachable (g : Graph) (s t : Nat) : Prop := ∃ p W, WalkFromTo g s t p W

/-- Path sums do not overflow: extending any walk from `s` that repeats no vertex by one
more edge gives a total below `ULONG_MAX`. -/
def PathSumsFit (g : Graph) (s : Nat) : Prop :=
  ∀ p W c, PathCost g p W → p.head? = some s → p.getLast? = some c → p.Nodup →
    ∀ e ∈ (g.vtx c).edges, W + e.weight < ULONG_MAX

/-- The labels of a vertex sequence. -/
def labels (g : Graph) (p : List Nat) : List String := p.map (fun v => (g.vtx v).content)

/-! ## Invariant of the label-setting searches -/

/-- One predecessor link: `a` is recorded as predecessor of `b` through an edge whose
weight accounts for the difference of the recorded distances. -/
def BackLink (g : Graph) (dist : List Nat) (pred : List (Option Nat)) (b a : Nat) : Prop :=
  pred.getD b none = some a ∧
    ∃ e ∈ (g.vtx a).edges, e.dest = b ∧ (dist.getD b 0 : Int) = dist.getD a 0 + e.weight

/-- The predecessor chain `rp` leads from `x` back to the source `s`. -/
structure BackPath (g : Graph) (s : Nat) (S : Nat → Prop) (dist : List Nat)
    (pred : List (Option Nat)) (x : Nat) (rp : List Nat) : Prop where
  head : rp.head? = some x
  last : rp.getLast? = some s
  nodup : rp.Nodup
  settled : ∀ a ∈ rp.tail, S a
  bound : ∀ a ∈ rp, a < g.size
  chain : rp.Chain' (BackLink g dist pred)

/-- The heuristic `h` never drops by more than the weight of an edge. -/
def Consistent (g : Graph) (h : Nat → Nat) : Prop :=
  ∀ u, u < g.size → ∀ e ∈ (g.vtx u).edges, (h u : Int) ≤ h e.dest + e.weight

/-- Invariant of a best-first search from `s` with priority `dist + h`: `S` is the set of
settled vertices, `C` the set of edges already relaxed and `B` the priority of the vertex
settled last. -/
structure SearchInv (g : Graph) (s : Nat) (h : Nat → Nat) (S : Nat → Prop)
    (C : Nat → Edge → Prop) (B : Nat) (dist : List Nat) (pred : List (Option Nat)) : Prop where
  len_dist : dist.length = g.size
  len_pred : pred.length = g.size
  start_lt : s < g.size
  start_zero : dist.getD s 0 = 0
  start_pred : pred.getD s none = none
  dist_le : ∀ v, v < g.size → dist.getD v 0 ≤ ULONG_MAX
  settled_lt : ∀ u, S u → u < g.size
  settled_fin : ∀ u, S u → dist.getD u 0 < ULONG_MAX
  settled_le : ∀ u, S u → dist.getD u 0 + h u ≤ B
  open_ge : ∀ v, v < g.size → ¬ S v → dist.getD v 0 < ULONG_MAX → B ≤ dist.getD v 0 + h v
  relaxed_settled : ∀ u e, C u e → S u
  relaxed : ∀ u e, C u e → (dist.getD e.dest 0 : Int) ≤ dist.getD u 0 + e.weight
  paths : ∀ v, v < g.size → dist.getD v 0 < ULONG_MAX → ∃ rp, BackPath g s S dist pred v rp
  unreached : ∀ v, v < g.size → dist.getD v 0 = ULONG_MAX → pred.getD v none = none

/-- The vertices whose flag in a `processed` / `visited` array is set. -/
def settledOf (g : Graph) (flags : List Nat) : Nat → Prop :=
  fun u => u < g.size ∧ flags.getD u 0 ≠ 0

/-- The edges leaving flagged vertices. -/
def relaxedOf (g : Graph) (flags : List Nat) : Nat → Edge → Prop :=
  fun u e => settledOf g flags u ∧ e ∈ (g.vtx u).edges

/-- Invariant of the Dijkstra arrays between two iterations. -/
def DijkstraInv (g : Graph) (s : Nat) (st : DijkstraState) : Prop :=
  st.processed.length = g.size ∧
  ∃ B, SearchInv g s (fun _ => 0) (settledOf g st.processed) (relaxedOf g st.processed) B
    st.distances st.predecessor_map

/-! ## pathfinding/100-a_star_graph.c

The macro `h` of `pathfinding.h` computes in the type `double`.  A finite non-negative
`double` is the pair of a significand and an exponent, with the value `mant * 2 ^ exp`.
A sum and a square root are rounded to the nearest value with 53 significant bits, ties to
the even significand (IEEE 754 binary64 in its default rounding mode), and the conversion
to `size_t` drops the fraction.  The function `pow` belongs to the C library and the C
standard does not fix the last bit of its results; it is a parameter of the model:
`pow d y` stands for the `double` that `pow(d, y)` returns for an `int` `d`. -/

/-- The number of binary digits of `n`, by halving `n` at most `fuel` times. -/
def bit_length_from : Nat → Nat → Nat
  | 0, _ => 0
  | fuel + 1, n => if n = 0 then 0 else bit_length_from fuel (n / 2) + 1

/-- The number of binary digits of `n`; 0 for 0. -/
def bit_length (n : Nat) : Nat := bit_length_from n n

/-- The binary digits of the integer square root of `n`, from bit `b - 1` down: a bit is
added to `r` when the square still fits. -/
def sqrt_bits (n : Nat) : Nat → Nat → Nat
  | 0, r => r
  | b + 1, r =>
    if (r + 2 ^ b) * (r + 2 ^ b) ≤ n then sqrt_bits n b (r + 2 ^ b) else sqrt_bits n b r

/-- The integer part of the square root of `n`. -/
def int_sqrt (n : Nat) : Nat := sqrt_bits n (bit_length n) 0

/-- A finite non-negative value of the C type `double`: `mant * 2 ^ exp`. -/
structure Double where
  mant : Nat
  exp : Int
deriving DecidableEq, Repr

instance : Inhabited Double := ⟨⟨0, 0⟩⟩

/-- The `double` nearest to `m * 2 ^ e`: the significand is cut to 53 bits and rounded to
nearest, a tie going to the even significand. -/
def round_double (m : Nat) (e : Int) : Double :=
  let k := bit_length m - 53
  if k = 0 then ⟨m, e⟩
  else
    let q := m / 2 ^ k
    let rem := m % 2 ^ k
    if rem > 2 ^ (k - 1) ∨ (rem = 2 ^ (k - 1) ∧ q % 2 = 1) then ⟨q + 1, e + k⟩
    else ⟨q, e + k⟩

/-- The conversion of a `size_t` to `double`. -/
def double_of_size (n : Nat) : Double := round_double n 0

/-- The sum of two `double` values. -/
def double_add (a b : Double) : Double :=
  let e := min a.exp b.exp
  round_double (a.mant * 2 ^ (a.exp - e).toNat + b.mant * 2 ^ (b.exp - e).toNat) e

/-- The function `sqrt` on a `double`: the square root rounded to nearest.  The root is
taken of the significand scaled by `4 ^ 54`, and a last bit records whether it is
inexact, so that the rounding sees on which side of a tie the root lies. -/
def double_sqrt (a : Double) : Double :=
  let m := if a.exp % 2 = 0 then a.mant else 2 * a.mant
  let e := if a.exp % 2 = 0 then a.exp else a.exp - 1
  let r := int_sqrt (m * 4 ^ 54)
  round_double (2 * r + (if r * r = m * 4 ^ 54 then 0 else 1)) (e / 2 - 55)

/-- The conversion of a `double` to `size_t`: the integer part.  The conversion of a value
that a `size_t` cannot hold is undefined in C; the model reduces modulo `2 ^ 64`. -/
def size_of_double (a : Double) : Nat :=
  (if 0 ≤ a.exp then a.mant * 2 ^ a.exp.toNat else a.mant / 2 ^ (-a.exp).toNat) %
    18446744073709551616

/-- A `pow` that returns the power rounded to nearest; it returns the power itself when a
`double` holds it, as the `pow` of a C library does. -/
def pow_nearest (d : Int) (y : Nat) : Double := round_double (d.natAbs ^ y) 0

/-- The difference `a - b` of two `int` values, reduced to the 32 bits of an `int`. -/
def int_diff (a b : Int) : Int := (a - b + 2147483648) % 4294967296 - 2147483648

/-- The macro `h(x1, y1, x2, y2)` of `pathfinding.h`,
`sqrt(pow(x2 - x1, 2) + pow(y2 - y1, 2))`; the differences are `int`. -/
def h (pow : Int → Nat → Double) (x1 y1 x2 y2 : Int) : Double :=
  double_sqrt (double_add (pow (int_diff x2 x1) 2) (pow (int_diff y2 y1) 2))

/-- The `for` loop of `get_min_g_score`: the pair `(min, *index)` after the scan. -/
def min_score_scan (n : Nat) (g_score visited : List Nat) : Nat × Nat :=
  (List.range n).foldl
    (fun acc i =>
      if visited.getD i 0 = 0 ∧ acc.1 > g_score.getD i 0 then (g_score.getD i 0, i) else acc)
    (ULONG_MAX, ULONG_MAX)

/-- The `while (vertex->next)` loop of `get_min_g_score`: the first vertex carrying the
index, or the last vertex of the list. -/
def locate_or_last (index : Nat) : List Vertex → Nat → Nat
  | [], pos => pos
  | [_], pos => pos
  | v :: w :: rest, pos =>
    if v.index = index then pos else locate_or_last index (w :: rest) (pos + 1)

/-- Model of `get_min_g_score`: the returned vertex pointer and the value left in `*index`. -/
def get_min_g_score (graph : Graph) (g_score visited : List Nat) (index : Nat) :
    Option Nat × Nat :=
  match graph.vertices with
  | [] => (none, index)
  | _ :: _ =>
    let idx := (min_score_scan graph.nb_vertices g_score visited).2
    if idx = ULONG_MAX then (none, idx)
    else (some (locate_or_last idx graph.vertices 0), idx)

/-- The arrays owned by one `a_star_graph` call, with the log of printed vertices. -/
structure AStarState where
  visited : List Nat
  came_from : List (Option Nat)
  f_score : List Nat
  g_score : List Nat
  checked : List Nat
deriving DecidableEq, Repr

/-- The heuristic of a vertex towards the target as the code stores it by
`f_score[v->index] = h(v->x, v->y, target->x, target->y)`: the `double` converted to
`size_t`. -/
def heuristic (pow : Int → Nat → Double) (graph : Graph) (target v : Nat) : Nat :=
  size_of_double
    (h pow (graph.vtx v).x (graph.vtx v).y (graph.vtx target).x (graph.vtx target).y)

/-- The value stored by `f_score[v->index] = g_score[v->index] + h(v->x, v->y, target->x,
target->y)`: the `size_t` score is converted to `double`, the sum is taken in `double` and
converted to `size_t`. -/
def f_score_of (pow : Int → Nat → Double) (graph : Graph) (target : Nat) (g_score : Nat)
    (v : Nat) : Nat :=
  size_of_double
    (double_add (double_of_size g_score)
      (h pow (graph.vtx v).x (graph.vtx v).y (graph.vtx target).x (graph.vtx target).y))

/-- The edge loop of `recursive_a_star` over the remaining edge list. -/
def a_star_neighbors (pow : Int → Nat → Double) (graph : Graph) (target current i : Nat) :
    List Edge → AStarState → AStarState
  | [], st => st
  | edge :: rest, st =>
    if st.visited.getD i 0 = 0 then
      let neighbor := edge.dest
      let tentative_g_score := size_add (st.g_score.getD i 0) edge.weight
      let ni := (graph.vtx neighbor).index
      if st.g_score.getD ni 0 > tentative_g_score then
        a_star_neighbors pow graph target current i rest
          { st with
            came_from := st.came_from.set ni (some current)
            g_score := st.g_score.set ni tentative_g_score
            f_score := st.f_score.set ni
              (f_score_of pow graph target tentative_g_score neighbor) }
      else a_star_neighbors pow graph target current i rest st
    else st

/-- Model of `recursive_a_star`; `none` when the recursion is deeper than `fuel`. -/
def recursive_a_star (pow : Int → Nat → Double) (graph : Graph) (target : Nat) :
    Nat → AStarState → Nat → Option AStarState
  | 0, _, _ => none
  | fuel + 1, st, idx =>
    match get_min_g_score graph st.f_score st.visited idx with
    | (none, _) => some st
    | (some current, idx) =>
      let i := (graph.vtx current).index
      let st0 : AStarState :=
        { st with
          f_score := st.f_score.set i (heuristic pow graph target current)
          checked := st.checked ++ [current] }
      let st1 := a_star_neighbors pow graph target current i (graph.vtx current).edges st0
      let st2 := { st1 with visited := st1.visited.set i 1 }
      if st2.visited.getD (graph.vtx target).index 0 = 1 then some st2
      else recursive_a_star pow graph target fuel st2 idx

/-- The `while` loop of `reconstruct_path`; `none` when it runs longer than `fuel`. -/
def reconstruct_path_loop (graph : Graph) (came_from : List (Option Nat)) (start : Nat) :
    Nat → Nat → List String → Option (List String)
  | 0, _, _ => none
  | fuel + 1, i, path =>
    match came_from.getD i none with
    | none => some path
    | some p =>
      if i < graph.nb_vertices then
        if (graph.vtx p).index = (graph.vtx start).index then
          some ((graph.vtx p).content :: path)
        else
          reconstruct_path_loop graph came_from start fuel (graph.vtx p).index
            ((graph.vtx p).content :: path)
      else some path

/-- Model of `reconstruct_path`, started on the empty queue. -/
def reconstruct_path (graph : Graph) (came_from : List (Option Nat)) (start target : Nat)
    (fuel : Nat) : Option (List String) :=
  match came_from.getD (graph.vtx target).index none with
  | none => some []
  | some _ =>
    reconstruct_path_loop graph came_from start fuel (graph.vtx target).index
      [(graph.vtx target).content]

/-- Model of `initialize_a_star`. -/
def initialize_a_star (pow : Int → Nat → Double) (graph : Graph) (start target : Nat) :
    AStarState :=
  { visited := List.replicate graph.nb_vertices 0
    came_from := List.replicate graph.nb_vertices none
    f_score := (List.replicate graph.nb_vertices ULONG_MAX).set (graph.vtx start).index
      (heuristic pow graph target start)
    g_score := (List.replicate graph.nb_vertices ULONG_MAX).set (graph.vtx start).index 0
    checked := [] }

/-- Model of `a_star_graph`.  The outer `none` means that `fuel` ran out; the inner value
is the returned queue, `none` for `NULL`. -/
def a_star_graph (pow : Int → Nat → Double) (fuel : Nat) (graph : Option Graph)
    (start target : Option Nat) : Option (Option (List String)) :=
  match graph, start, target with
  | some graph, some start, some target =>
    match recursive_a_star pow graph target fuel (initialize_a_star pow graph start target)
        0 with
    | none => none
    | some st =>
      match reconstruct_path graph st.came_from start target fuel with
      | none => none
      | some [] => some none
      | some (front :: rest) => some (some (front :: rest))
  | _, _, _ => some none

/-- A graph on which the straight-line heuristic towards T is admissible but not
consistent: S→X(10), S→A(1), S→Y(5), A→X(1), X→T(20), Y→T(20), with S, X and T at the
origin, A at (12, 0) and Y at (10, 0). -/
def inconsistentGraph : Graph :=
  { nb_vertices := 5
    vertices :=
      [ ⟨0, "S", 0, 0, 3, [⟨2, 10⟩, ⟨1, 1⟩, ⟨3, 5⟩]⟩,
        ⟨1, "A", 12, 0, 1, [⟨2, 1⟩]⟩,
        ⟨2, "X", 0, 0, 1, [⟨4, 20⟩]⟩,
        ⟨3, "Y", 10, 0, 1, [⟨4, 20⟩]⟩,
        ⟨4, "T", 0, 0, 0, []⟩ ] }

/-- Two vertices joined by an edge of the graph. -/
def Adjacent (g : Graph) (u v : Nat) : Prop := ∃ e ∈ (g.vtx u).edges, e.dest = v

/-- What the `came_from` array of A* records whatever the weights and coordinates are:
every recorded predecessor is joined to its vertex by an edge, and is the start or has a
predecessor itself. -/
structure AStarLinks (g : Graph) (s : Nat) (st : AStarState) : Prop where
  len_visited : st.visited.length = g.size
  len_came : st.came_from.length = g.size
  len_f : st.f_score.length = g.size
  len_g : st.g_score.length = g.size
  g_start : st.g_score.getD s 0 = 0
  came_start : st.came_from.getD s none = none
  came_edge : ∀ v u, st.came_from.getD v none = some u →
    u < g.size ∧ Adjacent g u v ∧ (u = s ∨ st.came_from.getD u none ≠ none)
  f_finite : ∀ v, v < g.size → st.f_score.getD v 0 < ULONG_MAX →
    v = s ∨ st.came_from.getD v none ≠ none

/-- The heuristic never exceeds the cost of any walk to the target. -/
def Admissible (g : Graph) (t : Nat) (h : Nat → Nat) : Prop :=
  ∀ v p W, WalkFromTo g v t p W → (h v : Int) ≤ W

/-- The function `pow` returns the square of an `int` whenever a `double` holds that
square exactly (it has at most 53 bits). -/
def ExactSquares (pow : Int → Nat → Double) : Prop :=
  ∀ d : Int, d.natAbs * d.natAbs < 9007199254740992 → pow d 2 = ⟨d.natAbs * d.natAbs, 0⟩

/-- The value of a `double` in units of `2 ^ -55`, for an exponent of at least -55. -/
def scaled (a : Double) : Nat := a.mant * 2 ^ (a.exp + 55).toNat

/-- Path sums and priorities do not overflow and the priorities are stored exactly:
`PathSumsFit`, and for the cost `W` of any walk from `s` that repeats no vertex, `W` plus
the heuristic of its end stays below `ULONG_MAX` and is the value that the sum
`g_score + h(...)`, taken in `double`, stores in `f_score`. -/
def ScoresFit (pow : Int → Nat → Double) (g : Graph) (s t : Nat) : Prop :=
  PathSumsFit g s ∧
  ∀ p W c, PathCost g p W → p.head? = some s → p.getLast? = some c → p.Nodup →
    W + heuristic pow g t c < ULONG_MAX ∧
    f_score_of pow g t W.toNat c = W.toNat + heuristic pow g t c

/-- Every coordinate of the graph is at most `2 ^ 23` in absolute value. -/
def CoordinatesFit (g : Graph) : Prop :=
  ∀ i, i < g.size →
    -8388608 ≤ (g.vtx i).x ∧ (g.vtx i).x ≤ 8388608 ∧
    -8388608 ≤ (g.vtx i).y ∧ (g.vtx i).y ≤ 8388608

instance (g : Graph) : Decidable (CoordinatesFit g) := by
  delta CoordinatesFit; infer_instance

/-- On open vertices `f_score` is `g_score` plus the heuristic, or still `ULONG_MAX`. -/
def FScores (pow : Int → Nat → Double) (g : Graph) (t : Nat) (S : Nat → Prop)
    (f_score g_score : List Nat) : Prop :=
  ∀ v, v < g.size → ¬ S v →
    (g_score.getD v 0 < ULONG_MAX →
      f_score.getD v 0 = g_score.getD v 0 + heuristic pow g t v) ∧
    (g_score.getD v 0 = ULONG_MAX → f_score.getD v 0 = ULONG_MAX)

/-- Invariant of the A* arrays between two iterations. -/
def AStarInv (pow : Int → Nat → Double) (g : Graph) (s t : Nat) (st : AStarState) : Prop :=
  st.visited.length = g.size ∧ st.f_score.length = g.size ∧
  (∃ B, SearchInv g s (heuristic pow g t) (settledOf g st.visited) (relaxedOf g st.visited) B
    st.g_score st.came_from) ∧
  FScores pow g t (settledOf g st.visited) st.f_score st.g_score

/-- Both searches return walks from `s` to `t` of one and the same total weight. -/
def SameWeight (pow : Int → Nat → Double) (g : Graph) (s t fuel : Nat) : Prop :=
  ∃ pA pD W,
    a_star_graph pow fuel (some g) (some s) (some t) = some (some (labels g pA)) ∧
    dijkstra_graph fuel (some g) (some s) (some t) = some (some (labels g pD)) ∧
    WalkFromTo g s t pA W ∧ WalkFromTo g s t pD W

/-- A graph drawn in the plane whose weights are the straight-line lengths or more:
A(0,0)→B(3,0) weight 3, B→D(3,4) weight 4, A→C(0,4) weight 5, C→D weight 3. -/
def planarGraph : Graph :=
  { nb_vertices := 4
    vertices :=
      [ ⟨0, "A", 0, 0, 2, [⟨1, 3⟩, ⟨2, 5⟩]⟩,
        ⟨1, "B", 3, 0, 1, [⟨3, 4⟩]⟩,
        ⟨2, "C", 0, 4, 1, [⟨3, 3⟩]⟩,
        ⟨3, "D", 3, 4, 0, []⟩ ] }

/-- The graph with the single vertex A and no edge. -/
def singleVertexGraph : Graph :=
  { nb_vertices := 1, vertices := [⟨0, "A", 0, 0, 0, []⟩] }

/-- A graph with coordinates beyond `2 ^ 23`: S and T at (1070842441, 1116562734), P at
the origin, S→T weight 1547066862, S→P weight 1, P→T weight 1547066860. The distance
from P to T is 1547066860.99999997…, which no `double` holds. -/
def distantGraph : Graph :=
  { nb_vertices := 3
    vertices :=
      [ ⟨0, "S", 1070842441, 1116562734, 2, [⟨1, 1547066862⟩, ⟨2, 1⟩]⟩,
        ⟨1, "T", 1070842441, 1116562734, 0, []⟩,
        ⟨2, "P", 0, 0, 1, [⟨1, 1547066860⟩]⟩ ] }

/-- A graph with small weights on which a `double` sum is rounded up: S and T at the
origin, P at (33546241, 8191), S→T weight 570417154, S→P weight 536870912, P→T weight
33546241. The distance from P to T is 33546241.99999997… -/
def roundedGraph : Graph :=
  { nb_vertices := 3
    vertices :=
      [ ⟨0, "S", 0, 0, 2, [⟨1, 570417154⟩, ⟨2, 536870912⟩]⟩,
        ⟨1, "T", 0, 0, 0, []⟩,
        ⟨2, "P", 33546241, 8191, 1, [⟨1, 33546241⟩]⟩ ] }

/-! ## pathfinding/0-backtracking_array.c -/

/-- A `point_t`. -/
structure Point where
  x : Int
  y : Int
deriving DecidableEq, Repr

instance : Inhabited Point := ⟨⟨0, 0⟩⟩

/-- The values of `enum direction_s`, in declaration order. -/
def RIGHT : Nat := 0
/-- Second enumerator of `enum direction_s`. -/
def BOTTOM : Nat := 1
/-- Third enumerator of `enum direction_s`. -/
def LEFT : Nat := 2
/-- Fourth enumerator of `enum direction_s`. -/
def TOP : Nat := 3
/-- The macro `NUM_DIRECTIONS`. -/
def NUM_DIRECTIONS : Nat := 4

/-- The character `map[y][x]`. -/
def map_at (map : List (List Char)) (x y : Int) : Char :=
  (map.getD y.toNat []).getD x.toNat '0'

/-- The flag `visited[y][x]`. -/
def visited_at (visited : List (List Int)) (x y : Int) : Int :=
  (visited.getD y.toNat []).getD x.toNat 0

/-- The assignment `visited[y][x] = 1`. -/
def mark_visited (visited : List (List Int)) (x y : Int) : List (List Int) :=
  visited.set y.toNat ((visited.getD y.toNat []).set x.toNat 1)

/-- Model of `is_position_valid`. -/
def is_position_valid (map : List (List Char)) (visited : List (List Int))
    (x y rows cols : Int) : Int :=
  if x < 0 ∨ y < 0 ∨ x ≥ cols ∨ y ≥ rows then 0
  else if map_at map x y = '1' ∨ visited_at visited x y = 1 then 0
  else 1

/-- The `directions` array as `setup_arrays` fills it: four assignments, each to the slot
named by an enumerator of `direction_s`. -/
def setup_directions : List Point :=
  ((((List.replicate NUM_DIRECTIONS default).set BOTTOM ⟨0, 1⟩).set RIGHT ⟨1, 0⟩).set
    LEFT ⟨-1, 0⟩).set TOP ⟨0, -1⟩

/-- The state one grid search works on: the visited matrix, the path queue, and the log of
the cells printed by `Checking coordinates`. -/
structure GridState where
  visited : List (List Int)
  path : List Point
  checked : List Point
deriving DecidableEq, Repr

/-- The `for` loop of `backtrack_recursively` over the remaining directions; `call` is the
recursive call.  The result is the returned `int` with the state left behind. -/
def direction_loop (call : GridState → Int → Int → Option (Int × GridState)) (x y : Int) :
    List Point → GridState → Option (Int × GridState)
  | [], st => some (0, st)
  | d :: rest, st =>
    match call st (x + d.x) (y + d.y) with
    | none => none
    | some (r, st') =>
      if r ≠ 0 then some (1, { st' with path := ⟨x, y⟩ :: st'.path })
      else direction_loop call x y rest st'

/-- Model of `backtrack_recursively`; `none` when the recursion is deeper than `fuel`.
`add_to_path` pushes the point at the front of the queue and returns 1. -/
def backtrack_recursively (map : List (List Char)) (target : Point) (directions : List Point)
    (rows cols : Int) : Nat → GridState → Int → Int → Option (Int × GridState)
  | 0, _, _, _ => none
  | fuel + 1, st, x, y =>
    if is_position_valid map st.visited x y rows cols = 0 then some (0, st)
    else
      let st : GridState := { st with checked := st.checked ++ [Point.mk x y] }
      if x = target.x ∧ y = target.y then some (1, { st with path := ⟨x, y⟩ :: st.path })
      else
        direction_loop (backtrack_recursively map target directions rows cols fuel) x y
          (directions.take NUM_DIRECTIONS)
          { st with visited := mark_visited st.visited x y }

/-- Model of `backtracking_array`.  The outer `none` means that `fuel` ran out; the inner
value is the returned queue, `none` for `NULL`.  Rows of the map are lists, so the guard
`!*map` has no counterpart. -/
def backtracking_array (fuel : Nat) (map : Option (List (List Char))) (rows cols : Int)
    (start target : Option Point) : Option (Option (List Point)) :=
  match map, start, target with
  | some map, some start, some target =>
    if rows ≤ 0 ∨ cols ≤ 0 then some none
    else
      match backtrack_recursively map target setup_directions rows cols fuel
          { visited := List.replicate rows.toNat (List.replicate cols.toNat 0)
            path := []
            checked := [] } start.x start.y with
      | none => none
      | some (found_path, st) => if found_path ≠ 0 then some (some st.path) else some none
  | _, _, _ => some none

/-- The all-walkable 3×3 grid. -/
def grid3 : List (List Char) := [['0', '0', '0'], ['0', '0', '0'], ['0', '0', '0']]

/-- The all-walkable 2×2 grid. -/
def grid2 : List (List Char) := [['0', '0'], ['0', '0']]

/-- The cell lies inside a grid of `rows` rows and `cols` columns. -/
def InBounds (rows cols : Int) (c : Point) : Prop :=
  0 ≤ c.x ∧ 0 ≤ c.y ∧ c.x < cols ∧ c.y < rows

instance (rows cols : Int) (c : Point) : Decidable (InBounds rows cols c) := by
  delta InBounds; infer_instance

/-- The cell is in bounds and not blocked (`'1'`). -/
def Walkable (map : List (List Char)) (rows cols : Int) (c : Point) : Prop :=
  InBounds rows cols c ∧ map_at map c.x c.y ≠ '1'

instance (map : List (List Char)) (rows cols : Int) (c : Point) :
    Decidable (Walkable map rows cols c) := by
  delta Walkable; infer_instance

/-- The cells differ by exactly one step along exactly one axis. -/
def GridStep (a b : Point) : Prop :=
  (b.x = a.x ∧ (b.y = a.y + 1 ∨ b.y = a.y - 1)) ∨ (b.y = a.y ∧ (b.x = a.x + 1 ∨ b.x = a.x - 1))

instance (a b : Point) : Decidable (GridStep a b) := by
  delta GridStep; infer_instance

/-- A sequence of walkable cells from `start` to `target` in which consecutive cells are
one step apart. -/
def GridPath (map : List (List Char)) (rows cols : Int) (start target : Point)
    (p : List Point) : Prop :=
  p.head? = some start ∧ p.getLast? = some target ∧ (∀ c ∈ p, Walkable map rows cols c) ∧
    p.Chain' GridStep

instance (map : List (List Char)) (rows cols : Int) (start target : Point) (p : List Point) :
    Decidable (GridPath map rows cols start target p) := by
  delta GridPath; infer_instance

/-- The target can be reached from the start by 4-connected moves through walkable cells. -/
def GridReachable (map : List (List Char)) (rows cols : Int) (start target : Point) : Prop :=
  ∃ p, GridPath map rows cols start target p

/-- The map has `rows` rows of `cols` characters each. -/
def Rectangular (map : List (List Char)) (rows cols : Int) : Prop :=
  map.length = rows.toNat ∧ ∀ row ∈ map, row.length = cols.toNat

instance (map : List (List Char)) (rows cols : Int) : Decidable (Rectangular map rows cols) := by
  delta Rectangular; infer_instance

/-- What a call leaves in the path queue: nothing new on failure, and on success the cells
of a path from the cell of the call to the target, pushed in front. -/
def PathPushed (map : List (List Char)) (rows cols : Int) (target : Point) (x y : Int)
    (st : GridState) (res : Int × GridState) : Prop :=
  (res.1 = 0 → res.2.path = st.path) ∧
  (res.1 ≠ 0 → ∃ p, res.2.path = p ++ st.path ∧
    GridPath map rows cols ⟨x, y⟩ target p)

/-- The visited matrix has `rows` rows of `cols` flags each. -/
def GridDims (visited : List (List Int)) (rows cols : Int) : Prop :=
  visited.length = rows.toNat ∧ ∀ row ∈ visited, row.length = cols.toNat

/-- What a call leaves in the visited matrix: marks are only added, and after a failed call
every walkable cell it was asked about is marked, while every newly marked cell is
walkable, is not the target, and has all its walkable neighbours marked. -/
def Explored (map : List (List Char)) (rows cols : Int) (target : Point) (x y : Int)
    (st : GridState) (res : Int × GridState) : Prop :=
  GridDims res.2.visited rows cols ∧
  (∀ c, InBounds rows cols c → visited_at st.visited c.x c.y = 1 →
    visited_at res.2.visited c.x c.y = 1) ∧
  (res.1 = 0 →
    (Walkable map rows cols ⟨x, y⟩ → visited_at res.2.visited x y = 1) ∧
    (∀ c, InBounds rows cols c → visited_at res.2.visited c.x c.y = 1 →
      visited_at st.visited c.x c.y ≠ 1 →
      Walkable map rows cols c ∧ c ≠ target ∧
      ∀ c', GridStep c c' → Walkable map rows cols c' →
        visited_at res.2.visited c'.x c'.y = 1))

/-- The number of cells of the grid that are not marked visited. -/
def unvisited_count (visited : List (List Int)) (rows cols : Int) : Nat :=
  ((Finset.Ico 0 cols ×ˢ Finset.Ico 0 rows).filter
    (fun c : Int × Int => visited_at visited c.1 c.2 ≠ 1)).card

/-- The 2×2 grid whose cell (x=1, y=0) and cell (x=0, y=1) are blocked. -/
def gridCut : List (List Char) := [['0', '1'], ['1', '0']]

/-- The neighbour search the direction order stands for: try the given neighbour cells one
after the other, each on the state the failed ones before it left; the first whose search
reaches the target makes the cell `(x, y)` the new front of the path and ends the loop
with 1; when none does the result is 0. -/
def try_neighbours (call : GridState → Int → Int → Option (Int × GridState)) (x y : Int) :
    List Point → GridState → Option (Int × GridState)
  | [], st => some (0, st)
  | c :: rest, st =>
    match call st c.x c.y with
    | none => none
    | some (r, st') =>
      if r ≠ 0 then some (1, { st' with path := ⟨x, y⟩ :: st'.path })
      else try_neighbours call x y rest st'

/-- The direction order down, right, left, up. -/
def down_first : List Point := [⟨0, 1⟩, ⟨1, 0⟩, ⟨-1, 0⟩, ⟨0, -1⟩]

/-! ## pathfinding/1-backtracking_graph.c -/

/-- The state one graph backtracking search works on: the visited array, the path queue,
and the log of the vertices printed by `Checking`. -/
structure GraphState where
  visited : List Int
  path : List String
  checked : List Nat
deriving DecidableEq, Repr

/-- The `for` loop of `recursive_backtrack_graph` over the remaining edges; `call` is the
recursive call and `content` the label of the current vertex. -/
def neighbor_loop (call : GraphState → Option Nat → Option (Int × GraphState))
    (content : String) : List Edge → GraphState → Option (Int × GraphState)
  | [], st => some (0, st)
  | edges :: rest, st =>
    match call st (some edges.dest) with
    | none => none
    | some (r, st') =>
      if r ≠ 0 then some (1, { st' with path := content :: st'.path })
      else neighbor_loop call content rest st'

/-- Model of `recursive_backtrack_graph`; `none` when the recursion is deeper than `fuel`.
`strcmp(a, b) == 0` is equality of the labels. -/
def recursive_backtrack_graph (graph : Graph) (target : Nat) :
    Nat → GraphState → Option Nat → Option (Int × GraphState)
  | 0, _, _ => none
  | fuel + 1, st, current =>
    match current with
    | none => some (0, st)
    | some current =>
      if st.visited.getD (graph.vtx current).index 0 = 1 then some (0, st)
      else
        let st : GraphState := { st with checked := st.checked ++ [current] }
        if (graph.vtx current).content = (graph.vtx target).content then
          some (1, { st with path := (graph.vtx current).content :: st.path })
        else
          match neighbor_loop (recursive_backtrack_graph graph target fuel)
              (graph.vtx current).content (graph.vtx current).edges
              { st with visited := st.visited.set (graph.vtx current).index 1 } with
          | none => none
          | some (r, st') =>
            if r ≠ 0 then some (r, st')
            else some (0, { st' with visited := st'.visited.set (graph.vtx current).index 0 })

/-- Model of `backtracking_graph`.  The outer `none` means that `fuel` ran out; the inner
value is the returned queue, `none` for `NULL`. -/
def backtracking_graph (fuel : Nat) (graph : Option Graph) (start target : Option Nat) :
    Option (Option (List String)) :=
  match graph, start, target with
  | some graph, some start, some target =>
    match recursive_backtrack_graph graph target fuel
        { visited := List.replicate graph.nb_vertices 0, path := [], checked := [] }
        (some start) with
    | none => none
    | some (success, st) => if success ≠ 0 then some (some st.path) else some none
  | _, _, _ => some none

/-! ## graphs/4-depth_first_traverse.c -/

/-- Modelled from the spec: the macro `UNEXPLORED` of the header `graphs.h` of the graphs
directory, which is not among the sources.  The tracking array comes from `calloc` and the
start vertex is visited only if its flag equals `UNEXPLORED`, so the value is 0. -/
def UNEXPLORED : Nat := 0

/-- Modelled from the spec: the macro `EXPLORED` of the same absent header, the flag of a
vertex that has been marked explored; any value other than `UNEXPLORED`. -/
def EXPLORED : Nat := 1

/-- Model of `find_vertex_at_index` on a present graph. -/
def find_vertex_at_index (graph : Graph) (target_index : Nat) : Option Nat :=
  if target_index ≥ graph.nb_vertices then none
  else locate_vertex target_index graph.vertices 0

/-- The state one traversal works on: the tracking array, `*max_level`, and the calls of
the visitor `action(vertex, depth)` made so far. -/
structure DfsState where
  visit_tracker : List Nat
  max_level : Nat
  calls : List (Nat × Nat)
deriving DecidableEq, Repr

/-- The `while (current_edge)` loop of `perform_dfs_recursion`; `call` is the recursive
call `perform_dfs_recursion(neighbor->index, ..., current_level + 1, ...)`. -/
def dfs_edge_loop (graph : Graph) (call : DfsState → Nat → Option DfsState) :
    List Edge → DfsState → Option DfsState
  | [], st => some st
  | current_edge :: rest, st =>
    let neighbor_vertex := current_edge.dest
    if st.visit_tracker.getD (graph.vtx neighbor_vertex).index 0 = UNEXPLORED then
      match call st (graph.vtx neighbor_vertex).index with
      | none => none
      | some st' => dfs_edge_loop graph call rest st'
    else dfs_edge_loop graph call rest st

/-- Model of `perform_dfs_recursion`; `none` when the recursion is deeper than `fuel`. -/
def perform_dfs_recursion (graph : Graph) :
    Nat → DfsState → Nat → Nat → Option DfsState
  | 0, _, _, _ => none
  | fuel + 1, st, vertex_id, current_level =>
    match find_vertex_at_index graph vertex_id with
    | none => some st
    | some current_vertex =>
      if st.visit_tracker.getD vertex_id 0 = UNEXPLORED then
        dfs_edge_loop graph
          (fun st' id => perform_dfs_recursion graph fuel st' id (current_level + 1))
          (graph.vtx current_vertex).edges
          { visit_tracker := st.visit_tracker.set vertex_id EXPLORED
            max_level := if current_level > st.max_level then current_level else st.max_level
            calls := st.calls ++ [(current_vertex, current_level)] }
      else some st

/-- Model of `depth_first_traverse`: the returned depth with the visitor calls made.  The
visitor is only known to be present or absent.  `none` when `fuel` ran out. -/
def depth_first_traverse (fuel : Nat) (graph : Option Graph) (action : Bool) :
    Option (Nat × List (Nat × Nat)) :=
  match graph, action with
  | some graph, true =>
    let st0 : DfsState :=
      { visit_tracker := List.replicate graph.nb_vertices 0, max_level := 0, calls := [] }
    match graph.vertices with
    | [] => some (0, [])
    | start_vertex :: _ =>
      if st0.visit_tracker.getD start_vertex.index 0 = UNEXPLORED then
        match perform_dfs_recursion graph fuel st0 start_vertex.index 0 with
        | none => none
        | some st => some (st.max_level, st.calls)
      else some (0, [])
  | _, _ => some (0, [])

/-- A three-vertex cycle with a self-loop and a vertex off the cycle:
A→A, A→B, B→C, C→A, and D with no edge to or from it. -/
def cycleGraph : Graph :=
  { nb_vertices := 4
    vertices :=
      [ ⟨0, "A", 0, 0, 2, [⟨0, 1⟩, ⟨1, 1⟩]⟩,
        ⟨1, "B", 0, 0, 1, [⟨2, 1⟩]⟩,
        ⟨2, "C", 0, 0, 1, [⟨0, 1⟩]⟩,
        ⟨3, "D", 0, 0, 0, []⟩ ] }

/-- The vertex `t` can be reached from `s` along the vertex sequence `p`. -/
def LinkPath (g : Graph) (s t : Nat) (p : List Nat) : Prop :=
  p.head? = some s ∧ p.getLast? = some t ∧ (∀ v ∈ p, v < g.size) ∧ p.Chain' (Adjacent g)

/-- The vertex `t` can be reached from `s` by following zero or more edges. -/
def Linked (g : Graph) (s t : Nat) : Prop := ∃ p, LinkPath g s t p

/-- What a call of the graph search leaves in the path queue: nothing new on failure, and
on success the labels of a vertex sequence from the vertex of the call to the target. -/
def LabelsPushed (g : Graph) (t c : Nat) (st : GraphState) (res : Int × GraphState) : Prop :=
  (res.1 = 0 → res.2.path = st.path) ∧
  (res.1 ≠ 0 → ∃ p, res.2.path = labels g p ++ st.path ∧ LinkPath g c t p)

/-- A vertex sequence from `c` to `t` that repeats no vertex and stays off the vertices
marked in `visited`. -/
def AvoidPath (g : Graph) (visited : List Int) (c t : Nat) (p : List Nat) : Prop :=
  LinkPath g c t p ∧ p.Nodup ∧ ∀ v ∈ p, visited.getD v 0 = 0

/-- Every flag of the visited array is 0 or 1. -/
def Flags01 (visited : List Int) : Prop := ∀ i, visited.getD i 0 = 0 ∨ visited.getD i 0 = 1

/-- Full description of a call of the graph search from the vertex `c`: a failed call
restores the visited array and the queue and there is no simple path to the target off the
marked vertices; a successful call has pushed the labels of such a path. -/
def SearchedFrom (g : Graph) (t c : Nat) (st : GraphState) (res : Int × GraphState) : Prop :=
  (res.1 = 0 → res.2.visited = st.visited ∧ res.2.path = st.path ∧
    ¬ ∃ p, AvoidPath g st.visited c t p) ∧
  (res.1 ≠ 0 → ∃ p, res.2.path = labels g p ++ st.path ∧ AvoidPath g st.visited c t p)

/-- The vertex is flagged in the tracking array of the traversal. -/
def explored (st : DfsState) (u : Nat) : Prop := st.visit_tracker.getD u 0 ≠ UNEXPLORED

/-- The vertices the visitor has been called on, in call order. -/
def DfsState.called (st : DfsState) : List Nat := st.calls.map Prod.fst

/-- Invariant of a depth-first traversal started at `root`: the visitor has been called
once on each flagged vertex and on no other, and each of them can be reached from `root`. -/
structure DfsInv (g : Graph) (root : Nat) (st : DfsState) : Prop where
  len : st.visit_tracker.length = g.size
  nodup : st.called.Nodup
  flagged : ∀ u, u < g.size → (explored st u ↔ u ∈ st.called)
  linked : ∀ u ∈ st.called, u < g.size ∧ Linked g root u

/-- What a call of the traversal on the vertex `v` achieves: the invariant is kept, flags
are only added, `v` is flagged, and every newly flagged vertex has all its neighbours
flagged. -/
structure DfsPost (g : Graph) (root v : Nat) (st st' : DfsState) : Prop where
  inv : DfsInv g root st'
  mono : ∀ u, explored st u → explored st' u
  count_le : st'.visit_tracker.count 0 ≤ st.visit_tracker.count 0
  self : explored st' v
  closed : ∀ u, u < g.size → explored st' u → ¬ explored st u →
    ∀ e ∈ (g.vtx u).edges, explored st' e.dest

/-! ## graphs/0-graph_create.c, graphs/1-graph_add_vertex.c, graphs/2-graph_add_edge.c

The functions of the graph store change the graph in place; the model returns the C return
value together with the graph after the call.  Allocation (`malloc`, `strdup`) succeeds.
The functions of this directory take no coordinates and no weight: the fields `x`, `y` of a
new vertex and `weight` of a new edge, which they never write, are 0 in the model. -/

/-- Model of `graph_create`: the graph with no vertex. -/
def graph_create : Graph := { nb_vertices := 0, vertices := [] }

/-- Model of `create_new_vertex`. -/
def create_new_vertex (str : String) : Vertex :=
  { content := str, index := 0, edges := [], nb_edges := 0, x := 0, y := 0 }

/-- The `while (current_vertex)` loop of `graph_add_vertex`: `none` when a vertex with the
label `str` is met (the function returns `NULL` there), otherwise the value of
`last_vertex` after the loop, which is `last_vertex` as passed when the list is empty. -/
def scan_for_label (str : String) : List Vertex → Option Vertex → Option (Option Vertex)
  | [], last_vertex => some last_vertex
  | current_vertex :: rest, _ =>
    if current_vertex.content = str then none
    else scan_for_label str rest (some current_vertex)

/-- Model of `graph_add_vertex`: the returned vertex pointer (`none` for `NULL`) and the
graph after the call.  In the branch `nb_vertices != 0` the new vertex is linked after
`last_vertex`; if the list is empty there, `last_vertex` is uninitialised in C and the
model reads the default vertex. -/
def graph_add_vertex (graph : Option Graph) (str : Option String) :
    Option Nat × Option Graph :=
  match graph, str with
  | some graph, some str =>
    match scan_for_label str graph.vertices none with
    | none => (none, some graph)
    | some last_vertex =>
      let new_vertex := create_new_vertex str
      if graph.nb_vertices = 0 then
        (some 0,
          some { nb_vertices := graph.nb_vertices + 1
                 vertices := [{ new_vertex with index := 0 }] })
      else
        (some graph.vertices.length,
          some { nb_vertices := graph.nb_vertices + 1
                 vertices := graph.vertices ++
                   [{ new_vertex with index := (last_vertex.getD default).index + 1 }] })
  | graph, _ => (none, graph)

/-- The value `UNIDIRECTIONAL` of `edge_type_t`. -/
def UNIDIRECTIONAL : Int := 0

/-- The value `BIDIRECTIONAL` of `edge_type_t`. -/
def BIDIRECTIONAL : Int := 1

/-- The `for` loop of `graph_add_edge` over the vertex list from position `pos`: the
pair `(source_vertex, dest_vertex)` after the loop. -/
def find_endpoints (src dest : String) :
    List Vertex → Nat → Option Nat × Option Nat → Option Nat × Option Nat
  | [], _, found => found
  | current_vertex :: rest, pos, (source_vertex, dest_vertex) =>
    if current_vertex.content = src then
      find_endpoints src dest rest (pos + 1) (some pos, dest_vertex)
    else if current_vertex.content = dest then
      find_endpoints src dest rest (pos + 1) (source_vertex, some pos)
    else find_endpoints src dest rest (pos + 1) (source_vertex, dest_vertex)

/-- Model of `add_single_edge`: whether an edge was returned, and the graph after the call.
The new edge is linked after the last edge of the source vertex. -/
def add_single_edge (graph : Graph) (source_vertex dest_vertex : Option Nat) :
    Bool × Graph :=
  match source_vertex, dest_vertex with
  | some source_vertex, some dest_vertex =>
    let new_edge : Edge := { dest := dest_vertex, weight := 0 }
    let v := graph.vtx source_vertex
    (true,
      { graph with
        vertices := graph.vertices.set source_vertex
          { v with edges := v.edges ++ [new_edge], nb_edges := v.nb_edges + 1 } })
  | _, _ => (false, graph)

/-- Model of `graph_add_edge`: the returned `int` and the graph after the call. -/
def graph_add_edge (graph : Option Graph) (src dest : Option String) (type : Int) :
    Int × Option Graph :=
  match graph, src, dest with
  | some graph, some src, some dest =>
    if type < UNIDIRECTIONAL ∨ type > BIDIRECTIONAL then (0, some graph)
    else
      match find_endpoints src dest graph.vertices 0 (none, none) with
      | (some source_vertex, some dest_vertex) =>
        match add_single_edge graph (some source_vertex) (some dest_vertex) with
        | (false, graph1) => (0, some graph1)
        | (true, graph1) =>
          if type = BIDIRECTIONAL then
            match add_single_edge graph1 (some dest_vertex) (some source_vertex) with
            | (false, graph2) => (0, some graph2)
            | (true, graph2) => (1, some graph2)
          else (1, some graph1)
      | _ => (0, some graph)
  | graph, _, _ => (0, graph)

/-- The calls `graph_add_vertex(graph, str)` for the labels of a list, in order: the
returned pointers and the graph after the last call. -/
def add_vertices : List String → Graph → List (Option Nat) × Graph
  | [], graph => ([], graph)
  | str :: rest, graph =>
    match graph_add_vertex (some graph) (some str) with
    | (r, some graph1) => ((r :: (add_vertices rest graph1).1), (add_vertices rest graph1).2)
    | (r, none) => ([r], graph)

/-- The graph with the single vertex `A` and no edge. -/
def loopless : Graph := { nb_vertices := 1, vertices := [⟨0, "A", 0, 0, 0, []⟩] }

/-- The vertex list has a vertex with this label. -/
def HasLabel (g : Graph) (str : String) : Prop := ∃ v ∈ g.vertices, v.content = str

/-- No two vertices of the graph carry the same label. -/
def UniqueLabels (g : Graph) : Prop :=
  ∀ i, i < g.size → ∀ j, j < g.size → (g.vtx i).content = (g.vtx j).content → i = j

instance (g : Graph) : Decidable (UniqueLabels g) := by
  delta UniqueLabels; infer_instance

/-- The graph A, B, C with the edge A→B. -/
def threeLabels : Graph :=
  { nb_vertices := 3
    vertices :=
      [ ⟨0, "A", 0, 0, 1, [⟨1, 0⟩]⟩,
        ⟨1, "B", 0, 0, 0, []⟩,
        ⟨2, "C", 0, 0, 0, []⟩ ] }

/-! ## Recursive pre-order, as the specification words it -/

/-- Specification of the edge step of the recursive pre-order, on the list of reports
`(vertex, depth)` made so far: the edge destinations are taken in the order of the edge
list, a destination that has been reported already is skipped, and any other is
traversed by `visit`. -/
def preorder_edges (visit : List (Nat × Nat) → Nat → Option (List (Nat × Nat))) :
    List Edge → List (Nat × Nat) → Option (List (Nat × Nat))
  | [], reports => some reports
  | e :: rest, reports =>
    if e.dest ∈ reports.map Prod.fst then preorder_edges visit rest reports
    else
      match visit reports e.dest with
      | none => none
      | some reports' => preorder_edges visit rest reports'

/-- Specification of the recursive pre-order from an unreported vertex `v` at depth
`depth`: `v` is reported with its depth, then its edges are followed one level deeper.
`none` when the nesting is deeper than `fuel`. -/
def preorder_from (g : Graph) : Nat → List (Nat × Nat) → Nat → Nat → Option (List (Nat × Nat))
  | 0, _, _, _ => none
  | fuel + 1, reports, v, depth =>
    preorder_edges (fun r u => preorder_from g fuel r u (depth + 1)) (g.vtx v).edges
      (reports ++ [(v, depth)])

/-- Every report but the first comes after the report of a vertex that has an edge to its
vertex, with a depth one more than the depth of that earlier report. -/
def ParentsReported (g : Graph) (calls : List (Nat × Nat)) : Prop :=
  ∀ k, 0 < k → k < calls.length → ∃ j, j < k ∧
    Adjacent g (calls.getD j (0, 0)).1 (calls.getD k (0, 0)).1 ∧
    (calls.getD k (0, 0)).2 = (calls.getD j (0, 0)).2 + 1

/-- What the traversal keeps true of its reports: the flagged vertices are the reported
ones, `max_level` is the largest depth reported (0 before any report), and every report
but the first has its parent reported before it. -/
structure DfsTrace (g : Graph) (st : DfsState) : Prop where
  len : st.visit_tracker.length = g.size
  sync : ∀ u, u < g.size → (st.visit_tracker.getD u 0 = UNEXPLORED ↔ u ∉ st.called)
  le_max : ∀ c ∈ st.calls, c.2 ≤ st.max_level
  max_hit : st.max_level = 0 ∨ ∃ c ∈ st.calls, c.2 = st.max_level
  parents : ParentsReported g st.calls

/-- The vertex `v` is entered at depth `level` as the first vertex, or from the edge of a
vertex reported one level higher. -/
def EnteredFrom (g : Graph) (calls : List (Nat × Nat)) (v level : Nat) : Prop :=
  calls = [] ∨ ∃ j, j < calls.length ∧ Adjacent g (calls.getD j (0, 0)).1 v ∧
    level = (calls.getD j (0, 0)).2 + 1

/-! ## graphs/5-breadth_first_traverse.c

The header `graphs.h` of the graphs directory is not among the sources.  Its macros `SIZE`
(the capacity of the queue) and `LEVELBREAK` (the level separator) are parameters of the
model; `queue_t` is taken from the code that uses it: an `int` array `items` of `SIZE`
slots and the `int` fields `front` and `rear`. -/

/-- Modelled from the spec: the macro `BACKTRACK` of the absent header `graphs.h`, the flag
of a vertex that is queued and not yet visited; a value other than `UNEXPLORED` and
`EXPLORED`. -/
def BACKTRACK : Nat := 2

/-- The conversion of a `size_t` to `int` (32 bits, two's complement). -/
def int_of_size (i : Nat) : Int :=
  (((i : Int) + 2147483648) % 4294967296) - 2147483648

/-- The conversion of an `int` to `size_t` (64 bits). -/
def size_of_int (x : Int) : Nat := (x % 18446744073709551616).toNat

/-- A `queue_t`, with the log of the values that `enqueue_vertex` ignored because the
queue was full. -/
structure queue_t where
  items : List Int
  front : Int
  rear : Int
  ignored : List Int
deriving DecidableEq, Repr

/-- Model of `initialize_bfs_queue`; the slots of the new array are modelled as 0. -/
def initialize_bfs_queue (SIZE : Nat) : queue_t :=
  { items := List.replicate SIZE 0, front := -1, rear := -1, ignored := [] }

/-- Model of `enqueue_vertex`. -/
def enqueue_vertex (SIZE : Nat) (queue : queue_t) (vertex_index : Int) : queue_t :=
  if queue.rear ≥ (SIZE : Int) - 1 then
    { queue with ignored := queue.ignored ++ [vertex_index] }
  else
    { queue with
      front := if queue.front = -1 then 0 else queue.front
      rear := queue.rear + 1
      items := queue.items.set (queue.rear + 1).toNat vertex_index }

/-- Model of `dequeue_vertex`: the returned value and the queue after the call. -/
def dequeue_vertex (queue : queue_t) (peek_only : Int) : Int × queue_t :=
  if queue.rear = -1 then (-1, queue)
  else if peek_only ≠ 0 then (queue.items.getD queue.front.toNat 0, queue)
  else
    let front_element := queue.items.getD queue.front.toNat 0
    if queue.front + 1 > queue.rear then
      (front_element, { queue with front := -1, rear := -1 })
    else (front_element, { queue with front := queue.front + 1 })

/-- Model of `locate_vertex_by_index` on a present graph. -/
def locate_vertex_by_index (graph : Graph) (target_idx : Nat) : Option Nat :=
  if target_idx ≥ graph.nb_vertices then none
  else locate_vertex target_idx graph.vertices 0

/-- The state of one breadth-first traversal: the tracking array, the queue, the level
counter, and the calls of the visitor `action(vertex, breadth)` made so far. -/
structure BfsState where
  visited_tracker : List Nat
  bfs_queue : queue_t
  current_breadth : Nat
  calls : List (Nat × Nat)
deriving DecidableEq, Repr

/-- The `while (current_edge)` loop of `breadth_first_traverse`. -/
def enqueue_neighbors (SIZE : Nat) (graph : Graph) : List Edge → BfsState → BfsState
  | [], st => st
  | current_edge :: rest, st =>
    let neighbor_vertex := current_edge.dest
    if st.visited_tracker.getD (graph.vtx neighbor_vertex).index 0 = UNEXPLORED then
      enqueue_neighbors SIZE graph rest
        { st with
          bfs_queue := enqueue_vertex SIZE st.bfs_queue
            (int_of_size (graph.vtx neighbor_vertex).index)
          visited_tracker := st.visited_tracker.set (graph.vtx neighbor_vertex).index BACKTRACK }
    else enqueue_neighbors SIZE graph rest st

/-- The `while (bfs_queue->rear != -1)` loop of `breadth_first_traverse`; `none` when it
runs for more than `fuel` rounds. -/
def bfs_loop (SIZE : Nat) (LEVELBREAK : Int) (graph : Graph) : Nat → BfsState → Option BfsState
  | 0, _ => none
  | fuel + 1, st =>
    if st.bfs_queue.rear = -1 then some st
    else
      let current_index := (dequeue_vertex st.bfs_queue 0).1
      let st : BfsState := { st with bfs_queue := (dequeue_vertex st.bfs_queue 0).2 }
      if current_index = LEVELBREAK then
        let st : BfsState :=
          { st with
            current_breadth := st.current_breadth + 1
            bfs_queue := enqueue_vertex SIZE st.bfs_queue LEVELBREAK }
        if (dequeue_vertex st.bfs_queue 1).1 = LEVELBREAK then some st
        else bfs_loop SIZE LEVELBREAK graph fuel st
      else
        match locate_vertex_by_index graph (size_of_int current_index) with
        | none => bfs_loop SIZE LEVELBREAK graph fuel st
        | some current_vertex =>
          if st.visited_tracker.getD (graph.vtx current_vertex).index 0 = EXPLORED then
            bfs_loop SIZE LEVELBREAK graph fuel st
          else
            bfs_loop SIZE LEVELBREAK graph fuel
              (enqueue_neighbors SIZE graph (graph.vtx current_vertex).edges
                { st with
                  visited_tracker :=
                    st.visited_tracker.set (graph.vtx current_vertex).index EXPLORED
                  calls := st.calls ++ [(current_vertex, st.current_breadth)] })

/-- The state in which `breadth_first_traverse` enters its loop: the tracking array from
`calloc`, and the queue after the first vertex and a level separator were enqueued. -/
def bfs_initial (SIZE : Nat) (LEVELBREAK : Int) (graph : Graph) (current_vertex : Vertex) :
    BfsState :=
  { visited_tracker := List.replicate graph.nb_vertices 0
    bfs_queue :=
      enqueue_vertex SIZE
        (enqueue_vertex SIZE (initialize_bfs_queue SIZE) (int_of_size current_vertex.index))
        LEVELBREAK
    current_breadth := 0
    calls := [] }

/-- Model of `breadth_first_traverse`: the returned level, the visitor calls made, and the
values the queue ignored because it was full.  The visitor is only known to be present
or absent.  `none` when `fuel` ran out. -/
def breadth_first_traverse (SIZE : Nat) (LEVELBREAK : Int) (fuel : Nat)
    (graph : Option Graph) (action : Bool) : Option (Nat × List (Nat × Nat) × List Int) :=
  match graph, action with
  | some graph, true =>
    match graph.vertices with
    | [] => some (0, [], [])
    | current_vertex :: _ =>
      if graph.nb_vertices = 0 then some (0, [], [])
      else
        match bfs_loop SIZE LEVELBREAK graph fuel
            (bfs_initial SIZE LEVELBREAK graph current_vertex) with
        | none => none
        | some st =>
          some (if st.current_breadth > 0 then st.current_breadth - 1 else 0, st.calls,
            st.bfs_queue.ignored)
  | _, _ => some (0, [], [])

/-- A graph with two levels below the first vertex: A→B, A→C, B→D, C→D, D→A, and E with
no edge to or from it. -/
def diamondGraph : Graph :=
  { nb_vertices := 5
    vertices :=
      [ ⟨0, "A", 0, 0, 2, [⟨1, 1⟩, ⟨2, 1⟩]⟩,
        ⟨1, "B", 0, 0, 1, [⟨3, 1⟩]⟩,
        ⟨2, "C", 0, 0, 1, [⟨3, 1⟩]⟩,
        ⟨3, "D", 0, 0, 1, [⟨0, 1⟩]⟩,
        ⟨4, "E", 0, 0, 0, []⟩ ] }

/-! ## Breadth-first traversal: vocabulary of the specification -/

/-- There is a walk of exactly `k` edges from `s` to `t`. -/
def WalkOfLength (g : Graph) (s t k : Nat) : Prop := ∃ p, LinkPath g s t p ∧ p.length = k + 1

/-- The minimum number of edges on any path from `s` to `t` is `d`. -/
def EdgeDistance (g : Graph) (s t d : Nat) : Prop :=
  WalkOfLength g s t d ∧ ∀ k, WalkOfLength g s t k → d ≤ k

/-- The queue holds the values `pending`, oldest first, in the slots `front .. rear` of its
array of `SIZE` slots; the empty queue has `front = rear = -1`. -/
def QueueHolds (SIZE : Nat) (q : queue_t) (pending : List Int) : Prop :=
  q.items.length = SIZE ∧
  ((pending = [] ∧ q.front = -1 ∧ q.rear = -1) ∨
    (pending ≠ [] ∧ 0 ≤ q.front ∧ q.rear = q.front + pending.length - 1 ∧ q.rear < SIZE ∧
      ∀ i, i < pending.length → q.items.getD (q.front.toNat + i) 0 = pending.getD i 0))

/-- The quantity that every round of the loop of the traversal lowers: twice the number of
unexplored flags, plus twice the number of queued values other than the level separator,
plus one if the level separator is at the front. -/
def bfs_measure (LEVELBREAK : Int) (visited_tracker : List Nat) (pending : List Int) : Nat :=
  2 * visited_tracker.count 0 + 2 * (pending.filter (fun x => x ≠ LEVELBREAK)).length +
    (if pending.head? = some LEVELBREAK then 1 else 0)

/-- The vertices the visitor has been called on, in call order. -/
def BfsState.called (st : BfsState) : List Nat := st.calls.map Prod.fst

/-- Invariant of the breadth-first traversal from vertex 0 while no enqueue has been
ignored.  `A` lists the queued vertices of the current level and `B` those of the next
level; `es` lists the edges of the vertex `cur` that are still to be looked at. -/
structure BfsInv (g : Graph) (SIZE : Nat) (LEVELBREAK : Int) (st : BfsState)
    (A B : List Nat) (cur : Nat) (es : List Edge) : Prop where
  queue : QueueHolds SIZE st.bfs_queue
    (A.map (fun v => (v : Int)) ++ LEVELBREAK :: B.map (fun v => (v : Int)))
  quiet : st.bfs_queue.ignored = []
  len : st.visited_tracker.length = g.size
  boundA : ∀ v ∈ A, v < g.size
  boundB : ∀ v ∈ B, v < g.size
  boundC : ∀ v ∈ st.called, v < g.size
  nodup : (st.called ++ (A ++ B)).Nodup
  expl : ∀ v, v < g.size → (st.visited_tracker.getD v 0 = EXPLORED ↔ v ∈ st.called)
  fresh : ∀ v, v < g.size →
    (st.visited_tracker.getD v 0 = UNEXPLORED ↔ v ∉ st.called ∧ v ∉ A ∧ v ∉ B)
  distA : ∀ v ∈ A, EdgeDistance g 0 v st.current_breadth
  distB : ∀ v ∈ B, EdgeDistance g 0 v (st.current_breadth + 1)
  distC : ∀ c ∈ st.calls, EdgeDistance g 0 c.1 c.2 ∧ c.2 ≤ st.current_breadth
  sorted : (st.calls.map Prod.snd).Pairwise (fun a b => a ≤ b)
  low : ∀ v d, EdgeDistance g 0 v d → d ≤ st.current_breadth → v ∈ st.called ∨ v ∈ A
  level : A ≠ [] ∨ ∃ c ∈ st.calls, c.2 = st.current_breadth
  closed : ∀ c ∈ st.calls, ∀ e ∈ (g.vtx c.1).edges,
    e.dest ∈ st.called ∨ e.dest ∈ A ∨ e.dest ∈ B ∨ (c.1 = cur ∧ e ∈ es)

/-- What the traversal has done when it stops without an ignored enqueue: the visitor was
called once on each vertex that can be reached from vertex 0 and on no other, each with
its edge distance from vertex 0, in non-decreasing order of level, and the level counter
is one more than the largest level passed. -/
structure BfsDone (g : Graph) (st : BfsState) : Prop where
  nodup : st.called.Nodup
  linked : ∀ v, v ∈ st.called ↔ Linked g 0 v
  dist : ∀ c ∈ st.calls, EdgeDistance g 0 c.1 c.2
  sorted : (st.calls.map Prod.snd).Pairwise (fun a b => a ≤ b)
  below : ∀ c ∈ st.calls, c.2 + 1 ≤ st.current_breadth
  top : ∃ c ∈ st.calls, c.2 + 1 = st.current_breadth

/-! ## huffman_coding

The header `huffman.h` and the heap and binary tree library it includes are not among the
sources.  A pointer to a tree node is the tree below it and `NULL` is `nil`; the `parent`
link of a node is not modelled.  A `char` is its integer value. -/

/-- Modelled from the spec: the type `symbol_t` of the absent header `huffman.h`, as the
code uses it: a character `data` and a frequency `freq` of type `size_t`. -/
structure symbol_t where
  data : Int
  freq : Nat
deriving DecidableEq, Repr

instance : Inhabited symbol_t := ⟨⟨0, 0⟩⟩

/-- Modelled from the spec: the type `binary_tree_node_t` of the absent heap library, as
the code uses it: a `data` pointer, here always to a symbol, and the links `left` and
`right`. -/
inductive binary_tree_node_t where
  | nil : binary_tree_node_t
  | node (data : symbol_t) (left right : binary_tree_node_t) : binary_tree_node_t
deriving DecidableEq, Repr

/-- The symbol `(symbol_t *)node->data`. -/
def binary_tree_node_t.symbol : binary_tree_node_t → symbol_t
  | .nil => default
  | .node data _ _ => data

/-- Modelled from the spec: `symbol_create(data, freq)` of the absent library, which
allocates a symbol with these two fields. -/
def symbol_create (data : Int) (freq : Nat) : symbol_t := { data := data, freq := freq }

/-- Modelled from the spec: `binary_tree_node(NULL, data)` of the absent library, which
allocates a node with this data and no children. -/
def binary_tree_node (data : symbol_t) : binary_tree_node_t := .node data .nil .nil

/-- Model of `symbol_frequency_compare`: the difference of the two `size_t` frequencies,
taken modulo `2 ^ 64`, converted to `int`. -/
def symbol_frequency_compare (p1 p2 : binary_tree_node_t) : Int :=
  int_of_size ((((p1.symbol.freq : Int) - (p2.symbol.freq : Int)) % 18446744073709551616).toNat)

/-- Model of `find_tree_depth`; `left_depth` and `right_depth` are `int`. -/
def find_tree_depth : binary_tree_node_t → Nat → Nat
  | .nil, depth => depth
  | .node _ left right, depth =>
    let left_depth : Int :=
      match left with
      | .nil => -1
      | .node _ _ _ => int_of_size (find_tree_depth left (depth + 1))
    match right with
    | .nil => depth
    | .node _ _ _ =>
      let right_depth : Int := int_of_size (find_tree_depth right (depth + 1))
      if left_depth > right_depth then size_of_int left_depth else size_of_int right_depth

/-- The string that `printf("%s", code)` prints: the characters before the first NUL. -/
def c_string (code : List Char) : String := String.mk (code.takeWhile (fun c => c ≠ '\x00'))

/-- Model of `generate_codes_recursive`: the buffer `code` after the call and the lines
printed so far, each with the character and the string printed for it. -/
def generate_codes_recursive :
    binary_tree_node_t → List Char → Nat → List (Int × String) → List Char × List (Int × String)
  | .nil, code, _, out => (code, out)
  | .node symbol left right, code, depth, out =>
    let after_left : List Char × List (Int × String) :=
      match left with
      | .nil => (code, out)
      | .node _ _ _ => generate_codes_recursive left (code.set depth '0') (depth + 1) out
    match right with
    | .nil => (after_left.1, after_left.2 ++ [(symbol.data, c_string after_left.1)])
    | .node _ _ _ =>
      generate_codes_recursive right (after_left.1.set depth '1') (depth + 1) after_left.2

/-- Model of `huffman_codes` from the point where `huffman_tree`, which is not among the
sources, has returned `tree_root`: the returned `int` and the lines printed. -/
def huffman_codes (tree_root : binary_tree_node_t) : Int × List (Int × String) :=
  match tree_root with
  | .nil => (0, [])
  | .node _ _ _ =>
    let max_depth := find_tree_depth tree_root 0
    let code_string := List.replicate (max_depth + 1) '\x00'
    (1, (generate_codes_recursive tree_root code_string 0 []).2)

/-- The Huffman tree of the symbols a:1, b:1, c:3: the root has the node over the leaves
`a` and `b` as left child and the leaf `c` as right child. -/
def abcTree : binary_tree_node_t :=
  .node ⟨-1, 5⟩
    (.node ⟨-1, 2⟩ (binary_tree_node ⟨97, 1⟩) (binary_tree_node ⟨98, 1⟩))
    (binary_tree_node ⟨99, 3⟩)

/-- Specification of the codes: each leaf with the code its path from the root spells,
`0` for a step to the left child and `1` for a step to the right child; `path` is the
code of the node itself. -/
def path_codes : binary_tree_node_t → List Char → List (Int × String)
  | .nil, _ => []
  | .node symbol .nil .nil, path => [(symbol.data, String.mk path)]
  | .node _ left right, path =>
    path_codes left (path ++ ['0']) ++ path_codes right (path ++ ['1'])

/-- Modelled from the spec: the generic min-priority-heap `heap_t` of the absent heap
library, holding the data pointers it was given; its comparator is
`symbol_frequency_compare`, as `huffman_priority_queue` creates it. -/
structure heap_t where
  nodes : List binary_tree_node_t
deriving DecidableEq, Repr

/-- The scan for a least element of a list under the comparator: the candidate is
replaced by every later element that compares below it. -/
def heap_least (candidate : binary_tree_node_t) : List binary_tree_node_t → binary_tree_node_t
  | [] => candidate
  | p :: rest =>
    if symbol_frequency_compare p candidate < 0 then heap_least p rest
    else heap_least candidate rest

/-- Modelled from the spec: `heap_extract` of the absent heap library (extract-min): it
removes from the heap a data pointer that the comparator ranks lowest and returns it,
and returns `NULL` on an empty heap. -/
def heap_extract (heap : heap_t) : binary_tree_node_t × heap_t :=
  match heap.nodes with
  | [] => (.nil, heap)
  | p :: rest => (heap_least p rest, { nodes := heap.nodes.erase (heap_least p rest) })

/-- Modelled from the spec: `heap_insert` of the absent heap library: it adds the data
pointer to the heap and returns the node created for it (here the data itself). -/
def heap_insert (heap : heap_t) (data : binary_tree_node_t) : binary_tree_node_t × heap_t :=
  (data, { nodes := heap.nodes ++ [data] })

/-- A heap holding the leaves c:3, a:1 and b:1. -/
def cabHeap : heap_t :=
  { nodes := [binary_tree_node ⟨99, 3⟩, binary_tree_node ⟨97, 1⟩, binary_tree_node ⟨98, 1⟩] }

/-- A heap holding the leaves a and b, each with the frequency `2 ^ 63`. -/
def wrappingHeap : heap_t :=
  { nodes := [binary_tree_node ⟨97, 9223372036854775808⟩,
      binary_tree_node ⟨98, 9223372036854775808⟩] }

/-- A heap holding the leaves a:0, b:`2 ^ 31` and c:1. -/
def misorderedHeap : heap_t :=
  { nodes := [binary_tree_node ⟨97, 0⟩, binary_tree_node ⟨98, 2147483648⟩,
      binary_tree_node ⟨99, 1⟩] }

/-- Model of `merge_symbol_frequencies`; `none` for `NULL`.  The sum is a `size_t`. -/
def merge_symbol_frequencies (first_symbol second_symbol : Option symbol_t) :
    Option symbol_t :=
  match first_symbol, second_symbol with
  | some first_symbol, some second_symbol =>
    let total_frequency := (first_symbol.freq + second_symbol.freq) % 18446744073709551616
    some (symbol_create (-1) total_frequency)
  | _, _ => none

/-- Model of `create_parent_node`; `nil` for `NULL`. -/
def create_parent_node (left_child right_child : binary_tree_node_t) : binary_tree_node_t :=
  match left_child, right_child with
  | .node left_symbol _ _, .node right_symbol _ _ =>
    match merge_symbol_frequencies (some left_symbol) (some right_symbol) with
    | none => .nil
    | some parent_symbol =>
      match binary_tree_node parent_symbol with
      | .nil => .nil
      | .node data _ _ => .node data left_child right_child
  | _, _ => .nil

/-- Model of `huffman_extract_and_insert`: the returned `int` and the heap after the
call. -/
def huffman_extract_and_insert (priority_queue : Option heap_t) : Int × Option heap_t :=
  match priority_queue with
  | none => (0, none)
  | some priority_queue =>
    let first := heap_extract priority_queue
    let second := heap_extract first.2
    if first.1 = .nil ∨ second.1 = .nil then (0, some second.2)
    else
      let combined_node := create_parent_node first.1 second.1
      if combined_node = .nil then (0, some second.2)
      else
        let inserted := heap_insert second.2 combined_node
        if inserted.1 = .nil then (0, some second.2)
        else (1, some inserted.2)

/-! ## Sequences of graph store calls -/

/-- A call of the graph store on a graph: `graph_add_vertex(graph, str)` or
`graph_add_edge(graph, src, dest, type)`, with `none` for a `NULL` string. -/
inductive GraphCall where
  | add_vertex (str : Option String) : GraphCall
  | add_edge (src dest : Option String) (type : Int) : GraphCall
deriving DecidableEq, Repr

/-- The graph after the calls of a list were made on it, in order. -/
def run_calls : List GraphCall → Graph → Graph
  | [], graph => graph
  | .add_vertex str :: rest, graph =>
    run_calls rest ((graph_add_vertex (some graph) str).2.getD graph)
  | .add_edge src dest type :: rest, graph =>
    run_calls rest ((graph_add_edge (some graph) src dest type).2.getD graph)

/-- The invariants of the graph store: the count matches the vertex list, the vertex at
position `i` carries index `i`, labels are pairwise distinct, each edge count matches its
edge list, and every edge leads to a vertex of the graph. -/
def StoreInvariant (g : Graph) : Prop :=
  g.nb_vertices = g.size ∧
  (∀ i, i < g.size → (g.vtx i).index = i) ∧
  UniqueLabels g ∧
  (∀ i, i < g.size → (g.vtx i).nb_edges = (g.vtx i).edges.length) ∧
  (∀ i, i < g.size → ∀ e ∈ (g.vtx i).edges, e.dest < g.size)

/-! ## The A* step without the overwrite of `f_score[current]` -/

/-- The variant of `recursive_a_star` that the specification compares the code with: the
same function without the assignment `f_score[current->index] = h(...)` at selection
time, so that `f_score[current]` keeps the value `g_score + h` it had. -/
def recursive_a_star_untouched (pow : Int → Nat → Double) (graph : Graph) (target : Nat) :
    Nat → AStarState → Nat → Option AStarState
  | 0, _, _ => none
  | fuel + 1, st, idx =>
    match get_min_g_score graph st.f_score st.visited idx with
    | (none, _) => some st
    | (some current, idx) =>
      let i := (graph.vtx current).index
      let st0 : AStarState := { st with checked := st.checked ++ [current] }
      let st1 := a_star_neighbors pow graph target current i (graph.vtx current).edges st0
      let st2 := { st1 with visited := st1.visited.set i 1 }
      if st2.visited.getD (graph.vtx target).index 0 = 1 then some st2
      else recursive_a_star_untouched pow graph target fuel st2 idx

/-- The variant of `a_star_graph` that runs `recursive_a_star_untouched`. -/
def a_star_graph_untouched (pow : Int → Nat → Double) (fuel : Nat) (graph : Option Graph)
    (start target : Option Nat) : Option (Option (List String)) :=
  match graph, start, target with
  | some graph, some start, some target =>
    match recursive_a_star_untouched pow graph target fuel
        (initialize_a_star pow graph start target) 0 with
    | none => none
    | some st =>
      match reconstruct_path graph st.came_from start target fuel with
      | none => none
      | some [] => some none
      | some (front :: rest) => some (some (front :: rest))
  | _, _, _ => some none

/-- Two states of the A* search that differ at most in the `f_score` of visited vertices. -/
def SameSearch (st st' : AStarState) : Prop :=
  st.visited = st'.visited ∧ st.came_from = st'.came_from ∧ st.g_score = st'.g_score ∧
  st.checked = st'.checked ∧ st.f_score.length = st'.f_score.length ∧
  st.visited.length = st.f_score.length ∧
  ∀ i, st.visited.getD i 0 = 0 → st.f_score.getD i 0 = st'.f_score.getD i 0

/-- Two states of the A* search that differ at most in the `f_score` of visited vertices
and of the vertex with index `k`. -/
def SameExcept (k : Nat) (st st' : AStarState) : Prop :=
  st.visited = st'.visited ∧ st.came_from = st'.came_from ∧ st.g_score = st'.g_score ∧
  st.checked = st'.checked ∧ st.f_score.length = st'.f_score.length ∧
  st.visited.length = st.f_score.length ∧
  ∀ i, i ≠ k → st.visited.getD i 0 = 0 → st.f_score.getD i 0 = st'.f_score.getD i 0

/-! ## Vocabulary for the depth of a tree, predecessor chains and queue overflow -/

/-- The number of nodes on the longest path from the root down to a node; 0 for `NULL`. -/
def tree_levels : binary_tree_node_t → Nat
  | .nil => 0
  | .node _ left right => 1 + max (tree_levels left) (tree_levels right)

/-- Specification of the depth of a tree: the largest number of edges on a path from the
root to any node. -/
def tree_depth (root : binary_tree_node_t) : Nat := tree_levels root - 1

/-- No node of the tree has a left child and no right child. -/
def NoLeftOnly : binary_tree_node_t → Prop
  | .nil => True
  | .node _ left right => (left ≠ .nil → right ≠ .nil) ∧ NoLeftOnly left ∧ NoLeftOnly right

/-- A root whose only child is a left child, the leaf `a`. -/
def leftOnlyTree : binary_tree_node_t :=
  .node ⟨-1, 1⟩ (binary_tree_node ⟨97, 1⟩) .nil

/-- A root whose only child is a right child, the leaf `a`. -/
def rightOnlyTree : binary_tree_node_t :=
  .node ⟨-1, 1⟩ .nil (binary_tree_node ⟨97, 1⟩)

/-- A heap holding the single leaf a:1. -/
def singleHeap : heap_t := { nodes := [binary_tree_node ⟨97, 1⟩] }

/-- The index reached from `current_idx` by `k` steps of the trace-back of
`reconstruct_shortest_path`, each step going to `predecessor_map[current_idx]->index`;
`none` when a step finds no predecessor. -/
def follow_predecessors (graph : Graph) (predecessor_map : List (Option Nat)) :
    Nat → Nat → Option Nat
  | 0, current_idx => some current_idx
  | k + 1, current_idx =>
    match predecessor_map.getD current_idx none with
    | none => none
    | some p => follow_predecessors graph predecessor_map k (graph.vtx p).index

/-- The label of vertex `i` of the star: `i` letters `a`. -/
def star_label (i : Nat) : String := String.mk (List.replicate i 'a')

/-- The star with `n` leaves: vertex 0 has an edge to each of the vertices `1 .. n`, in
this order, and these have no edge. -/
def starGraph (n : Nat) : Graph :=
  { nb_vertices := n + 1
    vertices :=
      ⟨0, star_label 0, 0, 0, n, (List.range' 1 n).map (fun i => ⟨i, 1⟩)⟩ ::
        (List.range' 1 n).map (fun i => ⟨i, star_label i, 0, 0, 0, []⟩) }

/-- State of the traversal of a star before its centre is visited: no call was made, no
flag is set, and the queue array holds nothing but 0 and the level separator. -/
def StarBefore (LEVELBREAK : Int) (n : Nat) (st : BfsState) : Prop :=
  st.calls = [] ∧ st.visited_tracker = List.replicate (n + 1) 0 ∧ -1 ≤ st.bfs_queue.rear ∧
  ∀ x ∈ st.bfs_queue.items, x = 0 ∨ x = LEVELBREAK

/-- State of the traversal of a star after its centre was visited with the enqueue of the
last leaf `n` ignored: the leaf is flagged, is in no slot of the queue array, and was not
visited. -/
def StarAfter (LEVELBREAK : Int) (n : Nat) (st : BfsState) : Prop :=
  n ∉ st.calls.map Prod.fst ∧ st.visited_tracker.length = n + 1 ∧
  st.visited_tracker.getD 0 0 = EXPLORED ∧ st.visited_tracker.getD n 0 = BACKTRACK ∧
  ∀ x ∈ st.bfs_queue.items, x = LEVELBREAK ∨ ∃ i, i < n ∧ x = (i : Int)

/-! ## Arrays as lists -/

theorem getD_set_eq {α : Type} (l : List α) (i : Nat) (v d : α) (h : i < l.length) :
    (l.set i v).getD i d = v := by
  simp [List.getD_eq_getElem?_getD, List.getElem?_set, h]

theorem getD_set_ne {α : Type} (l : List α) (i j : Nat) (v d : α) (h : i ≠ j) :
    (l.set i v).getD j d = l.getD j d := by
  simp [List.getD_eq_getElem?_getD, List.getElem?_set, h]

theorem getD_replicate {α : Type} (n i : Nat) (v : α) :
    (List.replicate n v).getD i v = v := by
  simp [List.getD_eq_getElem?_getD, List.getElem?_replicate]
  split <;> simp

theorem size_add_eq (a : Nat) (w : Int) (hw : 0 ≤ w) (h : (a : Int) + w < ULONG_MAX) :
    (size_add a w : Int) = a + w := by
  unfold size_add
  unfold ULONG_MAX at h
  rw [Int.toNat_of_nonneg (Int.emod_nonneg _ (by norm_num))]
  apply Int.emod_eq_of_lt <;> omega

/-! ## Walks -/

theorem PathCost.nonneg {g : Graph} (hw : NonNegWeights g) :
    ∀ (p : List Nat) (W : Int), PathCost g p W → 0 ≤ W
  | [], _, h => by simp [PathCost] at h
  | [_], W, h => by simp [PathCost] at h; omega
  | u :: v :: rest, W, h => by
    obtain ⟨hu, e, he, _, hrest⟩ := h
    have := PathCost.nonneg hw (v :: rest) _ hrest
    have := hw u hu e he
    omega

theorem PathCost.bound {g : Graph} (hwf : WellFormed g) :
    ∀ (p : List Nat) (W : Int), PathCost g p W → ∀ a ∈ p, a < g.size
  | [], _, h => by simp [PathCost] at h
  | [_], W, h => by
    intro a ha
    simp [PathCost] at h
    simp at ha
    omega
  | u :: v :: rest, W, h => by
    obtain ⟨hu, e, he, _, hrest⟩ := h
    intro a ha
    rcases List.mem_cons.1 ha with rfl | ha
    · exact hu
    · exact PathCost.bound hwf (v :: rest) _ hrest a ha

/-- Appending one edge to the end of a walk. -/
theorem PathCost.snoc {g : Graph} (hwf : WellFormed g) :
    ∀ (p : List Nat) (W : Int) (c : Nat) (e : Edge), PathCost g p W → p.getLast? = some c →
      e ∈ (g.vtx c).edges → PathCost g (p ++ [e.dest]) (W + e.weight)
  | [], _, _, _, h, _, _ => by simp [PathCost] at h
  | [v], W, c, e, h, hl, he => by
    simp [PathCost] at h
    simp at hl
    subst hl
    refine ⟨h.1, e, he, rfl, ?_, ?_⟩
    · exact hwf.2.2.2.1 v h.1 e he
    · omega
  | u :: v :: rest, W, c, e, h, hl, he => by
    obtain ⟨hu, e', he', hd, hrest⟩ := h
    have hl' : (v :: rest).getLast? = some c := by
      simpa [List.getLast?_cons_cons] using hl
    have := PathCost.snoc hwf (v :: rest) _ c e hrest hl' he
    refine ⟨hu, e', he', hd, ?_⟩
    have heq : W + e.weight - e'.weight = W - e'.weight + e.weight := by ring
    rw [heq]
    exact this

/-- A consistent heuristic drops along a walk by at most the walk's cost. -/
theorem PathCost.heuristic_le {g : Graph} {h : Nat → Nat} (hc : Consistent g h) :
    ∀ (p : List Nat) (W : Int) (u v : Nat), PathCost g p W → p.head? = some u →
      p.getLast? = some v → (h u : Int) ≤ h v + W
  | [], _, _, _, hp, _, _ => by simp [PathCost] at hp
  | [a], W, u, v, hp, hh, hl => by
    simp [PathCost] at hp
    simp at hh hl
    subst hh; subst hl
    omega
  | a :: b :: rest, W, u, v, hp, hh, hl => by
    obtain ⟨ha, e, he, hd, hrest⟩ := hp
    simp at hh
    subst hh
    have hl' : (b :: rest).getLast? = some v := by
      simpa [List.getLast?_cons_cons] using hl
    have ih := PathCost.heuristic_le hc (b :: rest) _ b v hrest rfl hl'
    have := hc a ha e he
    rw [hd] at this
    omega

/-! ## Predecessor chains -/

/-- A predecessor chain read backwards is a walk from the source whose cost is the
recorded distance. -/
theorem chain_cost {g : Graph} (hwf : WellFormed g) {s : Nat} {dist : List Nat}
    {pred : List (Option Nat)} (hs0 : dist.getD s 0 = 0) :
    ∀ (rp : List Nat) (x : Nat), rp.head? = some x → rp.getLast? = some s →
      rp.Chain' (BackLink g dist pred) → (∀ a ∈ rp, a < g.size) →
      PathCost g rp.reverse (dist.getD x 0)
  | [], _, hh, _, _, _ => by simp at hh
  | [a], x, hh, hl, _, hb => by
    simp at hh hl
    subst hh; subst hl
    refine ⟨hb a (by simp), ?_⟩
    rw [hs0]; rfl
  | b :: a :: rest, x, hh, hl, hc, hb => by
    simp at hh
    subst hh
    have hl' : (a :: rest).getLast? = some s := by
      simpa [List.getLast?_cons_cons] using hl
    obtain ⟨hlink, hc'⟩ := List.chain'_cons.1 hc
    have ih := chain_cost hwf hs0 (a :: rest) a rfl hl' hc'
      (fun y hy => hb y (List.mem_cons_of_mem _ hy))
    obtain ⟨_, e, he, hd, hdist⟩ := hlink
    have hlast : (a :: rest).reverse.getLast? = some a := by simp
    have := PathCost.snoc hwf _ _ a e ih hlast he
    rw [hd, ← hdist] at this
    simpa using this

theorem BackPath.cost {g : Graph} (hwf : WellFormed g) {s : Nat} {S : Nat → Prop}
    {dist : List Nat} {pred : List (Option Nat)} {x : Nat} {rp : List Nat}
    (hs0 : dist.getD s 0 = 0) (bp : BackPath g s S dist pred x rp) :
    WalkFromTo g s x rp.reverse (dist.getD x 0) :=
  ⟨chain_cost hwf hs0 rp x bp.head bp.last bp.chain bp.bound, by simp [bp.last], by simp [bp.head]⟩

/-- A predecessor chain survives every update that leaves its own entries alone. -/
theorem BackPath.transfer {g : Graph} {s : Nat} {S : Nat → Prop} {dist dist' : List Nat}
    {pred pred' : List (Option Nat)} {x : Nat} {rp : List Nat}
    (bp : BackPath g s S dist pred x rp)
    (hsame : ∀ a ∈ rp, dist'.getD a 0 = dist.getD a 0 ∧ pred'.getD a none = pred.getD a none) :
    BackPath g s S dist' pred' x rp := by
  refine ⟨bp.head, bp.last, bp.nodup, bp.settled, bp.bound, ?_⟩
  have h1 := List.Chain'.iff_mem.1 bp.chain
  refine List.Chain'.imp ?_ h1
  rintro b a ⟨hb, ha, hp, e, he, hd, hdist⟩
  refine ⟨by rw [(hsame b hb).2]; exact hp, e, he, hd, ?_⟩
  rw [(hsame b hb).1, (hsame a ha).1]
  exact hdist

theorem BackPath.mem_settled {g : Graph} {s : Nat} {S : Nat → Prop} {dist : List Nat}
    {pred : List (Option Nat)} {x : Nat} {rp : List Nat}
    (bp : BackPath g s S dist pred x rp) (hx : S x) : ∀ a ∈ rp, S a := by
  intro a ha
  cases rp with
  | nil => simp at ha
  | cons y rest =>
    have hy : y = x := by simpa using bp.head
    rcases List.mem_cons.1 ha with h | h
    · rw [h, hy]; exact hx
    · exact bp.settled a h

/-- Relaxing one edge of the vertex being settled keeps the search invariant. -/
theorem relax_edge_inv {g : Graph} {s : Nat} {h : Nat → Nat} {S : Nat → Prop}
    {C : Nat → Edge → Prop} {B : Nat} {dist : List Nat} {pred : List (Option Nat)}
    (hwf : WellFormed g) (hcons : Consistent g h) (hnn : NonNegWeights g)
    (hfit : PathSumsFit g s) (inv : SearchInv g s h S C B dist pred)
    (c : Nat) (hc : S c) (hcB : dist.getD c 0 + h c = B) (e : Edge)
    (he : e ∈ (g.vtx c).edges) :
    SearchInv g s h S (fun u e' => C u e' ∨ (u = c ∧ e' = e)) B
      (if dist.getD e.dest 0 > size_add (dist.getD c 0) e.weight then
        dist.set e.dest (size_add (dist.getD c 0) e.weight) else dist)
      (if dist.getD e.dest 0 > size_add (dist.getD c 0) e.weight then
        pred.set e.dest (some c) else pred) := by
  have hclt : c < g.size := inv.settled_lt c hc
  have hv : e.dest < g.size := hwf.2.2.2.1 c hclt e he
  have hw : 0 ≤ e.weight := hnn c hclt e he
  obtain ⟨rpc, bpc⟩ := inv.paths c hclt (inv.settled_fin c hc)
  have hwalk := bpc.cost hwf inv.start_zero
  have hsum : (dist.getD c 0 : Int) + e.weight < ULONG_MAX :=
    hfit _ _ c hwalk.1 hwalk.2.1 hwalk.2.2 (List.nodup_reverse.2 bpc.nodup) e he
  have ht : (size_add (dist.getD c 0) e.weight : Int) = dist.getD c 0 + e.weight :=
    size_add_eq _ _ hw hsum
  have hcon : (h c : Int) ≤ h e.dest + e.weight := hcons c hclt e he
  by_cases hgt : dist.getD e.dest 0 > size_add (dist.getD c 0) e.weight
  · rw [if_pos hgt, if_pos hgt]
    have hvS : ¬ S e.dest := by
      intro hS
      have := inv.settled_le _ hS
      omega
    have hvc : e.dest ≠ c := fun hEq => hvS (hEq ▸ hc)
    have hvs : e.dest ≠ s := by
      intro hEq
      rw [hEq, inv.start_zero] at hgt
      omega
    have hnew : (dist.set e.dest (size_add (dist.getD c 0) e.weight)).getD e.dest 0
        = size_add (dist.getD c 0) e.weight :=
      getD_set_eq _ _ _ _ (by rw [inv.len_dist]; exact hv)
    have hold : ∀ a, a ≠ e.dest →
        (dist.set e.dest (size_add (dist.getD c 0) e.weight)).getD a 0 = dist.getD a 0 ∧
        (pred.set e.dest (some c)).getD a none = pred.getD a none := fun a ha =>
      ⟨getD_set_ne _ _ _ _ _ (Ne.symm ha), getD_set_ne _ _ _ _ _ (Ne.symm ha)⟩
    have hSold : ∀ a, S a → a ≠ e.dest := fun a ha hEq => hvS (hEq ▸ ha)
    have hmono : ∀ a, (dist.set e.dest (size_add (dist.getD c 0) e.weight)).getD a 0
        ≤ dist.getD a 0 := by
      intro a
      by_cases ha : a = e.dest
      · rw [ha, hnew]; omega
      · rw [(hold a ha).1]
    refine
      { len_dist := by rw [List.length_set]; exact inv.len_dist
        len_pred := by rw [List.length_set]; exact inv.len_pred
        start_lt := inv.start_lt
        start_zero := by rw [(hold s (Ne.symm hvs)).1]; exact inv.start_zero
        start_pred := by rw [(hold s (Ne.symm hvs)).2]; exact inv.start_pred
        dist_le := fun v hvlt => le_trans (hmono v) (inv.dist_le v hvlt)
        settled_lt := inv.settled_lt
        settled_fin := fun u hu => by rw [(hold u (hSold u hu)).1]; exact inv.settled_fin u hu
        settled_le := fun u hu => by rw [(hold u (hSold u hu)).1]; exact inv.settled_le u hu
        open_ge := ?_
        relaxed_settled := ?_
        relaxed := ?_
        paths := ?_
        unreached := ?_ }
    · intro v hvlt hvS' hfin
      by_cases hEq : v = e.dest
      · rw [hEq, hnew]; omega
      · rw [(hold v hEq).1] at hfin ⊢
        exact inv.open_ge v hvlt hvS' hfin
    · rintro u e' (hC | ⟨rfl, -⟩)
      · exact inv.relaxed_settled u e' hC
      · exact hc
    · rintro u e' (hC | ⟨rfl, rfl⟩)
      · have hu := inv.relaxed_settled u e' hC
        rw [(hold u (hSold u hu)).1]
        have := inv.relaxed u e' hC
        have := hmono e'.dest
        omega
      · rw [hnew, (hold u (Ne.symm hvc)).1]; omega
    · intro v hvlt hfin
      by_cases hEq : v = e.dest
      · subst hEq
        have hall := bpc.mem_settled hc
        have hbp' : BackPath g s S (dist.set e.dest (size_add (dist.getD c 0) e.weight))
            (pred.set e.dest (some c)) c rpc :=
          bpc.transfer (fun a ha => hold a (hSold a (hall a ha)))
        refine ⟨e.dest :: rpc, ?_⟩
        cases rpc with
        | nil => simpa using bpc.head
        | cons y rest =>
          have hy : y = c := by simpa using bpc.head
          subst hy
          refine ⟨rfl, by simpa [List.getLast?_cons_cons] using bpc.last, ?_, ?_, ?_, ?_⟩
          · exact List.nodup_cons.2 ⟨fun hm => hvS (hall _ hm), bpc.nodup⟩
          · intro a ha; exact hall a (by simpa using ha)
          · intro a ha
            rcases List.mem_cons.1 ha with rfl | ha
            · exact hv
            · exact bpc.bound a ha
          · refine List.Chain'.cons ⟨getD_set_eq _ _ _ _ (by rw [inv.len_pred]; exact hv),
              e, he, rfl, ?_⟩ hbp'.chain
            rw [hnew, (hold y (Ne.symm hvc)).1, ht]
      · rw [(hold v hEq).1] at hfin
        obtain ⟨rp, bp⟩ := inv.paths v hvlt hfin
        refine ⟨rp, bp.transfer ?_⟩
        intro a ha
        apply hold
        cases rp with
        | nil => simp at ha
        | cons y rest =>
          have hy : y = v := by simpa using bp.head
          rcases List.mem_cons.1 ha with h1 | h1
          · rw [h1, hy]; exact hEq
          · exact hSold a (bp.settled a h1)
    · intro v hvlt hinf
      have hEq : v ≠ e.dest := by
        intro hEq
        rw [hEq, hnew] at hinf
        omega
      rw [(hold v hEq).1] at hinf
      rw [(hold v hEq).2]
      exact inv.unreached v hvlt hinf
  · rw [if_neg hgt, if_neg hgt]
    refine
      { len_dist := inv.len_dist
        len_pred := inv.len_pred
        start_lt := inv.start_lt
        start_zero := inv.start_zero
        start_pred := inv.start_pred
        dist_le := inv.dist_le
        settled_lt := inv.settled_lt
        settled_fin := inv.settled_fin
        settled_le := inv.settled_le
        open_ge := inv.open_ge
        relaxed_settled := ?_
        relaxed := ?_
        paths := inv.paths
        unreached := inv.unreached }
    · rintro u e' (hC | ⟨rfl, -⟩)
      · exact inv.relaxed_settled u e' hC
      · exact hc
    · rintro u e' (hC | ⟨rfl, rfl⟩)
      · exact inv.relaxed u e' hC
      · omega

/-- A settled vertex keeps its distance when an edge of the current vertex is relaxed. -/
theorem relax_edge_settled_eq {g : Graph} {s : Nat} {h : Nat → Nat} {S : Nat → Prop}
    {C : Nat → Edge → Prop} {B : Nat} {dist : List Nat} {pred : List (Option Nat)}
    (hwf : WellFormed g) (hcons : Consistent g h) (hnn : NonNegWeights g)
    (hfit : PathSumsFit g s) (inv : SearchInv g s h S C B dist pred)
    (c : Nat) (hc : S c) (hcB : dist.getD c 0 + h c = B) (e : Edge)
    (he : e ∈ (g.vtx c).edges) (u : Nat) (hu : S u) :
    (if dist.getD e.dest 0 > size_add (dist.getD c 0) e.weight then
        dist.set e.dest (size_add (dist.getD c 0) e.weight) else dist).getD u 0
      = dist.getD u 0 := by
  have hclt : c < g.size := inv.settled_lt c hc
  have hw : 0 ≤ e.weight := hnn c hclt e he
  obtain ⟨rpc, bpc⟩ := inv.paths c hclt (inv.settled_fin c hc)
  have hwalk := bpc.cost hwf inv.start_zero
  have hsum : (dist.getD c 0 : Int) + e.weight < ULONG_MAX :=
    hfit _ _ c hwalk.1 hwalk.2.1 hwalk.2.2 (List.nodup_reverse.2 bpc.nodup) e he
  have ht : (size_add (dist.getD c 0) e.weight : Int) = dist.getD c 0 + e.weight :=
    size_add_eq _ _ hw hsum
  have hcon : (h c : Int) ≤ h e.dest + e.weight := hcons c hclt e he
  by_cases hgt : dist.getD e.dest 0 > size_add (dist.getD c 0) e.weight
  · rw [if_pos hgt]
    have hne : e.dest ≠ u := by
      intro hEq
      have := inv.settled_le _ hu
      rw [← hEq] at this
      omega
    exact getD_set_ne _ _ _ _ _ hne
  · rw [if_neg hgt]

/-- The sum formed when an edge of a settled vertex is relaxed does not wrap. -/
theorem settled_sum_lt {g : Graph} {s : Nat} {h : Nat → Nat} {S : Nat → Prop}
    {C : Nat → Edge → Prop} {B : Nat} {dist : List Nat} {pred : List (Option Nat)}
    (hwf : WellFormed g) (hfit : PathSumsFit g s) (inv : SearchInv g s h S C B dist pred)
    (u : Nat) (hu : S u) (e : Edge) (he : e ∈ (g.vtx u).edges) :
    (dist.getD u 0 : Int) + e.weight < ULONG_MAX := by
  obtain ⟨rp, bp⟩ := inv.paths u (inv.settled_lt u hu) (inv.settled_fin u hu)
  have hwalk := bp.cost hwf inv.start_zero
  exact hfit _ _ u hwalk.1 hwalk.2.1 hwalk.2.2 (List.nodup_reverse.2 bp.nodup) e he

/-- The source is settled as soon as any vertex is. -/
theorem SearchInv.start_settled {g : Graph} {s : Nat} {h : Nat → Nat} {S : Nat → Prop}
    {C : Nat → Edge → Prop} {B : Nat} {dist : List Nat} {pred : List (Option Nat)}
    (inv : SearchInv g s h S C B dist pred) (x : Nat) (hx : S x) : S s := by
  obtain ⟨rp, bp⟩ := inv.paths x (inv.settled_lt x hx) (inv.settled_fin x hx)
  have hall := bp.mem_settled hx
  exact hall s (List.mem_of_mem_getLast? bp.last)

theorem SearchInv.congr {g : Graph} {s : Nat} {h : Nat → Nat} {S S' : Nat → Prop}
    {C C' : Nat → Edge → Prop} {B : Nat} {dist : List Nat} {pred : List (Option Nat)}
    (inv : SearchInv g s h S C B dist pred) (hS : ∀ u, S u ↔ S' u)
    (hC : ∀ u e, C u e ↔ C' u e) : SearchInv g s h S' C' B dist pred := by
  have h1 : S = S' := funext fun u => propext (hS u)
  have h2 : C = C' := funext fun u => funext fun e => propext (hC u e)
  rw [← h1, ← h2]
  exact inv

/-- Settling the open vertex of least priority keeps the search invariant. -/
theorem select_inv {g : Graph} {s : Nat} {h : Nat → Nat} {S : Nat → Prop}
    {C : Nat → Edge → Prop} {B : Nat} {dist : List Nat} {pred : List (Option Nat)}
    (inv : SearchInv g s h S C B dist pred) (c : Nat) (hclt : c < g.size) (hcS : ¬ S c)
    (hfin : dist.getD c 0 < ULONG_MAX)
    (hmin : ∀ v, v < g.size → ¬ S v → dist.getD v 0 < ULONG_MAX →
      dist.getD c 0 + h c ≤ dist.getD v 0 + h v) :
    SearchInv g s h (fun u => S u ∨ u = c) C (dist.getD c 0 + h c) dist pred := by
  have hB := inv.open_ge c hclt hcS hfin
  refine
    { len_dist := inv.len_dist
      len_pred := inv.len_pred
      start_lt := inv.start_lt
      start_zero := inv.start_zero
      start_pred := inv.start_pred
      dist_le := inv.dist_le
      settled_lt := ?_
      settled_fin := ?_
      settled_le := ?_
      open_ge := ?_
      relaxed_settled := fun u e hC => Or.inl (inv.relaxed_settled u e hC)
      relaxed := inv.relaxed
      paths := ?_
      unreached := inv.unreached }
  · rintro u (hu | rfl)
    · exact inv.settled_lt u hu
    · exact hclt
  · rintro u (hu | rfl)
    · exact inv.settled_fin u hu
    · exact hfin
  · rintro u (hu | rfl)
    · exact le_trans (inv.settled_le u hu) hB
    · exact le_refl _
  · intro v hvlt hvS hvfin
    exact hmin v hvlt (fun hS => hvS (Or.inl hS)) hvfin
  · intro v hvlt hvfin
    obtain ⟨rp, bp⟩ := inv.paths v hvlt hvfin
    exact ⟨rp, bp.head, bp.last, bp.nodup, fun a ha => Or.inl (bp.settled a ha), bp.bound,
      bp.chain⟩

/-- Along a walk that starts at a settled vertex, either the end is settled with a
distance no larger than the walk's cost, or an open vertex of finite distance lies
within the cost. -/
theorem settled_or_open {g : Graph} {s : Nat} {h : Nat → Nat} {S : Nat → Prop}
    {C : Nat → Edge → Prop} {B : Nat} {dist : List Nat} {pred : List (Option Nat)}
    (hwf : WellFormed g) (hcons : Consistent g h) (hfit : PathSumsFit g s)
    (inv : SearchInv g s h S C B dist pred)
    (hC : ∀ u, S u → ∀ e ∈ (g.vtx u).edges, C u e) :
    ∀ (p : List Nat) (W : Int) (u v : Nat) (D : Int), PathCost g p W → p.head? = some u →
      p.getLast? = some v → S u → (dist.getD u 0 : Int) ≤ D →
      (S v ∧ (dist.getD v 0 : Int) ≤ D + W) ∨
      (∃ x, x < g.size ∧ ¬ S x ∧ dist.getD x 0 < ULONG_MAX ∧
        (dist.getD x 0 : Int) + h x ≤ D + W + h v)
  | [], _, _, _, _, hp, _, _, _, _ => by simp [PathCost] at hp
  | [a], W, u, v, D, hp, hh, hl, hu, hD => by
    simp only [PathCost] at hp
    simp at hh hl
    subst hh; subst hl
    left
    exact ⟨hu, by omega⟩
  | a :: b :: rest, W, u, v, D, hp, hh, hl, hu, hD => by
    obtain ⟨ha, e, he, hd, hrest⟩ := hp
    simp at hh
    subst hh
    have hl' : (b :: rest).getLast? = some v := by
      simpa [List.getLast?_cons_cons] using hl
    have hrel := inv.relaxed a e (hC a hu e he)
    have hsum := settled_sum_lt hwf hfit inv a hu e he
    rw [hd] at hrel
    have hblt : b < g.size := hd ▸ hwf.2.2.2.1 a ha e he
    by_cases hb : S b
    · have ih := settled_or_open hwf hcons hfit inv hC (b :: rest) _ b v (D + e.weight)
        hrest rfl hl' hb (by omega)
      rcases ih with ⟨h1, h2⟩ | ⟨x, h1, h2, h3, h4⟩
      · left; exact ⟨h1, by omega⟩
      · right; exact ⟨x, h1, h2, h3, by omega⟩
    · right
      have hheur := PathCost.heuristic_le hcons (b :: rest) _ b v hrest rfl hl'
      refine ⟨b, hblt, hb, ?_, by omega⟩
      unfold ULONG_MAX at hsum ⊢
      omega

/-- The distance of a settled target is at most the cost of any walk from the source. -/
theorem settled_optimal {g : Graph} {s : Nat} {h : Nat → Nat} {S : Nat → Prop}
    {C : Nat → Edge → Prop} {B : Nat} {dist : List Nat} {pred : List (Option Nat)}
    (hwf : WellFormed g) (hcons : Consistent g h) (hfit : PathSumsFit g s)
    (inv : SearchInv g s h S C B dist pred)
    (hC : ∀ u, S u → ∀ e ∈ (g.vtx u).edges, C u e) (t : Nat) (ht : S t)
    (p : List Nat) (W : Int) (hp : WalkFromTo g s t p W) : (dist.getD t 0 : Int) ≤ W := by
  have hs := inv.start_settled t ht
  have h0 : (dist.getD s 0 : Int) ≤ 0 := by rw [inv.start_zero]; rfl
  rcases settled_or_open hwf hcons hfit inv hC p W s t 0 hp.1 hp.2.1 hp.2.2 hs h0 with
    ⟨_, h2⟩ | ⟨x, h1, h2, h3, h4⟩
  · omega
  · have := inv.open_ge x h1 h2 h3
    have := inv.settled_le t ht
    omega

/-- When no open vertex of finite distance is left, every vertex reachable from the
source is settled. -/
theorem reach_settled {g : Graph} {s : Nat} {h : Nat → Nat} {S : Nat → Prop}
    {C : Nat → Edge → Prop} {B : Nat} {dist : List Nat} {pred : List (Option Nat)}
    (hwf : WellFormed g) (hcons : Consistent g h) (hfit : PathSumsFit g s)
    (inv : SearchInv g s h S C B dist pred)
    (hC : ∀ u, S u → ∀ e ∈ (g.vtx u).edges, C u e)
    (hdone : ∀ x, x < g.size → ¬ S x → ¬ dist.getD x 0 < ULONG_MAX)
    (t : Nat) (hr : Reachable g s t) : S t := by
  have hs : S s := by
    by_contra hns
    apply hdone s inv.start_lt hns
    rw [inv.start_zero]; unfold ULONG_MAX; omega
  obtain ⟨p, W, hp⟩ := hr
  have h0 : (dist.getD s 0 : Int) ≤ 0 := by rw [inv.start_zero]; rfl
  rcases settled_or_open hwf hcons hfit inv hC p W s t 0 hp.1 hp.2.1 hp.2.2 hs h0 with
    ⟨h1, _⟩ | ⟨x, h1, h2, h3, _⟩
  · exact h1
  · exact absurd h3 (hdone x h1 h2)

/-! ## Dijkstra: vertex selection -/

theorem min_distance_scan_succ (n : Nat) (distances processed : List Nat) :
    min_distance_scan (n + 1) distances processed =
      if processed.getD n 0 = 0 ∧
          distances.getD n 0 < (min_distance_scan n distances processed).1 then
        (distances.getD n 0, n)
      else min_distance_scan n distances processed := by
  unfold min_distance_scan
  rw [List.range_succ, List.foldl_append]
  rfl

/-- What the scan of `find_minimum_distance_vertex` leaves in `(minimum_dist, *vertex_idx)`:
either nothing was found, or the first index of least distance among the unprocessed
entries below `ULONG_MAX`. -/
theorem min_distance_scan_spec (distances processed : List Nat) :
    ∀ n, n ≤ ULONG_MAX →
      (min_distance_scan n distances processed = (ULONG_MAX, ULONG_MAX) ∧
        ∀ j, j < n → processed.getD j 0 = 0 → ¬ distances.getD j 0 < ULONG_MAX) ∨
      ((min_distance_scan n distances processed).2 < n ∧
        processed.getD (min_distance_scan n distances processed).2 0 = 0 ∧
        distances.getD (min_distance_scan n distances processed).2 0
          = (min_distance_scan n distances processed).1 ∧
        (min_distance_scan n distances processed).1 < ULONG_MAX ∧
        (∀ j, j < n → processed.getD j 0 = 0 →
          (min_distance_scan n distances processed).1 ≤ distances.getD j 0) ∧
        (∀ j, j < (min_distance_scan n distances processed).2 → processed.getD j 0 = 0 →
          (min_distance_scan n distances processed).1 < distances.getD j 0))
  | 0, _ => by
    left
    exact ⟨rfl, fun j hj => absurd hj (Nat.not_lt_zero j)⟩
  | n + 1, hn => by
    have ih := min_distance_scan_spec distances processed n (by omega)
    rw [min_distance_scan_succ]
    by_cases hcond : processed.getD n 0 = 0 ∧
        distances.getD n 0 < (min_distance_scan n distances processed).1
    · rw [if_pos hcond]
      right
      rcases ih with ⟨heq, hall⟩ | ⟨h1, h2, h3, h4, h5, h6⟩
      · rw [heq] at hcond
        refine ⟨by simp, hcond.1, rfl, hcond.2, ?_, ?_⟩
        · intro j hj hp
          rcases Nat.lt_succ_iff_lt_or_eq.1 hj with hlt | rfl
          · have := hall j hlt hp
            simp only at hcond ⊢
            omega
          · exact le_refl _
        · intro j hj hp
          have := hall j hj hp
          simp only at hcond ⊢
          omega
      · refine ⟨by simp, hcond.1, rfl, by simp only; omega, ?_, ?_⟩
        · intro j hj hp
          rcases Nat.lt_succ_iff_lt_or_eq.1 hj with hlt | rfl
          · have := h5 j hlt hp
            simp only at hcond ⊢
            omega
          · exact le_refl _
        · intro j hj hp
          have := h5 j hj hp
          simp only at hcond ⊢
          omega
    · rw [if_neg hcond]
      rcases ih with ⟨heq, hall⟩ | ⟨h1, h2, h3, h4, h5, h6⟩
      · left
        refine ⟨heq, ?_⟩
        intro j hj hp
        rcases Nat.lt_succ_iff_lt_or_eq.1 hj with hlt | rfl
        · exact hall j hlt hp
        · rw [heq] at hcond
          intro hlt
          exact hcond ⟨hp, hlt⟩
      · right
        refine ⟨by omega, h2, h3, h4, ?_, h6⟩
        intro j hj hp
        rcases Nat.lt_succ_iff_lt_or_eq.1 hj with hlt | rfl
        · exact h5 j hlt hp
        · by_contra hlt
          exact hcond ⟨hp, by omega⟩

/-- In a list whose vertices carry consecutive indices, the search by index finds the
vertex at that position. -/
theorem locate_vertex_eq (idx : Nat) :
    ∀ (l : List Vertex) (pos : Nat),
      (∀ i, i < l.length → (l.getD i default).index = pos + i) →
      pos ≤ idx → idx < pos + l.length → locate_vertex idx l pos = some idx
  | [], pos, _, h1, h2 => by simp at h2; omega
  | v :: rest, pos, hidx, h1, h2 => by
    unfold locate_vertex
    have hv : v.index = pos := by
      have := hidx 0 (by simp)
      simpa using this
    by_cases hEq : v.index = idx
    · rw [if_pos hEq, ← hEq, hv]
    · rw [if_neg hEq]
      apply locate_vertex_eq idx rest (pos + 1)
      · intro i hi
        have := hidx (i + 1) (by simp; omega)
        simp only [List.getD_cons_succ] at this
        omega
      · omega
      · simp at h2; omega

theorem locate_vertex_wf {g : Graph} (hwf : WellFormed g) (idx : Nat) (h : idx < g.size) :
    locate_vertex idx g.vertices 0 = some idx := by
  apply locate_vertex_eq
  · intro i hi
    have := hwf.2.2.1 i hi
    unfold Graph.vtx at this
    omega
  · omega
  · unfold Graph.size at h; omega

/-- Result of `find_minimum_distance_vertex` on a well-formed graph. -/
theorem find_minimum_distance_vertex_spec {g : Graph} (hwf : WellFormed g)
    (distances processed : List Nat) (vertex_idx : Nat) :
    ((find_minimum_distance_vertex g distances processed vertex_idx).1 = none ∧
      ∀ j, j < g.size → processed.getD j 0 = 0 → ¬ distances.getD j 0 < ULONG_MAX) ∨
    (∃ c, find_minimum_distance_vertex g distances processed vertex_idx = (some c, c) ∧
      c < g.size ∧ processed.getD c 0 = 0 ∧ distances.getD c 0 < ULONG_MAX ∧
      (∀ j, j < g.size → processed.getD j 0 = 0 → distances.getD c 0 ≤ distances.getD j 0) ∧
      (∀ j, j < c → processed.getD j 0 = 0 → distances.getD c 0 < distances.getD j 0)) := by
  unfold find_minimum_distance_vertex
  have hsize : g.nb_vertices = g.size := hwf.1
  cases hv : g.vertices with
  | nil =>
    left
    refine ⟨rfl, ?_⟩
    intro j hj
    unfold Graph.size at hj
    rw [hv] at hj
    simp at hj
  | cons v rest =>
    simp only
    rcases min_distance_scan_spec distances processed g.nb_vertices hwf.2.1 with
      ⟨heq, hall⟩ | ⟨h1, h2, h3, h4, h5, h6⟩
    · left
      rw [heq]
      simp only [if_true]
      refine ⟨trivial, ?_⟩
      intro j hj
      exact hall j (by omega)
    · right
      have hne : (min_distance_scan g.nb_vertices distances processed).2 ≠ ULONG_MAX := by
        have := hwf.2.1
        omega
      rw [if_neg hne]
      refine ⟨(min_distance_scan g.nb_vertices distances processed).2, ?_, by omega, h2,
        by omega, ?_, ?_⟩
      · rw [← hv, locate_vertex_wf hwf _ (by omega)]
      · intro j hj hp
        have := h5 j (by omega) hp
        omega
      · intro j hj hp
        have := h6 j hj hp
        omega

/-! ## Dijkstra: relaxation loop and iteration -/

theorem consistent_zero {g : Graph} (hnn : NonNegWeights g) : Consistent g (fun _ => 0) := by
  intro u hu e he
  have := hnn u hu e he
  simpa using this

theorem count_zero_set (l : List Nat) :
    ∀ i, i < l.length → l.getD i 0 = 0 → (l.set i 1).count 0 + 1 = l.count 0 := by
  induction l with
  | nil => intro i hi; simp at hi
  | cons a rest ih =>
    intro i hi h0
    cases i with
    | zero =>
      simp only [List.getD_cons_zero] at h0
      subst h0
      simp
    | succ i =>
      simp only [List.getD_cons_succ] at h0
      have := ih i (by simpa using hi) h0
      simp only [List.set_cons_succ, List.count_cons]
      omega

theorem settledOf_set {g : Graph} (flags : List Nat) (hlen : flags.length = g.size) (c : Nat)
    (hc : c < g.size) (u : Nat) :
    settledOf g (flags.set c 1) u ↔ settledOf g flags u ∨ u = c := by
  unfold settledOf
  by_cases hEq : u = c
  · subst hEq
    rw [getD_set_eq _ _ _ _ (by omega)]
    simp [hc]
  · rw [getD_set_ne _ _ _ _ _ (Ne.symm hEq)]
    simp [hEq]

/-- The neighbour loop of one Dijkstra iteration keeps the search invariant and relaxes
every edge it walks over. -/
theorem relax_neighbors_inv {g : Graph} {s : Nat} {S : Nat → Prop} {B : Nat}
    (hwf : WellFormed g) (hnn : NonNegWeights g) (hfit : PathSumsFit g s) (c : Nat)
    (hc : S c) :
    ∀ (es : List Edge) (st : DijkstraState) (C : Nat → Edge → Prop),
      (∀ e ∈ es, e ∈ (g.vtx c).edges) → st.processed.getD c 0 = 0 →
      SearchInv g s (fun _ => 0) S C B st.distances st.predecessor_map →
      st.distances.getD c 0 + 0 = B →
      SearchInv g s (fun _ => 0) S (fun u e' => C u e' ∨ (u = c ∧ e' ∈ es)) B
        (relax_neighbors g c c es st).distances (relax_neighbors g c c es st).predecessor_map ∧
      (relax_neighbors g c c es st).processed = st.processed ∧
      (relax_neighbors g c c es st).checked = st.checked
  | [], st, C, _, _, inv, _ => by
    refine ⟨inv.congr (fun _ => Iff.rfl) (fun u e => ?_), rfl, rfl⟩
    simp
  | e :: rest, st, C, hes, hp, inv, hB => by
    have he : e ∈ (g.vtx c).edges := hes e (by simp)
    have hclt : c < g.size := inv.settled_lt c hc
    have hdest : (g.vtx e.dest).index = e.dest :=
      hwf.2.2.1 _ (hwf.2.2.2.1 c hclt e he)
    have hstep := relax_edge_inv hwf (consistent_zero hnn) hnn hfit inv c hc hB e he
    have hkeep := relax_edge_settled_eq hwf (consistent_zero hnn) hnn hfit inv c hc hB e he c hc
    unfold relax_neighbors
    rw [if_pos hp]
    simp only [hdest]
    by_cases hgt : st.distances.getD e.dest 0 > size_add (st.distances.getD c 0) e.weight
    · simp only [if_pos hgt] at hstep hkeep ⊢
      have ih := relax_neighbors_inv hwf hnn hfit c hc rest
        { st with
          distances := st.distances.set e.dest (size_add (st.distances.getD c 0) e.weight)
          predecessor_map := st.predecessor_map.set e.dest (some c) }
        _ (fun e' he' => hes e' (List.mem_cons_of_mem _ he')) hp hstep
        (by simp only; rw [hkeep]; exact hB)
      refine ⟨ih.1.congr (fun _ => Iff.rfl) (fun u e' => ?_), ih.2.1, ih.2.2⟩
      simp only [List.mem_cons]
      tauto
    · simp only [if_neg hgt] at hstep hkeep ⊢
      have ih := relax_neighbors_inv hwf hnn hfit c hc rest st _
        (fun e' he' => hes e' (List.mem_cons_of_mem _ he')) hp hstep hB
      refine ⟨ih.1.congr (fun _ => Iff.rfl) (fun u e' => ?_), ih.2.1, ih.2.2⟩
      simp only [List.mem_cons]
      tauto

/-- One full iteration: settle the selected vertex and relax its edges. -/
theorem dijkstra_step_inv {g : Graph} {s : Nat} (hwf : WellFormed g) (hnn : NonNegWeights g)
    (hfit : PathSumsFit g s) (st : DijkstraState) (c : Nat) (inv : DijkstraInv g s st)
    (hclt : c < g.size) (hp : st.processed.getD c 0 = 0)
    (hfin : st.distances.getD c 0 < ULONG_MAX)
    (hmin : ∀ j, j < g.size → st.processed.getD j 0 = 0 →
      st.distances.getD c 0 ≤ st.distances.getD j 0) (log : List Nat) :
    DijkstraInv g s
      { relax_neighbors g c c (g.vtx c).edges { st with checked := log } with
        processed := (relax_neighbors g c c (g.vtx c).edges
          { st with checked := log }).processed.set c 1 } := by
  obtain ⟨hlen, B, sinv⟩ := inv
  have hcS : ¬ settledOf g st.processed c := fun h => h.2 hp
  have hsel := select_inv sinv c hclt hcS hfin (by
    intro v hv hvS _
    have hv0 : st.processed.getD v 0 = 0 := by
      by_contra hne
      exact hvS ⟨hv, hne⟩
    have := hmin v hv hv0
    omega)
  have hloop := relax_neighbors_inv hwf hnn hfit c (Or.inr rfl) (g.vtx c).edges
    { st with checked := log } _ (fun e he => he) hp hsel rfl
  obtain ⟨h1, h2, _⟩ := hloop
  refine ⟨?_, st.distances.getD c 0 + 0, ?_⟩
  · simp only [h2, List.length_set]
    exact hlen
  · simp only [h2]
    refine h1.congr (fun u => (settledOf_set _ hlen c hclt u).symm) (fun u e => ?_)
    unfold relaxedOf
    rw [settledOf_set _ hlen c hclt u]
    constructor
    · rintro (⟨hS, he⟩ | ⟨rfl, he⟩)
      · exact ⟨Or.inl hS, he⟩
      · exact ⟨Or.inr rfl, he⟩
    · rintro ⟨hS | rfl, he⟩
      · exact Or.inl ⟨hS, he⟩
      · exact Or.inr ⟨rfl, he⟩

/-- The iteration of Dijkstra's algorithm returns within `fuel` calls when `fuel` exceeds
the number of unprocessed vertices, keeps the invariant, and stops with the target
processed or with no reachable unprocessed vertex left. -/
theorem execute_dijkstra_iteration_spec {g : Graph} {s : Nat} (hwf : WellFormed g)
    (hnn : NonNegWeights g) (hfit : PathSumsFit g s) (t : Nat) (ht : t < g.size) :
    ∀ (fuel : Nat) (st : DijkstraState) (cur : Nat), DijkstraInv g s st →
      st.processed.count 0 < fuel →
      ∃ st', execute_dijkstra_iteration g t fuel st cur = some st' ∧ DijkstraInv g s st' ∧
        (settledOf g st'.processed t ∨
          ∀ x, x < g.size → ¬ settledOf g st'.processed x →
            ¬ st'.distances.getD x 0 < ULONG_MAX)
  | 0, _, _, _, hf => absurd hf (Nat.not_lt_zero _)
  | fuel + 1, st, cur, inv, hf => by
    unfold execute_dijkstra_iteration
    rcases find_minimum_distance_vertex_spec hwf st.distances st.processed cur with
      ⟨hnone, hall⟩ | ⟨c, hsome, hclt, hp, hfin, hmin, _⟩
    · cases hfm : find_minimum_distance_vertex g st.distances st.processed cur with
      | mk o idx =>
        rw [hfm] at hnone
        simp only at hnone
        subst hnone
        refine ⟨st, rfl, inv, Or.inr ?_⟩
        intro x hx hxS
        apply hall x hx
        by_contra hne
        exact hxS ⟨hx, hne⟩
    · rw [hsome]
      simp only [hwf.2.2.1 c hclt, hwf.2.2.1 t ht]
      have hinv' := dijkstra_step_inv hwf hnn hfit st c inv hclt hp hfin hmin
        (st.checked ++ [c])
      have hproc : (relax_neighbors g c c (g.vtx c).edges
          { st with checked := st.checked ++ [c] }).processed = st.processed := by
        have hcS : ¬ settledOf g st.processed c := fun h => h.2 hp
        obtain ⟨hlen, B, sinv⟩ := inv
        have hsel := select_inv sinv c hclt hcS hfin (by
          intro v hv hvS _
          have hv0 : st.processed.getD v 0 = 0 := by
            by_contra hne
            exact hvS ⟨hv, hne⟩
          have := hmin v hv hv0
          omega)
        exact (relax_neighbors_inv hwf hnn hfit c (Or.inr rfl) (g.vtx c).edges
          { st with checked := st.checked ++ [c] } _ (fun e he => he) hp hsel rfl).2.1
      split
      · rename_i hdone
        refine ⟨_, rfl, hinv', Or.inl ⟨ht, ?_⟩⟩
        simp only at hdone ⊢
        rw [hdone]
        decide
      · apply execute_dijkstra_iteration_spec hwf hnn hfit t ht fuel _ _ hinv'
        simp only [hproc]
        have := count_zero_set st.processed c (by rw [inv.1]; exact hclt) hp
        omega

/-! ## Dijkstra: path reconstruction and the main theorems -/

theorem nodup_length_le (n : Nat) (l : List Nat) (hnd : l.Nodup) (hb : ∀ a ∈ l, a < n) :
    l.length ≤ n := by
  have hsub : l ⊆ List.range n := fun a ha => List.mem_range.2 (hb a ha)
  have := (List.subperm_of_subset hnd hsub).length_le
  simpa using this

/-- The trace-back loop pushes the labels of the predecessor chain. -/
theorem reconstruct_trace_chain {g : Graph} (hwf : WellFormed g) {s : Nat} {dist : List Nat}
    {pred : List (Option Nat)} (hs : s < g.size) :
    ∀ (rp : List Nat) (x fuel : Nat) (q : List String), rp.head? = some x →
      rp.getLast? = some s → rp.Nodup → (∀ a ∈ rp, a < g.size) →
      rp.Chain' (BackLink g dist pred) → x ≠ s → rp.length ≤ fuel + 1 →
      reconstruct_trace g pred s fuel x q = some (labels g rp.tail.reverse ++ q)
  | [], _, _, _, hh, _, _, _, _, _, _ => by simp at hh
  | [a], x, _, _, hh, hl, _, _, _, hne, _ => by
    simp at hh hl
    omega
  | a :: p :: rest, x, fuel, q, hh, hl, hnd, hb, hc, hne, hlen => by
    simp at hh
    subst hh
    obtain ⟨hlink, hc'⟩ := List.chain'_cons.1 hc
    have hl' : (p :: rest).getLast? = some s := by
      simpa [List.getLast?_cons_cons] using hl
    have hplt : p < g.size := hb p (by simp)
    have halt : a < g.size := hb a (by simp)
    cases fuel with
    | zero => simp at hlen
    | succ fuel =>
      unfold reconstruct_trace
      rw [hlink.1]
      simp only [hwf.1, halt, if_true, hwf.2.2.1 p hplt, hwf.2.2.1 s hs]
      by_cases hps : p = s
      · rw [if_pos hps]
        have hrest : rest = [] := by
          cases rest with
          | nil => rfl
          | cons r rs =>
            exfalso
            have hmem : s ∈ r :: rs := by
              apply List.mem_of_mem_getLast?
              simpa [List.getLast?_cons_cons] using hl'
            have := (List.nodup_cons.1 (List.nodup_cons.1 hnd).2).1
            exact this (hps ▸ hmem)
        subst hrest
        simp [labels]
      · rw [if_neg hps]
        have ih := reconstruct_trace_chain hwf hs (p :: rest) p fuel
          ((g.vtx p).content :: q) rfl hl' (List.nodup_cons.1 hnd).2
          (fun y hy => hb y (List.mem_cons_of_mem _ hy)) hc' hps
          (by simp at hlen ⊢; omega)
        rw [ih]
        simp [labels]

/-- From a target with a predecessor chain, path reconstruction returns the labels of the
chain read from the source. -/
theorem reconstruct_shortest_path_chain {g : Graph} (hwf : WellFormed g) {s t : Nat}
    {S : Nat → Prop} {dist : List Nat} {pred : List (Option Nat)} (hs : s < g.size)
    (ht : t < g.size) (hne : s ≠ t) (rp : List Nat) (bp : BackPath g s S dist pred t rp)
    (fuel : Nat) (hfuel : g.size ≤ fuel) :
    reconstruct_shortest_path g pred s t fuel = some (labels g rp.reverse) := by
  unfold reconstruct_shortest_path
  rw [hwf.2.2.1 t ht]
  have hlen := nodup_length_le g.size rp bp.nodup bp.bound
  cases rp with
  | nil => have := bp.head; simp at this
  | cons a rest =>
    have ha : a = t := by simpa using bp.head
    subst ha
    cases rest with
    | nil =>
      have := bp.last
      simp at this
      omega
    | cons p rest =>
      have hlink := (List.chain'_cons.1 bp.chain).1
      rw [hlink.1]
      simp only
      rw [reconstruct_trace_chain hwf hs (a :: p :: rest) a fuel _ rfl bp.last bp.nodup bp.bound
        bp.chain (Ne.symm hne) (by omega)]
      simp [labels]

/-- The arrays allocated by `dijkstra_graph` satisfy the invariant. -/
theorem dijkstra_initial_inv {g : Graph} (hwf : WellFormed g) (s : Nat) (hs : s < g.size) :
    DijkstraInv g s (dijkstra_initial g s) := by
  have hidx : (g.vtx s).index = s := hwf.2.2.1 s hs
  have hn : g.nb_vertices = g.size := hwf.1
  have hproc : ∀ u, (List.replicate g.size 0).getD u 0 = 0 := fun u => getD_replicate _ _ _
  have hdist : ∀ v, v ≠ s →
      ((List.replicate g.size ULONG_MAX).set s 0).getD v 0 = ULONG_MAX ∨
      ((List.replicate g.size ULONG_MAX).set s 0).getD v 0 = 0 := by
    intro v hv
    rw [getD_set_ne _ _ _ _ _ (Ne.symm hv)]
    simp only [List.getD_eq_getElem?_getD, List.getElem?_replicate]
    split <;> simp
  have hds : ((List.replicate g.size ULONG_MAX).set s 0).getD s 0 = 0 :=
    getD_set_eq _ _ _ _ (by simpa using hs)
  unfold DijkstraInv dijkstra_initial
  simp only [hidx, hn]
  refine ⟨by simp, 0, ?_⟩
  have hS : ∀ u, ¬ settledOf g (List.replicate g.size 0) u := fun u hu => hu.2 (hproc u)
  refine
    { len_dist := by simp
      len_pred := by simp
      start_lt := hs
      start_zero := hds
      start_pred := getD_replicate _ _ _
      dist_le := ?_
      settled_lt := fun u hu => absurd hu (hS u)
      settled_fin := fun u hu => absurd hu (hS u)
      settled_le := fun u hu => absurd hu (hS u)
      open_ge := fun _ _ _ _ => Nat.zero_le _
      relaxed_settled := fun u e hC => hC.1
      relaxed := fun u e hC => absurd hC.1 (hS u)
      paths := ?_
      unreached := fun _ _ _ => getD_replicate _ _ _ }
  · intro v hv
    by_cases hvs : v = s
    · rw [hvs, hds]; exact Nat.zero_le _
    · rcases hdist v hvs with h | h <;> rw [h]
      exact Nat.zero_le _
  · intro v hv hfin
    have hvs : v = s := by
      by_contra hvs
      rw [getD_set_ne _ _ _ _ _ (Ne.symm hvs)] at hfin
      simp only [List.getD_eq_getElem?_getD, List.getElem?_replicate] at hfin
      simp [hv] at hfin
    subst hvs
    exact ⟨[v], rfl, rfl, List.nodup_singleton _, fun a ha => by simp at ha, fun a ha => by
      simp at ha; omega, List.chain'_singleton _⟩

theorem dijkstra_initial_count (g : Graph) (s : Nat) :
    (dijkstra_initial g s).processed.count 0 = g.nb_vertices := by
  simp [dijkstra_initial]

/-- State reached by the Dijkstra iterations started by `dijkstra_graph`. -/
theorem dijkstra_run {g : Graph} {s : Nat} (hwf : WellFormed g) (hnn : NonNegWeights g)
    (hfit : PathSumsFit g s) (hs : s < g.size) (t : Nat) (ht : t < g.size) (fuel : Nat)
    (hfuel : g.nb_vertices < fuel) :
    ∃ st B, execute_dijkstra_iteration g t fuel (dijkstra_initial g s) 0 = some st ∧
      SearchInv g s (fun _ => 0) (settledOf g st.processed) (relaxedOf g st.processed) B
        st.distances st.predecessor_map ∧
      (Reachable g s t → settledOf g st.processed t) := by
  obtain ⟨st, hrun, ⟨_, B, inv⟩, hend⟩ :=
    execute_dijkstra_iteration_spec hwf hnn hfit t ht fuel (dijkstra_initial g s) 0
      (dijkstra_initial_inv hwf s hs) (by rw [dijkstra_initial_count]; exact hfuel)
  refine ⟨st, B, hrun, inv, fun hr => ?_⟩
  rcases hend with h | h
  · exact h
  · exact reach_settled hwf (consistent_zero hnn) hfit inv (fun u hu e he => ⟨hu, he⟩) h t hr

theorem PathCost.le_bound {g : Graph} (M : Nat)
    (hM : ∀ i, i < g.size → ∀ e ∈ (g.vtx i).edges, e.weight ≤ M) :
    ∀ (p : List Nat) (W : Int), PathCost g p W → W + M ≤ M * p.length
  | [], _, h => by simp [PathCost] at h
  | [_], W, h => by
    simp only [PathCost] at h
    simp [h.2]
  | u :: v :: rest, W, h => by
    obtain ⟨hu, e, he, _, hrest⟩ := h
    have ih := PathCost.le_bound M hM (v :: rest) _ hrest
    have := hM u hu e he
    simp only [List.length_cons] at ih ⊢
    push_cast at ih ⊢
    linarith

/-- Path sums cannot overflow when `M` bounds every weight and `M * nb_vertices` is below
`ULONG_MAX`. -/
theorem pathSumsFit_of_bound {g : Graph} (hwf : WellFormed g) (M : Nat)
    (hM : ∀ i, i < g.size → ∀ e ∈ (g.vtx i).edges, e.weight ≤ M)
    (hov : M * g.size < ULONG_MAX) (s : Nat) : PathSumsFit g s := by
  intro p W c hp _ hl hnd e he
  have h1 := PathCost.le_bound M hM p W hp
  have hb := PathCost.bound hwf p W hp
  have h2 := nodup_length_le g.size p hnd hb
  have hc : c < g.size := hb c (List.mem_of_mem_getLast? hl)
  have h3 := hM c hc e he
  have h4 : (M : Int) * p.length ≤ M * g.size := by
    apply mul_le_mul_of_nonneg_left
    · exact_mod_cast h2
    · exact_mod_cast Nat.zero_le M
  have h5 : ((M * g.size : Nat) : Int) < (ULONG_MAX : Nat) := by exact_mod_cast hov
  push_cast at h5
  linarith

/-- The queue `dijkstra_graph` returns for a reachable target other than the start: the
labels of the predecessor chain of the target, read from the start. -/
theorem dijkstra_graph_result (g : Graph) (s t fuel : Nat) (hwf : WellFormed g)
    (hs : s < g.size) (ht : t < g.size) (hne : s ≠ t) (hnn : NonNegWeights g)
    (hfit : PathSumsFit g s) (hreach : Reachable g s t) (hfuel : g.nb_vertices < fuel) :
    ∃ (st : DijkstraState) (B : Nat) (rp : List Nat), dijkstra_graph fuel (some g) (some s) (some t)
        = some (some (labels g rp.reverse)) ∧
      SearchInv g s (fun _ => 0) (settledOf g st.processed) (relaxedOf g st.processed) B
        st.distances st.predecessor_map ∧
      settledOf g st.processed t ∧
      BackPath g s (settledOf g st.processed) st.distances st.predecessor_map t rp := by
  obtain ⟨st, B, hrun, inv, hset⟩ := dijkstra_run hwf hnn hfit hs t ht fuel hfuel
  have htS := hset hreach
  obtain ⟨rp, bp⟩ := inv.paths t ht (inv.settled_fin t htS)
  have hrec := reconstruct_shortest_path_chain hwf hs ht hne rp bp fuel
    (by have := hwf.1; omega)
  refine ⟨st, B, rp, ?_, inv, htS, bp⟩
  unfold dijkstra_graph
  simp only [hrun, hrec]
  cases hlab : labels g rp.reverse with
  | nil =>
    exfalso
    have hlen := congrArg List.length hlab
    have hh := bp.head
    cases rp with
    | nil => simp at hh
    | cons a rest => simp [labels] at hlen
  | cons front rest => rfl

/-- C1: on a well-formed graph with non-negative weights whose path sums do not overflow,
for distinct `start` and `target` with `target` reachable, `dijkstra_graph` returns (for
every fuel above the vertex count) the labels of a walk along edges from `start` to
`target` whose total weight is minimal among all walks from `start` to `target`. -/
theorem dijkstra_graph_shortest (g : Graph) (s t fuel : Nat) (hwf : WellFormed g)
    (hs : s < g.size) (ht : t < g.size) (hne : s ≠ t) (hnn : NonNegWeights g)
    (hfit : PathSumsFit g s) (hreach : Reachable g s t) (hfuel : g.nb_vertices < fuel) :
    ∃ p W, dijkstra_graph fuel (some g) (some s) (some t) = some (some (labels g p)) ∧
      WalkFromTo g s t p W ∧ ∀ p' W', WalkFromTo g s t p' W' → W ≤ W' := by
  obtain ⟨st, B, rp, hres, inv, htS, bp⟩ :=
    dijkstra_graph_result g s t fuel hwf hs ht hne hnn hfit hreach hfuel
  refine ⟨rp.reverse, st.distances.getD t 0, hres, bp.cost hwf inv.start_zero, ?_⟩
  intro p' W' hp'
  exact settled_optimal hwf (consistent_zero hnn) hfit inv (fun u hu e he => ⟨hu, he⟩) t htS
    p' W' hp'

/-- Witness for C1 on the graph A→B(1), B→D(1), A→C(5), C→D(1): the hypotheses hold and
the search from A to D returns exactly `[A, B, D]`. -/
theorem dijkstra_graph_shortest_witness :
    WellFormed exampleABCD ∧ NonNegWeights exampleABCD ∧ PathSumsFit exampleABCD 0 ∧
    Reachable exampleABCD 0 3 ∧
    dijkstra_graph 5 (some exampleABCD) (some 0) (some 3) = some (some ["A", "B", "D"]) ∧
    ∃ p W, dijkstra_graph 5 (some exampleABCD) (some 0) (some 3)
        = some (some (labels exampleABCD p)) ∧
      WalkFromTo exampleABCD 0 3 p W ∧ ∀ p' W', WalkFromTo exampleABCD 0 3 p' W' → W ≤ W' :=
  have hfit : PathSumsFit exampleABCD 0 :=
    pathSumsFit_of_bound (by decide) 5 (by decide) (by decide) 0
  have hreach : Reachable exampleABCD 0 3 :=
    ⟨[0, 1, 3], 2, ⟨by decide, ⟨1, 1⟩, by decide, rfl, by decide, ⟨3, 1⟩, by decide, rfl,
      by decide, by decide⟩, rfl, rfl⟩
  ⟨by decide, by decide, hfit, hreach, by decide,
    dijkstra_graph_shortest exampleABCD 0 3 5 (by decide) (by decide) (by decide) (by decide)
      (by decide) hfit hreach (by decide)⟩

/-- When the target cannot be reached, `dijkstra_graph` returns `NULL`. -/
theorem dijkstra_graph_unreachable (g : Graph) (s t fuel : Nat) (hwf : WellFormed g)
    (hs : s < g.size) (ht : t < g.size) (hnn : NonNegWeights g) (hfit : PathSumsFit g s)
    (hreach : ¬ Reachable g s t) (hfuel : g.nb_vertices < fuel) :
    dijkstra_graph fuel (some g) (some s) (some t) = some none := by
  obtain ⟨st, B, hrun, inv, _⟩ := dijkstra_run hwf hnn hfit hs t ht fuel hfuel
  have hinf : st.distances.getD t 0 = ULONG_MAX := by
    by_contra hne
    have hlt : st.distances.getD t 0 < ULONG_MAX :=
      lt_of_le_of_ne (inv.dist_le t ht) hne
    obtain ⟨rp, bp⟩ := inv.paths t ht hlt
    exact hreach ⟨_, _, bp.cost hwf inv.start_zero⟩
  have hpred := inv.unreached t ht hinf
  unfold dijkstra_graph
  simp only [hrun, reconstruct_shortest_path, hwf.2.2.1 t ht, hpred]

/-- When start and target are the same vertex, `dijkstra_graph` returns `NULL`. -/
theorem dijkstra_graph_same_vertex (g : Graph) (s fuel : Nat) (hwf : WellFormed g)
    (hs : s < g.size) (hnn : NonNegWeights g) (hfit : PathSumsFit g s)
    (hfuel : g.nb_vertices < fuel) :
    dijkstra_graph fuel (some g) (some s) (some s) = some none := by
  obtain ⟨st, B, hrun, inv, _⟩ := dijkstra_run hwf hnn hfit hs s hs fuel hfuel
  unfold dijkstra_graph
  simp only [hrun, reconstruct_shortest_path, hwf.2.2.1 s hs, inv.start_pred]

/-- C2 at its failing input: in the one-vertex graph the target A is reachable from the
start A by zero edges, and `dijkstra_graph` returns `NULL`. -/
theorem dijkstra_graph_same_vertex_null :
    WellFormed singleVertexGraph ∧ NonNegWeights singleVertexGraph ∧
    Reachable singleVertexGraph 0 0 ∧
    ∀ fuel, 1 < fuel →
      dijkstra_graph fuel (some singleVertexGraph) (some 0) (some 0) = some none :=
  ⟨by decide, by decide, ⟨[0], 0, ⟨by decide, rfl⟩, rfl, rfl⟩, fun fuel hfuel =>
    dijkstra_graph_same_vertex singleVertexGraph 0 fuel (by decide) (by decide) (by decide)
      (pathSumsFit_of_bound (by decide) 0 (by decide) (by decide) 0) hfuel⟩

/-! ## The `double` arithmetic of the heuristic -/

theorem bit_length_from_zero (fuel : Nat) : bit_length_from fuel 0 = 0 := by
  cases fuel <;> simp [bit_length_from]

theorem bit_length_from_spec :
    ∀ (fuel n : Nat), n ≤ fuel →
      n < 2 ^ bit_length_from fuel n ∧ (n ≠ 0 → 2 ^ bit_length_from fuel n ≤ 2 * n)
  | 0, n, h => by
    have h0 : n = 0 := by omega
    subst h0
    simp [bit_length_from]
  | fuel + 1, n, h => by
    unfold bit_length_from
    by_cases hn : n = 0
    · rw [if_pos hn]
      subst hn
      simp
    · rw [if_neg hn]
      obtain ⟨ih1, ih2⟩ := bit_length_from_spec fuel (n / 2) (by omega)
      by_cases h2 : n / 2 = 0
      · rw [h2, bit_length_from_zero]
        simp
        omega
      · have h3 := ih2 h2
        generalize bit_length_from fuel (n / 2) = b at ih1 h3
        rw [pow_succ]
        omega

/-- The number `n` has exactly `bit_length n` binary digits. -/
theorem bit_length_spec (n : Nat) :
    n < 2 ^ bit_length n ∧ (n ≠ 0 → 2 ^ bit_length n ≤ 2 * n) :=
  bit_length_from_spec n n (le_refl n)

theorem bit_length_le (n P : Nat) (h : n < 2 ^ P) : bit_length n ≤ P := by
  by_cases hn : n = 0
  · rw [hn]
    unfold bit_length
    rw [bit_length_from_zero]
    exact Nat.zero_le _
  · have h1 := (bit_length_spec n).2 hn
    by_contra hgt
    have h2 : 2 ^ (P + 1) ≤ 2 ^ bit_length n := Nat.pow_le_pow_right (by norm_num) (by omega)
    rw [pow_succ] at h2
    omega

theorem sqrt_bits_spec (n : Nat) :
    ∀ (b r : Nat), r * r ≤ n → n < (r + 2 ^ b) * (r + 2 ^ b) →
      sqrt_bits n b r * sqrt_bits n b r ≤ n ∧
      n < (sqrt_bits n b r + 1) * (sqrt_bits n b r + 1)
  | 0, r, h1, h2 => by
    simp only [pow_zero] at h2
    exact ⟨h1, h2⟩
  | b + 1, r, h1, h2 => by
    unfold sqrt_bits
    by_cases h : (r + 2 ^ b) * (r + 2 ^ b) ≤ n
    · rw [if_pos h]
      apply sqrt_bits_spec n b _ h
      have e : r + 2 ^ b + 2 ^ b = r + 2 ^ (b + 1) := by rw [pow_succ]; omega
      rw [e]
      exact h2
    · rw [if_neg h]
      exact sqrt_bits_spec n b r h1 (by omega)

/-- The value `int_sqrt n` is the integer part of the square root of `n`. -/
theorem int_sqrt_spec (n : Nat) :
    int_sqrt n * int_sqrt n ≤ n ∧ n < (int_sqrt n + 1) * (int_sqrt n + 1) := by
  unfold int_sqrt
  apply sqrt_bits_spec n (bit_length n) 0 (Nat.zero_le _)
  have h1 := (bit_length_spec n).1
  have h2 : 1 ≤ 2 ^ bit_length n := Nat.one_le_two_pow
  have h3 : 2 ^ bit_length n * 1 ≤ 2 ^ bit_length n * 2 ^ bit_length n :=
    Nat.mul_le_mul_left _ h2
  simp only [Nat.zero_add]
  omega

theorem int_sqrt_unique (n k : Nat) (h1 : k * k ≤ n) (h2 : n < (k + 1) * (k + 1)) :
    int_sqrt n = k := by
  obtain ⟨s1, s2⟩ := int_sqrt_spec n
  have a : int_sqrt n < k + 1 := by
    by_contra hge
    have : (k + 1) * (k + 1) ≤ int_sqrt n * int_sqrt n :=
      Nat.mul_le_mul (by omega) (by omega)
    omega
  have b : k < int_sqrt n + 1 := by
    by_contra hge
    have : (int_sqrt n + 1) * (int_sqrt n + 1) ≤ k * k :=
      Nat.mul_le_mul (by omega) (by omega)
    omega
  omega

theorem round_double_exact (m : Nat) (e : Int) (h : m < 9007199254740992) :
    round_double m e = ⟨m, e⟩ := by
  have hb : bit_length m ≤ 53 := bit_length_le m 53 (by norm_num; exact h)
  unfold round_double
  simp only
  rw [if_pos (by omega)]

theorem round_double_cases (m : Nat) (e : Int) :
    (bit_length m - 53 = 0 ∧ round_double m e = ⟨m, e⟩) ∨
    (0 < bit_length m - 53 ∧
      (round_double m e = ⟨m / 2 ^ (bit_length m - 53), e + (bit_length m - 53 : Nat)⟩ ∨
       round_double m e = ⟨m / 2 ^ (bit_length m - 53) + 1, e + (bit_length m - 53 : Nat)⟩)) := by
  unfold round_double
  simp only
  by_cases hk : bit_length m - 53 = 0
  · left
    rw [if_pos hk]
    exact ⟨hk, rfl⟩
  · right
    rw [if_neg hk]
    refine ⟨by omega, ?_⟩
    split
    · right; rfl
    · left; rfl

/-- Rounding keeps a value between two bounds that lie on the grid of the rounded
values. -/
theorem round_double_scaled (m : Nat) (c : Nat) (P : Nat) (hP : 53 ≤ P)
    (hlt : m * 2 ^ c < 2 ^ P) (A B : Nat) (hA : 2 ^ (P - 53) ∣ A) (hB : 2 ^ (P - 53) ∣ B)
    (hAS : A ≤ m * 2 ^ c) (hSB : m * 2 ^ c < B) :
    ((c : Int) - 55 ≤ (round_double m ((c : Int) - 55)).exp) ∧
    ((round_double m ((c : Int) - 55)).exp + 55 ≤ max (c : Int) ((P - 53 : Nat) : Int)) ∧
    A ≤ scaled (round_double m ((c : Int) - 55)) ∧
    scaled (round_double m ((c : Int) - 55)) ≤ B := by
  rcases round_double_cases m ((c : Int) - 55) with ⟨_, hr⟩ | ⟨hk, hr⟩
  · rw [hr]
    unfold scaled
    simp only
    have e1 : ((c : Int) - 55 + 55).toNat = c := by omega
    rw [e1]
    exact ⟨le_refl _, by omega, hAS, le_of_lt hSB⟩
  · have hm0 : m ≠ 0 := by
      intro h0
      rw [h0] at hk
      unfold bit_length at hk
      rw [bit_length_from_zero] at hk
      omega
    have hlow := (bit_length_spec m).2 hm0
    -- the number of dropped bits is bounded by `P`
    have hck : c + (bit_length m - 53) ≤ P - 53 := by
      by_contra hgt
      have h1 : 2 ^ (P + 1) ≤ 2 ^ (bit_length m + c) :=
        Nat.pow_le_pow_right (by norm_num) (by omega)
      have h2 : 2 ^ bit_length m * 2 ^ c ≤ 2 * m * 2 ^ c := Nat.mul_le_mul_right _ hlow
      have h4 : 2 * 2 ^ P ≤ 2 * (m * 2 ^ c) :=
        calc 2 * 2 ^ P = 2 ^ (P + 1) := by ring
          _ ≤ 2 ^ (bit_length m + c) := h1
          _ = 2 ^ bit_length m * 2 ^ c := pow_add _ _ _
          _ ≤ 2 * m * 2 ^ c := h2
          _ = 2 * (m * 2 ^ c) := by ring
      linarith
    generalize bit_length m - 53 = k at hk hr hck
    have hG : 2 ^ (c + k) ∣ 2 ^ (P - 53) := pow_dvd_pow 2 hck
    obtain ⟨a, ha⟩ := dvd_trans hG hA
    obtain ⟨b, hb⟩ := dvd_trans hG hB
    have hpos : 0 < 2 ^ c := Nat.two_pow_pos c
    have hposk : 0 < 2 ^ k := Nat.two_pow_pos k
    have haq : a ≤ m / 2 ^ k := by
      rw [Nat.le_div_iff_mul_le hposk]
      have : 2 ^ c * (a * 2 ^ k) ≤ 2 ^ c * m := by
        have e : 2 ^ c * (a * 2 ^ k) = 2 ^ (c + k) * a := by rw [pow_add]; ring
        rw [e, ← ha, Nat.mul_comm (2 ^ c) m]
        exact hAS
      exact Nat.le_of_mul_le_mul_left this hpos
    have hqb : m / 2 ^ k < b := by
      rw [Nat.div_lt_iff_lt_mul hposk]
      have : 2 ^ c * m < 2 ^ c * (b * 2 ^ k) := by
        have e : 2 ^ c * (b * 2 ^ k) = 2 ^ (c + k) * b := by rw [pow_add]; ring
        rw [e, ← hb, Nat.mul_comm (2 ^ c) m]
        exact hSB
      exact Nat.lt_of_mul_lt_mul_left this
    have e1 : ((c : Int) - 55 + (k : Int) + 55).toNat = c + k := by omega
    rcases hr with hr | hr <;> rw [hr] <;> unfold scaled <;> simp only <;> rw [e1]
    · refine ⟨by omega, by omega, ?_, ?_⟩
      · rw [ha, Nat.mul_comm]
        exact Nat.mul_le_mul_right _ haq
      · rw [hb, Nat.mul_comm]
        exact Nat.mul_le_mul_left _ (le_of_lt hqb)
    · refine ⟨by omega, by omega, ?_, ?_⟩
      · rw [ha, Nat.mul_comm]
        exact Nat.mul_le_mul_right _ (by omega)
      · rw [hb, Nat.mul_comm]
        exact Nat.mul_le_mul_left _ hqb

/-- The root of `N * 4 ^ 54`, for `N` below `2 ^ 50`, lies between `k * 2 ^ 54` and
`(k + 1) * 2 ^ 54 - 2 ^ 28`, where `k` is the integer part of the root of `N`. -/
theorem scaled_root_bounds (N k : Nat) (h1 : k * k ≤ N) (h2 : N < (k + 1) * (k + 1))
    (hk : k + 1 ≤ 33554432) :
    k * 18014398509481984 ≤ int_sqrt (N * 4 ^ 54) ∧
    int_sqrt (N * 4 ^ 54) + 268435456 < (k + 1) * 18014398509481984 := by
  obtain ⟨s1, s2⟩ := int_sqrt_spec (N * 4 ^ 54)
  generalize int_sqrt (N * 4 ^ 54) = r at s1 s2
  have e108 : (4 : Nat) ^ 54 = 18014398509481984 * 18014398509481984 := by norm_num
  rw [e108] at s1 s2
  constructor
  · by_contra hlt
    have h3 : r + 1 ≤ k * 18014398509481984 := by omega
    have h4 : (r + 1) * (r + 1) ≤ (k * 18014398509481984) * (k * 18014398509481984) :=
      Nat.mul_le_mul h3 h3
    have h5 : (k * 18014398509481984) * (k * 18014398509481984) =
        (k * k) * (18014398509481984 * 18014398509481984) := by ring
    have h6 : (k * k) * (18014398509481984 * 18014398509481984) ≤
        N * (18014398509481984 * 18014398509481984) := Nat.mul_le_mul_right _ h1
    omega
  · by_contra hge
    obtain ⟨U, hU⟩ : ∃ U, (k + 1) * 18014398509481984 = U + 268435456 :=
      ⟨(k + 1) * 18014398509481984 - 268435456, by omega⟩
    have hUr : U ≤ r := by omega
    have h3 : U * U ≤ r * r := Nat.mul_le_mul hUr hUr
    have h4 : (U + 268435456) * (U + 268435456) =
        ((k + 1) * (k + 1)) * (18014398509481984 * 18014398509481984) := by
      rw [← hU]
      ring
    have h5 : (U + 268435456) * (U + 268435456) =
        U * U + 536870912 * U + 72057594037927936 := by ring
    have h6 : (N + 1) * (18014398509481984 * 18014398509481984) ≤
        ((k + 1) * (k + 1)) * (18014398509481984 * 18014398509481984) :=
      Nat.mul_le_mul_right _ h2
    have h7 : (N + 1) * (18014398509481984 * 18014398509481984) =
        N * (18014398509481984 * 18014398509481984) +
          324518553658426726783156020576256 := by ring
    have h8 : U + 268435456 ≤ 33554432 * 18014398509481984 := by
      rw [← hU]
      exact Nat.mul_le_mul_right _ hk
    generalize U * U = UU at h3 h5
    generalize N * (18014398509481984 * 18014398509481984) = NN at s1 h7
    generalize r * r = rr at s1 h3
    omega

theorem size_of_double_scaled (d : Double) (h1 : -55 ≤ d.exp) (h2 : d.exp < 0) :
    size_of_double d = scaled d / 2 ^ 55 % 18446744073709551616 := by
  unfold size_of_double scaled
  rw [if_neg (by omega)]
  obtain ⟨j, hj⟩ : ∃ j : Nat, d.exp = -(j : Int) := ⟨(-d.exp).toNat, by omega⟩
  have hj55 : j ≤ 55 := by omega
  have e1 : (-d.exp).toNat = j := by omega
  have e2 : (d.exp + 55).toNat = 55 - j := by omega
  rw [e1, e2]
  have e3 : (2 : Nat) ^ 55 = 2 ^ j * 2 ^ (55 - j) := by
    rw [← pow_add]
    congr 1
    omega
  rw [e3, Nat.mul_div_mul_right _ _ (Nat.two_pow_pos _)]

/-- A difference that fits an `int` is not reduced. -/
theorem int_diff_eq (a b : Int) (h1 : -2147483648 ≤ a - b) (h2 : a - b < 2147483648) :
    int_diff a b = a - b := by
  unfold int_diff
  omega

/-- The `double` that the macro `h` computes, for coordinate differences of at most
`2 ^ 24` and a `pow` that is exact on squares: it is at least the integer part `k` of the
Euclidean distance and at most `k + 1 - 2 ^ -26`. -/
theorem h_bounds {pow : Int → Nat → Double} (hpow : ExactSquares pow) (x1 y1 x2 y2 : Int)
    (hx : (x2 - x1).natAbs ≤ 16777216) (hy : (y2 - y1).natAbs ≤ 16777216) :
    -55 ≤ (h pow x1 y1 x2 y2).exp ∧ (h pow x1 y1 x2 y2).exp ≤ -28 ∧
    int_sqrt ((x2 - x1).natAbs * (x2 - x1).natAbs + (y2 - y1).natAbs * (y2 - y1).natAbs) *
        36028797018963968 ≤ scaled (h pow x1 y1 x2 y2) ∧
    scaled (h pow x1 y1 x2 y2) + 536870912 ≤
      (int_sqrt ((x2 - x1).natAbs * (x2 - x1).natAbs +
        (y2 - y1).natAbs * (y2 - y1).natAbs) + 1) * 36028797018963968 := by
  have hxx : (x2 - x1).natAbs * (x2 - x1).natAbs ≤ 16777216 * 16777216 :=
    Nat.mul_le_mul hx hx
  have hyy : (y2 - y1).natAbs * (y2 - y1).natAbs ≤ 16777216 * 16777216 :=
    Nat.mul_le_mul hy hy
  have ha := hpow (x2 - x1) (by omega)
  have hb := hpow (y2 - y1) (by omega)
  generalize (x2 - x1).natAbs * (x2 - x1).natAbs = a at hxx ha
  generalize (y2 - y1).natAbs * (y2 - y1).natAbs = b at hyy hb
  have hsum : double_add ⟨a, 0⟩ ⟨b, 0⟩ = ⟨a + b, 0⟩ := by
    unfold double_add
    simp only [min_self, sub_self, Int.toNat_zero, pow_zero, Nat.mul_one]
    exact round_double_exact _ _ (by omega)
  obtain ⟨k1, k2⟩ := int_sqrt_spec (a + b)
  have hk : int_sqrt (a + b) + 1 ≤ 33554432 := by
    by_contra hgt
    have h3 : 33554432 * 33554432 ≤ int_sqrt (a + b) * int_sqrt (a + b) :=
      Nat.mul_le_mul (by omega) (by omega)
    omega
  obtain ⟨r1, r2⟩ := scaled_root_bounds (a + b) (int_sqrt (a + b)) k1 k2 hk
  generalize int_sqrt (a + b) = k at k1 k2 hk r1 r2
  have hroot : h pow x1 y1 x2 y2 =
      round_double (2 * int_sqrt ((a + b) * 4 ^ 54) +
        (if int_sqrt ((a + b) * 4 ^ 54) * int_sqrt ((a + b) * 4 ^ 54) = (a + b) * 4 ^ 54
          then 0 else 1)) (((0 : Nat) : Int) - 55) := by
    unfold h
    rw [int_diff_eq x2 x1 (by omega) (by omega), int_diff_eq y2 y1 (by omega) (by omega),
      ha, hb, hsum]
    unfold double_sqrt
    simp
  rw [hroot]
  generalize int_sqrt ((a + b) * 4 ^ 54) = r at r1 r2
  have hs : (if r * r = (a + b) * 4 ^ 54 then 0 else 1) ≤ 1 := by split <;> omega
  generalize (if r * r = (a + b) * 4 ^ 54 then 0 else 1) = s at hs
  have hdA : 2 ^ (80 - 53) ∣ k * 36028797018963968 :=
    Dvd.intro (k * 268435456) (by norm_num; ring)
  have hdB : 2 ^ (80 - 53) ∣ (k + 1) * 36028797018963968 - 536870912 :=
    Nat.dvd_sub' (Dvd.intro ((k + 1) * 268435456) (by norm_num; ring))
      (Dvd.intro 4 (by norm_num))
  have hres := round_double_scaled (2 * r + s) 0 80 (by norm_num)
    (by norm_num; omega) (k * 36028797018963968)
    ((k + 1) * 36028797018963968 - 536870912) hdA hdB (by norm_num; omega)
    (by norm_num; omega)
  obtain ⟨e1, e2, e3, e4⟩ := hres
  refine ⟨by simpa using e1, ?_, e3, by omega⟩
  have : max (((0 : Nat) : Int)) (((80 - 53 : Nat) : Nat) : Int) = 27 := by norm_num
  rw [this] at e2
  omega

/-- The integer part of a `double` between `k` and `k + 1 - 2 ^ -26`. -/
theorem size_of_double_floor (d : Double) (k : Nat) (h1 : -55 ≤ d.exp) (h2 : d.exp < 0)
    (hA : k * 36028797018963968 ≤ scaled d)
    (hB : scaled d < (k + 1) * 36028797018963968) (hk : k < 18446744073709551616) :
    size_of_double d = k := by
  rw [size_of_double_scaled d h1 h2]
  have e55 : (2 : Nat) ^ 55 = 36028797018963968 := by norm_num
  rw [e55]
  omega

/-- The sum of a score `g` and a `double` between `k` and `k + 1 - 2 ^ -26`, converted to
`size_t`, is `g + k` when `g + k + 1` is at most `2 ^ 26`: the rounding of the sum does
not reach the next integer. -/
theorem size_of_double_sum (g k : Nat) (d : Double) (h1 : -55 ≤ d.exp) (h2 : d.exp ≤ -28)
    (hA : k * 36028797018963968 ≤ scaled d)
    (hB : scaled d + 536870912 ≤ (k + 1) * 36028797018963968)
    (hg : g + k + 1 ≤ 67108864) :
    size_of_double (double_add (double_of_size g) d) = g + k := by
  obtain ⟨c, hc⟩ : ∃ c : Nat, d.exp = (c : Int) - 55 := ⟨(d.exp + 55).toNat, by omega⟩
  have hc27 : c ≤ 27 := by omega
  have hg0 : double_of_size g = ⟨g, 0⟩ := round_double_exact g 0 (by omega)
  have hsc : scaled d = d.mant * 2 ^ c := by
    unfold scaled
    congr 2
    omega
  have hadd : double_add (double_of_size g) d =
      round_double (g * 2 ^ (55 - c) + d.mant) ((c : Int) - 55) := by
    rw [hg0]
    unfold double_add
    simp only
    have e1 : min (0 : Int) d.exp = (c : Int) - 55 := by omega
    rw [e1]
    have e2 : ((0 : Int) - ((c : Int) - 55)).toNat = 55 - c := by omega
    have e3 : (d.exp - ((c : Int) - 55)).toNat = 0 := by omega
    rw [e2, e3, pow_zero, Nat.mul_one]
  have hS : (g * 2 ^ (55 - c) + d.mant) * 2 ^ c = g * 36028797018963968 + scaled d := by
    rw [hsc, Nat.add_mul, Nat.mul_assoc, ← pow_add]
    have : 55 - c + c = 55 := by omega
    rw [this]
    norm_num
  have hdA : 2 ^ (81 - 53) ∣ (g + k) * 36028797018963968 :=
    Dvd.intro ((g + k) * 134217728) (by norm_num; ring)
  have hdB : 2 ^ (81 - 53) ∣ (g + k + 1) * 36028797018963968 - 268435456 :=
    Nat.dvd_sub' (Dvd.intro ((g + k + 1) * 134217728) (by norm_num; ring))
      (Dvd.intro 1 (by norm_num))
  obtain ⟨e1, e2, e3, e4⟩ := round_double_scaled (g * 2 ^ (55 - c) + d.mant) c 81
    (by norm_num) (by rw [hS]; norm_num; omega) ((g + k) * 36028797018963968)
    ((g + k + 1) * 36028797018963968 - 268435456) hdA hdB (by rw [hS]; omega)
    (by rw [hS]; omega)
  rw [hadd]
  have hmax : max (c : Int) (((81 - 53 : Nat) : Nat) : Int) = 28 := by
    have : (((81 - 53 : Nat) : Nat) : Int) = 28 := by norm_num
    rw [this]
    omega
  rw [hmax] at e2
  exact size_of_double_floor _ (g + k) (by omega) (by omega) e3 (by omega) (by omega)

/-- With a `pow` that is exact on squares and coordinates of at most `2 ^ 23` in absolute
value, the heuristic the code stores is the integer part of the Euclidean distance. -/
theorem heuristic_eq_int_sqrt {pow : Int → Nat → Double} (hpow : ExactSquares pow)
    {g : Graph} (hco : CoordinatesFit g) (t v : Nat) (ht : t < g.size) (hv : v < g.size) :
    heuristic pow g t v =
      int_sqrt (((g.vtx t).x - (g.vtx v).x).natAbs * ((g.vtx t).x - (g.vtx v).x).natAbs +
        ((g.vtx t).y - (g.vtx v).y).natAbs * ((g.vtx t).y - (g.vtx v).y).natAbs) := by
  obtain ⟨a1, a2, a3, a4⟩ := hco t ht
  obtain ⟨b1, b2, b3, b4⟩ := hco v hv
  obtain ⟨e1, e2, e3, e4⟩ := h_bounds hpow (g.vtx v).x (g.vtx v).y (g.vtx t).x (g.vtx t).y
    (by omega) (by omega)
  unfold heuristic
  apply size_of_double_floor _ _ e1 (by omega) e3 (by omega)
  have := int_sqrt_spec (((g.vtx t).x - (g.vtx v).x).natAbs *
    ((g.vtx t).x - (g.vtx v).x).natAbs +
    ((g.vtx t).y - (g.vtx v).y).natAbs * ((g.vtx t).y - (g.vtx v).y).natAbs)
  generalize int_sqrt _ = k at this e3 e4
  by_contra hge
  have hxx : ((g.vtx t).x - (g.vtx v).x).natAbs * ((g.vtx t).x - (g.vtx v).x).natAbs ≤
      16777216 * 16777216 := Nat.mul_le_mul (by omega) (by omega)
  have hyy : ((g.vtx t).y - (g.vtx v).y).natAbs * ((g.vtx t).y - (g.vtx v).y).natAbs ≤
      16777216 * 16777216 := Nat.mul_le_mul (by omega) (by omega)
  have h3 : 18446744073709551616 * 18446744073709551616 ≤ k * k :=
    Nat.mul_le_mul (by omega) (by omega)
  omega

/-- With a `pow` that is exact on squares and coordinates of at most `2 ^ 23` in absolute
value, the value stored by `f_score = g_score + h(...)` is the score plus the stored
heuristic, as long as this sum is below `2 ^ 26`. -/
theorem f_score_of_exact {pow : Int → Nat → Double} (hpow : ExactSquares pow)
    {g : Graph} (hco : CoordinatesFit g) (t v : Nat) (ht : t < g.size) (hv : v < g.size)
    (score : Nat) (hs : score + heuristic pow g t v < 67108864) :
    f_score_of pow g t score v = score + heuristic pow g t v := by
  rw [heuristic_eq_int_sqrt hpow hco t v ht hv] at hs ⊢
  obtain ⟨a1, a2, a3, a4⟩ := hco t ht
  obtain ⟨b1, b2, b3, b4⟩ := hco v hv
  obtain ⟨e1, e2, e3, e4⟩ := h_bounds hpow (g.vtx v).x (g.vtx v).y (g.vtx t).x (g.vtx t).y
    (by omega) (by omega)
  unfold f_score_of
  exact size_of_double_sum score _ _ e1 e2 e3 e4 (by omega)

theorem exactSquares_pow_nearest : ExactSquares pow_nearest := by
  intro d hd
  unfold pow_nearest
  rw [pow_two]
  exact round_double_exact _ _ hd

/-! ## A*: what the predecessor array records -/

theorem min_score_scan_eq (n : Nat) (g_score visited : List Nat) :
    min_score_scan n g_score visited = min_distance_scan n g_score visited := rfl

theorem locate_or_last_eq (idx : Nat) :
    ∀ (l : List Vertex) (pos : Nat),
      (∀ i, i < l.length → (l.getD i default).index = pos + i) →
      pos ≤ idx → idx < pos + l.length → locate_or_last idx l pos = idx
  | [], pos, _, h1, h2 => by simp at h2; omega
  | [v], pos, _, h1, h2 => by
    simp at h2
    unfold locate_or_last
    omega
  | v :: w :: rest, pos, hidx, h1, h2 => by
    unfold locate_or_last
    have hv : v.index = pos := by
      have := hidx 0 (by simp)
      simpa using this
    by_cases hEq : v.index = idx
    · rw [if_pos hEq, ← hEq, hv]
    · rw [if_neg hEq]
      apply locate_or_last_eq idx (w :: rest) (pos + 1)
      · intro i hi
        have := hidx (i + 1) (by simp at hi ⊢; omega)
        simp only [List.getD_cons_succ] at this
        omega
      · omega
      · simp at h2 ⊢; omega

/-- Result of `get_min_g_score` on a well-formed graph. -/
theorem get_min_g_score_spec {g : Graph} (hwf : WellFormed g)
    (scores visited : List Nat) (index : Nat) :
    ((get_min_g_score g scores visited index).1 = none ∧
      ∀ j, j < g.size → visited.getD j 0 = 0 → ¬ scores.getD j 0 < ULONG_MAX) ∨
    (∃ c, get_min_g_score g scores visited index = (some c, c) ∧
      c < g.size ∧ visited.getD c 0 = 0 ∧ scores.getD c 0 < ULONG_MAX ∧
      (∀ j, j < g.size → visited.getD j 0 = 0 → scores.getD c 0 ≤ scores.getD j 0) ∧
      (∀ j, j < c → visited.getD j 0 = 0 → scores.getD c 0 < scores.getD j 0)) := by
  unfold get_min_g_score
  have hsize : g.nb_vertices = g.size := hwf.1
  cases hv : g.vertices with
  | nil =>
    left
    refine ⟨rfl, ?_⟩
    intro j hj
    unfold Graph.size at hj
    rw [hv] at hj
    simp at hj
  | cons v rest =>
    simp only [min_score_scan_eq]
    rcases min_distance_scan_spec scores visited g.nb_vertices hwf.2.1 with
      ⟨heq, hall⟩ | ⟨h1, h2, h3, h4, h5, h6⟩
    · left
      rw [heq]
      simp only [if_true]
      refine ⟨trivial, ?_⟩
      intro j hj
      exact hall j (by omega)
    · right
      have hne : (min_distance_scan g.nb_vertices scores visited).2 ≠ ULONG_MAX := by
        have := hwf.2.1
        omega
      rw [if_neg hne]
      refine ⟨(min_distance_scan g.nb_vertices scores visited).2, ?_, by omega, h2,
        by omega, ?_, ?_⟩
      · rw [← hv, locate_or_last_eq _ g.vertices 0 ?_ (by omega)
          (by unfold Graph.size at hsize; omega)]
        intro i hi
        have := hwf.2.2.1 i hi
        unfold Graph.vtx at this
        omega
      · intro j hj hp
        have := h5 j (by omega) hp
        omega
      · intro j hj hp
        have := h6 j hj hp
        omega

theorem getD_set_cases {α : Type} (l : List α) (i j : Nat) (v d : α) :
    ((l.set i v).getD j d = v ∧ i = j ∧ i < l.length) ∨
    ((l.set i v).getD j d = l.getD j d ∧ (i ≠ j ∨ l.length ≤ i)) := by
  by_cases h : i = j
  · subst h
    by_cases hlt : i < l.length
    · left; exact ⟨getD_set_eq l i v d hlt, rfl, hlt⟩
    · right
      refine ⟨?_, Or.inr (by omega)⟩
      have hnone : l[i]? = none := List.getElem?_eq_none (by omega)
      simp [List.getD_eq_getElem?_getD, List.getElem?_set, hlt, hnone]
  · right; exact ⟨getD_set_ne l i j v d h, Or.inl h⟩

/-- The edge loop of `recursive_a_star` keeps the predecessor links sound. -/
theorem a_star_neighbors_links (pow : Int → Nat → Double) {g : Graph} {s : Nat} (hwf : WellFormed g) (t c : Nat)
    (hc : c < g.size) :
    ∀ (es : List Edge) (st : AStarState), (∀ e ∈ es, e ∈ (g.vtx c).edges) →
      AStarLinks g s st → (c = s ∨ st.came_from.getD c none ≠ none) →
      AStarLinks g s (a_star_neighbors pow g t c c es st) ∧
      (a_star_neighbors pow g t c c es st).visited = st.visited
  | [], st, _, inv, _ => ⟨inv, rfl⟩
  | e :: rest, st, hes, inv, hcs => by
    have he : e ∈ (g.vtx c).edges := hes e (by simp)
    have hdlt : e.dest < g.size := hwf.2.2.2.1 c hc e he
    have hdest : (g.vtx e.dest).index = e.dest := hwf.2.2.1 _ hdlt
    unfold a_star_neighbors
    split
    · simp only [hdest]
      split
      · rename_i hgt
        have hds : e.dest ≠ s := by
          intro hEq
          rw [hEq, inv.g_start] at hgt
          omega
        have hcf : ∀ v, st.came_from.getD v none ≠ none →
            (st.came_from.set e.dest (some c)).getD v none ≠ none := by
          intro v hv
          rcases getD_set_cases st.came_from e.dest v (some c) none with ⟨h1, _⟩ | ⟨h1, _⟩
          · rw [h1]; simp
          · rw [h1]; exact hv
        have inv' : AStarLinks g s
            { st with
              came_from := st.came_from.set e.dest (some c)
              g_score := st.g_score.set e.dest (size_add (st.g_score.getD c 0) e.weight)
              f_score := st.f_score.set e.dest
                (f_score_of pow g t (size_add (st.g_score.getD c 0) e.weight) e.dest) } := by
          refine
            { len_visited := inv.len_visited
              len_came := by simp only [List.length_set]; exact inv.len_came
              len_f := by simp only [List.length_set]; exact inv.len_f
              len_g := by simp only [List.length_set]; exact inv.len_g
              g_start := by
                simp only
                rw [getD_set_ne _ _ _ _ _ hds]
                exact inv.g_start
              came_start := by
                simp only
                rw [getD_set_ne _ _ _ _ _ hds]
                exact inv.came_start
              came_edge := ?_
              f_finite := ?_ }
          · intro v u hvu
            simp only at hvu ⊢
            rcases getD_set_cases st.came_from e.dest v (some c) none with
              ⟨h1, h2, _⟩ | ⟨h1, _⟩
            · rw [h1] at hvu
              have hu : c = u := by simpa using hvu
              subst hu
              refine ⟨hc, ⟨e, he, h2⟩, ?_⟩
              rcases hcs with h | h
              · exact Or.inl h
              · exact Or.inr (hcf _ h)
            · rw [h1] at hvu
              obtain ⟨a1, a2, a3⟩ := inv.came_edge v u hvu
              refine ⟨a1, a2, ?_⟩
              rcases a3 with h | h
              · exact Or.inl h
              · exact Or.inr (hcf _ h)
          · intro v hv hfin
            simp only at hfin ⊢
            by_cases hEq : e.dest = v
            · right
              rw [← hEq, getD_set_eq _ _ _ _ (by rw [inv.len_came]; exact hdlt)]
              simp
            · rw [getD_set_ne _ _ _ _ _ hEq] at hfin
              rcases inv.f_finite v hv hfin with h | h
              · exact Or.inl h
              · exact Or.inr (hcf _ h)
        have ih := a_star_neighbors_links pow hwf t c hc rest _
          (fun e' he' => hes e' (List.mem_cons_of_mem _ he')) inv'
          (by
            rcases hcs with h | h
            · exact Or.inl h
            · exact Or.inr (hcf _ h))
        exact ⟨ih.1, ih.2⟩
      · exact a_star_neighbors_links pow hwf t c hc rest st
          (fun e' he' => hes e' (List.mem_cons_of_mem _ he')) inv hcs
    · exact ⟨inv, rfl⟩

/-- Every state returned by `recursive_a_star` has sound predecessor links. -/
theorem recursive_a_star_links (pow : Int → Nat → Double) {g : Graph} {s : Nat} (hwf : WellFormed g) (t : Nat) :
    ∀ (fuel : Nat) (st : AStarState) (idx : Nat) (st' : AStarState), AStarLinks g s st →
      recursive_a_star pow g t fuel st idx = some st' → AStarLinks g s st'
  | 0, _, _, _, _, h => by simp [recursive_a_star] at h
  | fuel + 1, st, idx, st', inv, hrun => by
    unfold recursive_a_star at hrun
    rcases get_min_g_score_spec hwf st.f_score st.visited idx with
      ⟨hnone, _⟩ | ⟨c, hsome, hclt, hp, hfin, _, _⟩
    · cases hfm : get_min_g_score g st.f_score st.visited idx with
      | mk o i =>
        rw [hfm] at hnone hrun
        simp only at hnone
        subst hnone
        simp only [Option.some.injEq] at hrun
        rw [← hrun]
        exact inv
    · rw [hsome] at hrun
      simp only [hwf.2.2.1 c hclt] at hrun
      have hcs := inv.f_finite c hclt hfin
      have inv0 : AStarLinks g s
          { st with
            f_score := st.f_score.set c (heuristic pow g t c)
            checked := st.checked ++ [c] } := by
        refine
          { len_visited := inv.len_visited
            len_came := inv.len_came
            len_f := by simp only [List.length_set]; exact inv.len_f
            len_g := inv.len_g
            g_start := inv.g_start
            came_start := inv.came_start
            came_edge := inv.came_edge
            f_finite := ?_ }
        intro v hv hfin'
        simp only at hfin' ⊢
        by_cases hEq : c = v
        · rw [← hEq]; exact hcs
        · rw [getD_set_ne _ _ _ _ _ hEq] at hfin'
          exact inv.f_finite v hv hfin'
      obtain ⟨inv1, _⟩ := a_star_neighbors_links pow hwf t c hclt (g.vtx c).edges _
        (fun e he => he) inv0 hcs
      have inv2 : AStarLinks g s
          { a_star_neighbors pow g t c c (g.vtx c).edges
              { st with
                f_score := st.f_score.set c (heuristic pow g t c)
                checked := st.checked ++ [c] } with
            visited := (a_star_neighbors pow g t c c (g.vtx c).edges
              { st with
                f_score := st.f_score.set c (heuristic pow g t c)
                checked := st.checked ++ [c] }).visited.set c 1 } :=
        { len_visited := by simp only [List.length_set]; exact inv1.len_visited
          len_came := inv1.len_came
          len_f := inv1.len_f
          len_g := inv1.len_g
          g_start := inv1.g_start
          came_start := inv1.came_start
          came_edge := inv1.came_edge
          f_finite := inv1.f_finite }
      split at hrun
      · simp only [Option.some.injEq] at hrun
        rw [← hrun]
        exact inv2
      · exact recursive_a_star_links pow hwf t fuel _ _ st' inv2 hrun

theorem initialize_a_star_links (pow : Int → Nat → Double) {g : Graph} (hwf : WellFormed g) (s t : Nat) (hs : s < g.size) :
    AStarLinks g s (initialize_a_star pow g s t) := by
  have hidx : (g.vtx s).index = s := hwf.2.2.1 s hs
  have hn : g.nb_vertices = g.size := hwf.1
  unfold initialize_a_star
  simp only [hidx, hn]
  refine
    { len_visited := by simp
      len_came := by simp
      len_f := by simp
      len_g := by simp
      g_start := getD_set_eq _ _ _ _ (by simpa using hs)
      came_start := getD_replicate _ _ _
      came_edge := ?_
      f_finite := ?_ }
  · intro v u hvu
    simp only at hvu
    rw [getD_replicate] at hvu
    simp at hvu
  · intro v hv hfin
    simp only at hfin
    by_cases hEq : s = v
    · exact Or.inl hEq.symm
    · rw [getD_set_ne _ _ _ _ _ hEq] at hfin
      simp only [List.getD_eq_getElem?_getD, List.getElem?_replicate] at hfin
      simp [hv] at hfin

/-! ## A*: the returned sequence is a walk from start to target -/

theorem reconstruct_path_loop_eq (g : Graph) (came_from : List (Option Nat)) (s : Nat) :
    ∀ (fuel i : Nat) (q : List String),
      reconstruct_path_loop g came_from s fuel i q = reconstruct_trace g came_from s fuel i q
  | 0, _, _ => rfl
  | fuel + 1, i, q => by
    unfold reconstruct_path_loop reconstruct_trace
    cases came_from.getD i none with
    | none => rfl
    | some p =>
      simp only
      split
      · split
        · rfl
        · exact reconstruct_path_loop_eq g came_from s fuel _ _
      · rfl

theorem reconstruct_path_eq (g : Graph) (came_from : List (Option Nat)) (s t fuel : Nat) :
    reconstruct_path g came_from s t fuel = reconstruct_shortest_path g came_from s t fuel := by
  unfold reconstruct_path reconstruct_shortest_path
  cases came_from.getD (g.vtx t).index none with
  | none => rfl
  | some p => exact reconstruct_path_loop_eq g came_from s fuel _ _

/-- Whenever the trace-back loop of `reconstruct_path` returns, it has pushed the labels
of a walk that starts at the start vertex and leads to the vertex it was started on. -/
theorem reconstruct_path_loop_walk {g : Graph} {s : Nat} {st : AStarState}
    (hwf : WellFormed g) (hs : s < g.size) (inv : AStarLinks g s st) :
    ∀ (fuel cur : Nat) (acc q : List String), cur < g.size →
      st.came_from.getD cur none ≠ none →
      reconstruct_path_loop g st.came_from s fuel cur acc = some q →
      ∃ p, q = labels g p ++ acc ∧ p.head? = some s ∧ (p ++ [cur]).Chain' (Adjacent g)
  | 0, _, _, _, _, _, h => by simp [reconstruct_path_loop] at h
  | fuel + 1, cur, acc, q, hcur, hcf, hrun => by
    unfold reconstruct_path_loop at hrun
    cases hp : st.came_from.getD cur none with
    | none => exact absurd hp hcf
    | some u =>
      rw [hp] at hrun
      obtain ⟨hu, hadj, hnext⟩ := inv.came_edge cur u hp
      simp only [hwf.1, hcur, if_true, hwf.2.2.1 u hu, hwf.2.2.1 s hs] at hrun
      by_cases hus : u = s
      · rw [if_pos hus] at hrun
        simp only [Option.some.injEq] at hrun
        refine ⟨[u], ?_, by simp [hus], ?_⟩
        · rw [← hrun]; rfl
        · simpa using hadj
      · rw [if_neg hus] at hrun
        have hcfu : st.came_from.getD u none ≠ none := by
          rcases hnext with h | h
          · exact absurd h hus
          · exact h
        obtain ⟨p, hq, hh, hchain⟩ :=
          reconstruct_path_loop_walk hwf hs inv fuel u _ q hu hcfu hrun
        refine ⟨p ++ [u], ?_, ?_, ?_⟩
        · rw [hq]; simp [labels]
        · cases p with
          | nil => simp at hh
          | cons a rest => simpa using hh
        · rw [List.chain'_append]
          refine ⟨hchain, List.chain'_singleton _, ?_⟩
          intro x hx y hy
          simp at hx hy
          subst hx; subst hy
          exact hadj

/-- C4: whatever the library function `pow` returns, on a well-formed graph (with any edge
weights, so in particular non-negative ones), every non-empty sequence returned by `a_star_graph` is the label sequence of a
vertex sequence that begins with the start vertex, ends with the target vertex and whose
consecutive vertices are joined by edges; so its first label is the start's and its last
label the target's. -/
theorem a_star_graph_walk (pow : Int → Nat → Double) (g : Graph) (s t fuel : Nat) (q : List String)
    (hwf : WellFormed g) (hs : s < g.size) (ht : t < g.size)
    (hres : a_star_graph pow fuel (some g) (some s) (some t) = some (some q)) :
    q.head? = some (g.vtx s).content ∧ q.getLast? = some (g.vtx t).content ∧
    ∃ p, q = labels g p ∧ p.head? = some s ∧ p.getLast? = some t ∧
      p.Chain' (Adjacent g) := by
  unfold a_star_graph at hres
  simp only at hres
  cases hrun : recursive_a_star pow g t fuel (initialize_a_star pow g s t) 0 with
  | none => rw [hrun] at hres; simp at hres
  | some st =>
    rw [hrun] at hres
    simp only at hres
    have inv := recursive_a_star_links pow hwf t fuel _ _ st (initialize_a_star_links pow hwf s t hs) hrun
    unfold reconstruct_path at hres
    rw [hwf.2.2.1 t ht] at hres
    cases hcf : st.came_from.getD t none with
    | none =>
      rw [hcf] at hres
      simp at hres
    | some u =>
      rw [hcf] at hres
      simp only at hres
      cases hloop : reconstruct_path_loop g st.came_from s fuel t [(g.vtx t).content] with
      | none => rw [hloop] at hres; simp at hres
      | some q' =>
        rw [hloop] at hres
        obtain ⟨p, hq, hh, hchain⟩ := reconstruct_path_loop_walk hwf hs inv fuel t _ q' ht
          (by rw [hcf]; simp) hloop
        have hqq : q' = q := by
          cases q' with
          | nil =>
            cases p with
            | nil => simp at hh
            | cons a rest => simp [labels] at hq
          | cons front rest => simpa using hres
        subst hqq
        have hq' : q' = labels g (p ++ [t]) := by rw [hq]; simp [labels]
        have hhead : (p ++ [t]).head? = some s := by
          cases p with
          | nil => simp at hh
          | cons a rest => simpa using hh
        refine ⟨?_, ?_, p ++ [t], hq', hhead, by simp, hchain⟩
        · rw [hq']
          cases p with
          | nil => simp at hh
          | cons a rest =>
            simp only [List.head?_cons, Option.some.injEq] at hh
            simp [labels, hh]
        · rw [hq']
          simp [labels]

set_option maxRecDepth 100000 in
/-- Witness for C4: on the example graph `a_star_graph` returns `[A, B, D]` from A to D. -/
theorem a_star_graph_walk_witness :
    a_star_graph pow_nearest 5 (some exampleABCD) (some 0) (some 3) = some (some ["A", "B", "D"]) ∧
    (["A", "B", "D"].head? = some (exampleABCD.vtx 0).content ∧
      ["A", "B", "D"].getLast? = some (exampleABCD.vtx 3).content ∧
      ∃ p, ["A", "B", "D"] = labels exampleABCD p ∧ p.head? = some 0 ∧
        p.getLast? = some 3 ∧ p.Chain' (Adjacent exampleABCD)) :=
  ⟨by decide, a_star_graph_walk pow_nearest exampleABCD 0 3 5 ["A", "B", "D"] (by decide) (by decide)
    (by decide) (by decide)⟩

/-! ## A*: optimality under a consistent heuristic -/

theorem FScores.congr_settled {pow : Int → Nat → Double} {g : Graph} {t : Nat} {S S' : Nat → Prop} {f gs : List Nat}
    (hf : FScores pow g t S f gs) (hS : ∀ u, S u ↔ S' u) : FScores pow g t S' f gs := by
  have h1 : S = S' := funext fun u => propext (hS u)
  rw [← h1]
  exact hf

/-- The edge loop of one A* iteration keeps the search invariant on `g_score` and
`came_from`, keeps `f_score` in step with `g_score`, and relaxes every edge it walks over. -/
theorem a_star_neighbors_inv {pow : Int → Nat → Double} {g : Graph} {s t : Nat} {S : Nat → Prop} {B : Nat}
    (hwf : WellFormed g) (hnn : NonNegWeights g) (hcons : Consistent g (heuristic pow g t))
    (hfit : ScoresFit pow g s t) (c : Nat) (hc : S c) :
    ∀ (es : List Edge) (st : AStarState) (C : Nat → Edge → Prop),
      (∀ e ∈ es, e ∈ (g.vtx c).edges) → st.visited.getD c 0 = 0 →
      SearchInv g s (heuristic pow g t) S C B st.g_score st.came_from →
      st.g_score.getD c 0 + heuristic pow g t c = B →
      FScores pow g t S st.f_score st.g_score → st.f_score.length = g.size →
      SearchInv g s (heuristic pow g t) S (fun u e' => C u e' ∨ (u = c ∧ e' ∈ es)) B
        (a_star_neighbors pow g t c c es st).g_score (a_star_neighbors pow g t c c es st).came_from ∧
      FScores pow g t S (a_star_neighbors pow g t c c es st).f_score
        (a_star_neighbors pow g t c c es st).g_score ∧
      (a_star_neighbors pow g t c c es st).visited = st.visited ∧
      (a_star_neighbors pow g t c c es st).f_score.length = g.size
  | [], st, C, _, _, inv, _, hf, hlen => by
    refine ⟨inv.congr (fun _ => Iff.rfl) (fun u e => ?_), hf, rfl, hlen⟩
    simp
  | e :: rest, st, C, hes, hp, inv, hB, hf, hlen => by
    have he : e ∈ (g.vtx c).edges := hes e (by simp)
    have hclt : c < g.size := inv.settled_lt c hc
    have hdlt : e.dest < g.size := hwf.2.2.2.1 c hclt e he
    have hdest : (g.vtx e.dest).index = e.dest := hwf.2.2.1 _ hdlt
    have hstep := relax_edge_inv hwf hcons hnn hfit.1 inv c hc hB e he
    have hkeep := relax_edge_settled_eq hwf hcons hnn hfit.1 inv c hc hB e he c hc
    unfold a_star_neighbors
    rw [if_pos hp]
    simp only [hdest]
    by_cases hgt : st.g_score.getD e.dest 0 > size_add (st.g_score.getD c 0) e.weight
    · simp only [if_pos hgt] at hstep hkeep ⊢
      have hf' : FScores pow g t S
          (st.f_score.set e.dest (f_score_of pow g t (size_add (st.g_score.getD c 0) e.weight) e.dest))
          (st.g_score.set e.dest (size_add (st.g_score.getD c 0) e.weight)) := by
        intro v hv hvS
        by_cases hEq : e.dest = v
        · subst hEq
          have e1 := getD_set_eq st.f_score e.dest
            (f_score_of pow g t (size_add (st.g_score.getD c 0) e.weight) e.dest) 0
            (by rw [hlen]; exact hdlt)
          have e2 := getD_set_eq st.g_score e.dest (size_add (st.g_score.getD c 0) e.weight) 0
            (by rw [inv.len_dist]; exact hdlt)
          have hpath := hstep.paths e.dest hdlt
          rw [e2] at hpath
          rw [e1, e2]
          refine ⟨fun hfin => ?_, fun hmax => ?_⟩
          · obtain ⟨rp, bp⟩ := hpath hfin
            have hwalk := bp.cost hwf hstep.start_zero
            rw [e2] at hwalk
            have := (hfit.2 _ _ e.dest hwalk.1 hwalk.2.1 hwalk.2.2
              (List.nodup_reverse.2 bp.nodup)).2
            simpa using this
          · have := inv.dist_le e.dest hdlt
            omega
        · rw [getD_set_ne _ _ _ _ _ hEq, getD_set_ne _ _ _ _ _ hEq]
          exact hf v hv hvS
      have ih := a_star_neighbors_inv hwf hnn hcons hfit c hc rest
        { st with
          came_from := st.came_from.set e.dest (some c)
          g_score := st.g_score.set e.dest (size_add (st.g_score.getD c 0) e.weight)
          f_score := st.f_score.set e.dest
            (f_score_of pow g t (size_add (st.g_score.getD c 0) e.weight) e.dest) }
        _ (fun e' he' => hes e' (List.mem_cons_of_mem _ he')) hp hstep
        (by simp only; rw [hkeep]; exact hB) hf'
        (by simp only [List.length_set]; exact hlen)
      refine ⟨ih.1.congr (fun _ => Iff.rfl) (fun u e' => ?_), ih.2.1, ih.2.2.1, ih.2.2.2⟩
      simp only [List.mem_cons]
      constructor
      · rintro ((h | ⟨h1, h2⟩) | ⟨h1, h2⟩)
        · exact Or.inl h
        · exact Or.inr ⟨h1, Or.inl h2⟩
        · exact Or.inr ⟨h1, Or.inr h2⟩
      · rintro (h | ⟨h1, h2 | h2⟩)
        · exact Or.inl (Or.inl h)
        · exact Or.inl (Or.inr ⟨h1, h2⟩)
        · exact Or.inr ⟨h1, h2⟩
    · simp only [if_neg hgt] at hstep hkeep ⊢
      have ih := a_star_neighbors_inv hwf hnn hcons hfit c hc rest st _
        (fun e' he' => hes e' (List.mem_cons_of_mem _ he')) hp hstep hB hf hlen
      refine ⟨ih.1.congr (fun _ => Iff.rfl) (fun u e' => ?_), ih.2.1, ih.2.2.1, ih.2.2.2⟩
      simp only [List.mem_cons]
      constructor
      · rintro ((h | ⟨h1, h2⟩) | ⟨h1, h2⟩)
        · exact Or.inl h
        · exact Or.inr ⟨h1, Or.inl h2⟩
        · exact Or.inr ⟨h1, Or.inr h2⟩
      · rintro (h | ⟨h1, h2 | h2⟩)
        · exact Or.inl (Or.inl h)
        · exact Or.inl (Or.inr ⟨h1, h2⟩)
        · exact Or.inr ⟨h1, h2⟩

/-- One full A* iteration: settle the selected vertex and relax its edges. -/
theorem a_star_step_inv {pow : Int → Nat → Double} {g : Graph} {s t : Nat} (hwf : WellFormed g) (hnn : NonNegWeights g)
    (hcons : Consistent g (heuristic pow g t)) (hfit : ScoresFit pow g s t) (st : AStarState)
    (c : Nat) (inv : AStarInv pow g s t st) (hclt : c < g.size) (hp : st.visited.getD c 0 = 0)
    (hfin : st.f_score.getD c 0 < ULONG_MAX)
    (hmin : ∀ j, j < g.size → st.visited.getD j 0 = 0 →
      st.f_score.getD c 0 ≤ st.f_score.getD j 0) (log : List Nat) :
    AStarInv pow g s t
      { a_star_neighbors pow g t c c (g.vtx c).edges
          { st with f_score := st.f_score.set c (heuristic pow g t c), checked := log } with
        visited := (a_star_neighbors pow g t c c (g.vtx c).edges
          { st with f_score := st.f_score.set c (heuristic pow g t c),
                    checked := log }).visited.set c 1 } ∧
    (a_star_neighbors pow g t c c (g.vtx c).edges
      { st with f_score := st.f_score.set c (heuristic pow g t c),
                checked := log }).visited = st.visited := by
  obtain ⟨hlenv, hlenf, ⟨B, sinv⟩, hf⟩ := inv
  have hcS : ¬ settledOf g st.visited c := fun h => h.2 hp
  have hgfin : st.g_score.getD c 0 < ULONG_MAX := by
    by_contra hne
    have hmax : st.g_score.getD c 0 = ULONG_MAX := by
      have := sinv.dist_le c hclt
      omega
    have := (hf c hclt hcS).2 hmax
    omega
  have hfc := (hf c hclt hcS).1 hgfin
  have hsel := select_inv sinv c hclt hcS hgfin (by
    intro v hv hvS hvfin
    have hv0 : st.visited.getD v 0 = 0 := by
      by_contra hne
      exact hvS ⟨hv, hne⟩
    have := hmin v hv hv0
    have := (hf v hv hvS).1 hvfin
    omega)
  have hf0 : FScores pow g t (fun u => settledOf g st.visited u ∨ u = c)
      (st.f_score.set c (heuristic pow g t c)) st.g_score := by
    intro v hv hvS
    have hvc : c ≠ v := fun hEq => hvS (Or.inr hEq.symm)
    rw [getD_set_ne _ _ _ _ _ hvc]
    exact hf v hv (fun h => hvS (Or.inl h))
  have hloop := a_star_neighbors_inv hwf hnn hcons hfit c (Or.inr rfl) (g.vtx c).edges
    { st with f_score := st.f_score.set c (heuristic pow g t c), checked := log } _
    (fun e he => he) hp hsel rfl hf0 (by simp only [List.length_set]; exact hlenf)
  obtain ⟨h1, h2, h3, h4⟩ := hloop
  refine ⟨⟨?_, h4, ⟨st.g_score.getD c 0 + heuristic pow g t c, ?_⟩, ?_⟩, h3⟩
  · simp only [h3, List.length_set]
    exact hlenv
  · simp only [h3]
    refine h1.congr (fun u => (settledOf_set _ hlenv c hclt u).symm) (fun u e => ?_)
    unfold relaxedOf
    rw [settledOf_set _ hlenv c hclt u]
    constructor
    · rintro (⟨hS, he⟩ | ⟨rfl, he⟩)
      · exact ⟨Or.inl hS, he⟩
      · exact ⟨Or.inr rfl, he⟩
    · rintro ⟨hS | rfl, he⟩
      · exact Or.inl ⟨hS, he⟩
      · exact Or.inr ⟨rfl, he⟩
  · simp only [h3]
    exact h2.congr_settled (fun u => (settledOf_set _ hlenv c hclt u).symm)

/-- The A* recursion returns within `fuel` calls when `fuel` exceeds the number of
unvisited vertices, keeps the invariant, and stops with the target visited or with no
reachable unvisited vertex left. -/
theorem recursive_a_star_spec {pow : Int → Nat → Double} {g : Graph} {s : Nat} (hwf : WellFormed g)
    (hnn : NonNegWeights g) (t : Nat) (ht : t < g.size)
    (hcons : Consistent g (heuristic pow g t)) (hfit : ScoresFit pow g s t) :
    ∀ (fuel : Nat) (st : AStarState) (idx : Nat), AStarInv pow g s t st →
      st.visited.count 0 < fuel →
      ∃ st', recursive_a_star pow g t fuel st idx = some st' ∧ AStarInv pow g s t st' ∧
        (settledOf g st'.visited t ∨
          ∀ x, x < g.size → ¬ settledOf g st'.visited x →
            ¬ st'.g_score.getD x 0 < ULONG_MAX)
  | 0, _, _, _, hf => absurd hf (Nat.not_lt_zero _)
  | fuel + 1, st, idx, inv, hfuel => by
    unfold recursive_a_star
    rcases get_min_g_score_spec hwf st.f_score st.visited idx with
      ⟨hnone, hall⟩ | ⟨c, hsome, hclt, hp, hfin, hmin, _⟩
    · cases hfm : get_min_g_score g st.f_score st.visited idx with
      | mk o i =>
        rw [hfm] at hnone
        simp only at hnone
        subst hnone
        refine ⟨st, rfl, inv, Or.inr ?_⟩
        intro x hx hxS hgfin
        obtain ⟨_, _, ⟨B, sinv⟩, hf⟩ := inv
        have hx0 : st.visited.getD x 0 = 0 := by
          by_contra hne
          exact hxS ⟨hx, hne⟩
        apply hall x hx hx0
        rw [(hf x hx hxS).1 hgfin]
        obtain ⟨rp, bp⟩ := sinv.paths x hx hgfin
        have hwalk := bp.cost hwf sinv.start_zero
        have := (hfit.2 _ _ x hwalk.1 hwalk.2.1 hwalk.2.2 (List.nodup_reverse.2 bp.nodup)).1
        omega
    · rw [hsome]
      simp only [hwf.2.2.1 c hclt, hwf.2.2.1 t ht]
      obtain ⟨hinv', hvis⟩ := a_star_step_inv hwf hnn hcons hfit st c inv hclt hp hfin hmin
        (st.checked ++ [c])
      split
      · rename_i hdone
        refine ⟨_, rfl, hinv', Or.inl ⟨ht, ?_⟩⟩
        simp only at hdone ⊢
        rw [hdone]
        decide
      · apply recursive_a_star_spec hwf hnn t ht hcons hfit fuel _ _ hinv'
        simp only [hvis]
        have := count_zero_set st.visited c (by rw [inv.1]; exact hclt) hp
        omega

/-- The arrays set up by `initialize_a_star` satisfy the invariant. -/
theorem initialize_a_star_inv {pow : Int → Nat → Double} {g : Graph} (hwf : WellFormed g) (s t : Nat) (hs : s < g.size) :
    AStarInv pow g s t (initialize_a_star pow g s t) := by
  obtain ⟨_, B, hinv⟩ := dijkstra_initial_inv hwf s hs
  have hidx : (g.vtx s).index = s := hwf.2.2.1 s hs
  have hn : g.nb_vertices = g.size := hwf.1
  unfold dijkstra_initial at hinv
  simp only [hidx, hn] at hinv
  unfold AStarInv initialize_a_star
  simp only [hidx, hn]
  have hS : ∀ u, ¬ settledOf g (List.replicate g.size 0) u :=
    fun u hu => hu.2 (getD_replicate _ _ _)
  refine ⟨by simp, by simp, ⟨0, ?_⟩, ?_⟩
  · exact
      { len_dist := hinv.len_dist
        len_pred := hinv.len_pred
        start_lt := hinv.start_lt
        start_zero := hinv.start_zero
        start_pred := hinv.start_pred
        dist_le := hinv.dist_le
        settled_lt := fun u hu => absurd hu (hS u)
        settled_fin := fun u hu => absurd hu (hS u)
        settled_le := fun u hu => absurd hu (hS u)
        open_ge := fun _ _ _ _ => Nat.zero_le _
        relaxed_settled := fun u e hC => hC.1
        relaxed := fun u e hC => absurd hC.1 (hS u)
        paths := hinv.paths
        unreached := hinv.unreached }
  · intro v hv _
    by_cases hEq : s = v
    · subst hEq
      have e1 := getD_set_eq (List.replicate g.size ULONG_MAX) s (heuristic pow g t s) 0
        (by simpa using hv)
      have e2 := getD_set_eq (List.replicate g.size ULONG_MAX) s 0 0 (by simpa using hv)
      rw [e1, e2]
      refine ⟨fun _ => by omega, fun h => ?_⟩
      unfold ULONG_MAX at h
      omega
    · rw [getD_set_ne _ _ _ _ _ hEq, getD_set_ne _ _ _ _ _ hEq]
      simp only [List.getD_eq_getElem?_getD, List.getElem?_replicate]
      simp [hv]

/-- State reached by the A* iterations started by `a_star_graph`. -/
theorem a_star_run {pow : Int → Nat → Double} {g : Graph} {s : Nat} (hwf : WellFormed g) (hnn : NonNegWeights g)
    (hs : s < g.size) (t : Nat) (ht : t < g.size) (hcons : Consistent g (heuristic pow g t))
    (hfit : ScoresFit pow g s t) (fuel : Nat) (hfuel : g.nb_vertices < fuel) :
    ∃ st B, recursive_a_star pow g t fuel (initialize_a_star pow g s t) 0 = some st ∧
      SearchInv g s (heuristic pow g t) (settledOf g st.visited) (relaxedOf g st.visited) B
        st.g_score st.came_from ∧
      (Reachable g s t → settledOf g st.visited t) := by
  obtain ⟨st, hrun, ⟨_, _, ⟨B, inv⟩, _⟩, hend⟩ :=
    recursive_a_star_spec hwf hnn t ht hcons hfit fuel (initialize_a_star pow g s t) 0
      (initialize_a_star_inv hwf s t hs) (by simp [initialize_a_star]; exact hfuel)
  refine ⟨st, B, hrun, inv, fun hr => ?_⟩
  rcases hend with h | h
  · exact h
  · exact reach_settled hwf hcons hfit.1 inv (fun u hu e he => ⟨hu, he⟩) h t hr

/-- With a consistent heuristic `a_star_graph` returns the labels of a walk of least
total weight. -/
theorem a_star_graph_shortest {pow : Int → Nat → Double} (g : Graph) (s t fuel : Nat) (hwf : WellFormed g)
    (hs : s < g.size) (ht : t < g.size) (hne : s ≠ t) (hnn : NonNegWeights g)
    (hcons : Consistent g (heuristic pow g t)) (hfit : ScoresFit pow g s t)
    (hreach : Reachable g s t) (hfuel : g.nb_vertices < fuel) :
    ∃ p W, a_star_graph pow fuel (some g) (some s) (some t) = some (some (labels g p)) ∧
      WalkFromTo g s t p W ∧ ∀ p' W', WalkFromTo g s t p' W' → W ≤ W' := by
  obtain ⟨st, B, hrun, inv, hset⟩ := a_star_run hwf hnn hs t ht hcons hfit fuel hfuel
  have htS := hset hreach
  obtain ⟨rp, bp⟩ := inv.paths t ht (inv.settled_fin t htS)
  have hrec := reconstruct_shortest_path_chain hwf hs ht hne rp bp fuel
    (by have := hwf.1; omega)
  refine ⟨rp.reverse, st.g_score.getD t 0, ?_, bp.cost hwf inv.start_zero, ?_⟩
  · unfold a_star_graph
    simp only [hrun, reconstruct_path_eq, hrec]
    cases hlab : labels g rp.reverse with
    | nil =>
      exfalso
      have hlen := congrArg List.length hlab
      have hh := bp.head
      cases rp with
      | nil => simp at hh
      | cons a rest => simp [labels] at hlen
    | cons front rest => rfl
  · intro p' W' hp'
    exact settled_optimal hwf hcons hfit.1 inv (fun u hu e he => ⟨hu, he⟩) t htS p' W' hp'

/-! ## A* against Dijkstra -/

theorem labels_injective {g : Graph} (hwf : WellFormed g) :
    ∀ (p q : List Nat), (∀ a ∈ p, a < g.size) → (∀ a ∈ q, a < g.size) →
      labels g p = labels g q → p = q
  | [], [], _, _, _ => rfl
  | [], _ :: _, _, _, h => by simp [labels] at h
  | _ :: _, [], _, _, h => by simp [labels] at h
  | a :: p, b :: q, hp, hq, h => by
    simp only [labels, List.map_cons, List.cons.injEq] at h
    have hab : a = b := hwf.2.2.2.2.2 a (hp a (by simp)) b (hq b (by simp)) h.1
    have := labels_injective hwf p q (fun x hx => hp x (List.mem_cons_of_mem _ hx))
      (fun x hx => hq x (List.mem_cons_of_mem _ hx)) h.2
    rw [hab, this]

set_option maxRecDepth 100000 in
/-- The heuristic of `inconsistentGraph` towards T never exceeds the remaining cost. -/
theorem inconsistentGraph_admissible :
    Admissible inconsistentGraph 4 (heuristic pow_nearest inconsistentGraph 4) := by
  intro v p W hw
  have hwf : WellFormed inconsistentGraph := by decide
  have hpot : Consistent inconsistentGraph (fun u => [22, 21, 20, 20, 0].getD u 0) := by
    unfold Consistent
    decide
  have h1 := PathCost.heuristic_le hpot p W v 4 hw.1 hw.2.1 hw.2.2
  have hv : v < 5 := PathCost.bound hwf p W hw.1 v (List.mem_of_mem_head? hw.2.1)
  have h2 : ∀ u, u < 5 →
      heuristic pow_nearest inconsistentGraph 4 u ≤ [22, 21, 20, 20, 0].getD u 0 := by decide
  have h3 := h2 v hv
  simp only [List.getD_cons_succ, List.getD_cons_zero] at h1
  omega

set_option maxRecDepth 100000 in
/-- Counterexample to C3 as stated: on `inconsistentGraph` the weights are non-negative,
the heuristic is admissible and T is reachable from S, yet `a_star_graph` returns
`[S, Y, T]` (weight 25) while `dijkstra_graph` returns `[S, A, X, T]` (weight 22), so the
two returned paths do not have the same total weight. -/
theorem a_star_admissible_not_shortest :
    WellFormed inconsistentGraph ∧ NonNegWeights inconsistentGraph ∧
    Admissible inconsistentGraph 4 (heuristic pow_nearest inconsistentGraph 4) ∧
    Reachable inconsistentGraph 0 4 ∧
    a_star_graph pow_nearest 6 (some inconsistentGraph) (some 0) (some 4) = some (some ["S", "Y", "T"]) ∧
    dijkstra_graph 6 (some inconsistentGraph) (some 0) (some 4)
      = some (some ["S", "A", "X", "T"]) ∧
    ¬ SameWeight pow_nearest inconsistentGraph 0 4 6 := by
  have hwf : WellFormed inconsistentGraph := by decide
  have hA : a_star_graph pow_nearest 6 (some inconsistentGraph) (some 0) (some 4)
      = some (some ["S", "Y", "T"]) := by decide
  have hD : dijkstra_graph 6 (some inconsistentGraph) (some 0) (some 4)
      = some (some ["S", "A", "X", "T"]) := by decide
  refine ⟨hwf, by decide, inconsistentGraph_admissible, ?_, hA, hD, ?_⟩
  · exact ⟨[0, 3, 4], 25, ⟨by decide, ⟨3, 5⟩, by decide, rfl, by decide, ⟨4, 20⟩, by decide,
      rfl, by decide, by decide⟩, rfl, rfl⟩
  · rintro ⟨pA, pD, W, hpA, hpD, hwA, hwD⟩
    rw [hA] at hpA
    rw [hD] at hpD
    simp only [Option.some.injEq] at hpA hpD
    have eA : pA = [0, 3, 4] := by
      apply labels_injective hwf _ _ (PathCost.bound hwf pA W hwA.1) (by decide)
      rw [← hpA]; decide
    have eD : pD = [0, 1, 2, 4] := by
      apply labels_injective hwf _ _ (PathCost.bound hwf pD W hwD.1) (by decide)
      rw [← hpD]; decide
    have cA := hwA.1
    have cD := hwD.1
    rw [eA] at cA
    rw [eD] at cD
    simp [PathCost, Graph.vtx, inconsistentGraph] at cA cD
    omega

/-- C3, amended: whatever the library function `pow` returns, on a well-formed graph with
non-negative weights whose stored heuristic (the `double` value of `h` converted to
`size_t`) is consistent (it never exceeds the stored heuristic of an edge's destination
plus the edge's weight) and whose path sums and priorities neither overflow nor are
rounded by the `double` addition `g_score + h`, for distinct `start` and `target` with
`target` reachable, `a_star_graph` and `dijkstra_graph` both return walks from `start` to
`target` of the same total weight, the least over all such walks. -/
theorem a_star_matches_dijkstra (pow : Int → Nat → Double) (g : Graph) (s t fuel : Nat) (hwf : WellFormed g)
    (hs : s < g.size) (ht : t < g.size) (hne : s ≠ t) (hnn : NonNegWeights g)
    (hcons : Consistent g (heuristic pow g t)) (hfit : ScoresFit pow g s t)
    (hreach : Reachable g s t) (hfuel : g.nb_vertices < fuel) :
    ∃ pA pD W,
      a_star_graph pow fuel (some g) (some s) (some t) = some (some (labels g pA)) ∧
      dijkstra_graph fuel (some g) (some s) (some t) = some (some (labels g pD)) ∧
      WalkFromTo g s t pA W ∧ WalkFromTo g s t pD W ∧
      ∀ p' W', WalkFromTo g s t p' W' → W ≤ W' := by
  obtain ⟨pA, WA, hA, hwA, hminA⟩ :=
    a_star_graph_shortest g s t fuel hwf hs ht hne hnn hcons hfit hreach hfuel
  obtain ⟨st, B, rp, hD, inv, htS, bp⟩ :=
    dijkstra_graph_result g s t fuel hwf hs ht hne hnn hfit.1 hreach hfuel
  have hwD := bp.cost hwf inv.start_zero
  have h1 := hminA _ _ hwD
  have h2 := settled_optimal hwf (consistent_zero hnn) hfit.1 inv
    (fun u hu e he => ⟨hu, he⟩) t htS pA WA hwA
  have hEq : (st.distances.getD t 0 : Int) = WA := le_antisymm h2 h1
  rw [hEq] at hwD
  exact ⟨pA, rp.reverse, WA, hA, hD, hwA, hwD, hminA⟩

/-- Priorities neither overflow nor are rounded when `pow` is exact on squares, every
coordinate is at most `2 ^ 23` in absolute value, `M` bounds every weight and every stored
heuristic value, and `M * (nb_vertices + 1)` is below `2 ^ 26`. -/
theorem scoresFit_of_bound {pow : Int → Nat → Double} {g : Graph} (hpow : ExactSquares pow)
    (hwf : WellFormed g) (hco : CoordinatesFit g) (M : Nat) (t : Nat) (ht : t < g.size)
    (hM : ∀ i, i < g.size → ∀ e ∈ (g.vtx i).edges, e.weight ≤ M)
    (hH : ∀ i, i < g.size → heuristic pow g t i ≤ M)
    (hov : M * (g.size + 1) < 67108864) (s : Nat) : ScoresFit pow g s t := by
  have hov' : M * g.size < ULONG_MAX := by
    have : M * g.size ≤ M * (g.size + 1) := Nat.mul_le_mul_left _ (Nat.le_succ _)
    unfold ULONG_MAX
    omega
  refine ⟨pathSumsFit_of_bound hwf M hM hov' s, ?_⟩
  intro p W c hp _ hl hnd
  have h1 := PathCost.le_bound M hM p W hp
  have hb := PathCost.bound hwf p W hp
  have h2 := nodup_length_le g.size p hnd hb
  have hc : c < g.size := hb c (List.mem_of_mem_getLast? hl)
  have h3 := hH c hc
  have h4 : (M : Int) * p.length ≤ M * g.size := by
    apply mul_le_mul_of_nonneg_left
    · exact_mod_cast h2
    · exact_mod_cast Nat.zero_le M
  have h5 : ((M * (g.size + 1) : Nat) : Int) < 67108864 := by exact_mod_cast hov
  have h6 : ((heuristic pow g t c : Nat) : Int) ≤ M := by exact_mod_cast h3
  have h7 : (0 : Int) ≤ M := by exact_mod_cast Nat.zero_le M
  push_cast at h5
  have h8 : W + heuristic pow g t c < 67108864 := by linarith
  constructor
  · unfold ULONG_MAX
    push_cast
    linarith
  · apply f_score_of_exact hpow hco t c ht hc
    have h9 : M ≤ M * (g.size + 1) := Nat.le_mul_of_pos_right _ (Nat.succ_pos _)
    have h10 : M < 67108864 := by omega
    clear h1 h4 h5 hov hov' h9
    omega

set_option maxRecDepth 100000 in
/-- Witness for the amended C3 on `planarGraph`, whose heuristic towards D is consistent:
both searches return `[A, B, D]`. -/
theorem a_star_matches_dijkstra_witness :
    WellFormed planarGraph ∧ NonNegWeights planarGraph ∧
    Consistent planarGraph (heuristic pow_nearest planarGraph 3) ∧ ScoresFit pow_nearest planarGraph 0 3 ∧
    Reachable planarGraph 0 3 ∧
    a_star_graph pow_nearest 5 (some planarGraph) (some 0) (some 3) = some (some ["A", "B", "D"]) ∧
    ∃ pA pD W,
      a_star_graph pow_nearest 5 (some planarGraph) (some 0) (some 3) = some (some (labels planarGraph pA)) ∧
      dijkstra_graph 5 (some planarGraph) (some 0) (some 3)
        = some (some (labels planarGraph pD)) ∧
      WalkFromTo planarGraph 0 3 pA W ∧ WalkFromTo planarGraph 0 3 pD W ∧
      ∀ p' W', WalkFromTo planarGraph 0 3 p' W' → W ≤ W' :=
  have hcons : Consistent planarGraph (heuristic pow_nearest planarGraph 3) := by
    unfold Consistent
    decide
  have hfit : ScoresFit pow_nearest planarGraph 0 3 :=
    scoresFit_of_bound exactSquares_pow_nearest (by decide) (by decide) 5 3 (by decide)
      (by decide) (by decide) (by decide) 0
  have hreach : Reachable planarGraph 0 3 :=
    ⟨[0, 1, 3], 7, ⟨by decide, ⟨1, 3⟩, by decide, rfl, by decide, ⟨3, 4⟩, by decide, rfl,
      by decide, by decide⟩, rfl, rfl⟩
  ⟨by decide, by decide, hcons, hfit, hreach, by decide,
    a_star_matches_dijkstra pow_nearest planarGraph 0 3 5 (by decide) (by decide) (by decide) (by decide)
      (by decide) hcons hfit hreach (by decide)⟩

set_option maxRecDepth 100000 in
/-- Beyond the coordinate bound the `double` arithmetic shows: on `distantGraph` the
integer part of the distance from P to T is 1547066860, the stored heuristic of P is
1547066861, which is more than the weight of the edge P→T, and `a_star_graph` returns
`[S, T]` of weight 1547066862 where `dijkstra_graph` returns `[S, P, T]` of weight
1547066861. -/
theorem a_star_distant_rounding :
    int_sqrt (1070842441 * 1070842441 + 1116562734 * 1116562734) = 1547066860 ∧
    heuristic pow_nearest distantGraph 1 2 = 1547066861 ∧
    ¬ Consistent distantGraph (heuristic pow_nearest distantGraph 1) ∧
    a_star_graph pow_nearest 4 (some distantGraph) (some 0) (some 1) = some (some ["S", "T"]) ∧
    dijkstra_graph 4 (some distantGraph) (some 0) (some 1) = some (some ["S", "P", "T"]) := by
  refine ⟨by decide, by decide, ?_, by decide, by decide⟩
  unfold Consistent
  decide

set_option maxRecDepth 100000 in
/-- Within the range of `int` a stored sum can be rounded: on `roundedGraph` the weights
are non-negative, the stored heuristic towards T is consistent, hence admissible, and no
path sum overflows, but the `double` sum `536870912 + h(P)` is stored as 570417154, one
more than `536870912 + 33546241`; the priorities of T and P tie, `a_star_graph` returns
`[S, T]` of weight 570417154 and `dijkstra_graph` returns `[S, P, T]` of weight
570417153. -/
theorem a_star_rounded_sum :
    WellFormed roundedGraph ∧ NonNegWeights roundedGraph ∧
    Consistent roundedGraph (heuristic pow_nearest roundedGraph 1) ∧
    Admissible roundedGraph 1 (heuristic pow_nearest roundedGraph 1) ∧
    heuristic pow_nearest roundedGraph 1 2 = 33546241 ∧
    f_score_of pow_nearest roundedGraph 1 536870912 2 = 570417154 ∧
    a_star_graph pow_nearest 4 (some roundedGraph) (some 0) (some 1) = some (some ["S", "T"]) ∧
    dijkstra_graph 4 (some roundedGraph) (some 0) (some 1) = some (some ["S", "P", "T"]) := by
  have hcons : Consistent roundedGraph (heuristic pow_nearest roundedGraph 1) := by
    unfold Consistent
    decide
  refine ⟨by decide, by decide, hcons, ?_, by decide, by decide, by decide, by decide⟩
  intro v p W hw
  have h1 := PathCost.heuristic_le hcons p W v 1 hw.1 hw.2.1 hw.2.2
  have h0 : heuristic pow_nearest roundedGraph 1 1 = 0 := by decide
  rw [h0] at h1
  omega

/-! ## Grid backtracking: the returned queue is a path -/

theorem is_position_valid_ne_zero (map : List (List Char)) (visited : List (List Int))
    (x y rows cols : Int) :
    is_position_valid map visited x y rows cols ≠ 0 ↔
      Walkable map rows cols ⟨x, y⟩ ∧ visited_at visited x y ≠ 1 := by
  unfold is_position_valid Walkable InBounds
  by_cases h1 : x < 0 ∨ y < 0 ∨ x ≥ cols ∨ y ≥ rows
  · rw [if_pos h1]
    simp only [ne_eq, not_true_eq_false, false_iff]
    omega
  · rw [if_neg h1]
    by_cases h2 : map_at map x y = '1' ∨ visited_at visited x y = 1
    · rw [if_pos h2]
      simp only [ne_eq, not_true_eq_false, false_iff]
      tauto
    · rw [if_neg h2]
      simp only [ne_eq, one_ne_zero, not_false_eq_true, true_iff]
      refine ⟨⟨by omega, ?_⟩, ?_⟩ <;> tauto

theorem visited_at_replicate (r c : Nat) (x y : Int) :
    visited_at (List.replicate r (List.replicate c 0)) x y = 0 := by
  unfold visited_at
  simp only [List.getD_eq_getElem?_getD, List.getElem?_replicate]
  split_ifs <;> simp [List.getElem?_replicate]
  split_ifs <;> simp

theorem setup_directions_eq :
    setup_directions.take NUM_DIRECTIONS = [⟨1, 0⟩, ⟨0, 1⟩, ⟨-1, 0⟩, ⟨0, -1⟩] := by decide

theorem direction_step (x y : Int) (d : Point)
    (hd : d ∈ setup_directions.take NUM_DIRECTIONS) : GridStep ⟨x, y⟩ ⟨x + d.x, y + d.y⟩ := by
  rw [setup_directions_eq] at hd
  simp only [List.mem_cons, List.mem_singleton, List.not_mem_nil, or_false] at hd
  unfold GridStep
  rcases hd with rfl | rfl | rfl | rfl <;> simp <;> omega

theorem direction_loop_path (map : List (List Char)) (rows cols : Int) (target : Point)
    (call : GridState → Int → Int → Option (Int × GridState)) (x y : Int)
    (hxy : Walkable map rows cols ⟨x, y⟩)
    (hcall : ∀ st x' y' res, call st x' y' = some res →
      PathPushed map rows cols target x' y' st res) :
    ∀ (ds : List Point) (st : GridState) (res : Int × GridState),
      (∀ d ∈ ds, GridStep ⟨x, y⟩ ⟨x + d.x, y + d.y⟩) →
      direction_loop call x y ds st = some res →
      PathPushed map rows cols target x y st res
  | [], st, res, _, h => by
    simp only [direction_loop, Option.some.injEq] at h
    subst h
    exact ⟨fun _ => rfl, fun h => absurd rfl h⟩
  | d :: rest, st, res, hds, h => by
    unfold direction_loop at h
    cases hc : call st (x + d.x) (y + d.y) with
    | none => rw [hc] at h; simp at h
    | some r =>
      obtain ⟨r, st'⟩ := r
      rw [hc] at h
      simp only at h
      have hsub := hcall st _ _ _ hc
      by_cases hr : r ≠ 0
      · rw [if_pos hr] at h
        simp only [Option.some.injEq] at h
        subst h
        refine ⟨fun h0 => by simp at h0, fun _ => ?_⟩
        obtain ⟨p, hp, hh, hl, hw, hch⟩ := hsub.2 hr
        simp only at hp
        refine ⟨⟨x, y⟩ :: p, by simp only [hp]; rfl, rfl, ?_, ?_, ?_⟩
        · cases p with
          | nil => simp at hh
          | cons a rest' => simpa [List.getLast?_cons_cons] using hl
        · intro c hc'
          rcases List.mem_cons.1 hc' with rfl | hc'
          · exact hxy
          · exact hw c hc'
        · cases p with
          | nil => simp at hh
          | cons a rest' =>
            have ha : a = ⟨x + d.x, y + d.y⟩ := by simpa using hh
            subst ha
            exact List.Chain'.cons (hds d (by simp)) hch
      · rw [if_neg hr] at h
        have hr0 : r = 0 := by simpa using hr
        have ih := direction_loop_path map rows cols target call x y hxy hcall rest st' res
          (fun d' hd' => hds d' (List.mem_cons_of_mem _ hd')) h
        have hpath := hsub.1 hr0
        simp only at hpath
        refine ⟨fun h0 => (ih.1 h0).trans hpath, fun h1 => ?_⟩
        obtain ⟨p, hp, hgp⟩ := ih.2 h1
        exact ⟨p, by rw [hp, hpath], hgp⟩

/-- Every call of `backtrack_recursively` that returns has pushed a path or nothing. -/
theorem backtrack_recursively_path (map : List (List Char)) (rows cols : Int)
    (target : Point) :
    ∀ (fuel : Nat) (st : GridState) (x y : Int) (res : Int × GridState),
      backtrack_recursively map target setup_directions rows cols fuel st x y = some res →
      PathPushed map rows cols target x y st res
  | 0, _, _, _, _, h => by simp [backtrack_recursively] at h
  | fuel + 1, st, x, y, res, h => by
    unfold backtrack_recursively at h
    by_cases hv : is_position_valid map st.visited x y rows cols = 0
    · rw [if_pos hv] at h
      simp only [Option.some.injEq] at h
      subst h
      exact ⟨fun _ => rfl, fun h => absurd rfl h⟩
    · rw [if_neg hv] at h
      have hw := ((is_position_valid_ne_zero _ _ _ _ _ _).1 hv).1
      simp only at h
      by_cases ht : x = target.x ∧ y = target.y
      · rw [if_pos ht] at h
        simp only [Option.some.injEq] at h
        subst h
        refine ⟨fun h0 => by simp at h0, fun _ => ⟨[⟨x, y⟩], rfl, rfl, ?_, ?_, ?_⟩⟩
        · cases target
          simp only at ht
          simp [ht.1, ht.2]
        · intro c hc
          simp only [List.mem_singleton] at hc
          subst hc
          exact hw
        · exact List.chain'_singleton _
      · rw [if_neg ht] at h
        have hloop := direction_loop_path map rows cols target _ x y hw
          (fun st' x' y' res' hc =>
            backtrack_recursively_path map rows cols target fuel st' x' y' res' hc)
          _ _ res (fun d hd => direction_step x y d hd) h
        exact hloop

/-- C5: on every grid (rectangular or not), every path returned by `backtracking_array` starts at the
start cell, ends at the target cell, consists of in-bounds walkable cells only, and any
two consecutive cells are exactly one step apart along one axis; and when the start cell
is the target and walkable, the returned path is that single cell. -/
theorem backtracking_array_path (fuel : Nat) (map : List (List Char)) (rows cols : Int)
    (start target : Point) :
    (∀ path, backtracking_array fuel (some map) rows cols (some start) (some target)
        = some (some path) → GridPath map rows cols start target path) ∧
    (0 < fuel → start = target → Walkable map rows cols start →
      backtracking_array fuel (some map) rows cols (some start) (some target)
        = some (some [start])) := by
  constructor
  · intro path h
    unfold backtracking_array at h
    simp only at h
    by_cases hdim : rows ≤ 0 ∨ cols ≤ 0
    · rw [if_pos hdim] at h; simp at h
    · rw [if_neg hdim] at h
      cases hrun : backtrack_recursively map target setup_directions rows cols fuel
          { visited := List.replicate rows.toNat (List.replicate cols.toNat 0)
            path := []
            checked := [] } start.x start.y with
      | none => rw [hrun] at h; simp at h
      | some res =>
        obtain ⟨found, st⟩ := res
        rw [hrun] at h
        simp only at h
        have hp := backtrack_recursively_path map rows cols target fuel _ _ _ _ hrun
        by_cases hf : found ≠ 0
        · rw [if_pos hf] at h
          simp only [Option.some.injEq] at h
          obtain ⟨p, hp1, hp2⟩ := hp.2 hf
          simp only [List.append_nil] at hp1
          rw [← h, hp1]
          exact hp2
        · rw [if_neg hf] at h; simp at h
  · intro hfuel hst hw
    subst hst
    obtain ⟨k, rfl⟩ : ∃ k, fuel = k + 1 := ⟨fuel - 1, by omega⟩
    have hdim : ¬ (rows ≤ 0 ∨ cols ≤ 0) := by
      have := hw.1
      unfold InBounds at this
      omega
    have hvis : visited_at (List.replicate rows.toNat (List.replicate cols.toNat 0))
        start.x start.y ≠ 1 := by
      rw [visited_at_replicate]; decide
    have hv : is_position_valid map
        (List.replicate rows.toNat (List.replicate cols.toNat 0)) start.x start.y rows cols
        ≠ 0 := (is_position_valid_ne_zero _ _ _ _ _ _).2 ⟨hw, hvis⟩
    unfold backtracking_array
    simp only [if_neg hdim]
    unfold backtrack_recursively
    simp only [if_neg hv, and_self, if_true]
    rfl

/-- Witness for C5: on the all-walkable 3×3 grid the search from (0,0) to (2,2) returns a
connected path of five cells. -/
theorem backtracking_array_path_witness :
    Rectangular grid3 3 3 ∧
    backtracking_array 10 (some grid3) 3 3 (some ⟨0, 0⟩) (some ⟨2, 2⟩)
      = some (some [⟨0, 0⟩, ⟨1, 0⟩, ⟨2, 0⟩, ⟨2, 1⟩, ⟨2, 2⟩]) ∧
    5 ≤ ([⟨0, 0⟩, ⟨1, 0⟩, ⟨2, 0⟩, ⟨2, 1⟩, ⟨2, 2⟩] : List Point).length ∧
    GridPath grid3 3 3 ⟨0, 0⟩ ⟨2, 2⟩ [⟨0, 0⟩, ⟨1, 0⟩, ⟨2, 0⟩, ⟨2, 1⟩, ⟨2, 2⟩] ∧
    backtracking_array 10 (some grid3) 3 3 (some ⟨2, 2⟩) (some ⟨2, 2⟩) = some (some [⟨2, 2⟩]) :=
  ⟨by decide, by decide, by decide,
    (backtracking_array_path 10 grid3 3 3 ⟨0, 0⟩ ⟨2, 2⟩).1 _ (by decide),
    (backtracking_array_path 10 grid3 3 3 ⟨2, 2⟩ ⟨2, 2⟩).2 (by decide) rfl
      (by decide)⟩

/-! ## Grid backtracking: what a failed search has explored -/

theorem mark_visited_dims (v : List (List Int)) (rows cols : Int) (hd : GridDims v rows cols)
    (x y : Int) : GridDims (mark_visited v x y) rows cols := by
  unfold mark_visited
  by_cases hy : y.toNat < v.length
  · refine ⟨by rw [List.length_set]; exact hd.1, ?_⟩
    intro row hrow
    rcases List.mem_or_eq_of_mem_set hrow with h | h
    · exact hd.2 row h
    · rw [h, List.length_set, List.getD_eq_getElem _ _ hy]
      exact hd.2 _ (List.getElem_mem _)
  · rw [List.set_eq_of_length_le (by omega)]
    exact hd

theorem visited_at_mark (v : List (List Int)) (rows cols : Int) (hd : GridDims v rows cols)
    (x y : Int) (hin : InBounds rows cols ⟨x, y⟩) (c : Point) (hc : InBounds rows cols c) :
    visited_at (mark_visited v x y) c.x c.y =
      if c.x = x ∧ c.y = y then 1 else visited_at v c.x c.y := by
  unfold InBounds at hin hc
  simp only at hin
  have hy : y.toNat < v.length := by rw [hd.1]; omega
  have hrow : (v.getD y.toNat []).length = cols.toNat := by
    rw [List.getD_eq_getElem _ _ hy]
    exact hd.2 _ (List.getElem_mem _)
  unfold visited_at mark_visited
  by_cases hcy : c.y = y
  · rw [hcy, getD_set_eq _ _ _ _ hy]
    by_cases hcx : c.x = x
    · rw [hcx, getD_set_eq _ _ _ _ (by rw [hrow]; omega)]
      simp
    · rw [getD_set_ne _ _ _ _ _ (by omega)]
      simp [hcx]
  · rw [getD_set_ne _ _ _ _ _ (by omega)]
    simp [hcy]

theorem grid_step_direction (a b : Point) (h : GridStep a b) :
    ∃ d ∈ setup_directions.take NUM_DIRECTIONS, b = ⟨a.x + d.x, a.y + d.y⟩ := by
  rw [setup_directions_eq]
  obtain ⟨bx, bY⟩ := b
  unfold GridStep at h
  simp only at h
  rcases h with ⟨h1, h2 | h2⟩ | ⟨h1, h2 | h2⟩
  · exact ⟨⟨0, 1⟩, by simp, by simp [h1, h2]⟩
  · exact ⟨⟨0, -1⟩, by simp, by simp only [h1, h2, Point.mk.injEq]; omega⟩
  · exact ⟨⟨1, 0⟩, by simp, by simp [h1, h2]⟩
  · exact ⟨⟨-1, 0⟩, by simp, by simp only [h1, h2, Point.mk.injEq]; omega⟩

/-- The direction loop explores like the calls it makes. -/
theorem direction_loop_explored (map : List (List Char)) (rows cols : Int) (target : Point)
    (call : GridState → Int → Int → Option (Int × GridState)) (x y : Int)
    (hcall : ∀ st x' y' res, GridDims st.visited rows cols → call st x' y' = some res →
      Explored map rows cols target x' y' st res) :
    ∀ (ds : List Point) (st : GridState) (res : Int × GridState),
      GridDims st.visited rows cols → direction_loop call x y ds st = some res →
      GridDims res.2.visited rows cols ∧
      (∀ c, InBounds rows cols c → visited_at st.visited c.x c.y = 1 →
        visited_at res.2.visited c.x c.y = 1) ∧
      (res.1 = 0 →
        (∀ d ∈ ds, Walkable map rows cols ⟨x + d.x, y + d.y⟩ →
          visited_at res.2.visited (x + d.x) (y + d.y) = 1) ∧
        (∀ c, InBounds rows cols c → visited_at res.2.visited c.x c.y = 1 →
          visited_at st.visited c.x c.y ≠ 1 →
          Walkable map rows cols c ∧ c ≠ target ∧
          ∀ c', GridStep c c' → Walkable map rows cols c' →
            visited_at res.2.visited c'.x c'.y = 1))
  | [], st, res, hd, h => by
    simp only [direction_loop, Option.some.injEq] at h
    subst h
    exact ⟨hd, fun _ _ hv => hv, fun _ => ⟨fun d hd' => by simp at hd',
      fun c _ h1 h2 => absurd h1 h2⟩⟩
  | d :: rest, st, res, hd, h => by
    unfold direction_loop at h
    cases hc : call st (x + d.x) (y + d.y) with
    | none => rw [hc] at h; simp at h
    | some r =>
      obtain ⟨r, st'⟩ := r
      rw [hc] at h
      simp only at h
      obtain ⟨e1, e2, e3⟩ := hcall st _ _ _ hd hc
      simp only at e1 e2 e3
      by_cases hr : r ≠ 0
      · rw [if_pos hr] at h
        simp only [Option.some.injEq] at h
        subst h
        exact ⟨e1, e2, fun h0 => by simp at h0⟩
      · rw [if_neg hr] at h
        have hr0 : r = 0 := by simpa using hr
        obtain ⟨f1, f2, f3⟩ := direction_loop_explored map rows cols target call x y hcall
          rest st' res e1 h
        obtain ⟨g1, g2⟩ := e3 hr0
        refine ⟨f1, fun c hc1 hc2 => f2 c hc1 (e2 c hc1 hc2), fun h0 => ⟨?_, ?_⟩⟩
        · intro d' hd' hw
          rcases List.mem_cons.1 hd' with rfl | hd'
          · exact f2 ⟨x + d'.x, y + d'.y⟩ hw.1 (g1 hw)
          · exact (f3 h0).1 d' hd' hw
        · intro c hc1 hc2 hc3
          by_cases hmid : visited_at st'.visited c.x c.y = 1
          · obtain ⟨k1, k2, k3⟩ := g2 c hc1 hmid hc3
            exact ⟨k1, k2, fun c' hs hw => f2 c' hw.1 (k3 c' hs hw)⟩
          · exact (f3 h0).2 c hc1 hc2 hmid

/-- Every call of `backtrack_recursively` explores: marks are only added, and a failed
call leaves a closed set of newly marked cells. -/
theorem backtrack_recursively_explored (map : List (List Char)) (rows cols : Int)
    (target : Point) :
    ∀ (fuel : Nat) (st : GridState) (x y : Int) (res : Int × GridState),
      GridDims st.visited rows cols →
      backtrack_recursively map target setup_directions rows cols fuel st x y = some res →
      Explored map rows cols target x y st res
  | 0, _, _, _, _, _, h => by simp [backtrack_recursively] at h
  | fuel + 1, st, x, y, res, hd, h => by
    unfold backtrack_recursively at h
    by_cases hv : is_position_valid map st.visited x y rows cols = 0
    · rw [if_pos hv] at h
      simp only [Option.some.injEq] at h
      subst h
      refine ⟨hd, fun _ _ hv' => hv', fun _ => ⟨fun hw => ?_, fun c _ h1 h2 => absurd h1 h2⟩⟩
      by_contra hne
      exact ((is_position_valid_ne_zero _ _ _ _ _ _).2 ⟨hw, hne⟩) hv
    · rw [if_neg hv] at h
      obtain ⟨hw, hnv⟩ := (is_position_valid_ne_zero _ _ _ _ _ _).1 hv
      simp only at h
      by_cases ht : x = target.x ∧ y = target.y
      · rw [if_pos ht] at h
        simp only [Option.some.injEq] at h
        subst h
        exact ⟨hd, fun _ _ hv' => hv', fun h0 => by simp at h0⟩
      · rw [if_neg ht] at h
        have hd1 := mark_visited_dims st.visited rows cols hd x y
        have hmark := visited_at_mark st.visited rows cols hd x y hw.1
        obtain ⟨f1, f2, f3⟩ := direction_loop_explored map rows cols target _ x y
          (fun st' x' y' res' hd' hc =>
            backtrack_recursively_explored map rows cols target fuel st' x' y' res' hd' hc)
          _ _ res hd1 h
        simp only at f2 f3
        have hself : visited_at res.2.visited x y = 1 := by
          apply f2 ⟨x, y⟩ hw.1
          rw [hmark ⟨x, y⟩ hw.1]
          simp
        refine ⟨f1, fun c hc1 hc2 => f2 c hc1 ?_, fun h0 => ⟨fun _ => hself, ?_⟩⟩
        · rw [hmark c hc1]
          split
          · rfl
          · exact hc2
        · intro c hc1 hc2 hc3
          by_cases hEq : c.x = x ∧ c.y = y
          · have hc : c = ⟨x, y⟩ := by
              cases c
              simp only at hEq
              simp [hEq.1, hEq.2]
            subst hc
            refine ⟨hw, ?_, ?_⟩
            · intro hEq'
              apply ht
              rw [← hEq']
              exact ⟨rfl, rfl⟩
            · intro c' hs hw'
              obtain ⟨d, hdm, hc'⟩ := grid_step_direction _ c' hs
              subst hc'
              exact (f3 h0).1 d hdm hw'
          · apply (f3 h0).2 c hc1 hc2
            rw [hmark c hc1, if_neg hEq]
            exact hc3

/-- A closed set of marked walkable cells that holds the start holds every cell of a path
from the start. -/
theorem closed_contains_path (map : List (List Char)) (rows cols : Int)
    (K : Point → Prop)
    (hK : ∀ c, K c → ∀ c', GridStep c c' → Walkable map rows cols c' → K c') :
    ∀ (p : List Point) (a : Point), p.head? = some a → K a →
      (∀ c ∈ p, Walkable map rows cols c) → p.Chain' GridStep → ∀ c ∈ p, K c
  | [], _, h, _, _, _ => by simp at h
  | [b], a, h, ha, _, _ => by
    intro c hc
    simp at h hc
    rw [hc, h]
    exact ha
  | b :: b' :: rest, a, h, ha, hw, hch => by
    simp at h
    subst h
    obtain ⟨hstep, hch'⟩ := List.chain'_cons.1 hch
    have hb' : K b' := hK b ha b' hstep (hw b' (by simp))
    intro c hc
    rcases List.mem_cons.1 hc with rfl | hc
    · exact ha
    · exact closed_contains_path map rows cols K hK (b' :: rest) b' rfl hb'
        (fun c' hc' => hw c' (List.mem_cons_of_mem _ hc')) hch' c hc

/-! ## Grid backtracking: termination and completeness -/

theorem unvisited_count_mono (v v' : List (List Int)) (rows cols : Int)
    (h : ∀ c, InBounds rows cols c → visited_at v c.x c.y = 1 → visited_at v' c.x c.y = 1) :
    unvisited_count v' rows cols ≤ unvisited_count v rows cols := by
  unfold unvisited_count
  apply Finset.card_le_card
  intro c hc
  simp only [Finset.mem_filter, Finset.mem_product, Finset.mem_Ico] at hc ⊢
  refine ⟨hc.1, fun hv => hc.2 ?_⟩
  exact h ⟨c.1, c.2⟩ ⟨hc.1.1.1, hc.1.2.1, hc.1.1.2, hc.1.2.2⟩ hv

theorem unvisited_count_mark (v : List (List Int)) (rows cols : Int)
    (hd : GridDims v rows cols) (x y : Int) (hin : InBounds rows cols ⟨x, y⟩)
    (hv : visited_at v x y ≠ 1) :
    unvisited_count (mark_visited v x y) rows cols < unvisited_count v rows cols := by
  have hmark := visited_at_mark v rows cols hd x y hin
  unfold unvisited_count
  apply Finset.card_lt_card
  rw [Finset.ssubset_iff_of_subset]
  · refine ⟨(x, y), ?_, ?_⟩
    · simp only [Finset.mem_filter, Finset.mem_product, Finset.mem_Ico]
      unfold InBounds at hin
      simp only at hin
      exact ⟨⟨⟨hin.1, hin.2.2.1⟩, ⟨hin.2.1, hin.2.2.2⟩⟩, hv⟩
    · simp only [Finset.mem_filter, Finset.mem_product, Finset.mem_Ico, not_and, not_not]
      intro _
      have := hmark ⟨x, y⟩ hin
      simp only [and_self, if_true] at this
      exact this
  · intro c hc
    simp only [Finset.mem_filter, Finset.mem_product, Finset.mem_Ico] at hc ⊢
    refine ⟨hc.1, fun hv' => hc.2 ?_⟩
    have := hmark ⟨c.1, c.2⟩ ⟨hc.1.1.1, hc.1.2.1, hc.1.1.2, hc.1.2.2⟩
    simp only at this
    rw [this]
    split
    · rfl
    · exact hv'

theorem unvisited_count_le (v : List (List Int)) (rows cols : Int) :
    unvisited_count v rows cols ≤ rows.toNat * cols.toNat := by
  unfold unvisited_count
  refine le_trans (Finset.card_filter_le _ _) ?_
  rw [Finset.card_product, Int.card_Ico, Int.card_Ico]
  simp [Nat.mul_comm]

theorem direction_loop_returns (map : List (List Char)) (rows cols : Int) (target : Point)
    (call : GridState → Int → Int → Option (Int × GridState)) (x y : Int) (n : Nat)
    (hret : ∀ st x' y', GridDims st.visited rows cols →
      unvisited_count st.visited rows cols < n → ∃ res, call st x' y' = some res)
    (hcall : ∀ st x' y' res, GridDims st.visited rows cols → call st x' y' = some res →
      Explored map rows cols target x' y' st res) :
    ∀ (ds : List Point) (st : GridState), GridDims st.visited rows cols →
      unvisited_count st.visited rows cols < n →
      ∃ res, direction_loop call x y ds st = some res
  | [], st, _, _ => ⟨_, rfl⟩
  | d :: rest, st, hd, hn => by
    obtain ⟨⟨r, st'⟩, hc⟩ := hret st (x + d.x) (y + d.y) hd hn
    unfold direction_loop
    rw [hc]
    simp only
    by_cases hr : r ≠ 0
    · rw [if_pos hr]
      exact ⟨_, rfl⟩
    · rw [if_neg hr]
      obtain ⟨e1, e2, _⟩ := hcall st _ _ _ hd hc
      exact direction_loop_returns map rows cols target call x y n hret hcall rest st' e1
        (lt_of_le_of_lt (unvisited_count_mono _ _ rows cols e2) hn)

/-- A call of `backtrack_recursively` returns when `fuel` exceeds the number of unvisited
cells. -/
theorem backtrack_recursively_returns (map : List (List Char)) (rows cols : Int)
    (target : Point) :
    ∀ (fuel : Nat) (st : GridState) (x y : Int), GridDims st.visited rows cols →
      unvisited_count st.visited rows cols < fuel →
      ∃ res, backtrack_recursively map target setup_directions rows cols fuel st x y = some res
  | 0, _, _, _, _, h => absurd h (Nat.not_lt_zero _)
  | fuel + 1, st, x, y, hd, hn => by
    unfold backtrack_recursively
    by_cases hv : is_position_valid map st.visited x y rows cols = 0
    · rw [if_pos hv]; exact ⟨_, rfl⟩
    · rw [if_neg hv]
      obtain ⟨hw, hnv⟩ := (is_position_valid_ne_zero _ _ _ _ _ _).1 hv
      simp only
      by_cases ht : x = target.x ∧ y = target.y
      · rw [if_pos ht]; exact ⟨_, rfl⟩
      · rw [if_neg ht]
        apply direction_loop_returns map rows cols target _ x y fuel
          (fun st' x' y' hd' hn' =>
            backtrack_recursively_returns map rows cols target fuel st' x' y' hd' hn')
          (fun st' x' y' res' hd' hc =>
            backtrack_recursively_explored map rows cols target fuel st' x' y' res' hd' hc)
        · exact mark_visited_dims st.visited rows cols hd x y
        · have := unvisited_count_mark st.visited rows cols hd x y hw.1 hnv
          simp only
          omega

theorem replicate_dims (rows cols : Int) :
    GridDims (List.replicate rows.toNat (List.replicate cols.toNat 0)) rows cols := by
  refine ⟨by simp, ?_⟩
  intro row hrow
  rw [List.eq_of_mem_replicate hrow]
  simp

/-- C6: on a grid with positive dimensions and with fuel above the number of cells,
`backtracking_array` returns a path exactly when the target can be reached from the start
by 4-connected moves through in-bounds walkable cells, and returns `NULL` otherwise (so
also when the start is blocked or cut off from the target). -/
theorem backtracking_array_reachable (fuel : Nat) (map : List (List Char)) (rows cols : Int)
    (start target : Point) (hrows : 0 < rows) (hcols : 0 < cols)
    (hfuel : rows.toNat * cols.toNat < fuel) :
    (GridReachable map rows cols start target →
      ∃ path, backtracking_array fuel (some map) rows cols (some start) (some target)
        = some (some path)) ∧
    (¬ GridReachable map rows cols start target →
      backtracking_array fuel (some map) rows cols (some start) (some target) = some none) ∧
    ((∃ path, backtracking_array fuel (some map) rows cols (some start) (some target)
        = some (some path)) ↔ GridReachable map rows cols start target) := by
  have hdim : ¬ (rows ≤ 0 ∨ cols ≤ 0) := by omega
  have hd0 := replicate_dims rows cols
  obtain ⟨⟨found, st⟩, hrun⟩ := backtrack_recursively_returns map rows cols target fuel
    { visited := List.replicate rows.toNat (List.replicate cols.toNat 0)
      path := []
      checked := [] } start.x start.y hd0
    (lt_of_le_of_lt (unvisited_count_le _ rows cols) hfuel)
  have hres : backtracking_array fuel (some map) rows cols (some start) (some target)
      = if found ≠ 0 then some (some st.path) else some none := by
    unfold backtracking_array
    simp only [if_neg hdim, hrun]
  have hpath := backtrack_recursively_path map rows cols target fuel _ _ _ _ hrun
  have hexp := backtrack_recursively_explored map rows cols target fuel _ _ _ _ hd0 hrun
  have hsound : found ≠ 0 → GridReachable map rows cols start target := by
    intro hf
    obtain ⟨p, _, hp⟩ := hpath.2 hf
    exact ⟨p, hp⟩
  have hcomplete : GridReachable map rows cols start target → found ≠ 0 := by
    rintro ⟨p, hh, hl, hw, hch⟩ hf0
    obtain ⟨_, _, e3⟩ := hexp
    obtain ⟨g1, g2⟩ := e3 hf0
    simp only at g1 g2
    have hstart : Walkable map rows cols start := hw start (List.mem_of_mem_head? hh)
    have hall := closed_contains_path map rows cols
      (fun c => InBounds rows cols c ∧ visited_at st.visited c.x c.y = 1)
      (fun c hc c' hs hw' =>
        ⟨hw'.1, (g2 c hc.1 hc.2 (by rw [visited_at_replicate]; decide)).2.2 c' hs hw'⟩)
      p start hh ⟨hstart.1, g1 hstart⟩ hw hch
    have htgt := hall target (List.mem_of_mem_getLast? hl)
    exact (g2 target htgt.1 htgt.2 (by rw [visited_at_replicate]; decide)).2.1 rfl
  refine ⟨fun hr => ⟨st.path, by rw [hres, if_pos (hcomplete hr)]⟩, fun hnr => ?_, ?_⟩
  · rw [hres, if_neg (fun hf => hnr (hsound hf))]
  · constructor
    · rintro ⟨path, hp⟩
      by_contra hnr
      rw [hres, if_neg (fun hf => hnr (hsound hf))] at hp
      simp at hp
    · intro hr
      exact ⟨st.path, by rw [hres, if_pos (hcomplete hr)]⟩

/-- Witness for C6: on the open 2×2 grid the corner (1,1) is reachable from (0,0) and a
path is returned; on the grid with both neighbours of (0,0) blocked no path is returned. -/
theorem backtracking_array_reachable_witness :
    GridReachable grid2 2 2 ⟨0, 0⟩ ⟨1, 1⟩ ∧
    ((∃ path, backtracking_array 5 (some grid2) 2 2 (some ⟨0, 0⟩) (some ⟨1, 1⟩)
        = some (some path)) ↔ GridReachable grid2 2 2 ⟨0, 0⟩ ⟨1, 1⟩) ∧
    backtracking_array 5 (some gridCut) 2 2 (some ⟨0, 0⟩) (some ⟨1, 1⟩) = some none ∧
    ¬ GridReachable gridCut 2 2 ⟨0, 0⟩ ⟨1, 1⟩ :=
  have h := backtracking_array_reachable 5 grid2 2 2 ⟨0, 0⟩ ⟨1, 1⟩ (by decide) (by decide)
    (by decide)
  have h' := backtracking_array_reachable 5 gridCut 2 2 ⟨0, 0⟩ ⟨1, 1⟩ (by decide) (by decide)
    (by decide)
  ⟨⟨[⟨0, 0⟩, ⟨1, 0⟩, ⟨1, 1⟩], rfl, rfl, by decide,
      List.Chain'.cons (by decide) (List.Chain'.cons (by decide) (List.chain'_singleton _))⟩,
    h.2.2, by decide,
    fun hr => by
      obtain ⟨path, hp⟩ := h'.1 hr
      have hnone : backtracking_array 5 (some gridCut) 2 2 (some ⟨0, 0⟩) (some ⟨1, 1⟩)
          = some none := by decide
      rw [hnone] at hp
      simp at hp⟩

/-! ## Grid backtracking: the order of the directions -/

theorem direction_loop_eq_try (call : GridState → Int → Int → Option (Int × GridState))
    (x y : Int) :
    ∀ (ds : List Point) (st : GridState),
      direction_loop call x y ds st
        = try_neighbours call x y (ds.map fun d => ⟨x + d.x, y + d.y⟩) st
  | [], _ => rfl
  | d :: rest, st => by
    unfold direction_loop
    simp only [List.map_cons, try_neighbours]
    cases call st (x + d.x) (y + d.y) with
    | none => rfl
    | some r =>
      obtain ⟨r, st'⟩ := r
      simp only
      split
      · rfl
      · exact direction_loop_eq_try call x y rest st'

/-- Counterexample to C7 as stated: the direction array is not in the order down, right,
left, up, and on the all-walkable 2×2 grid the search from (0,0) to (1,1) returns
(0,0),(1,0),(1,1), not the path (0,0),(0,1),(1,1) that a down-first search returns. -/
theorem backtracking_array_not_down_first :
    setup_directions.take NUM_DIRECTIONS ≠ down_first ∧
    backtracking_array 5 (some grid2) 2 2 (some ⟨0, 0⟩) (some ⟨1, 1⟩)
      = some (some [⟨0, 0⟩, ⟨1, 0⟩, ⟨1, 1⟩]) ∧
    (backtrack_recursively grid2 ⟨1, 1⟩ down_first 2 2 5
      { visited := [[0, 0], [0, 0]], path := [], checked := [] } 0 0).map
        (fun res => res.2.path) = some [⟨0, 0⟩, ⟨0, 1⟩, ⟨1, 1⟩] ∧
    backtracking_array 5 (some grid2) 2 2 (some ⟨0, 0⟩) (some ⟨1, 1⟩)
      ≠ some (some [⟨0, 0⟩, ⟨0, 1⟩, ⟨1, 1⟩]) := by
  refine ⟨by decide, by decide, by decide, by decide⟩

/-- C7, amended: at every expanded cell (valid, not the target) the search marks the cell
and tries the four neighbours in the fixed order right (x+1), down (y+1), left (x-1),
up (y-1), and returns the path found through the first of them, in that order, whose
search reaches the target. -/
theorem backtrack_recursively_order (map : List (List Char)) (target : Point)
    (rows cols : Int) (fuel : Nat) (st : GridState) (x y : Int)
    (hvalid : is_position_valid map st.visited x y rows cols ≠ 0)
    (htarget : ¬ (x = target.x ∧ y = target.y)) :
    setup_directions.take NUM_DIRECTIONS = [⟨1, 0⟩, ⟨0, 1⟩, ⟨-1, 0⟩, ⟨0, -1⟩] ∧
    backtrack_recursively map target setup_directions rows cols (fuel + 1) st x y
      = try_neighbours (backtrack_recursively map target setup_directions rows cols fuel) x y
          [⟨x + 1, y⟩, ⟨x, y + 1⟩, ⟨x - 1, y⟩, ⟨x, y - 1⟩]
          { visited := mark_visited st.visited x y
            path := st.path
            checked := st.checked ++ [⟨x, y⟩] } := by
  refine ⟨setup_directions_eq, ?_⟩
  rw [backtrack_recursively]
  simp only [if_neg hvalid, if_neg htarget, direction_loop_eq_try, setup_directions_eq]
  simp only [List.map_cons, List.map_nil, add_zero]
  rfl

/-- Witness for the amended C7: on the all-walkable 2×2 grid with start (0,0) and target
(1,1) the right-first order gives the path (0,0),(1,0),(1,1). -/
theorem backtrack_recursively_order_witness :
    backtracking_array 5 (some grid2) 2 2 (some ⟨0, 0⟩) (some ⟨1, 1⟩)
      = some (some [⟨0, 0⟩, ⟨1, 0⟩, ⟨1, 1⟩]) ∧
    (setup_directions.take NUM_DIRECTIONS = [⟨1, 0⟩, ⟨0, 1⟩, ⟨-1, 0⟩, ⟨0, -1⟩] ∧
    backtrack_recursively grid2 ⟨1, 1⟩ setup_directions 2 2 (4 + 1)
        { visited := [[0, 0], [0, 0]], path := [], checked := [] } 0 0
      = try_neighbours (backtrack_recursively grid2 ⟨1, 1⟩ setup_directions 2 2 4) 0 0
          [⟨0 + 1, 0⟩, ⟨0, 0 + 1⟩, ⟨0 - 1, 0⟩, ⟨0, 0 - 1⟩]
          { visited := mark_visited [[0, 0], [0, 0]] 0 0
            path := []
            checked := [] ++ [⟨0, 0⟩] }) :=
  ⟨by decide, backtrack_recursively_order grid2 ⟨1, 1⟩ 2 2 4
    { visited := [[0, 0], [0, 0]], path := [], checked := [] } 0 0 (by decide) (by decide)⟩

/-! ## Graph backtracking: the returned queue is a walk -/

theorem neighbor_loop_labels (g : Graph) (t c : Nat) (hc : c < g.size)
    (call : GraphState → Option Nat → Option (Int × GraphState))
    (hcall : ∀ st d res, d < g.size → call st (some d) = some res → LabelsPushed g t d st res) :
    ∀ (es : List Edge) (st : GraphState) (res : Int × GraphState),
      (∀ e ∈ es, e ∈ (g.vtx c).edges ∧ e.dest < g.size) →
      neighbor_loop call (g.vtx c).content es st = some res →
      LabelsPushed g t c st res
  | [], st, res, _, h => by
    simp only [neighbor_loop, Option.some.injEq] at h
    subst h
    exact ⟨fun _ => rfl, fun h => absurd rfl h⟩
  | e :: rest, st, res, hes, h => by
    unfold neighbor_loop at h
    cases hcl : call st (some e.dest) with
    | none => rw [hcl] at h; simp at h
    | some r =>
      obtain ⟨r, st'⟩ := r
      rw [hcl] at h
      simp only at h
      have hsub := hcall st e.dest _ (hes e (by simp)).2 hcl
      by_cases hr : r ≠ 0
      · rw [if_pos hr] at h
        simp only [Option.some.injEq] at h
        subst h
        refine ⟨fun h0 => by simp at h0, fun _ => ?_⟩
        obtain ⟨p, hp, hh, hl, hb, hch⟩ := hsub.2 hr
        simp only at hp
        refine ⟨c :: p, by simp only [hp]; rfl, rfl, ?_, ?_, ?_⟩
        · cases p with
          | nil => simp at hh
          | cons a rest' => simpa [List.getLast?_cons_cons] using hl
        · intro v hv
          rcases List.mem_cons.1 hv with rfl | hv
          · exact hc
          · exact hb v hv
        · cases p with
          | nil => simp at hh
          | cons a rest' =>
            have ha : a = e.dest := by simpa using hh
            subst ha
            exact List.Chain'.cons ⟨e, (hes e (by simp)).1, rfl⟩ hch
      · rw [if_neg hr] at h
        have hr0 : r = 0 := by simpa using hr
        have ih := neighbor_loop_labels g t c hc call hcall rest st' res
          (fun e' he' => hes e' (List.mem_cons_of_mem _ he')) h
        have hpath := hsub.1 hr0
        simp only at hpath
        refine ⟨fun h0 => (ih.1 h0).trans hpath, fun h1 => ?_⟩
        obtain ⟨p, hp, hgp⟩ := ih.2 h1
        exact ⟨p, by rw [hp, hpath], hgp⟩

/-- Every call of `recursive_backtrack_graph` that returns has pushed the labels of a walk
to the target, or nothing. -/
theorem recursive_backtrack_graph_labels {g : Graph} (hwf : WellFormed g) (t : Nat)
    (ht : t < g.size) :
    ∀ (fuel : Nat) (st : GraphState) (c : Nat) (res : Int × GraphState), c < g.size →
      recursive_backtrack_graph g t fuel st (some c) = some res → LabelsPushed g t c st res
  | 0, _, _, _, _, h => by simp [recursive_backtrack_graph] at h
  | fuel + 1, st, c, res, hc, h => by
    unfold recursive_backtrack_graph at h
    simp only [hwf.2.2.1 c hc] at h
    by_cases hv : st.visited.getD c 0 = 1
    · rw [if_pos hv] at h
      simp only [Option.some.injEq] at h
      subst h
      exact ⟨fun _ => rfl, fun h => absurd rfl h⟩
    · rw [if_neg hv] at h
      by_cases hlab : (g.vtx c).content = (g.vtx t).content
      · rw [if_pos hlab] at h
        simp only [Option.some.injEq] at h
        subst h
        have hct : c = t := hwf.2.2.2.2.2 c hc t ht hlab
        refine ⟨fun h0 => by simp at h0, fun _ => ⟨[c], rfl, rfl, ?_, ?_, ?_⟩⟩
        · simp [hct]
        · intro v hv'
          simp only [List.mem_singleton] at hv'
          rw [hv']; exact hc
        · exact List.chain'_singleton _
      · rw [if_neg hlab] at h
        cases hloop : neighbor_loop (recursive_backtrack_graph g t fuel) (g.vtx c).content
            (g.vtx c).edges
            { visited := st.visited.set c 1, path := st.path,
              checked := st.checked ++ [c] } with
        | none => rw [hloop] at h; simp at h
        | some r =>
          obtain ⟨r, st'⟩ := r
          rw [hloop] at h
          simp only at h
          have hl := neighbor_loop_labels g t c hc _
            (fun st' d res' hd hcl =>
              recursive_backtrack_graph_labels hwf t ht fuel st' d res' hd hcl)
            _ _ _ (fun e he => ⟨he, hwf.2.2.2.1 c hc e he⟩) hloop
          by_cases hr : r ≠ 0
          · rw [if_pos hr] at h
            simp only [Option.some.injEq] at h
            subst h
            exact ⟨fun h0 => absurd h0 hr, fun _ => hl.2 hr⟩
          · rw [if_neg hr] at h
            simp only [Option.some.injEq] at h
            subst h
            have hr0 : r = 0 := by simpa using hr
            exact ⟨fun _ => hl.1 hr0, fun h1 => absurd rfl h1⟩

/-- C8: on a well-formed graph, every sequence returned by `backtracking_graph` is the
label sequence of a vertex sequence that begins with the start vertex, ends with the
target vertex and whose consecutive vertices are joined by edges, so its first label is
the start's and its last the target's; and when the start is the target the result is
the single label. -/
theorem backtracking_graph_walk (g : Graph) (s t fuel : Nat) (hwf : WellFormed g)
    (hs : s < g.size) (ht : t < g.size) :
    (∀ q, backtracking_graph fuel (some g) (some s) (some t) = some (some q) →
      q.head? = some (g.vtx s).content ∧ q.getLast? = some (g.vtx t).content ∧
      ∃ p, q = labels g p ∧ LinkPath g s t p) ∧
    (0 < fuel → s = t →
      backtracking_graph fuel (some g) (some s) (some t) = some (some [(g.vtx s).content])) := by
  constructor
  · intro q h
    unfold backtracking_graph at h
    simp only at h
    cases hrun : recursive_backtrack_graph g t fuel
        { visited := List.replicate g.nb_vertices 0, path := [], checked := [] } (some s) with
    | none => rw [hrun] at h; simp at h
    | some res =>
      obtain ⟨r, st⟩ := res
      rw [hrun] at h
      simp only at h
      have hl := recursive_backtrack_graph_labels hwf t ht fuel _ s _ hs hrun
      by_cases hr : r ≠ 0
      · rw [if_pos hr] at h
        simp only [Option.some.injEq] at h
        obtain ⟨p, hp, hlp⟩ := hl.2 hr
        simp only [List.append_nil] at hp
        rw [h] at hp
        have hh := hlp.1
        have hlast := hlp.2.1
        refine ⟨?_, ?_, p, hp, hlp⟩
        · rw [hp]
          cases p with
          | nil => simp at hh
          | cons a rest =>
            simp only [List.head?_cons, Option.some.injEq] at hh
            simp [labels, hh]
        · rw [hp]
          simp only [labels, List.getLast?_map, hlast, Option.map_some']
      · rw [if_neg hr] at h; simp at h
  · intro hfuel hst
    subst hst
    obtain ⟨k, rfl⟩ : ∃ k, fuel = k + 1 := ⟨fuel - 1, by omega⟩
    unfold backtracking_graph
    simp only
    unfold recursive_backtrack_graph
    simp only [hwf.2.2.1 s hs, getD_replicate]
    simp

/-- Witness for C8 on the graph with a cycle and a self-loop: the search from A to C
returns `[A, B, C]`, and the search from A to A returns `[A]`. -/
theorem backtracking_graph_walk_witness :
    WellFormed cycleGraph ∧
    backtracking_graph 5 (some cycleGraph) (some 0) (some 2) = some (some ["A", "B", "C"]) ∧
    (["A", "B", "C"].head? = some (cycleGraph.vtx 0).content ∧
      ["A", "B", "C"].getLast? = some (cycleGraph.vtx 2).content ∧
      ∃ p, ["A", "B", "C"] = labels cycleGraph p ∧ LinkPath cycleGraph 0 2 p) ∧
    backtracking_graph 5 (some cycleGraph) (some 0) (some 0)
      = some (some [(cycleGraph.vtx 0).content]) :=
  ⟨by decide, by decide,
    (backtracking_graph_walk cycleGraph 0 2 5 (by decide) (by decide) (by decide)).1 _
      (by decide),
    (backtracking_graph_walk cycleGraph 0 0 5 (by decide) (by decide) (by decide)).2
      (by decide) rfl⟩

/-! ## Graph backtracking: termination and completeness -/

theorem count_set_succ {α : Type} [DecidableEq α] (a b d : α) (hab : b ≠ a) (l : List α) :
    ∀ i, i < l.length → l.getD i d = a → (l.set i b).count a + 1 = l.count a := by
  induction l with
  | nil => intro i hi; simp at hi
  | cons x rest ih =>
    intro i hi h0
    cases i with
    | zero =>
      simp only [List.getD_cons_zero] at h0
      subst h0
      simp [List.count_cons, hab]
    | succ i =>
      simp only [List.getD_cons_succ] at h0
      have := ih i (by simpa using hi) h0
      simp only [List.set_cons_succ, List.count_cons]
      omega

theorem set_restore {α : Type} (a b d : α) (l : List α) :
    ∀ i, l.getD i d = a → i < l.length → (l.set i b).set i a = l := by
  induction l with
  | nil => intro i _ hi; simp at hi
  | cons x rest ih =>
    intro i h0 hi
    cases i with
    | zero =>
      simp only [List.getD_cons_zero] at h0
      simp [h0]
    | succ i =>
      simp only [List.getD_cons_succ] at h0
      simp only [List.set_cons_succ, List.cons.injEq, true_and]
      exact ih i h0 (by simpa using hi)

theorem flags01_set (v : List Int) (hf : Flags01 v) (i : Nat) :
    Flags01 (v.set i 1) := by
  intro j
  rcases getD_set_cases v i j 1 0 with ⟨h, _⟩ | ⟨h, _⟩
  · right; exact h
  · rw [h]; exact hf j

/-- A walk can be shortened to one that repeats no vertex. -/
theorem linkpath_nodup (g : Graph) (t : Nat) :
    ∀ (p : List Nat) (s : Nat), LinkPath g s t p → ∃ q, LinkPath g s t q ∧ q.Nodup
  | [], _, h => by have := h.1; simp at this
  | [a], s, h => ⟨[a], h, List.nodup_singleton _⟩
  | a :: b :: rest, s, h => by
    obtain ⟨hh, hl, hb, hch⟩ := h
    have has : a = s := by simpa using hh
    subst has
    obtain ⟨hadj, hch'⟩ := List.chain'_cons.1 hch
    obtain ⟨q, ⟨qh, ql, qb, qch⟩, qnd⟩ := linkpath_nodup g t (b :: rest) b
      ⟨rfl, by simpa [List.getLast?_cons_cons] using hl,
        fun v hv => hb v (List.mem_cons_of_mem _ hv), hch'⟩
    by_cases hmem : a ∈ q
    · obtain ⟨l1, l2, hq⟩ := List.append_of_mem hmem
      subst hq
      refine ⟨a :: l2, ⟨rfl, ?_, fun v hv => qb v (by simp at hv ⊢; tauto), ?_⟩, ?_⟩
      · rw [List.getLast?_append_of_ne_nil _ (by simp)] at ql
        exact ql
      · exact qch.right_of_append
      · exact qnd.of_append_right
    · refine ⟨a :: q, ⟨rfl, ?_, ?_, ?_⟩, List.nodup_cons.2 ⟨hmem, qnd⟩⟩
      · cases q with
        | nil => simp at qh
        | cons c q' => simpa [List.getLast?_cons_cons] using ql
      · intro v hv
        rcases List.mem_cons.1 hv with rfl | hv
        · exact hb v (by simp)
        · exact qb v hv
      · cases q with
        | nil => simp at qh
        | cons c q' =>
          have hc : c = b := by simpa using qh
          subst hc
          exact List.Chain'.cons hadj qch

theorem neighbor_loop_spec (g : Graph) (t c : Nat) (V1 : List Int)
    (call : GraphState → Option Nat → Option (Int × GraphState))
    (hcall : ∀ st d, d < g.size → st.visited = V1 →
      ∃ res, call st (some d) = some res ∧ SearchedFrom g t d st res) :
    ∀ (es : List Edge) (st : GraphState), (∀ e ∈ es, e.dest < g.size) → st.visited = V1 →
      ∃ res, neighbor_loop call (g.vtx c).content es st = some res ∧
        (res.1 = 0 → res.2.visited = V1 ∧ res.2.path = st.path ∧
          ∀ e ∈ es, ¬ ∃ p, AvoidPath g V1 e.dest t p) ∧
        (res.1 ≠ 0 → ∃ e ∈ es, ∃ p, res.2.path = (g.vtx c).content :: (labels g p ++ st.path) ∧
          AvoidPath g V1 e.dest t p)
  | [], st, _, hV => by
    refine ⟨(0, st), rfl, fun _ => ⟨hV, rfl, fun e he => by simp at he⟩, fun h => absurd rfl h⟩
  | e :: rest, st, hes, hV => by
    obtain ⟨⟨r, st'⟩, hcl, hsf⟩ := hcall st e.dest (hes e (by simp)) hV
    unfold neighbor_loop
    rw [hcl]
    simp only
    by_cases hr : r ≠ 0
    · rw [if_pos hr]
      refine ⟨_, rfl, fun h0 => by simp at h0, fun _ => ?_⟩
      obtain ⟨p, hp, hap⟩ := hsf.2 hr
      simp only at hp
      rw [hV] at hap
      exact ⟨e, by simp, p, by simp only [hp], hap⟩
    · rw [if_neg hr]
      have hr0 : r = 0 := by simpa using hr
      obtain ⟨h1, h2, h3⟩ := hsf.1 hr0
      simp only at h1 h2
      rw [hV] at h1 h3
      obtain ⟨res, hloop, k1, k2⟩ := neighbor_loop_spec g t c V1 call hcall rest st'
        (fun e' he' => hes e' (List.mem_cons_of_mem _ he')) h1
      refine ⟨res, hloop, fun h0 => ?_, fun hne => ?_⟩
      · obtain ⟨m1, m2, m3⟩ := k1 h0
        refine ⟨m1, m2.trans h2, ?_⟩
        intro e' he'
        rcases List.mem_cons.1 he' with rfl | he'
        · exact h3
        · exact m3 e' he'
      · obtain ⟨e', he', p, hp, hap⟩ := k2 hne
        exact ⟨e', List.mem_cons_of_mem _ he', p, by rw [hp, h2], hap⟩

/-- A call of `recursive_backtrack_graph` returns when `fuel` exceeds the number of
unmarked vertices, and it succeeds exactly when a simple path off the marked vertices
leads to the target; a failed call leaves the visited array as it found it. -/
theorem recursive_backtrack_graph_spec {g : Graph} (hwf : WellFormed g) (t : Nat)
    (ht : t < g.size) :
    ∀ (fuel : Nat) (st : GraphState) (c : Nat), c < g.size →
      st.visited.length = g.size → Flags01 st.visited → st.visited.count 0 < fuel →
      ∃ res, recursive_backtrack_graph g t fuel st (some c) = some res ∧
        SearchedFrom g t c st res
  | 0, _, _, _, _, _, h => absurd h (Nat.not_lt_zero _)
  | fuel + 1, st, c, hc, hlen, hfl, hcount => by
    unfold recursive_backtrack_graph
    simp only [hwf.2.2.1 c hc]
    by_cases hv : st.visited.getD c 0 = 1
    · rw [if_pos hv]
      refine ⟨_, rfl, fun _ => ⟨rfl, rfl, ?_⟩, fun h => absurd rfl h⟩
      rintro ⟨p, ⟨hh, _, _, _⟩, _, hav⟩
      have := hav c (List.mem_of_mem_head? hh)
      omega
    · rw [if_neg hv]
      have hv0 : st.visited.getD c 0 = 0 := by
        rcases hfl c with h | h
        · exact h
        · exact absurd h hv
      by_cases hlab : (g.vtx c).content = (g.vtx t).content
      · rw [if_pos hlab]
        have hct : c = t := hwf.2.2.2.2.2 c hc t ht hlab
        refine ⟨_, rfl, fun h0 => by simp at h0, fun _ => ⟨[c], rfl, ⟨rfl, ?_, ?_, ?_⟩, ?_, ?_⟩⟩
        · simp [hct]
        · intro v hv'
          simp only [List.mem_singleton] at hv'
          rw [hv']; exact hc
        · exact List.chain'_singleton _
        · exact List.nodup_singleton _
        · intro v hv'
          simp only [List.mem_singleton] at hv'
          rw [hv']; exact hv0
      · rw [if_neg hlab]
        have hc' : c < st.visited.length := by rw [hlen]; exact hc
        have hcnt := count_set_succ (0 : Int) 1 0 (by decide) st.visited c hc' hv0
        have hV1 : ∀ v, v ≠ c → (st.visited.set c 1).getD v 0 = st.visited.getD v 0 :=
          fun v hvc => getD_set_ne _ _ _ _ _ (Ne.symm hvc)
        have hV1c : (st.visited.set c 1).getD c 0 = 1 := getD_set_eq _ _ _ _ hc'
        obtain ⟨⟨r, st'⟩, hloop, k1, k2⟩ := neighbor_loop_spec g t c (st.visited.set c 1)
          (recursive_backtrack_graph g t fuel)
          (fun st'' d hd hV => by
            apply recursive_backtrack_graph_spec hwf t ht fuel st'' d hd
            · rw [hV, List.length_set]; exact hlen
            · rw [hV]; exact flags01_set _ hfl c
            · rw [hV]; omega)
          (g.vtx c).edges
          { visited := st.visited.set c 1, path := st.path, checked := st.checked ++ [c] }
          (fun e he => hwf.2.2.2.1 c hc e he) rfl
        rw [hloop]
        simp only at k1 k2 ⊢
        by_cases hr : r ≠ 0
        · rw [if_pos hr]
          refine ⟨_, rfl, fun h0 => absurd h0 hr, fun _ => ?_⟩
          obtain ⟨e, he, p, hp, ⟨hh, hl, hb, hch⟩, hnd, hav⟩ := k2 hr
          have hcp : c ∉ p := by
            intro hm
            have := hav c hm
            omega
          refine ⟨c :: p, by rw [hp]; rfl, ⟨rfl, ?_, ?_, ?_⟩, List.nodup_cons.2 ⟨hcp, hnd⟩, ?_⟩
          · cases p with
            | nil => simp at hh
            | cons a rest => simpa [List.getLast?_cons_cons] using hl
          · intro v hv'
            rcases List.mem_cons.1 hv' with rfl | hv'
            · exact hc
            · exact hb v hv'
          · cases p with
            | nil => simp at hh
            | cons a rest =>
              have ha : a = e.dest := by simpa using hh
              subst ha
              exact List.Chain'.cons ⟨e, he, rfl⟩ hch
          · intro v hv'
            rcases List.mem_cons.1 hv' with rfl | hv'
            · exact hv0
            · have hvc : v ≠ c := fun hEq => hcp (hEq ▸ hv')
              rw [← hV1 v hvc]
              exact hav v hv'
        · rw [if_neg hr]
          have hr0 : r = 0 := by simpa using hr
          obtain ⟨m1, m2, m3⟩ := k1 hr0
          refine ⟨_, rfl, fun _ => ⟨?_, m2, ?_⟩, fun h1 => absurd rfl h1⟩
          · simp only [m1]
            exact set_restore 0 1 0 st.visited c hv0 hc'
          · rintro ⟨p, ⟨hh, hl, hb, hch⟩, hnd, hav⟩
            cases p with
            | nil => simp at hh
            | cons a rest =>
              have ha : a = c := by simpa using hh
              subst ha
              cases rest with
              | nil =>
                have : a = t := by simpa using hl
                exact hlab (by rw [this])
              | cons d rest' =>
                obtain ⟨⟨e, he, hed⟩, hch'⟩ := List.chain'_cons.1 hch
                apply m3 e he
                rw [hed]
                refine ⟨d :: rest', ⟨rfl, by simpa [List.getLast?_cons_cons] using hl,
                  fun v hv' => hb v (List.mem_cons_of_mem _ hv'), hch'⟩,
                  (List.nodup_cons.1 hnd).2, ?_⟩
                intro v hv'
                have hva : v ≠ a := fun hEq => (List.nodup_cons.1 hnd).1 (hEq ▸ hv')
                rw [hV1 v hva]
                exact hav v (List.mem_cons_of_mem _ hv')

/-- C9: on a well-formed graph, cycles and self-loops included, `backtracking_graph`
returns for every fuel above the vertex count; it returns a path exactly when the target
can be reached from the start by following edges, and `NULL` when it cannot. -/
theorem backtracking_graph_reachable (g : Graph) (s t fuel : Nat) (hwf : WellFormed g)
    (hs : s < g.size) (ht : t < g.size) (hfuel : g.nb_vertices < fuel) :
    (Linked g s t →
      ∃ q, backtracking_graph fuel (some g) (some s) (some t) = some (some q)) ∧
    (¬ Linked g s t →
      backtracking_graph fuel (some g) (some s) (some t) = some none) ∧
    ((∃ q, backtracking_graph fuel (some g) (some s) (some t) = some (some q)) ↔
      Linked g s t) := by
  have hn : g.nb_vertices = g.size := hwf.1
  have hfl : Flags01 (List.replicate g.nb_vertices (0 : Int)) := by
    intro i
    left
    exact getD_replicate _ _ _
  obtain ⟨⟨r, st⟩, hrun, hsf⟩ := recursive_backtrack_graph_spec hwf t ht fuel
    { visited := List.replicate g.nb_vertices 0, path := [], checked := [] } s hs
    (by simp [hn]) hfl (by simp; exact hfuel)
  have hres : backtracking_graph fuel (some g) (some s) (some t)
      = if r ≠ 0 then some (some st.path) else some none := by
    unfold backtracking_graph
    simp only [hrun]
  have hsound : r ≠ 0 → Linked g s t := by
    intro hr
    obtain ⟨p, _, hlp, _⟩ := hsf.2 hr
    exact ⟨p, hlp⟩
  have hcomplete : Linked g s t → r ≠ 0 := by
    rintro ⟨p, hp⟩ hr0
    obtain ⟨q, hq, hnd⟩ := linkpath_nodup g t p s hp
    exact (hsf.1 hr0).2.2 ⟨q, hq, hnd, fun v _ => getD_replicate _ _ _⟩
  refine ⟨fun hl => ⟨st.path, by rw [hres, if_pos (hcomplete hl)]⟩, fun hnl => ?_, ?_⟩
  · rw [hres, if_neg (fun hr => hnl (hsound hr))]
  · constructor
    · rintro ⟨q, hq⟩
      by_contra hnl
      rw [hres, if_neg (fun hr => hnl (hsound hr))] at hq
      simp at hq
    · intro hl
      exact ⟨st.path, by rw [hres, if_pos (hcomplete hl)]⟩

/-- Witness for C9 on the graph with the cycle A→B→C→A and the self-loop A→A: C is
reachable from A and a path is returned; D is not and `NULL` is returned. -/
theorem backtracking_graph_reachable_witness :
    WellFormed cycleGraph ∧ Linked cycleGraph 0 2 ∧
    backtracking_graph 5 (some cycleGraph) (some 0) (some 2) = some (some ["A", "B", "C"]) ∧
    ((∃ q, backtracking_graph 5 (some cycleGraph) (some 0) (some 2) = some (some q)) ↔
      Linked cycleGraph 0 2) ∧
    backtracking_graph 5 (some cycleGraph) (some 0) (some 3) = some none ∧
    ¬ Linked cycleGraph 0 3 :=
  have h := backtracking_graph_reachable cycleGraph 0 2 5 (by decide) (by decide) (by decide)
    (by decide)
  have h' := backtracking_graph_reachable cycleGraph 0 3 5 (by decide) (by decide) (by decide)
    (by decide)
  ⟨by decide, ⟨[0, 1, 2], rfl, rfl, by decide,
      List.Chain'.cons ⟨⟨1, 1⟩, by decide, rfl⟩
        (List.Chain'.cons ⟨⟨2, 1⟩, by decide, rfl⟩ (List.chain'_singleton _))⟩,
    by decide, h.2.2, by decide,
    fun hl => by
      obtain ⟨q, hq⟩ := h'.1 hl
      have hnone : backtracking_graph 5 (some cycleGraph) (some 0) (some 3) = some none := by
        decide
      rw [hnone] at hq
      simp at hq⟩

/-! ## Depth-first traversal -/

theorem linked_refl (g : Graph) (v : Nat) (hv : v < g.size) : Linked g v v :=
  ⟨[v], rfl, rfl, fun u hu => by simp at hu; omega, List.chain'_singleton _⟩

theorem linked_step {g : Graph} (hwf : WellFormed g) (root c : Nat) (e : Edge)
    (hl : Linked g root c) (hc : c < g.size) (he : e ∈ (g.vtx c).edges) :
    Linked g root e.dest := by
  obtain ⟨p, hh, hlast, hb, hch⟩ := hl
  refine ⟨p ++ [e.dest], ?_, by simp, ?_, ?_⟩
  · cases p with
    | nil => simp at hh
    | cons a rest => simpa using hh
  · intro v hv
    rcases List.mem_append.1 hv with h | h
    · exact hb v h
    · simp only [List.mem_singleton] at h
      rw [h]
      exact hwf.2.2.2.1 c hc e he
  · rw [List.chain'_append]
    refine ⟨hch, List.chain'_singleton _, ?_⟩
    intro x hx y hy
    rw [hlast] at hx
    simp at hx hy
    subst hx; subst hy
    exact ⟨e, he, rfl⟩

theorem find_vertex_at_index_wf {g : Graph} (hwf : WellFormed g) (v : Nat) (hv : v < g.size) :
    find_vertex_at_index g v = some v := by
  unfold find_vertex_at_index
  have hn : g.nb_vertices = g.size := hwf.1
  rw [if_neg (by omega)]
  exact locate_vertex_wf hwf v hv

theorem DfsPost.refl_of_explored {g : Graph} {root v : Nat} {st : DfsState}
    (inv : DfsInv g root st) (hv : explored st v) : DfsPost g root v st st :=
  ⟨inv, fun _ h => h, le_refl _, hv, fun _ _ h1 h2 => absurd h1 h2⟩

/-- The edge loop of the traversal flags every neighbour of its edges. -/
theorem dfs_edge_loop_spec {g : Graph} (hwf : WellFormed g) (root c : Nat) (hc : c < g.size)
    (hlc : Linked g root c) (n : Nat) (call : DfsState → Nat → Option DfsState)
    (hcall : ∀ st v, v < g.size → Linked g root v → DfsInv g root st →
      st.visit_tracker.count 0 < n → ∃ st', call st v = some st' ∧ DfsPost g root v st st') :
    ∀ (es : List Edge) (st : DfsState), (∀ e ∈ es, e ∈ (g.vtx c).edges) → DfsInv g root st →
      st.visit_tracker.count 0 < n →
      ∃ st', dfs_edge_loop g call es st = some st' ∧ DfsInv g root st' ∧
        (∀ u, explored st u → explored st' u) ∧
        st'.visit_tracker.count 0 ≤ st.visit_tracker.count 0 ∧
        (∀ e ∈ es, explored st' e.dest) ∧
        (∀ u, u < g.size → explored st' u → ¬ explored st u →
          ∀ e ∈ (g.vtx u).edges, explored st' e.dest)
  | [], st, _, inv, _ =>
    ⟨st, rfl, inv, fun _ h => h, le_refl _, fun e he => by simp at he,
      fun _ _ h1 h2 => absurd h1 h2⟩
  | e :: rest, st, hes, inv, hn => by
    have he : e ∈ (g.vtx c).edges := hes e (by simp)
    have hd : e.dest < g.size := hwf.2.2.2.1 c hc e he
    unfold dfs_edge_loop
    simp only [hwf.2.2.1 _ hd]
    by_cases hun : st.visit_tracker.getD e.dest 0 = UNEXPLORED
    · rw [if_pos hun]
      obtain ⟨st1, hcl, post⟩ := hcall st e.dest hd (linked_step hwf root c e hlc hc he) inv hn
      rw [hcl]
      simp only
      obtain ⟨st', hloop, inv', mono', cnt', all', closed'⟩ :=
        dfs_edge_loop_spec hwf root c hc hlc n call hcall rest st1
          (fun e' he' => hes e' (List.mem_cons_of_mem _ he')) post.inv
          (lt_of_le_of_lt post.count_le hn)
      refine ⟨st', hloop, inv', fun u hu => mono' u (post.mono u hu),
        le_trans cnt' post.count_le, ?_, ?_⟩
      · intro e' he'
        rcases List.mem_cons.1 he' with rfl | he'
        · exact mono' _ post.self
        · exact all' e' he'
      · intro u hu h1 h2 e' he'
        by_cases hmid : explored st1 u
        · exact mono' _ (post.closed u hu hmid h2 e' he')
        · exact closed' u hu h1 hmid e' he'
    · rw [if_neg hun]
      obtain ⟨st', hloop, inv', mono', cnt', all', closed'⟩ :=
        dfs_edge_loop_spec hwf root c hc hlc n call hcall rest st
          (fun e' he' => hes e' (List.mem_cons_of_mem _ he')) inv hn
      refine ⟨st', hloop, inv', mono', cnt', ?_, closed'⟩
      intro e' he'
      rcases List.mem_cons.1 he' with rfl | he'
      · exact mono' _ hun
      · exact all' e' he'

/-- A call of `perform_dfs_recursion` returns when `fuel` exceeds the number of unflagged
vertices, and it leaves the vertex of the call and everything newly flagged closed under
edges. -/
theorem perform_dfs_recursion_spec {g : Graph} (hwf : WellFormed g) (root : Nat) :
    ∀ (fuel : Nat) (st : DfsState) (v level : Nat), v < g.size → Linked g root v →
      DfsInv g root st → st.visit_tracker.count 0 < fuel →
      ∃ st', perform_dfs_recursion g fuel st v level = some st' ∧ DfsPost g root v st st'
  | 0, _, _, _, _, _, _, h => absurd h (Nat.not_lt_zero _)
  | fuel + 1, st, v, level, hv, hlv, inv, hn => by
    unfold perform_dfs_recursion
    rw [find_vertex_at_index_wf hwf v hv]
    simp only
    by_cases hun : st.visit_tracker.getD v 0 = UNEXPLORED
    · rw [if_pos hun]
      have hvlen : v < st.visit_tracker.length := by rw [inv.len]; exact hv
      have hcnt := count_set_succ (0 : Nat) EXPLORED 0 (by decide) st.visit_tracker v hvlen hun
      have hnew : v ∉ st.called := fun hm => ((inv.flagged v hv).2 hm) hun
      have inv1 : DfsInv g root
          { visit_tracker := st.visit_tracker.set v EXPLORED
            max_level := if level > st.max_level then level else st.max_level
            calls := st.calls ++ [(v, level)] } := by
        refine ⟨by simp only [List.length_set]; exact inv.len, ?_, ?_, ?_⟩
        · simp only [DfsState.called, List.map_append, List.map_cons, List.map_nil]
          exact List.nodup_append.2 ⟨inv.nodup, List.nodup_singleton _,
            fun a ha hb => by
              simp only [List.mem_singleton] at hb
              exact hnew (hb ▸ ha)⟩
        · intro u hu
          simp only [explored, DfsState.called, List.map_append, List.map_cons, List.map_nil,
            List.mem_append, List.mem_singleton]
          by_cases hEq : u = v
          · subst hEq
            rw [getD_set_eq _ _ _ _ hvlen]
            simp [EXPLORED, UNEXPLORED]
          · rw [getD_set_ne _ _ _ _ _ (Ne.symm hEq)]
            have := inv.flagged u hu
            simp only [explored, DfsState.called] at this
            rw [this]
            simp [hEq]
        · intro u hu
          simp only [DfsState.called, List.map_append, List.map_cons, List.map_nil,
            List.mem_append, List.mem_singleton] at hu
          rcases hu with h | h
          · exact inv.linked u h
          · rw [h]; exact ⟨hv, hlv⟩
      have hmono1 : ∀ u, explored st u → explored
          { visit_tracker := st.visit_tracker.set v EXPLORED
            max_level := if level > st.max_level then level else st.max_level
            calls := st.calls ++ [(v, level)] } u := by
        intro u hu
        simp only [explored] at hu ⊢
        rcases getD_set_cases st.visit_tracker v u EXPLORED 0 with ⟨h, _⟩ | ⟨h, _⟩
        · rw [h]; decide
        · rw [h]; exact hu
      obtain ⟨st', hloop, inv', mono', cnt', all', closed'⟩ :=
        dfs_edge_loop_spec hwf root v hv hlv fuel
          (fun st' id => perform_dfs_recursion g fuel st' id (level + 1))
          (fun st'' u hu hlu inv'' hn'' =>
            perform_dfs_recursion_spec hwf root fuel st'' u (level + 1) hu hlu inv'' hn'')
          (g.vtx v).edges _ (fun e he => he) inv1 (by simp only; omega)
      refine ⟨st', hloop, inv', fun u hu => mono' u (hmono1 u hu), ?_, ?_, ?_⟩
      · simp only at cnt'
        omega
      · apply mono'
        simp only [explored]
        rw [getD_set_eq _ _ _ _ hvlen]
        decide
      · intro u hu h1 h2 e he
        by_cases hEq : u = v
        · subst hEq
          exact all' e he
        · apply closed' u hu h1 _ e he
          simp only [explored]
          rw [getD_set_ne _ _ _ _ _ (Ne.symm hEq)]
          exact h2
    · rw [if_neg hun]
      exact ⟨st, rfl, DfsPost.refl_of_explored inv hun⟩

/-- A set of flagged vertices that is closed under edges and holds the start of a walk
holds its end. -/
theorem closed_contains_linked (g : Graph) (K : Nat → Prop)
    (hK : ∀ u, u < g.size → K u → ∀ e ∈ (g.vtx u).edges, K e.dest) :
    ∀ (p : List Nat) (a : Nat), p.head? = some a → K a → (∀ v ∈ p, v < g.size) →
      p.Chain' (Adjacent g) → ∀ v ∈ p, K v
  | [], _, h, _, _, _ => by simp at h
  | [b], a, h, ha, _, _ => by
    intro v hv
    simp at h hv
    rw [hv, h]
    exact ha
  | b :: b' :: rest, a, h, ha, hb, hch => by
    simp at h
    subst h
    obtain ⟨⟨e, he, hed⟩, hch'⟩ := List.chain'_cons.1 hch
    have hb' : K b' := hed ▸ hK b (hb b (by simp)) ha e he
    intro v hv
    rcases List.mem_cons.1 hv with rfl | hv
    · exact ha
    · exact closed_contains_linked g K hK (b' :: rest) b' rfl hb'
        (fun c' hc' => hb c' (List.mem_cons_of_mem _ hc')) hch' v hv

/-- C10: on a well-formed non-empty graph, with a visitor and with fuel above the vertex
count, `depth_first_traverse` returns, and among the calls it made to the visitor every
vertex that can be reached by edges from the first-inserted vertex occurs exactly once,
and every vertex that cannot be reached from it does not occur. -/
theorem depth_first_traverse_visits (g : Graph) (fuel : Nat) (hwf : WellFormed g)
    (hne : 0 < g.size) (hfuel : g.nb_vertices < fuel) :
    ∃ depth calls, depth_first_traverse fuel (some g) true = some (depth, calls) ∧
      (∀ v, Linked g 0 v → (calls.map Prod.fst).count v = 1) ∧
      (∀ v, ¬ Linked g 0 v → (calls.map Prod.fst).count v = 0) := by
  have hn : g.nb_vertices = g.size := hwf.1
  have h0 : (g.vtx 0).index = 0 := hwf.2.2.1 0 hne
  have hrep : ∀ u, (List.replicate g.nb_vertices 0).getD u 0 = 0 := fun u => getD_replicate _ _ _
  have inv0 : DfsInv g 0
      { visit_tracker := List.replicate g.nb_vertices 0, max_level := 0, calls := [] } := by
    refine ⟨by simp [hn], List.nodup_nil, ?_, fun u hu => by simp [DfsState.called] at hu⟩
    intro u _
    simp only [explored, DfsState.called, List.map_nil, List.not_mem_nil, iff_false, not_not]
    exact hrep u
  obtain ⟨st, hrun, post⟩ := perform_dfs_recursion_spec hwf 0 fuel _ 0 0 hne
    (linked_refl g 0 hne) inv0 (by simp; exact hfuel)
  refine ⟨st.max_level, st.calls, ?_, ?_, ?_⟩
  · unfold depth_first_traverse
    simp only
    cases hv : g.vertices with
    | nil =>
      unfold Graph.size at hne
      rw [hv] at hne
      simp at hne
    | cons start_vertex rest =>
      have hstart : start_vertex.index = 0 := by
        have := h0
        unfold Graph.vtx at this
        rw [hv] at this
        simpa using this
      simp only [hstart, hrep, UNEXPLORED, if_true, hrun]
  · intro v hl
    apply List.count_eq_one_of_mem post.inv.nodup
    obtain ⟨p, hh, hlast, hb, hch⟩ := hl
    have hK := closed_contains_linked g (fun u => explored st u)
      (fun u hu hex e he => post.closed u hu hex (by
        simp only [explored, not_not]
        exact hrep u) e he)
      p 0 hh post.self hb hch v (List.mem_of_mem_getLast? hlast)
    exact (post.inv.flagged v (hb v (List.mem_of_mem_getLast? hlast))).1 hK
  · intro v hnl
    apply List.count_eq_zero_of_not_mem
    intro hm
    exact hnl (post.inv.linked v hm).2

/-- Witness for C10 on the graph with the cycle A→B→C→A, the self-loop A→A and the
isolated vertex D: the visitor is called on A, B and C once each and never on D. -/
theorem depth_first_traverse_visits_witness :
    WellFormed cycleGraph ∧
    depth_first_traverse 5 (some cycleGraph) true = some (2, [(0, 0), (1, 1), (2, 2)]) ∧
    ∃ depth calls, depth_first_traverse 5 (some cycleGraph) true = some (depth, calls) ∧
      (∀ v, Linked cycleGraph 0 v → (calls.map Prod.fst).count v = 1) ∧
      (∀ v, ¬ Linked cycleGraph 0 v → (calls.map Prod.fst).count v = 0) :=
  ⟨by decide, by decide,
    depth_first_traverse_visits cycleGraph 5 (by decide) (by decide) (by decide)⟩

/-! ## graph_add_vertex -/

theorem scan_for_label_none (str : String) (vs : List Vertex) (last : Option Vertex)
    (h : ∃ v ∈ vs, v.content = str) : scan_for_label str vs last = none := by
  induction vs generalizing last with
  | nil => obtain ⟨v, hv, _⟩ := h; cases hv
  | cons a rest ih =>
    by_cases ha : a.content = str
    · simp only [scan_for_label, if_pos ha]
    · simp only [scan_for_label, if_neg ha]
      apply ih
      obtain ⟨v, hv, hvs⟩ := h
      rcases List.mem_cons.1 hv with rfl | hv
      · exact absurd hvs ha
      · exact ⟨v, hv, hvs⟩

theorem scan_for_label_some (str : String) (vs : List Vertex) (last : Option Vertex)
    (h : ∀ v ∈ vs, v.content ≠ str) :
    scan_for_label str vs last =
      some (if vs = [] then last else some (vs.getD (vs.length - 1) default)) := by
  induction vs generalizing last with
  | nil => simp [scan_for_label]
  | cons a rest ih =>
    have ha : a.content ≠ str := h a (List.mem_cons_self _ _)
    simp only [scan_for_label, if_neg ha]
    rw [ih (some a) (fun v hv => h v (List.mem_cons_of_mem _ hv))]
    cases rest with
    | nil => simp
    | cons b rest' =>
      simp only [List.length_cons, Nat.add_sub_cancel, reduceCtorEq, if_false,
        List.getD_cons_succ]

theorem graph_add_vertex_dup (g : Graph) (str : String) (h : HasLabel g str) :
    graph_add_vertex (some g) (some str) = (none, some g) := by
  simp only [graph_add_vertex, scan_for_label_none str g.vertices none h]

theorem graph_add_vertex_new (g : Graph) (str : String)
    (hc : g.nb_vertices = g.vertices.length) (h : ¬ HasLabel g str) :
    graph_add_vertex (some g) (some str) =
      (some g.vertices.length,
        some { nb_vertices := g.nb_vertices + 1
               vertices := g.vertices ++
                 [{ create_new_vertex str with
                    index := if g.vertices = [] then 0
                      else (g.vertices.getD (g.vertices.length - 1) default).index + 1 }] }) := by
  have hs := scan_for_label_some str g.vertices none
    (fun v hv hvs => h ⟨v, hv, hvs⟩)
  simp only [graph_add_vertex, hs]
  by_cases he : g.vertices = []
  · have h0 : g.nb_vertices = 0 := by rw [hc, he]; rfl
    simp [he, h0]
  · have h0 : g.nb_vertices ≠ 0 := by
      rw [hc]; exact fun hl => he (List.length_eq_zero.1 hl)
    simp [he, h0]

/-- What the vertex calls keep true of a graph: the count matches the list and the vertex
at position `k` carries index `k`. -/
theorem add_vertex_keeps (g : Graph) (str : String)
    (hc : g.nb_vertices = g.vertices.length)
    (hidx : ∀ k, k < g.vertices.length → (g.vtx k).index = k) (h : ¬ HasLabel g str) :
    ∃ g1 : Graph, graph_add_vertex (some g) (some str) = (some g.vertices.length, some g1) ∧
      g1.nb_vertices = g1.vertices.length ∧
      (∀ k, k < g1.vertices.length → (g1.vtx k).index = k) ∧
      g1.vertices.length = g.vertices.length + 1 ∧
      (∀ k, k < g.vertices.length → g1.vtx k = g.vtx k) ∧
      (g1.vtx g.vertices.length).content = str := by
  refine ⟨_, graph_add_vertex_new g str hc h, ?_, ?_, ?_, ?_, ?_⟩
  · simp [hc]
  · intro k hk
    simp only [List.length_append, List.length_singleton] at hk
    by_cases hk' : k < g.vertices.length
    · have := hidx k hk'
      simp only [Graph.vtx] at this ⊢
      rw [List.getD_append _ _ _ _ hk']
      exact this
    · have hke : k = g.vertices.length := by omega
      subst hke
      simp only [Graph.vtx]
      rw [List.getD_append_right _ _ _ _ (Nat.le_refl _)]
      simp only [Nat.sub_self, List.getD_cons_zero]
      by_cases he : g.vertices = []
      · simp [he]
      · simp only [if_neg he]
        have hpos : 0 < g.vertices.length := List.length_pos.2 he
        have := hidx (g.vertices.length - 1) (by omega)
        simp only [Graph.vtx] at this
        rw [this]; omega
  · simp
  · intro k hk
    simp only [Graph.vtx]
    rw [List.getD_append _ _ _ _ hk]
  · simp only [Graph.vtx]
    rw [List.getD_append_right _ _ _ _ (Nat.le_refl _)]
    simp [create_new_vertex]

theorem add_vertices_cons_dup (g : Graph) (str : String) (rest : List String)
    (h : HasLabel g str) :
    add_vertices (str :: rest) g = (none :: (add_vertices rest g).1, (add_vertices rest g).2) := by
  simp only [add_vertices, graph_add_vertex_dup g str h]

theorem add_vertices_cons_new (g g1 : Graph) (str : String) (rest : List String) (p : Option Nat)
    (h : graph_add_vertex (some g) (some str) = (p, some g1)) :
    add_vertices (str :: rest) g = (p :: (add_vertices rest g1).1, (add_vertices rest g1).2) := by
  simp only [add_vertices, h]

/-- Full description of a run of vertex calls from a graph whose count matches its list and
whose vertex at position `k` carries index `k`. -/
theorem add_vertices_spec (labels : List String) (g : Graph)
    (hc : g.nb_vertices = g.vertices.length)
    (hidx : ∀ k, k < g.vertices.length → (g.vtx k).index = k) :
    (add_vertices labels g).2.nb_vertices = (add_vertices labels g).2.vertices.length ∧
    (∀ k, k < (add_vertices labels g).2.vertices.length →
      ((add_vertices labels g).2.vtx k).index = k) ∧
    g.vertices.length ≤ (add_vertices labels g).2.vertices.length ∧
    (∀ k, k < g.vertices.length → (add_vertices labels g).2.vtx k = g.vtx k) ∧
    (add_vertices labels g).1.filterMap id =
      List.range' g.vertices.length
        ((add_vertices labels g).2.vertices.length - g.vertices.length) ∧
    (add_vertices labels g).1.length = labels.length ∧
    (∀ i p, (add_vertices labels g).1.getD i none = some p →
      ((add_vertices labels g).2.vtx p).content = labels.getD i "" ∧
      p < (add_vertices labels g).2.vertices.length) := by
  induction labels generalizing g with
  | nil =>
    refine ⟨hc, hidx, Nat.le_refl _, fun _ _ => rfl, ?_, rfl, ?_⟩
    · simp [add_vertices]
    · intro i p h; simp [add_vertices] at h
  | cons str rest ih =>
    by_cases h : HasLabel g str
    · rw [add_vertices_cons_dup g str rest h]
      obtain ⟨a1, a2, a3, a4, a5, a6, a7⟩ := ih g hc hidx
      refine ⟨a1, a2, a3, a4, ?_, ?_, ?_⟩
      · simpa using a5
      · simp [a6]
      · intro i p hp
        cases i with
        | zero => simp at hp
        | succ i =>
          simp only [List.getD_cons_succ] at hp ⊢
          exact a7 i p hp
    · obtain ⟨g1, hg1, b1, b2, b3, b4, b5⟩ := add_vertex_keeps g str hc hidx h
      rw [add_vertices_cons_new g g1 str rest _ hg1]
      obtain ⟨a1, a2, a3, a4, a5, a6, a7⟩ := ih g1 b1 b2
      refine ⟨a1, a2, show g.vertices.length ≤ (add_vertices rest g1).2.vertices.length by
        omega, ?_, ?_, ?_, ?_⟩
      · intro k hk
        show (add_vertices rest g1).2.vtx k = g.vtx k
        rw [a4 k (by omega), b4 k hk]
      · simp only [List.filterMap_cons, id]
        rw [a5, b3]
        have : (add_vertices rest g1).2.vertices.length - g.vertices.length =
            ((add_vertices rest g1).2.vertices.length - (g.vertices.length + 1)) + 1 := by omega
        rw [this, List.range'_succ]
      · simp [a6]
      · intro i p hp
        cases i with
        | zero =>
          simp only [List.getD_cons_zero, Option.some.injEq] at hp ⊢
          subst hp
          refine ⟨?_, show g.vertices.length < (add_vertices rest g1).2.vertices.length by
            omega⟩
          show ((add_vertices rest g1).2.vtx g.vertices.length).content = str
          rw [a4 _ (by omega)]
          exact b5
        | succ i =>
          simp only [List.getD_cons_succ] at hp ⊢
          exact a7 i p hp

theorem add_vertices_append (l1 l2 : List String) (g : Graph) :
    add_vertices (l1 ++ l2) g =
      ((add_vertices l1 g).1 ++ (add_vertices l2 (add_vertices l1 g).2).1,
        (add_vertices l2 (add_vertices l1 g).2).2) := by
  induction l1 generalizing g with
  | nil => simp [add_vertices]
  | cons str rest ih =>
    by_cases h : HasLabel g str
    · rw [List.cons_append, add_vertices_cons_dup g str _ h, add_vertices_cons_dup g str _ h,
        ih g]
      simp
    · have hn : ∃ p g1, graph_add_vertex (some g) (some str) = (p, some g1) := by
        simp only [graph_add_vertex]
        cases scan_for_label str g.vertices none with
        | none => exact ⟨_, _, rfl⟩
        | some last =>
          by_cases h0 : g.nb_vertices = 0
          · simp only [if_pos h0]; exact ⟨_, _, rfl⟩
          · simp only [if_neg h0]; exact ⟨_, _, rfl⟩
      obtain ⟨p, g1, hg1⟩ := hn
      rw [List.cons_append, add_vertices_cons_new g g1 str _ p hg1,
        add_vertices_cons_new g g1 str _ p hg1, ih g1]
      simp

/-- C16: for every graph whose count matches its vertex list and every label,
`graph_add_vertex` on a label that a vertex already carries returns `NULL` and leaves the
graph as it was; on a label that no vertex carries it returns the new vertex, which is
appended last with that label, no edge and edge count 0, and the count grows by one. -/
theorem graph_add_vertex_result (g : Graph) (str : String)
    (hc : g.nb_vertices = g.vertices.length) :
    (HasLabel g str → graph_add_vertex (some g) (some str) = (none, some g)) ∧
    (¬ HasLabel g str → ∃ v : Vertex,
      graph_add_vertex (some g) (some str) =
        (some g.vertices.length,
          some { nb_vertices := g.nb_vertices + 1, vertices := g.vertices ++ [v] }) ∧
      v.content = str ∧ v.edges = [] ∧ v.nb_edges = 0) :=
  ⟨graph_add_vertex_dup g str,
    fun h => ⟨_, graph_add_vertex_new g str hc h, rfl, rfl, rfl⟩⟩

theorem graph_add_vertex_result_witness :
    threeLabels.nb_vertices = threeLabels.vertices.length ∧
    graph_add_vertex (some threeLabels) (some "B") = (none, some threeLabels) ∧
    ∃ v : Vertex,
      graph_add_vertex (some threeLabels) (some "D") =
        (some threeLabels.vertices.length,
          some { nb_vertices := threeLabels.nb_vertices + 1
                 vertices := threeLabels.vertices ++ [v] }) ∧
      v.content = "D" ∧ v.edges = [] ∧ v.nb_edges = 0 :=
  ⟨rfl,
    (graph_add_vertex_result threeLabels "B" rfl).1 ⟨⟨1, "B", 0, 0, 0, []⟩, by decide, rfl⟩,
    (graph_add_vertex_result threeLabels "D" rfl).2 (by
      rintro ⟨v, hv, hvs⟩
      simp only [threeLabels, List.mem_cons, List.mem_singleton, List.not_mem_nil,
        or_false] at hv
      rcases hv with rfl | rfl | rfl <;> exact absurd hvs (by decide))⟩

/-- C15: for every sequence of `graph_add_vertex` calls on a freshly created graph (the
labels `l1`, followed by any later calls `l2`): the successful calls return the vertices
0, 1, 2, ... in this order, so a rejected call uses up no index; the vertex a call
returns carries the label of that call; the vertex at position `k` has index `k` and is
the same vertex after the later calls; and two vertices with the same index are the same
vertex. -/
theorem graph_add_vertex_indices (l1 l2 : List String) :
    (add_vertices l1 graph_create).1.filterMap id =
      List.range (add_vertices l1 graph_create).2.vertices.length ∧
    (∀ i p, (add_vertices l1 graph_create).1.getD i none = some p →
      ((add_vertices l1 graph_create).2.vtx p).content = l1.getD i "") ∧
    (∀ k, k < (add_vertices l1 graph_create).2.vertices.length →
      ((add_vertices l1 graph_create).2.vtx k).index = k ∧
      (add_vertices (l1 ++ l2) graph_create).2.vtx k =
        (add_vertices l1 graph_create).2.vtx k) ∧
    (∀ a b, a < (add_vertices l1 graph_create).2.vertices.length →
      b < (add_vertices l1 graph_create).2.vertices.length →
      ((add_vertices l1 graph_create).2.vtx a).index =
        ((add_vertices l1 graph_create).2.vtx b).index → a = b) ∧
    (add_vertices (l1 ++ l2) graph_create).1.take l1.length =
      (add_vertices l1 graph_create).1 := by
  have h0 : ∀ k, k < graph_create.vertices.length → (graph_create.vtx k).index = k := by
    intro k hk; simp [graph_create] at hk
  obtain ⟨a1, a2, a3, a4, a5, a6, a7⟩ := add_vertices_spec l1 graph_create rfl h0
  obtain ⟨c1, c2, c3, c4, c5, c6, c7⟩ :=
    add_vertices_spec l2 (add_vertices l1 graph_create).2 a1 a2
  refine ⟨?_, fun i p hp => (a7 i p hp).1, ?_, ?_, ?_⟩
  · rw [a5]
    simp [graph_create, List.range_eq_range']
  · intro k hk
    refine ⟨a2 k hk, ?_⟩
    rw [add_vertices_append]
    exact c4 k hk
  · intro a b ha hb hab
    rw [a2 a ha, a2 b hb] at hab
    exact hab
  · rw [add_vertices_append]
    simp only
    rw [← a6, List.take_left]

/-! ## graph_add_edge -/

theorem find_endpoints_fst_absent (src dest : String) (vs : List Vertex) (pos : Nat)
    (s d : Option Nat) (h : ∀ v ∈ vs, v.content ≠ src) :
    (find_endpoints src dest vs pos (s, d)).1 = s := by
  induction vs generalizing pos s d with
  | nil => rfl
  | cons a rest ih =>
    have ha : a.content ≠ src := h a (List.mem_cons_self _ _)
    have hr : ∀ v ∈ rest, v.content ≠ src := fun v hv => h v (List.mem_cons_of_mem _ hv)
    simp only [find_endpoints, if_neg ha]
    by_cases hd : a.content = dest
    · simp only [if_pos hd]; exact ih _ _ _ hr
    · simp only [if_neg hd]; exact ih _ _ _ hr

theorem find_endpoints_snd_absent (src dest : String) (vs : List Vertex) (pos : Nat)
    (s d : Option Nat) (h : ∀ v ∈ vs, v.content ≠ dest ∨ v.content = src) :
    (find_endpoints src dest vs pos (s, d)).2 = d := by
  induction vs generalizing pos s d with
  | nil => rfl
  | cons a rest ih =>
    have hr : ∀ v ∈ rest, v.content ≠ dest ∨ v.content = src :=
      fun v hv => h v (List.mem_cons_of_mem _ hv)
    by_cases hs : a.content = src
    · simp only [find_endpoints, if_pos hs]; exact ih _ _ _ hr
    · have hd : a.content ≠ dest := by
        rcases h a (List.mem_cons_self _ _) with h1 | h1
        · exact h1
        · exact absurd h1 hs
      simp only [find_endpoints, if_neg hs, if_neg hd]; exact ih _ _ _ hr

theorem find_endpoints_fst_found (src dest : String) (vs : List Vertex) (pos : Nat)
    (s d : Option Nat) (i : Nat) (hi : i < vs.length)
    (hsrc : (vs.getD i default).content = src)
    (huniq : ∀ k, k < vs.length → (vs.getD k default).content = src → k = i) :
    (find_endpoints src dest vs pos (s, d)).1 = some (pos + i) := by
  induction vs generalizing pos s d i with
  | nil => simp at hi
  | cons a rest ih =>
    cases i with
    | zero =>
      simp only [List.getD_cons_zero] at hsrc
      simp only [find_endpoints, if_pos hsrc]
      apply find_endpoints_fst_absent
      intro v hv hvs
      obtain ⟨k, hk, rfl⟩ := List.getElem_of_mem hv
      have := huniq (k + 1) (by simpa using hk)
        (by simp only [List.getD_cons_succ]; rw [List.getD_eq_getElem _ _ hk]; exact hvs)
      omega
    | succ i =>
      have ha : a.content ≠ src := by
        intro ha
        have := huniq 0 (by simp) (by simpa using ha)
        omega
      have hi' : i < rest.length := by simpa using hi
      have hsrc' : (rest.getD i default).content = src := by simpa using hsrc
      have huniq' : ∀ k, k < rest.length → (rest.getD k default).content = src → k = i := by
        intro k hk hks
        have := huniq (k + 1) (by simpa using hk) (by simpa using hks)
        omega
      simp only [find_endpoints, if_neg ha]
      by_cases hd : a.content = dest
      · simp only [if_pos hd]
        rw [ih (pos + 1) _ _ i hi' hsrc' huniq']
        congr 1; omega
      · simp only [if_neg hd]
        rw [ih (pos + 1) _ _ i hi' hsrc' huniq']
        congr 1; omega

theorem find_endpoints_snd_found (src dest : String) (hne : src ≠ dest) (vs : List Vertex)
    (pos : Nat) (s d : Option Nat) (j : Nat) (hj : j < vs.length)
    (hdest : (vs.getD j default).content = dest)
    (huniq : ∀ k, k < vs.length → (vs.getD k default).content = dest → k = j) :
    (find_endpoints src dest vs pos (s, d)).2 = some (pos + j) := by
  induction vs generalizing pos s d j with
  | nil => simp at hj
  | cons a rest ih =>
    cases j with
    | zero =>
      simp only [List.getD_cons_zero] at hdest
      have hs : a.content ≠ src := by rw [hdest]; exact fun h => hne h.symm
      simp only [find_endpoints, if_neg hs, if_pos hdest]
      apply find_endpoints_snd_absent
      intro v hv
      left
      intro hvs
      obtain ⟨k, hk, rfl⟩ := List.getElem_of_mem hv
      have := huniq (k + 1) (by simpa using hk)
        (by simp only [List.getD_cons_succ]; rw [List.getD_eq_getElem _ _ hk]; exact hvs)
      omega
    | succ j =>
      have ha : a.content ≠ dest := by
        intro ha
        have := huniq 0 (by simp) (by simpa using ha)
        omega
      have hj' : j < rest.length := by simpa using hj
      have hdest' : (rest.getD j default).content = dest := by simpa using hdest
      have huniq' : ∀ k, k < rest.length → (rest.getD k default).content = dest → k = j := by
        intro k hk hks
        have := huniq (k + 1) (by simpa using hk) (by simpa using hks)
        omega
      by_cases hs : a.content = src
      · simp only [find_endpoints, if_pos hs]
        rw [ih (pos + 1) _ _ j hj' hdest' huniq']
        congr 1; omega
      · simp only [find_endpoints, if_neg hs, if_neg ha]
        rw [ih (pos + 1) _ _ j hj' hdest' huniq']
        congr 1; omega

/-- The endpoints the scan of `graph_add_edge` finds for the labels of two vertices with
different labels, in a graph with distinct labels. -/
theorem find_endpoints_unique (g : Graph) (i j : Nat) (hi : i < g.size) (hj : j < g.size)
    (hne : (g.vtx i).content ≠ (g.vtx j).content) (hu : UniqueLabels g) :
    find_endpoints (g.vtx i).content (g.vtx j).content g.vertices 0 (none, none) =
      (some i, some j) := by
  have h1 := find_endpoints_fst_found (g.vtx i).content (g.vtx j).content g.vertices 0
    none none i hi rfl (fun k hk hks => hu k hk i hi hks)
  have h2 := find_endpoints_snd_found (g.vtx i).content (g.vtx j).content hne g.vertices 0
    none none j hj rfl (fun k hk hks => hu k hk j hj hks)
  rw [Nat.zero_add] at h1 h2
  exact Prod.ext h1 h2

theorem mem_of_has_label {g : Graph} {str : String} (v : Vertex) (hv : v ∈ g.vertices)
    (h : ¬ HasLabel g str) : v.content ≠ str := fun hvs => h ⟨v, hv, hvs⟩

/-- C17: for every graph, if the source label or the destination label names no vertex,
or the direction value is neither `UNIDIRECTIONAL` nor `BIDIRECTIONAL`, `graph_add_edge`
returns 0 and the graph after the call is the graph before it, so every vertex keeps its
edge list and its edge count. -/
theorem graph_add_edge_failure (g : Graph) (src dest : String) (type : Int)
    (h : ¬ HasLabel g src ∨ ¬ HasLabel g dest ∨
      (type ≠ UNIDIRECTIONAL ∧ type ≠ BIDIRECTIONAL)) :
    graph_add_edge (some g) (some src) (some dest) type = (0, some g) ∧
    ∀ k, ((graph_add_edge (some g) (some src) (some dest) type).2.getD g).vtx k = g.vtx k := by
  have key : graph_add_edge (some g) (some src) (some dest) type = (0, some g) := by
    simp only [graph_add_edge]
    by_cases ht : type < UNIDIRECTIONAL ∨ type > BIDIRECTIONAL
    · simp only [if_pos ht]
    · simp only [if_neg ht]
      rcases h with h | h | h
      · have h1 := find_endpoints_fst_absent src dest g.vertices 0 none none
          (fun v hv => mem_of_has_label v hv h)
        rcases hf : find_endpoints src dest g.vertices 0 (none, none) with ⟨a, b⟩
        rw [hf] at h1
        simp only at h1
        subst h1
        rfl
      · have h1 := find_endpoints_snd_absent src dest g.vertices 0 none none
          (fun v hv => Or.inl (mem_of_has_label v hv h))
        rcases hf : find_endpoints src dest g.vertices 0 (none, none) with ⟨a, b⟩
        rw [hf] at h1
        simp only at h1
        subst h1
        cases a <;> rfl
      · exfalso
        apply ht
        simp only [UNIDIRECTIONAL, BIDIRECTIONAL] at h ⊢
        omega
  exact ⟨key, fun k => by rw [key]; rfl⟩

theorem graph_add_edge_failure_witness :
    graph_add_edge (some threeLabels) (some "A") (some "Z") UNIDIRECTIONAL =
      (0, some threeLabels) ∧
    graph_add_edge (some threeLabels) (some "A") (some "B") 2 = (0, some threeLabels) :=
  ⟨(graph_add_edge_failure threeLabels "A" "Z" UNIDIRECTIONAL (Or.inr (Or.inl (by
      rintro ⟨v, hv, hvs⟩
      simp only [threeLabels, List.mem_cons, List.mem_singleton, List.not_mem_nil,
        or_false] at hv
      rcases hv with rfl | rfl | rfl <;> exact absurd hvs (by decide))))).1,
    (graph_add_edge_failure threeLabels "A" "B" 2 (Or.inr (Or.inr (by decide)))).1⟩

/-- A call of `graph_add_edge` whose source and destination are the same label returns 0
and leaves the graph as it was: the scan never tests the destination on a vertex that
matched the source. -/
theorem graph_add_edge_same_label (g : Graph) (str : String) (type : Int) :
    graph_add_edge (some g) (some str) (some str) type = (0, some g) := by
  simp only [graph_add_edge]
  by_cases ht : type < UNIDIRECTIONAL ∨ type > BIDIRECTIONAL
  · simp only [if_pos ht]
  · simp only [if_neg ht]
    have h1 := find_endpoints_snd_absent str str g.vertices 0 none none
      (fun v _ => by by_cases hv : v.content = str
                     · exact Or.inr hv
                     · exact Or.inl hv)
    rcases hf : find_endpoints str str g.vertices 0 (none, none) with ⟨a, b⟩
    rw [hf] at h1
    simp only at h1
    subst h1
    cases a <;> rfl

/-- C18 (the code does not do this): on the graph whose only vertex is `A`, where the
label `A` names a vertex, the calls `graph_add_edge(graph, "A", "A", UNIDIRECTIONAL)` and
`graph_add_edge(graph, "A", "A", BIDIRECTIONAL)` return 0 and leave the graph without an
edge; and so does every call whose source and destination are the same label, on every
graph and for every direction. -/
theorem graph_add_edge_self_loop :
    HasLabel loopless "A" ∧
    graph_add_edge (some loopless) (some "A") (some "A") UNIDIRECTIONAL = (0, some loopless) ∧
    graph_add_edge (some loopless) (some "A") (some "A") BIDIRECTIONAL = (0, some loopless) ∧
    ∀ (g : Graph) (str : String) (type : Int),
      graph_add_edge (some g) (some str) (some str) type = (0, some g) :=
  ⟨⟨⟨0, "A", 0, 0, 0, []⟩, by decide, rfl⟩, by decide, by decide,
    graph_add_edge_same_label⟩

/-- The graph after `add_single_edge(i, j)`: vertex `i` has the edge to `j` appended and its
edge count raised by one, and nothing else has changed. -/
theorem add_single_edge_spec (g : Graph) (i j : Nat) (hi : i < g.size) :
    (add_single_edge g (some i) (some j)).1 = true ∧
    (add_single_edge g (some i) (some j)).2.nb_vertices = g.nb_vertices ∧
    (add_single_edge g (some i) (some j)).2.size = g.size ∧
    (add_single_edge g (some i) (some j)).2.vtx i =
      { g.vtx i with edges := (g.vtx i).edges ++ [⟨j, 0⟩],
                     nb_edges := (g.vtx i).nb_edges + 1 } ∧
    (∀ k, k ≠ i → (add_single_edge g (some i) (some j)).2.vtx k = g.vtx k) := by
  refine ⟨rfl, rfl, ?_, ?_, ?_⟩
  · simp [add_single_edge, Graph.size]
  · simp only [add_single_edge, Graph.vtx]
    exact getD_set_eq _ _ _ _ hi
  · intro k hk
    simp only [add_single_edge, Graph.vtx]
    exact getD_set_ne _ _ _ _ _ (Ne.symm hk)

theorem add_single_edge_content (g : Graph) (i j : Nat) (hi : i < g.size) (k : Nat) :
    ((add_single_edge g (some i) (some j)).2.vtx k).content = (g.vtx k).content := by
  obtain ⟨_, _, _, h4, h5⟩ := add_single_edge_spec g i j hi
  by_cases hk : k = i
  · subst hk; rw [h4]
  · rw [h5 k hk]

theorem add_single_edge_labels (g : Graph) (i j : Nat) (hi : i < g.size)
    (hu : UniqueLabels g) : UniqueLabels (add_single_edge g (some i) (some j)).2 := by
  intro a ha b hb hab
  rw [add_single_edge_content g i j hi, add_single_edge_content g i j hi] at hab
  rw [(add_single_edge_spec g i j hi).2.2.1] at ha hb
  exact hu a ha b hb hab

theorem graph_add_edge_uni (g : Graph) (i j : Nat) (hi : i < g.size) (hj : j < g.size)
    (hne : (g.vtx i).content ≠ (g.vtx j).content) (hu : UniqueLabels g) :
    graph_add_edge (some g) (some (g.vtx i).content) (some (g.vtx j).content) UNIDIRECTIONAL =
      (1, some (add_single_edge g (some i) (some j)).2) := by
  simp only [graph_add_edge, find_endpoints_unique g i j hi hj hne hu]
  rw [if_neg (by decide)]
  rfl

theorem graph_add_edge_bi (g : Graph) (i j : Nat) (hi : i < g.size) (hj : j < g.size)
    (hne : (g.vtx i).content ≠ (g.vtx j).content) (hu : UniqueLabels g) :
    graph_add_edge (some g) (some (g.vtx i).content) (some (g.vtx j).content) BIDIRECTIONAL =
      (1, some (add_single_edge (add_single_edge g (some i) (some j)).2 (some j) (some i)).2) := by
  simp only [graph_add_edge, find_endpoints_unique g i j hi hj hne hu]
  rw [if_neg (by decide)]
  rfl

/-- C19: for every graph with distinct labels and every two vertices `i`, `j` with
different labels, the `UNIDIRECTIONAL` call `graph_add_edge(label i, label j)` returns 1;
the edge list of `i` is the old one followed by one edge to `j`, its edge count is one
more, vertex `i` keeps its index and label, every other vertex is exactly as before, and
the vertex count and the length of the vertex list are as before. -/
theorem graph_add_edge_unidirectional (g : Graph) (i j : Nat) (hi : i < g.size)
    (hj : j < g.size) (hne : (g.vtx i).content ≠ (g.vtx j).content) (hu : UniqueLabels g) :
    ∃ g1 : Graph,
      graph_add_edge (some g) (some (g.vtx i).content) (some (g.vtx j).content)
        UNIDIRECTIONAL = (1, some g1) ∧
      (g1.vtx i).edges = (g.vtx i).edges ++ [⟨j, 0⟩] ∧
      (g1.vtx i).nb_edges = (g.vtx i).nb_edges + 1 ∧
      (g1.vtx i).index = (g.vtx i).index ∧
      (g1.vtx i).content = (g.vtx i).content ∧
      (∀ k, k ≠ i → g1.vtx k = g.vtx k) ∧
      g1.nb_vertices = g.nb_vertices ∧ g1.size = g.size := by
  obtain ⟨_, h2, h3, h4, h5⟩ := add_single_edge_spec g i j hi
  refine ⟨_, graph_add_edge_uni g i j hi hj hne hu, ?_, ?_, ?_, ?_, h5, h2, h3⟩ <;> rw [h4]

theorem graph_add_edge_unidirectional_witness :
    ∃ g1 : Graph,
      graph_add_edge (some threeLabels) (some "A") (some "C") UNIDIRECTIONAL = (1, some g1) ∧
      (g1.vtx 0).edges = [⟨1, 0⟩, ⟨2, 0⟩] ∧
      (g1.vtx 0).nb_edges = 2 ∧
      (g1.vtx 0).index = 0 ∧
      (g1.vtx 0).content = "A" ∧
      (∀ k, k ≠ 0 → g1.vtx k = threeLabels.vtx k) ∧
      g1.nb_vertices = 3 ∧ g1.size = 3 :=
  graph_add_edge_unidirectional threeLabels 0 2 (by decide) (by decide) (by decide)
    (by decide)

/-- C20: for every graph with distinct labels and every two vertices `i`, `j` with
different labels, the `BIDIRECTIONAL` call `graph_add_edge(label i, label j)` returns 1
and leaves the same graph as the `UNIDIRECTIONAL` call for (label i, label j) followed by
the `UNIDIRECTIONAL` call for (label j, label i), which both return 1; in that graph the
edge list of `i` is the old one followed by one edge to `j`, the edge list of `j` is the
old one followed by one edge to `i`, and every other vertex is exactly as before. -/
theorem graph_add_edge_bidirectional (g : Graph) (i j : Nat) (hi : i < g.size)
    (hj : j < g.size) (hne : (g.vtx i).content ≠ (g.vtx j).content) (hu : UniqueLabels g) :
    ∃ g1 g2 : Graph,
      graph_add_edge (some g) (some (g.vtx i).content) (some (g.vtx j).content)
        BIDIRECTIONAL = (1, some g2) ∧
      graph_add_edge (some g) (some (g.vtx i).content) (some (g.vtx j).content)
        UNIDIRECTIONAL = (1, some g1) ∧
      graph_add_edge (some g1) (some (g.vtx j).content) (some (g.vtx i).content)
        UNIDIRECTIONAL = (1, some g2) ∧
      (g2.vtx i).edges = (g.vtx i).edges ++ [⟨j, 0⟩] ∧
      (g2.vtx j).edges = (g.vtx j).edges ++ [⟨i, 0⟩] ∧
      (g2.vtx i).nb_edges = (g.vtx i).nb_edges + 1 ∧
      (g2.vtx j).nb_edges = (g.vtx j).nb_edges + 1 ∧
      (∀ k, k ≠ i → k ≠ j → g2.vtx k = g.vtx k) ∧
      g2.nb_vertices = g.nb_vertices ∧ g2.size = g.size := by
  have hij : i ≠ j := fun h => hne (by rw [h])
  obtain ⟨_, h2, h3, h4, h5⟩ := add_single_edge_spec g i j hi
  have hj1 : j < (add_single_edge g (some i) (some j)).2.size := by rw [h3]; exact hj
  have hi1 : i < (add_single_edge g (some i) (some j)).2.size := by rw [h3]; exact hi
  obtain ⟨_, k2, k3, k4, k5⟩ :=
    add_single_edge_spec (add_single_edge g (some i) (some j)).2 j i hj1
  have hu1 := add_single_edge_labels g i j hi hu
  have hci := add_single_edge_content g i j hi i
  have hcj := add_single_edge_content g i j hi j
  have second := graph_add_edge_uni (add_single_edge g (some i) (some j)).2 j i hj1 hi1
    (by rw [hci, hcj]; exact fun h => hne h.symm) hu1
  rw [hci, hcj] at second
  refine ⟨_, _, graph_add_edge_bi g i j hi hj hne hu, graph_add_edge_uni g i j hi hj hne hu,
    second, ?_, ?_, ?_, ?_, ?_, ?_, ?_⟩
  · rw [k5 i hij, h4]
  · rw [k4, h5 j (Ne.symm hij)]
  · rw [k5 i hij, h4]
  · rw [k4, h5 j (Ne.symm hij)]
  · intro k hki hkj
    rw [k5 k hkj, h5 k hki]
  · rw [k2, h2]
  · rw [k3, h3]

theorem graph_add_edge_bidirectional_witness :
    ∃ g1 g2 : Graph,
      graph_add_edge (some threeLabels) (some "A") (some "C") BIDIRECTIONAL = (1, some g2) ∧
      graph_add_edge (some threeLabels) (some "A") (some "C") UNIDIRECTIONAL = (1, some g1) ∧
      graph_add_edge (some g1) (some "C") (some "A") UNIDIRECTIONAL = (1, some g2) ∧
      (g2.vtx 0).edges = [⟨1, 0⟩, ⟨2, 0⟩] ∧
      (g2.vtx 2).edges = [⟨0, 0⟩] ∧
      (g2.vtx 0).nb_edges = 2 ∧
      (g2.vtx 2).nb_edges = 1 ∧
      (∀ k, k ≠ 0 → k ≠ 2 → g2.vtx k = threeLabels.vtx k) ∧
      g2.nb_vertices = 3 ∧ g2.size = 3 :=
  graph_add_edge_bidirectional threeLabels 0 2 (by decide) (by decide) (by decide)
    (by decide)

/-! ## Depth-first traversal: order and depths of the reports -/

/-- The state after the vertex `v` has been flagged and reported. -/
theorem DfsTrace.report {g : Graph} {st : DfsState} (tr : DfsTrace g st) (v level : Nat)
    (hv : v < g.size) (hent : EnteredFrom g st.calls v level) :
    DfsTrace g
      { visit_tracker := st.visit_tracker.set v EXPLORED
        max_level := if level > st.max_level then level else st.max_level
        calls := st.calls ++ [(v, level)] } := by
  have hvlen : v < st.visit_tracker.length := by rw [tr.len]; exact hv
  refine ⟨by simp only [List.length_set]; exact tr.len, ?_, ?_, ?_, ?_⟩
  · intro u hu
    simp only [DfsState.called, List.map_append, List.map_cons, List.map_nil,
      List.mem_append, List.mem_singleton]
    by_cases hEq : u = v
    · subst hEq
      rw [getD_set_eq _ _ _ _ hvlen]
      simp [EXPLORED, UNEXPLORED]
    · rw [getD_set_ne _ _ _ _ _ (Ne.symm hEq)]
      have := tr.sync u hu
      simp only [DfsState.called] at this
      rw [this]
      simp [hEq]
  · intro c hc
    simp only [List.mem_append, List.mem_singleton] at hc
    simp only
    rcases hc with h | h
    · have := tr.le_max c h
      split <;> omega
    · subst h
      simp only
      split <;> omega
  · simp only
    by_cases hgt : level > st.max_level
    · rw [if_pos hgt]
      exact Or.inr ⟨(v, level), by simp, rfl⟩
    · rw [if_neg hgt]
      rcases tr.max_hit with h | ⟨c, hc, hcm⟩
      · exact Or.inl h
      · exact Or.inr ⟨c, by simp [hc], hcm⟩
  · intro k hk0 hk
    simp only [List.length_append, List.length_singleton] at hk
    by_cases hk' : k < st.calls.length
    · obtain ⟨j, hj, hadj, hd⟩ := tr.parents k hk0 hk'
      refine ⟨j, hj, ?_⟩
      simp only
      rw [List.getD_append _ _ _ _ hk', List.getD_append _ _ _ _ (by omega)]
      exact ⟨hadj, hd⟩
    · have hke : k = st.calls.length := by omega
      rcases hent with h | ⟨j, hj, hadj, hd⟩
      · rw [h] at hke; simp at hke; omega
      · refine ⟨j, by omega, ?_⟩
        simp only
        rw [List.getD_append _ _ _ _ hj, hke,
          List.getD_append_right _ _ _ _ (Nat.le_refl _)]
        simp only [Nat.sub_self, List.getD_cons_zero]
        exact ⟨hadj, hd⟩

/-- The edge loop of the traversal, run from a state where the vertex `c` of the loop is
the report number `jc`, extends the reports exactly as the specified edge step does. -/
theorem dfs_edge_loop_trace {g : Graph} (hwf : WellFormed g) (c level jc : Nat)
    (hc : c < g.size) (call : DfsState → Nat → Option DfsState)
    (visit : List (Nat × Nat) → Nat → Option (List (Nat × Nat)))
    (hcall : ∀ st v st', v < g.size → DfsTrace g st → EnteredFrom g st.calls v (level + 1) →
      st.visit_tracker.getD v 0 = UNEXPLORED → call st v = some st' →
      DfsTrace g st' ∧ (∃ t, st'.calls = st.calls ++ t) ∧ visit st.calls v = some st'.calls) :
    ∀ (es : List Edge) (st st' : DfsState), (∀ e ∈ es, e ∈ (g.vtx c).edges) →
      DfsTrace g st → jc < st.calls.length → st.calls.getD jc (0, 0) = (c, level) →
      dfs_edge_loop g call es st = some st' →
      DfsTrace g st' ∧ (∃ t, st'.calls = st.calls ++ t) ∧
        preorder_edges visit es st.calls = some st'.calls
  | [], st, st', _, tr, _, _, h => by
    simp only [dfs_edge_loop, Option.some.injEq] at h
    subst h
    exact ⟨tr, ⟨[], by simp⟩, rfl⟩
  | e :: rest, st, st', hes, tr, hjc, hjcv, h => by
    have he : e ∈ (g.vtx c).edges := hes e (by simp)
    have hd : e.dest < g.size := hwf.2.2.2.1 c hc e he
    have hrest : ∀ e' ∈ rest, e' ∈ (g.vtx c).edges :=
      fun e' he' => hes e' (List.mem_cons_of_mem _ he')
    unfold dfs_edge_loop at h
    simp only [hwf.2.2.1 _ hd] at h
    unfold preorder_edges
    by_cases hun : st.visit_tracker.getD e.dest 0 = UNEXPLORED
    · rw [if_pos hun] at h
      have hnot : e.dest ∉ st.calls.map Prod.fst := (tr.sync e.dest hd).1 hun
      rw [if_neg hnot]
      cases hcl : call st e.dest with
      | none => rw [hcl] at h; simp at h
      | some st1 =>
        rw [hcl] at h
        simp only at h
        have hent : EnteredFrom g st.calls e.dest (level + 1) :=
          Or.inr ⟨jc, hjc, by rw [hjcv]; exact ⟨e, he, rfl⟩, by rw [hjcv]⟩
        obtain ⟨tr1, ⟨t1, ht1⟩, hv1⟩ := hcall st e.dest st1 hd tr hent hun hcl
        rw [hv1]
        simp only
        have hjc1 : jc < st1.calls.length := by rw [ht1, List.length_append]; omega
        have hjcv1 : st1.calls.getD jc (0, 0) = (c, level) := by
          rw [ht1, List.getD_append _ _ _ _ hjc]; exact hjcv
        obtain ⟨tr', ⟨t', ht'⟩, hp'⟩ :=
          dfs_edge_loop_trace hwf c level jc hc call visit hcall rest st1 st' hrest tr1
            hjc1 hjcv1 h
        exact ⟨tr', ⟨t1 ++ t', by rw [ht', ht1, List.append_assoc]⟩, hp'⟩
    · rw [if_neg hun] at h
      have hin : e.dest ∈ st.calls.map Prod.fst := by
        by_contra hcon
        exact hun ((tr.sync e.dest hd).2 hcon)
      rw [if_pos hin]
      exact dfs_edge_loop_trace hwf c level jc hc call visit hcall rest st st' hrest tr
        hjc hjcv h

/-- A call of `perform_dfs_recursion` on an unflagged vertex extends the reports exactly
as the specified pre-order does, and keeps the depths and parents of the reports right. -/
theorem perform_dfs_recursion_trace {g : Graph} (hwf : WellFormed g) :
    ∀ (fuel : Nat) (st : DfsState) (v level : Nat) (st' : DfsState), v < g.size →
      DfsTrace g st → EnteredFrom g st.calls v level →
      st.visit_tracker.getD v 0 = UNEXPLORED →
      perform_dfs_recursion g fuel st v level = some st' →
      DfsTrace g st' ∧ (∃ t, st'.calls = st.calls ++ (v, level) :: t) ∧
        preorder_from g fuel st.calls v level = some st'.calls
  | 0, _, _, _, _, _, _, _, _, h => by simp [perform_dfs_recursion] at h
  | fuel + 1, st, v, level, st', hv, tr, hent, hun, h => by
    unfold perform_dfs_recursion at h
    rw [find_vertex_at_index_wf hwf v hv] at h
    simp only [if_pos hun] at h
    unfold preorder_from
    have tr1 := tr.report v level hv hent
    obtain ⟨tr', ⟨t', ht'⟩, hp'⟩ :=
      dfs_edge_loop_trace hwf v level st.calls.length hv
        (fun st'' id => perform_dfs_recursion g fuel st'' id (level + 1))
        (fun r u => preorder_from g fuel r u (level + 1))
        (fun st'' u st2 hu tr'' hent'' hun'' hcl'' => by
          obtain ⟨a, ⟨t, ht⟩, b⟩ := perform_dfs_recursion_trace hwf fuel st'' u (level + 1)
            st2 hu tr'' hent'' hun'' hcl''
          exact ⟨a, ⟨_, ht⟩, b⟩)
        (g.vtx v).edges _ st' (fun e he => he) tr1
        (by simp) (by
          simp only
          rw [List.getD_append_right _ _ _ _ (Nat.le_refl _)]
          simp) h
    simp only at ht' hp'
    exact ⟨tr', ⟨t', by rw [ht']; simp⟩, hp'⟩

/-- C11: on a well-formed non-empty graph, with a visitor and with fuel above the vertex
count, `depth_first_traverse` returns, and the reports it made to the visitor are those of
the recursive pre-order from the first vertex that follows each edge list in order and
skips reported vertices; the first report is the first vertex with depth 0, every later
report comes after the report of a vertex with an edge to its vertex and has a depth one
more than that report, and the returned value is the largest depth reported. -/
theorem depth_first_traverse_preorder (g : Graph) (fuel : Nat) (hwf : WellFormed g)
    (hne : 0 < g.size) (hfuel : g.nb_vertices < fuel) :
    ∃ depth calls, depth_first_traverse fuel (some g) true = some (depth, calls) ∧
      preorder_from g fuel [] 0 0 = some calls ∧
      calls.head? = some (0, 0) ∧
      ParentsReported g calls ∧
      (∀ c ∈ calls, c.2 ≤ depth) ∧ (∃ c ∈ calls, c.2 = depth) := by
  have hn : g.nb_vertices = g.size := hwf.1
  have h0 : (g.vtx 0).index = 0 := hwf.2.2.1 0 hne
  have hrep : ∀ u, (List.replicate g.nb_vertices 0).getD u 0 = 0 := fun u => getD_replicate _ _ _
  have inv0 : DfsInv g 0
      { visit_tracker := List.replicate g.nb_vertices 0, max_level := 0, calls := [] } := by
    refine ⟨by simp [hn], List.nodup_nil, ?_, fun u hu => by simp [DfsState.called] at hu⟩
    intro u _
    simp only [explored, DfsState.called, List.map_nil, List.not_mem_nil, iff_false, not_not]
    exact hrep u
  have tr0 : DfsTrace g
      { visit_tracker := List.replicate g.nb_vertices 0, max_level := 0, calls := [] } := by
    refine ⟨by simp [hn], ?_, fun c hc => by simp at hc, Or.inl rfl,
      fun k _ hk => by simp at hk⟩
    intro u _
    simp only [DfsState.called, List.map_nil, List.not_mem_nil, not_false_eq_true, iff_true]
    exact hrep u
  obtain ⟨st, hrun, _⟩ := perform_dfs_recursion_spec hwf 0 fuel _ 0 0 hne
    (linked_refl g 0 hne) inv0 (by simp; exact hfuel)
  obtain ⟨tr, ⟨t, ht⟩, hp⟩ := perform_dfs_recursion_trace hwf fuel _ 0 0 st hne tr0
    (Or.inl rfl) (hrep 0) hrun
  simp only at ht hp
  have hfirst : st.calls.head? = some (0, 0) := by rw [ht]; rfl
  refine ⟨st.max_level, st.calls, ?_, hp, hfirst, tr.parents, tr.le_max, ?_⟩
  · unfold depth_first_traverse
    simp only
    cases hv : g.vertices with
    | nil =>
      unfold Graph.size at hne
      rw [hv] at hne
      simp at hne
    | cons start_vertex rest =>
      have hstart : start_vertex.index = 0 := by
        have := h0
        unfold Graph.vtx at this
        rw [hv] at this
        simpa using this
      simp only [hstart, hrep, UNEXPLORED, if_true, hrun]
  · rcases tr.max_hit with h | h
    · cases hc : st.calls with
      | nil => rw [hc] at hfirst; simp at hfirst
      | cons a rest =>
        rw [hc] at hfirst
        simp only [List.head?_cons, Option.some.injEq] at hfirst
        exact ⟨a, by simp, by rw [hfirst, h]⟩
    · exact h

/-- Witness for C11 on the graph with the cycle A→B→C→A, the self-loop A→A and the
isolated vertex D: the reports are A at depth 0, B at depth 1, C at depth 2, and the
returned value is 2. -/
theorem depth_first_traverse_preorder_witness :
    WellFormed cycleGraph ∧
    depth_first_traverse 5 (some cycleGraph) true = some (2, [(0, 0), (1, 1), (2, 2)]) ∧
    ∃ depth calls, depth_first_traverse 5 (some cycleGraph) true = some (depth, calls) ∧
      preorder_from cycleGraph 5 [] 0 0 = some calls ∧
      calls.head? = some (0, 0) ∧
      ParentsReported cycleGraph calls ∧
      (∀ c ∈ calls, c.2 ≤ depth) ∧ (∃ c ∈ calls, c.2 = depth) :=
  ⟨by decide, by decide,
    depth_first_traverse_preorder cycleGraph 5 (by decide) (by decide) (by decide)⟩

/-! ## Traversals on absent or empty input -/

/-- C14: `depth_first_traverse` and `breadth_first_traverse` return 0 and make no call to
the visitor when the graph is absent, when the visitor is absent, and when the graph has
no vertices (an empty vertex list, and for the breadth-first traversal also a vertex
count of 0), whatever the fuel, the queue capacity and the level separator are. -/
theorem traversals_without_input (SIZE : Nat) (LEVELBREAK : Int) (fuel : Nat) (g : Graph)
    (n : Nat) (action : Bool) :
    depth_first_traverse fuel none action = some (0, []) ∧
    depth_first_traverse fuel (some g) false = some (0, []) ∧
    depth_first_traverse fuel (some { nb_vertices := n, vertices := [] }) action =
      some (0, []) ∧
    breadth_first_traverse SIZE LEVELBREAK fuel none action = some (0, [], []) ∧
    breadth_first_traverse SIZE LEVELBREAK fuel (some g) false = some (0, [], []) ∧
    breadth_first_traverse SIZE LEVELBREAK fuel (some { nb_vertices := n, vertices := [] })
      action = some (0, [], []) ∧
    breadth_first_traverse SIZE LEVELBREAK fuel
      (some { nb_vertices := 0, vertices := g.vertices }) action = some (0, [], []) := by
  refine ⟨rfl, rfl, ?_, rfl, rfl, ?_, ?_⟩
  · cases action <;> rfl
  · cases action <;> rfl
  · cases action
    · rfl
    · simp only [breadth_first_traverse]
      cases g.vertices with
      | nil => rfl
      | cons v rest => simp

/-! ## The queue of the breadth-first traversal -/

theorem queueHolds_init (SIZE : Nat) : QueueHolds SIZE (initialize_bfs_queue SIZE) [] :=
  ⟨by simp [initialize_bfs_queue], Or.inl ⟨rfl, rfl, rfl⟩⟩

theorem queueHolds_rear_nil {SIZE : Nat} {q : queue_t} (h : QueueHolds SIZE q []) :
    q.rear = -1 := by
  rcases h.2 with ⟨_, _, h3⟩ | ⟨h1, _⟩
  · exact h3
  · exact absurd rfl h1

theorem queueHolds_rear_cons {SIZE : Nat} {q : queue_t} {x : Int} {P : List Int}
    (h : QueueHolds SIZE q (x :: P)) : q.rear ≠ -1 := by
  rcases h.2 with ⟨h1, _⟩ | ⟨_, h2, h3, _⟩
  · simp at h1
  · simp only [List.length_cons] at h3
    omega

/-- An enqueue either appends the value, or, when the queue is full, ignores it. -/
theorem enqueue_vertex_spec {SIZE : Nat} {q : queue_t} {P : List Int} (v : Int)
    (h : QueueHolds SIZE q P) :
    ((enqueue_vertex SIZE q v).ignored = q.ignored ∧
      QueueHolds SIZE (enqueue_vertex SIZE q v) (P ++ [v])) ∨
    ((enqueue_vertex SIZE q v).ignored = q.ignored ++ [v] ∧
      QueueHolds SIZE (enqueue_vertex SIZE q v) P) := by
  unfold enqueue_vertex
  by_cases hfull : q.rear ≥ (SIZE : Int) - 1
  · rw [if_pos hfull]
    exact Or.inr ⟨rfl, h⟩
  · rw [if_neg hfull]
    left
    refine ⟨rfl, by simp only [List.length_set]; exact h.1, Or.inr ?_⟩
    rcases h.2 with ⟨h1, h2, h3⟩ | ⟨h1, h2, h3, h4, h5⟩
    · subst h1
      simp only [h2, h3, if_true]
      refine ⟨by simp, le_refl _, by simp, by omega, ?_⟩
      intro i hi
      simp only [List.nil_append, List.length_singleton] at hi
      have hi0 : i = 0 := by omega
      subst hi0
      simp only [List.nil_append, List.getD_cons_zero]
      exact getD_set_eq _ _ _ _ (by rw [h.1]; simp; omega)
    · have hf : q.front ≠ -1 := by omega
      simp only [if_neg hf]
      refine ⟨by simp, h2, by simp only [List.length_append, List.length_singleton]; omega,
        by omega, ?_⟩
      intro i hi
      simp only [List.length_append, List.length_singleton] at hi
      by_cases hi' : i < P.length
      · rw [List.getD_append _ _ _ _ hi', getD_set_ne _ _ _ _ _ (by omega)]
        exact h5 i hi'
      · have hie : i = P.length := by omega
        subst hie
        rw [List.getD_append_right _ _ _ _ (Nat.le_refl _)]
        simp only [Nat.sub_self, List.getD_cons_zero]
        have : q.front.toNat + P.length = (q.rear + 1).toNat := by omega
        rw [this]
        exact getD_set_eq _ _ _ _ (by rw [h.1]; omega)

/-- A dequeue removes and returns the oldest value. -/
theorem dequeue_vertex_spec {SIZE : Nat} {q : queue_t} {x : Int} {P : List Int}
    (h : QueueHolds SIZE q (x :: P)) :
    (dequeue_vertex q 0).1 = x ∧ QueueHolds SIZE (dequeue_vertex q 0).2 P ∧
      (dequeue_vertex q 0).2.ignored = q.ignored := by
  have hr := queueHolds_rear_cons h
  rcases h.2 with ⟨h1, _⟩ | ⟨_, h2, h3, h4, h5⟩
  · simp at h1
  simp only [List.length_cons] at h3
  have hx : q.items.getD q.front.toNat 0 = x := by
    have := h5 0 (by simp)
    simpa using this
  unfold dequeue_vertex
  rw [if_neg hr]
  simp only [ne_eq, not_true_eq_false, if_false]
  by_cases hlast : q.front + 1 > q.rear
  · rw [if_pos hlast]
    refine ⟨hx, ⟨h.1, Or.inl ⟨?_, rfl, rfl⟩⟩, rfl⟩
    have : P.length = 0 := by omega
    exact List.length_eq_zero.1 this
  · rw [if_neg hlast]
    refine ⟨hx, ⟨h.1, Or.inr ⟨?_, by simp only; omega, by simp only; omega, h4, ?_⟩⟩, rfl⟩
    · intro hP
      rw [hP] at h3
      simp at h3
      omega
    · intro i hi
      have := h5 (i + 1) (by simp; omega)
      simp only [List.getD_cons_succ] at this
      rw [← this]
      show q.items.getD ((q.front + 1).toNat + i) 0 = q.items.getD (q.front.toNat + (i + 1)) 0
      congr 1
      omega

theorem peek_vertex_cons {SIZE : Nat} {q : queue_t} {x : Int} {P : List Int}
    (h : QueueHolds SIZE q (x :: P)) : (dequeue_vertex q 1).1 = x := by
  have hr := queueHolds_rear_cons h
  rcases h.2 with ⟨h1, _⟩ | ⟨_, h2, h3, h4, h5⟩
  · simp at h1
  unfold dequeue_vertex
  rw [if_neg hr]
  simp only [ne_eq, one_ne_zero, not_false_eq_true, if_true]
  have := h5 0 (by simp)
  simpa using this

theorem peek_vertex_nil {SIZE : Nat} {q : queue_t} (h : QueueHolds SIZE q []) :
    (dequeue_vertex q 1).1 = -1 := by
  unfold dequeue_vertex
  rw [if_pos (queueHolds_rear_nil h)]

/-! ## Breadth-first traversal: the loop ends -/

theorem count_set_le (l : List Nat) (b : Nat) (hb : b ≠ 0) :
    ∀ i, (l.set i b).count 0 ≤ l.count 0 := by
  induction l with
  | nil => intro i; simp
  | cons x rest ih =>
    intro i
    cases i with
    | zero =>
      simp only [List.set_cons_zero, List.count_cons]
      have : (b == 0) = false := by simpa using hb
      simp only [this, Bool.false_eq_true, if_false]
      omega
    | succ i =>
      simp only [List.set_cons_succ, List.count_cons]
      have := ih i
      omega

theorem locate_vertex_lt (idx : Nat) :
    ∀ (l : List Vertex) (pos p : Nat), locate_vertex idx l pos = some p →
      pos ≤ p ∧ p < pos + l.length
  | [], _, _, h => by simp [locate_vertex] at h
  | v :: rest, pos, p, h => by
    unfold locate_vertex at h
    by_cases hv : v.index = idx
    · rw [if_pos hv] at h
      simp only [Option.some.injEq] at h
      simp only [List.length_cons]
      omega
    · rw [if_neg hv] at h
      have := locate_vertex_lt idx rest (pos + 1) p h
      simp only [List.length_cons]
      omega

theorem locate_vertex_by_index_lt {g : Graph} {idx p : Nat}
    (h : locate_vertex_by_index g idx = some p) : p < g.size := by
  unfold locate_vertex_by_index at h
  by_cases hi : idx ≥ g.nb_vertices
  · rw [if_pos hi] at h; simp at h
  · rw [if_neg hi] at h
    have := locate_vertex_lt idx g.vertices 0 p h
    unfold Graph.size
    omega

/-- The edge loop of the traversal does not raise the count of unexplored flags plus
queued values. -/
theorem enqueue_neighbors_measure {g : Graph} (hwf : WellFormed g) (SIZE : Nat)
    (LEVELBREAK : Int) :
    ∀ (es : List Edge) (st : BfsState) (P : List Int), (∀ e ∈ es, e.dest < g.size) →
      st.visited_tracker.length = g.size → QueueHolds SIZE st.bfs_queue P →
      ∃ P', QueueHolds SIZE (enqueue_neighbors SIZE g es st).bfs_queue P' ∧
        (enqueue_neighbors SIZE g es st).visited_tracker.length = g.size ∧
        (enqueue_neighbors SIZE g es st).visited_tracker.count 0 +
            (P'.filter (fun x => x ≠ LEVELBREAK)).length ≤
          st.visited_tracker.count 0 + (P.filter (fun x => x ≠ LEVELBREAK)).length
  | [], st, P, _, hlen, hq => ⟨P, hq, hlen, le_refl _⟩
  | e :: rest, st, P, hes, hlen, hq => by
    have hd : e.dest < g.size := hes e (by simp)
    have hrest : ∀ e' ∈ rest, e'.dest < g.size :=
      fun e' he' => hes e' (List.mem_cons_of_mem _ he')
    unfold enqueue_neighbors
    simp only [hwf.2.2.1 _ hd]
    by_cases hun : st.visited_tracker.getD e.dest 0 = UNEXPLORED
    · rw [if_pos hun]
      have hcnt := count_set_succ (0 : Nat) BACKTRACK 0 (by decide) st.visited_tracker e.dest
        (by rw [hlen]; exact hd) hun
      rcases enqueue_vertex_spec (int_of_size e.dest) hq with ⟨_, hq1⟩ | ⟨_, hq1⟩
      · obtain ⟨P', h1, h2, h3⟩ := enqueue_neighbors_measure hwf SIZE LEVELBREAK rest
          { st with
            bfs_queue := enqueue_vertex SIZE st.bfs_queue (int_of_size e.dest)
            visited_tracker := st.visited_tracker.set e.dest BACKTRACK }
          _ hrest (by simp only [List.length_set]; exact hlen) hq1
        refine ⟨P', h1, h2, ?_⟩
        simp only [List.filter_append, List.length_append] at h3
        have : ([int_of_size e.dest].filter (fun x => decide (x ≠ LEVELBREAK))).length ≤ 1 := by
          have := List.length_filter_le (fun x => decide (x ≠ LEVELBREAK)) [int_of_size e.dest]
          simpa using this
        omega
      · obtain ⟨P', h1, h2, h3⟩ := enqueue_neighbors_measure hwf SIZE LEVELBREAK rest
          { st with
            bfs_queue := enqueue_vertex SIZE st.bfs_queue (int_of_size e.dest)
            visited_tracker := st.visited_tracker.set e.dest BACKTRACK }
          _ hrest (by simp only [List.length_set]; exact hlen) hq1
        refine ⟨P', h1, h2, ?_⟩
        simp only at h3
        omega
    · rw [if_neg hun]
      exact enqueue_neighbors_measure hwf SIZE LEVELBREAK rest st P hrest hlen hq

theorem bfs_measure_le (LEVELBREAK : Int) (visited : List Nat) (P : List Int) :
    bfs_measure LEVELBREAK visited P ≤
      2 * visited.count 0 + 2 * (P.filter (fun x => x ≠ LEVELBREAK)).length + 1 := by
  unfold bfs_measure
  split <;> omega

theorem bfs_measure_quiet (LEVELBREAK : Int) (visited : List Nat) (P : List Int)
    (h : P.head? ≠ some LEVELBREAK) :
    bfs_measure LEVELBREAK visited P =
      2 * visited.count 0 + 2 * (P.filter (fun x => x ≠ LEVELBREAK)).length := by
  unfold bfs_measure
  rw [if_neg h]
  rfl

theorem bfs_measure_break (LEVELBREAK : Int) (visited : List Nat) (rest : List Int) :
    bfs_measure LEVELBREAK visited (LEVELBREAK :: rest) =
      2 * visited.count 0 + 2 * (rest.filter (fun x => x ≠ LEVELBREAK)).length + 1 := by
  unfold bfs_measure
  simp

theorem bfs_measure_vertex (LEVELBREAK : Int) (visited : List Nat) (x : Int) (rest : List Int)
    (hx : x ≠ LEVELBREAK) :
    bfs_measure LEVELBREAK visited (x :: rest) =
      2 * visited.count 0 + 2 * (rest.filter (fun x => x ≠ LEVELBREAK)).length + 2 := by
  unfold bfs_measure
  simp [hx]
  omega

theorem filter_append_break (LEVELBREAK : Int) (rest : List Int) :
    ((rest ++ [LEVELBREAK]).filter (fun x => x ≠ LEVELBREAK)).length =
      (rest.filter (fun x => x ≠ LEVELBREAK)).length := by
  simp

/-- The loop of the traversal ends within `fuel` rounds when `fuel` exceeds the measure of
the state, whatever the capacity of the queue is. -/
theorem bfs_loop_terminates {g : Graph} (hwf : WellFormed g) (SIZE : Nat) (LEVELBREAK : Int) :
    ∀ (fuel : Nat) (st : BfsState) (P : List Int), st.visited_tracker.length = g.size →
      QueueHolds SIZE st.bfs_queue P → bfs_measure LEVELBREAK st.visited_tracker P < fuel →
      ∃ st', bfs_loop SIZE LEVELBREAK g fuel st = some st'
  | 0, _, _, _, _, h => absurd h (Nat.not_lt_zero _)
  | fuel + 1, st, P, hlen, hq, hm => by
    unfold bfs_loop
    cases P with
    | nil =>
      rw [if_pos (queueHolds_rear_nil hq)]
      exact ⟨st, rfl⟩
    | cons x rest =>
      rw [if_neg (queueHolds_rear_cons hq)]
      obtain ⟨hx, hq1, _⟩ := dequeue_vertex_spec hq
      simp only [hx]
      by_cases hlb : x = LEVELBREAK
      · rw [if_pos hlb]
        subst hlb
        have hbefore := bfs_measure_break x st.visited_tracker rest
        by_cases hpeek : (dequeue_vertex
            (enqueue_vertex SIZE (dequeue_vertex st.bfs_queue 0).2 x) 1).1 = x
        · rw [if_pos hpeek]
          exact ⟨_, rfl⟩
        · rw [if_neg hpeek]
          rcases enqueue_vertex_spec x hq1 with ⟨_, hq2⟩ | ⟨_, hq2⟩
          · refine bfs_loop_terminates hwf SIZE x fuel _ (rest ++ [x])
              ?_ ?_ ?_
            · exact hlen
            · exact hq2
            have hhead : (rest ++ [x]).head? ≠ some x := by
              cases hr : rest ++ [x] with
              | nil => simp
              | cons y t =>
                rw [hr] at hq2
                have := peek_vertex_cons hq2
                simp only [List.head?_cons, ne_eq, Option.some.injEq]
                intro hy
                exact hpeek (by rw [this, hy])
            show bfs_measure x st.visited_tracker (rest ++ [x]) < fuel
            rw [bfs_measure_quiet x _ _ hhead, filter_append_break]
            omega
          · refine bfs_loop_terminates hwf SIZE x fuel _ rest ?_ ?_ ?_
            · exact hlen
            · exact hq2
            have hhead : rest.head? ≠ some x := by
              cases hr : rest with
              | nil => simp
              | cons y t =>
                rw [hr] at hq2
                have := peek_vertex_cons hq2
                simp only [List.head?_cons, ne_eq, Option.some.injEq]
                intro hy
                exact hpeek (by rw [this, hy])
            show bfs_measure x st.visited_tracker rest < fuel
            rw [bfs_measure_quiet x _ _ hhead]
            omega
      · rw [if_neg hlb]
        have hbefore := bfs_measure_vertex LEVELBREAK st.visited_tracker x rest hlb
        have hskip : ∃ st', bfs_loop SIZE LEVELBREAK g fuel
            { st with bfs_queue := (dequeue_vertex st.bfs_queue 0).2 } = some st' := by
          refine bfs_loop_terminates hwf SIZE LEVELBREAK fuel _ rest ?_ ?_ ?_
          · exact hlen
          · exact hq1
          have := bfs_measure_le LEVELBREAK st.visited_tracker rest
          show bfs_measure LEVELBREAK st.visited_tracker rest < fuel
          omega
        cases hloc : locate_vertex_by_index g (size_of_int x) with
        | none => exact hskip
        | some cv =>
          simp only
          by_cases hex : st.visited_tracker.getD (g.vtx cv).index 0 = EXPLORED
          · rw [if_pos hex]
            exact hskip
          · rw [if_neg hex]
            have hcv : cv < g.size := locate_vertex_by_index_lt hloc
            have hmark := count_set_le st.visited_tracker EXPLORED (by decide) (g.vtx cv).index
            obtain ⟨P', h1, h2, h3⟩ := enqueue_neighbors_measure hwf SIZE LEVELBREAK
              (g.vtx cv).edges
              { st with
                bfs_queue := (dequeue_vertex st.bfs_queue 0).2
                visited_tracker := st.visited_tracker.set (g.vtx cv).index EXPLORED
                calls := st.calls ++ [(cv, st.current_breadth)] }
              rest (fun e he => hwf.2.2.2.1 cv hcv e he)
              (by simp only [List.length_set]; exact hlen) hq1
            refine bfs_loop_terminates hwf SIZE LEVELBREAK fuel _ P' ?_ ?_ ?_
            · exact h2
            · exact h1
            have := bfs_measure_le LEVELBREAK
              (enqueue_neighbors SIZE g (g.vtx cv).edges
                { st with
                  bfs_queue := (dequeue_vertex st.bfs_queue 0).2
                  visited_tracker := st.visited_tracker.set (g.vtx cv).index EXPLORED
                  calls := st.calls ++ [(cv, st.current_breadth)] }).visited_tracker P'
            have h3' : (enqueue_neighbors SIZE g (g.vtx cv).edges
                { st with
                  bfs_queue := (dequeue_vertex st.bfs_queue 0).2
                  visited_tracker := st.visited_tracker.set (g.vtx cv).index EXPLORED
                  calls := st.calls ++ [(cv, st.current_breadth)] }).visited_tracker.count 0 +
                (P'.filter (fun x => x ≠ LEVELBREAK)).length ≤
                (st.visited_tracker.set (g.vtx cv).index EXPLORED).count 0 +
                  (rest.filter (fun x => x ≠ LEVELBREAK)).length := h3
            omega

/-! ## Edge distance -/

theorem walkOfLength_linked {g : Graph} {s t k : Nat} (h : WalkOfLength g s t k) :
    Linked g s t := by
  obtain ⟨p, hp, _⟩ := h
  exact ⟨p, hp⟩

theorem linked_walkOfLength {g : Graph} {s t : Nat} (h : Linked g s t) :
    ∃ k, WalkOfLength g s t k := by
  obtain ⟨p, hp⟩ := h
  cases p with
  | nil => have := hp.1; simp at this
  | cons a rest => exact ⟨rest.length, a :: rest, hp, rfl⟩

theorem walkOfLength_zero (g : Graph) (v : Nat) (hv : v < g.size) : WalkOfLength g v v 0 :=
  ⟨[v], ⟨rfl, rfl, fun u hu => by simp at hu; omega, List.chain'_singleton _⟩, rfl⟩

theorem edgeDistance_zero (g : Graph) (v : Nat) (hv : v < g.size) : EdgeDistance g v v 0 :=
  ⟨walkOfLength_zero g v hv, fun _ _ => Nat.zero_le _⟩

theorem walkOfLength_step {g : Graph} {s u w d : Nat} (h : WalkOfLength g s u d)
    (hadj : Adjacent g u w) (hw : w < g.size) : WalkOfLength g s w (d + 1) := by
  obtain ⟨p, ⟨hh, hlast, hb, hch⟩, hlen⟩ := h
  refine ⟨p ++ [w], ⟨?_, by simp, ?_, ?_⟩, by simp [hlen]⟩
  · cases p with
    | nil => simp at hh
    | cons a rest => simpa using hh
  · intro v hv
    rcases List.mem_append.1 hv with h | h
    · exact hb v h
    · simp only [List.mem_singleton] at h
      rw [h]; exact hw
  · rw [List.chain'_append]
    refine ⟨hch, List.chain'_singleton _, ?_⟩
    intro x hx y hy
    rw [hlast] at hx
    simp at hx hy
    subst hx; subst hy
    exact hadj

theorem edgeDistance_exists {g : Graph} {s t : Nat} :
    ∀ k, WalkOfLength g s t k → ∃ d, d ≤ k ∧ EdgeDistance g s t d := by
  intro k
  induction k using Nat.strong_induction_on with
  | _ k ih =>
    intro hk
    by_cases hless : ∃ k', k' < k ∧ WalkOfLength g s t k'
    · obtain ⟨k', hlt, hw⟩ := hless
      obtain ⟨d, hd, hdist⟩ := ih k' hlt hw
      exact ⟨d, by omega, hdist⟩
    · refine ⟨k, le_refl _, hk, ?_⟩
      intro k' hw
      by_contra hcon
      exact hless ⟨k', by omega, hw⟩

theorem edgeDistance_unique {g : Graph} {s t d d' : Nat} (h : EdgeDistance g s t d)
    (h' : EdgeDistance g s t d') : d = d' :=
  le_antisymm (h.2 d' h'.1) (h'.2 d h.1)

/-- The last step of a walk of `d + 1` edges. -/
theorem walkOfLength_last {g : Graph} {s w d : Nat} (h : WalkOfLength g s w (d + 1)) :
    ∃ u, WalkOfLength g s u d ∧ Adjacent g u w := by
  obtain ⟨p, ⟨hh, hlast, hb, hch⟩, hlen⟩ := h
  have hne : p ≠ [] := by intro hp; rw [hp] at hlen; simp at hlen
  have hsplit : p = p.dropLast ++ [w] := by
    have := List.dropLast_append_getLast hne
    rw [List.getLast?_eq_getLast _ hne] at hlast
    simp only [Option.some.injEq] at hlast
    rw [hlast] at this
    exact this.symm
  have hdl : p.dropLast.length = d + 1 := by simp [hlen]
  have hne' : p.dropLast ≠ [] := by intro hp; rw [hp] at hdl; simp at hdl
  rw [hsplit] at hch hb hh
  rw [List.chain'_append] at hch
  obtain ⟨hch1, _, hlink⟩ := hch
  refine ⟨p.dropLast.getLast hne', ⟨p.dropLast, ⟨?_, List.getLast?_eq_getLast _ hne', ?_, hch1⟩,
    hdl⟩, ?_⟩
  · cases hq : p.dropLast with
    | nil => exact absurd hq hne'
    | cons a rest => rw [hq] at hh; simpa using hh
  · intro v hv
    exact hb v (List.mem_append_left _ hv)
  · exact hlink _ (by rw [List.getLast?_eq_getLast _ hne']; simp) w (by simp)

theorem edgeDistance_last {g : Graph} {s w d : Nat} (h : EdgeDistance g s w (d + 1))
    (hw : w < g.size) : ∃ u, EdgeDistance g s u d ∧ Adjacent g u w := by
  obtain ⟨u, hu, hadj⟩ := walkOfLength_last h.1
  refine ⟨u, ⟨hu, ?_⟩, hadj⟩
  intro k hk
  have := h.2 (k + 1) (walkOfLength_step hk hadj hw)
  omega

theorem walkOfLength_lt {g : Graph} {s t k : Nat} (h : WalkOfLength g s t k) : t < g.size := by
  obtain ⟨p, ⟨_, hlast, hb, _⟩, _⟩ := h
  exact hb t (List.mem_of_mem_getLast? hlast)

/-! ## Breadth-first traversal: the invariant -/

theorem int_of_size_eq (i : Nat) (h : i ≤ 2147483647) : int_of_size i = (i : Int) := by
  unfold int_of_size
  omega

theorem size_of_int_eq (i : Nat) (h : i ≤ 2147483647) : size_of_int (i : Int) = i := by
  unfold size_of_int
  omega

theorem locate_vertex_by_index_wf {g : Graph} (hwf : WellFormed g) (v : Nat) (hv : v < g.size) :
    locate_vertex_by_index g v = some v := by
  unfold locate_vertex_by_index
  have hn : g.nb_vertices = g.size := hwf.1
  rw [if_neg (by omega)]
  exact locate_vertex_wf hwf v hv

theorem enqueue_vertex_ignored (SIZE : Nat) (q : queue_t) (v : Int) :
    ∃ t, (enqueue_vertex SIZE q v).ignored = q.ignored ++ t := by
  unfold enqueue_vertex
  split
  · exact ⟨[v], rfl⟩
  · exact ⟨[], by simp⟩

theorem dequeue_vertex_ignored (q : queue_t) (peek : Int) :
    (dequeue_vertex q peek).2.ignored = q.ignored := by
  unfold dequeue_vertex
  split
  · rfl
  · split
    · rfl
    · simp only
      split <;> rfl

theorem enqueue_neighbors_ignored (SIZE : Nat) (g : Graph) :
    ∀ (es : List Edge) (st : BfsState),
      ∃ t, (enqueue_neighbors SIZE g es st).bfs_queue.ignored = st.bfs_queue.ignored ++ t
  | [], st => ⟨[], by simp [enqueue_neighbors]⟩
  | e :: rest, st => by
    unfold enqueue_neighbors
    simp only
    split
    · obtain ⟨t, ht⟩ := enqueue_neighbors_ignored SIZE g rest
        { st with
          bfs_queue := enqueue_vertex SIZE st.bfs_queue (int_of_size (g.vtx e.dest).index)
          visited_tracker := st.visited_tracker.set (g.vtx e.dest).index BACKTRACK }
      obtain ⟨t1, ht1⟩ := enqueue_vertex_ignored SIZE st.bfs_queue
        (int_of_size (g.vtx e.dest).index)
      refine ⟨t1 ++ t, ?_⟩
      rw [ht]
      simp only
      rw [ht1, List.append_assoc]
    · exact enqueue_neighbors_ignored SIZE g rest st

theorem bfs_loop_ignored (SIZE : Nat) (LEVELBREAK : Int) (g : Graph) :
    ∀ (fuel : Nat) (st st' : BfsState), bfs_loop SIZE LEVELBREAK g fuel st = some st' →
      ∃ t, st'.bfs_queue.ignored = st.bfs_queue.ignored ++ t
  | 0, _, _, h => by simp [bfs_loop] at h
  | fuel + 1, st, st', h => by
    unfold bfs_loop at h
    have hdq := dequeue_vertex_ignored st.bfs_queue 0
    split at h
    · simp only [Option.some.injEq] at h
      subst h
      exact ⟨[], by simp⟩
    · simp only at h
      split at h
      · obtain ⟨t1, ht1⟩ := enqueue_vertex_ignored SIZE (dequeue_vertex st.bfs_queue 0).2
          LEVELBREAK
        split at h
        · simp only [Option.some.injEq] at h
          subst h
          exact ⟨t1, by simp only; rw [ht1, hdq]⟩
        · obtain ⟨t, ht⟩ := bfs_loop_ignored SIZE LEVELBREAK g fuel _ st' h
          exact ⟨t1 ++ t, by rw [ht]; simp only; rw [ht1, hdq, List.append_assoc]⟩
      · split at h
        · obtain ⟨t, ht⟩ := bfs_loop_ignored SIZE LEVELBREAK g fuel _ st' h
          exact ⟨t, by rw [ht]; simp only; rw [hdq]⟩
        · split at h
          · obtain ⟨t, ht⟩ := bfs_loop_ignored SIZE LEVELBREAK g fuel _ st' h
            exact ⟨t, by rw [ht]; simp only; rw [hdq]⟩
          · obtain ⟨t, ht⟩ := bfs_loop_ignored SIZE LEVELBREAK g fuel _ st' h
            obtain ⟨t2, ht2⟩ := enqueue_neighbors_ignored SIZE g _
              { st with
                bfs_queue := (dequeue_vertex st.bfs_queue 0).2
                visited_tracker := st.visited_tracker.set _ EXPLORED
                calls := st.calls ++ [(_, st.current_breadth)] }
            refine ⟨t2 ++ t, ?_⟩
            rw [ht, ht2]
            simp only
            rw [hdq, List.append_assoc]

theorem append_eq_nil_left {α : Type} {a t : List α} (h : a ++ t = []) : a = [] :=
  (List.append_eq_nil.1 h).1

/-! ## Breadth-first traversal: the edge loop keeps the invariant -/

/-- The edge loop of the traversal, run on the edges of the vertex `cur` that has just
been visited at the current level, keeps the invariant when it ignores no enqueue: every
unexplored destination joins the next level. -/
theorem enqueue_neighbors_inv {g : Graph} (hwf : WellFormed g) (SIZE : Nat) (LEVELBREAK : Int)
    (hint : g.size ≤ 2147483647) (cur : Nat) (hcur : cur < g.size) :
    ∀ (es : List Edge) (st : BfsState) (A B : List Nat),
      BfsInv g SIZE LEVELBREAK st A B cur es → (∀ e ∈ es, e ∈ (g.vtx cur).edges) →
      (cur, st.current_breadth) ∈ st.calls →
      (enqueue_neighbors SIZE g es st).bfs_queue.ignored = [] →
      ∃ B', BfsInv g SIZE LEVELBREAK (enqueue_neighbors SIZE g es st) A B' cur []
  | [], st, A, B, inv, _, _, _ => ⟨B, inv⟩
  | e :: rest, st, A, B, inv, hes, hcall, hquiet => by
    have he : e ∈ (g.vtx cur).edges := hes e (by simp)
    have hd : e.dest < g.size := hwf.2.2.2.1 cur hcur e he
    have hrest : ∀ e' ∈ rest, e' ∈ (g.vtx cur).edges :=
      fun e' he' => hes e' (List.mem_cons_of_mem _ he')
    unfold enqueue_neighbors at hquiet ⊢
    simp only [hwf.2.2.1 _ hd] at hquiet ⊢
    by_cases hun : st.visited_tracker.getD e.dest 0 = UNEXPLORED
    · rw [if_pos hun] at hquiet ⊢
      rw [int_of_size_eq _ (by omega)] at hquiet ⊢
      obtain ⟨hnc, hnA, hnB⟩ := (inv.fresh e.dest hd).1 hun
      have hvlen : e.dest < st.visited_tracker.length := by rw [inv.len]; exact hd
      obtain ⟨t, ht⟩ := enqueue_neighbors_ignored SIZE g rest
        { st with
          bfs_queue := enqueue_vertex SIZE st.bfs_queue (e.dest : Int)
          visited_tracker := st.visited_tracker.set e.dest BACKTRACK }
      rw [ht] at hquiet
      have hq1 : (enqueue_vertex SIZE st.bfs_queue (e.dest : Int)).ignored = [] :=
        append_eq_nil_left hquiet
      have hqueue : QueueHolds SIZE (enqueue_vertex SIZE st.bfs_queue (e.dest : Int))
          (A.map (fun v => (v : Int)) ++
            LEVELBREAK :: (B ++ [e.dest]).map (fun v => (v : Int))) := by
        rcases enqueue_vertex_spec (e.dest : Int) inv.queue with ⟨_, h2⟩ | ⟨h1, _⟩
        · simpa using h2
        · rw [h1] at hq1
          simp at hq1
      have hcurdist : EdgeDistance g 0 cur st.current_breadth := (inv.distC _ hcall).1
      have hnew : EdgeDistance g 0 e.dest (st.current_breadth + 1) := by
        refine ⟨walkOfLength_step hcurdist.1 ⟨e, he, rfl⟩ hd, ?_⟩
        intro k hk
        obtain ⟨d, hdk, hdist⟩ := edgeDistance_exists k hk
        by_contra hcon
        rcases inv.low e.dest d hdist (by omega) with h | h
        · exact hnc h
        · exact hnA h
      have inv1 : BfsInv g SIZE LEVELBREAK
          { st with
            bfs_queue := enqueue_vertex SIZE st.bfs_queue (e.dest : Int)
            visited_tracker := st.visited_tracker.set e.dest BACKTRACK }
          A (B ++ [e.dest]) cur rest := by
        refine ⟨hqueue, hq1, by simp only [List.length_set]; exact inv.len, inv.boundA, ?_,
          inv.boundC, ?_, ?_, ?_, inv.distA, ?_, inv.distC, inv.sorted, inv.low, inv.level, ?_⟩
        · intro v hv
          rcases List.mem_append.1 hv with h | h
          · exact inv.boundB v h
          · simp only [List.mem_singleton] at h
            rw [h]; exact hd
        · have := inv.nodup
          rw [← List.append_assoc, ← List.append_assoc]
          rw [← List.append_assoc] at this
          refine List.nodup_append.2 ⟨this, List.nodup_singleton _, ?_⟩
          intro a ha hb
          simp only [List.mem_singleton] at hb
          subst hb
          simp only [List.mem_append] at ha
          rcases ha with (h | h) | h
          · exact hnc h
          · exact hnA h
          · exact hnB h
        · intro v hv
          show (st.visited_tracker.set e.dest BACKTRACK).getD v 0 = EXPLORED ↔ v ∈ st.called
          by_cases hEq : v = e.dest
          · subst hEq
            rw [getD_set_eq _ _ _ _ hvlen]
            exact ⟨fun h => absurd h (by decide), fun h => absurd h hnc⟩
          · rw [getD_set_ne _ _ _ _ _ (Ne.symm hEq)]
            exact inv.expl v hv
        · intro v hv
          show (st.visited_tracker.set e.dest BACKTRACK).getD v 0 = UNEXPLORED ↔
            v ∉ st.called ∧ v ∉ A ∧ v ∉ B ++ [e.dest]
          by_cases hEq : v = e.dest
          · subst hEq
            rw [getD_set_eq _ _ _ _ hvlen]
            exact ⟨fun h => absurd h (by decide), fun h => absurd (by simp) h.2.2⟩
          · rw [getD_set_ne _ _ _ _ _ (Ne.symm hEq), inv.fresh v hv]
            simp [hEq]
        · intro v hv
          rcases List.mem_append.1 hv with h | h
          · exact inv.distB v h
          · simp only [List.mem_singleton] at h
            rw [h]; exact hnew
        · intro c hc e' he'
          rcases inv.closed c hc e' he' with h | h | h | ⟨h1, h2⟩
          · exact Or.inl h
          · exact Or.inr (Or.inl h)
          · exact Or.inr (Or.inr (Or.inl (List.mem_append_left _ h)))
          · rcases List.mem_cons.1 h2 with h3 | h3
            · exact Or.inr (Or.inr (Or.inl (by rw [h3]; simp)))
            · exact Or.inr (Or.inr (Or.inr ⟨h1, h3⟩))
      have hquiet' : (enqueue_neighbors SIZE g rest
          { st with
            bfs_queue := enqueue_vertex SIZE st.bfs_queue (e.dest : Int)
            visited_tracker := st.visited_tracker.set e.dest BACKTRACK }).bfs_queue.ignored =
          [] := by
        rw [ht, hq1]
        exact (List.append_eq_nil.1 hquiet).2
      exact enqueue_neighbors_inv hwf SIZE LEVELBREAK hint cur hcur rest _ A (B ++ [e.dest])
        inv1 hrest hcall hquiet'
    · rw [if_neg hun] at hquiet ⊢
      have inv1 : BfsInv g SIZE LEVELBREAK st A B cur rest := by
        refine ⟨inv.queue, inv.quiet, inv.len, inv.boundA, inv.boundB, inv.boundC, inv.nodup,
          inv.expl, inv.fresh, inv.distA, inv.distB, inv.distC, inv.sorted, inv.low,
          inv.level, ?_⟩
        intro c hc e' he'
        rcases inv.closed c hc e' he' with h | h | h | ⟨h1, h2⟩
        · exact Or.inl h
        · exact Or.inr (Or.inl h)
        · exact Or.inr (Or.inr (Or.inl h))
        · rcases List.mem_cons.1 h2 with h3 | h3
          · have hseen : ¬ (e.dest ∉ st.called ∧ e.dest ∉ A ∧ e.dest ∉ B) :=
              fun hh => hun ((inv.fresh e.dest hd).2 hh)
            rw [h3]
            by_cases ha : e.dest ∈ st.called
            · exact Or.inl ha
            · by_cases hb : e.dest ∈ A
              · exact Or.inr (Or.inl hb)
              · by_cases hc' : e.dest ∈ B
                · exact Or.inr (Or.inr (Or.inl hc'))
                · exact absurd ⟨ha, hb, hc'⟩ hseen
          · exact Or.inr (Or.inr (Or.inr ⟨h1, h3⟩))
      exact enqueue_neighbors_inv hwf SIZE LEVELBREAK hint cur hcur rest st A B inv1 hrest
        hcall hquiet

/-! ## Breadth-first traversal: the rounds of the loop -/

/-- A round of the loop that takes a vertex that is not yet explored from the queue. -/
theorem bfs_loop_visit {g : Graph} (hwf : WellFormed g) (SIZE : Nat) (LEVELBREAK : Int)
    (hint : g.size ≤ 2147483647) (fuel : Nat) (st : BfsState) (a : Nat) (rest : List Int)
    (ha : a < g.size) (hq : QueueHolds SIZE st.bfs_queue ((a : Int) :: rest))
    (hLB : (a : Int) ≠ LEVELBREAK) (hex : st.visited_tracker.getD a 0 ≠ EXPLORED) :
    bfs_loop SIZE LEVELBREAK g (fuel + 1) st =
      bfs_loop SIZE LEVELBREAK g fuel
        (enqueue_neighbors SIZE g (g.vtx a).edges
          { st with
            bfs_queue := (dequeue_vertex st.bfs_queue 0).2
            visited_tracker := st.visited_tracker.set a EXPLORED
            calls := st.calls ++ [(a, st.current_breadth)] }) := by
  conv => lhs; unfold bfs_loop
  rw [if_neg (queueHolds_rear_cons hq)]
  simp only [(dequeue_vertex_spec hq).1, if_neg hLB, size_of_int_eq a (by omega),
    locate_vertex_by_index_wf hwf a ha, hwf.2.2.1 a ha, if_neg hex]

/-- A round of the loop that takes the level separator from the queue. -/
theorem bfs_loop_break (SIZE : Nat) (LEVELBREAK : Int) (g : Graph) (fuel : Nat)
    (st : BfsState) (rest : List Int)
    (hq : QueueHolds SIZE st.bfs_queue (LEVELBREAK :: rest)) :
    bfs_loop SIZE LEVELBREAK g (fuel + 1) st =
      if (dequeue_vertex (enqueue_vertex SIZE (dequeue_vertex st.bfs_queue 0).2 LEVELBREAK)
          1).1 = LEVELBREAK then
        some { st with
               current_breadth := st.current_breadth + 1
               bfs_queue := enqueue_vertex SIZE (dequeue_vertex st.bfs_queue 0).2 LEVELBREAK }
      else
        bfs_loop SIZE LEVELBREAK g fuel
          { st with
            current_breadth := st.current_breadth + 1
            bfs_queue := enqueue_vertex SIZE (dequeue_vertex st.bfs_queue 0).2 LEVELBREAK } := by
  conv => lhs; unfold bfs_loop
  rw [if_neg (queueHolds_rear_cons hq)]
  simp only [(dequeue_vertex_spec hq).1, if_true]

/-- The state after the first vertex of the current level has been taken from the queue,
flagged and passed to the visitor. -/
theorem BfsInv.visit {g : Graph} {SIZE : Nat} {LEVELBREAK : Int} {st : BfsState}
    {a : Nat} {A B : List Nat} {cur : Nat}
    (inv : BfsInv g SIZE LEVELBREAK st (a :: A) B cur []) :
    BfsInv g SIZE LEVELBREAK
      { st with
        bfs_queue := (dequeue_vertex st.bfs_queue 0).2
        visited_tracker := st.visited_tracker.set a EXPLORED
        calls := st.calls ++ [(a, st.current_breadth)] }
      A B a (g.vtx a).edges := by
  have ha : a < g.size := inv.boundA a (by simp)
  have hvlen : a < st.visited_tracker.length := by rw [inv.len]; exact ha
  have hq : QueueHolds SIZE st.bfs_queue
      ((a : Int) :: (A.map (fun v => (v : Int)) ++ LEVELBREAK :: B.map (fun v => (v : Int)))) := by
    have := inv.queue
    simpa using this
  obtain ⟨_, hq1, hig⟩ := dequeue_vertex_spec hq
  have hnod := inv.nodup
  have hanc : a ∉ st.called := by
    intro h
    have := (List.nodup_append.1 hnod).2.2 h (by simp : a ∈ (a :: A) ++ B)
    exact this
  have hcalled : ∀ v, v ∈ (st.calls ++ [(a, st.current_breadth)]).map Prod.fst ↔
      v ∈ st.called ∨ v = a := by
    intro v
    simp [BfsState.called]
  have hnodA : a ∉ A ∧ a ∉ B := by
    have h2 := (List.nodup_append.1 hnod).2.1
    simp only [List.cons_append, List.nodup_cons, List.mem_append, not_or] at h2
    exact h2.1
  refine ⟨hq1, by rw [hig]; exact inv.quiet, by simp only [List.length_set]; exact inv.len,
    fun v hv => inv.boundA v (List.mem_cons_of_mem _ hv), inv.boundB, ?_, ?_, ?_, ?_,
    fun v hv => inv.distA v (List.mem_cons_of_mem _ hv), inv.distB, ?_, ?_, ?_, ?_, ?_⟩
  · intro v hv
    rcases (hcalled v).1 hv with h | h
    · exact inv.boundC v h
    · rw [h]; exact ha
  · show ((st.calls ++ [(a, st.current_breadth)]).map Prod.fst ++ (A ++ B)).Nodup
    have : (st.calls ++ [(a, st.current_breadth)]).map Prod.fst ++ (A ++ B) =
        st.called ++ ((a :: A) ++ B) := by
      simp [BfsState.called]
    rw [this]
    exact hnod
  · intro v hv
    show (st.visited_tracker.set a EXPLORED).getD v 0 = EXPLORED ↔
      v ∈ (st.calls ++ [(a, st.current_breadth)]).map Prod.fst
    rw [hcalled]
    by_cases hEq : v = a
    · subst hEq
      rw [getD_set_eq _ _ _ _ hvlen]
      simp
    · rw [getD_set_ne _ _ _ _ _ (Ne.symm hEq), inv.expl v hv]
      simp [hEq]
  · intro v hv
    show (st.visited_tracker.set a EXPLORED).getD v 0 = UNEXPLORED ↔
      v ∉ (st.calls ++ [(a, st.current_breadth)]).map Prod.fst ∧ v ∉ A ∧ v ∉ B
    rw [hcalled]
    by_cases hEq : v = a
    · subst hEq
      rw [getD_set_eq _ _ _ _ hvlen]
      simp [EXPLORED, UNEXPLORED]
    · rw [getD_set_ne _ _ _ _ _ (Ne.symm hEq), inv.fresh v hv]
      simp [hEq]
  · intro c hc
    rcases List.mem_append.1 hc with h | h
    · exact inv.distC c h
    · simp only [List.mem_singleton] at h
      subst h
      exact ⟨inv.distA a (by simp), le_refl _⟩
  · show ((st.calls ++ [(a, st.current_breadth)]).map Prod.snd).Pairwise (fun x y => x ≤ y)
    rw [List.map_append, List.pairwise_append]
    refine ⟨inv.sorted, by simp, ?_⟩
    intro x hx y hy
    simp only [List.map_cons, List.map_nil, List.mem_singleton] at hy
    obtain ⟨c, hc, rfl⟩ := List.mem_map.1 hx
    rw [hy]
    exact (inv.distC c hc).2
  · intro v d hd hle
    rcases inv.low v d hd hle with h | h
    · exact Or.inl ((hcalled v).2 (Or.inl h))
    · rcases List.mem_cons.1 h with h | h
      · exact Or.inl ((hcalled v).2 (Or.inr h))
      · exact Or.inr h
  · exact Or.inr ⟨(a, st.current_breadth), by simp, rfl⟩
  · intro c hc e he
    rcases List.mem_append.1 hc with h | h
    · rcases inv.closed c h e he with h1 | h1 | h1 | ⟨_, h2⟩
      · exact Or.inl ((hcalled _).2 (Or.inl h1))
      · rcases List.mem_cons.1 h1 with h3 | h3
        · exact Or.inl ((hcalled _).2 (Or.inr h3))
        · exact Or.inr (Or.inl h3)
      · exact Or.inr (Or.inr (Or.inl h1))
      · simp at h2
    · simp only [List.mem_singleton] at h
      subst h
      exact Or.inr (Or.inr (Or.inr ⟨rfl, he⟩))

/-- The state after the level separator has been taken from the queue with the current
level used up, and has been enqueued again behind a next level that is not empty. -/
theorem BfsInv.next_level {g : Graph} {SIZE : Nat} {LEVELBREAK : Int} {st : BfsState}
    {B : List Nat} {cur : Nat} (inv : BfsInv g SIZE LEVELBREAK st [] B cur []) (q : queue_t)
    (hq : QueueHolds SIZE q (B.map (fun v => (v : Int)) ++ [LEVELBREAK]))
    (hquiet : q.ignored = []) (hB : B ≠ []) :
    BfsInv g SIZE LEVELBREAK
      { st with current_breadth := st.current_breadth + 1, bfs_queue := q } B [] cur [] := by
  refine ⟨by simpa using hq, hquiet, inv.len, inv.boundB, by simp, inv.boundC, ?_, inv.expl,
    ?_, inv.distB, by simp, ?_, inv.sorted, ?_, Or.inl hB, ?_⟩
  · have := inv.nodup
    simpa using this
  · intro v hv
    show st.visited_tracker.getD v 0 = UNEXPLORED ↔ v ∉ st.called ∧ v ∉ B ∧ v ∉ []
    rw [inv.fresh v hv]
    simp
  · intro c hc
    have := inv.distC c hc
    exact ⟨this.1, Nat.le_succ_of_le this.2⟩
  · intro v d hd hle
    show v ∈ st.called ∨ v ∈ B
    by_cases hlow : d ≤ st.current_breadth
    · rcases inv.low v d hd hlow with h | h
      · exact Or.inl h
      · simp at h
    · have hde : d = st.current_breadth + 1 := by
        have : d ≤ st.current_breadth + 1 := hle
        omega
      subst hde
      obtain ⟨u, hu, e, he, hev⟩ := edgeDistance_last hd (walkOfLength_lt hd.1)
      rcases inv.low u _ hu (le_refl _) with h | h
      · obtain ⟨c, hc, hcu⟩ := List.mem_map.1 h
        rcases inv.closed c hc e (by rw [hcu]; exact he) with h1 | h1 | h1 | ⟨_, h2⟩
        · exact Or.inl (hev ▸ h1)
        · simp at h1
        · exact Or.inr (hev ▸ h1)
        · simp at h2
      · simp at h
  · intro c hc e he
    rcases inv.closed c hc e he with h1 | h1 | h1 | ⟨_, h2⟩
    · exact Or.inl h1
    · simp at h1
    · exact Or.inr (Or.inl h1)
    · simp at h2

/-- The state in which the traversal stops: the level separator was taken from the queue
with the current level used up and no vertex queued for the next level. -/
theorem BfsInv.done {g : Graph} {SIZE : Nat} {LEVELBREAK : Int} {st : BfsState}
    {cur : Nat} (inv : BfsInv g SIZE LEVELBREAK st [] [] cur []) (h0 : 0 < g.size)
    (q : queue_t) :
    BfsDone g { st with current_breadth := st.current_breadth + 1, bfs_queue := q } := by
  have hroot : 0 ∈ st.called := by
    rcases inv.low 0 0 (edgeDistance_zero g 0 h0) (Nat.zero_le _) with h | h
    · exact h
    · simp at h
  refine ⟨?_, ?_, fun c hc => (inv.distC c hc).1, inv.sorted, ?_, ?_⟩
  · have := inv.nodup
    simpa using this
  · intro v
    constructor
    · intro hv
      obtain ⟨c, hc, hcv⟩ := List.mem_map.1 hv
      have := (inv.distC c hc).1.1
      rw [hcv] at this
      exact walkOfLength_linked this
    · rintro ⟨p, hh, hlast, hb, hch⟩
      refine closed_contains_linked g (fun u => u ∈ st.called) ?_ p 0 hh hroot hb hch v
        (List.mem_of_mem_getLast? hlast)
      intro u _ hu e he
      obtain ⟨c, hc, hcu⟩ := List.mem_map.1 hu
      rcases inv.closed c hc e (by rw [hcu]; exact he) with h1 | h1 | h1 | ⟨_, h2⟩
      · exact h1
      · simp at h1
      · simp at h1
      · simp at h2
  · intro c hc
    exact Nat.succ_le_succ (inv.distC c hc).2
  · rcases inv.level with h | ⟨c, hc, hcl⟩
    · exact absurd rfl h
    · exact ⟨c, hc, by show c.2 + 1 = st.current_breadth + 1; rw [hcl]⟩

/-- The loop of the traversal, started in a state that satisfies the invariant, stops in a
state as `BfsDone` describes it, if it has ignored no enqueue. -/
theorem bfs_loop_inv {g : Graph} (hwf : WellFormed g) (SIZE : Nat) (LEVELBREAK : Int)
    (hint : g.size ≤ 2147483647) (hLB : ∀ i, i < g.size → (i : Int) ≠ LEVELBREAK)
    (h0 : 0 < g.size) :
    ∀ (fuel : Nat) (st st' : BfsState) (A B : List Nat) (cur : Nat),
      BfsInv g SIZE LEVELBREAK st A B cur [] → bfs_loop SIZE LEVELBREAK g fuel st = some st' →
      st'.bfs_queue.ignored = [] → BfsDone g st'
  | 0, _, _, _, _, _, _, h, _ => by simp [bfs_loop] at h
  | fuel + 1, st, st', A, B, cur, inv, h, hquiet => by
    cases A with
    | nil =>
      have hq : QueueHolds SIZE st.bfs_queue (LEVELBREAK :: B.map (fun v => (v : Int))) := by
        have := inv.queue
        simpa using this
      rw [bfs_loop_break SIZE LEVELBREAK g fuel st _ hq] at h
      obtain ⟨_, hq1, hig⟩ := dequeue_vertex_spec hq
      have hstep : (enqueue_vertex SIZE (dequeue_vertex st.bfs_queue 0).2 LEVELBREAK).ignored =
          [] := by
        by_cases hpeek : (dequeue_vertex
            (enqueue_vertex SIZE (dequeue_vertex st.bfs_queue 0).2 LEVELBREAK) 1).1 = LEVELBREAK
        · rw [if_pos hpeek] at h
          simp only [Option.some.injEq] at h
          rw [← h] at hquiet
          exact hquiet
        · rw [if_neg hpeek] at h
          obtain ⟨t, ht⟩ := bfs_loop_ignored SIZE LEVELBREAK g fuel _ st' h
          rw [ht] at hquiet
          exact append_eq_nil_left hquiet
      have hq2 : QueueHolds SIZE
          (enqueue_vertex SIZE (dequeue_vertex st.bfs_queue 0).2 LEVELBREAK)
          (B.map (fun v => (v : Int)) ++ [LEVELBREAK]) := by
        rcases enqueue_vertex_spec LEVELBREAK hq1 with ⟨_, h2⟩ | ⟨h1, _⟩
        · exact h2
        · rw [h1] at hstep
          simp at hstep
      cases B with
      | nil =>
        have hpeek := peek_vertex_cons (by simpa using hq2 :
          QueueHolds SIZE (enqueue_vertex SIZE (dequeue_vertex st.bfs_queue 0).2 LEVELBREAK)
            (LEVELBREAK :: []))
        rw [if_pos hpeek] at h
        simp only [Option.some.injEq] at h
        rw [← h]
        exact inv.done h0 _
      | cons b B' =>
        have hpeek := peek_vertex_cons (by simpa using hq2 :
          QueueHolds SIZE (enqueue_vertex SIZE (dequeue_vertex st.bfs_queue 0).2 LEVELBREAK)
            ((b : Int) :: (B'.map (fun v => (v : Int)) ++ [LEVELBREAK])))
        have hb : (b : Int) ≠ LEVELBREAK := hLB b (inv.boundB b (by simp))
        rw [if_neg (by rw [hpeek]; exact hb)] at h
        exact bfs_loop_inv hwf SIZE LEVELBREAK hint hLB h0 fuel _ st' (b :: B') [] cur
          (inv.next_level _ hq2 hstep (by simp)) h hquiet
    | cons a A' =>
      have ha : a < g.size := inv.boundA a (by simp)
      have hq : QueueHolds SIZE st.bfs_queue
          ((a : Int) ::
            (A'.map (fun v => (v : Int)) ++ LEVELBREAK :: B.map (fun v => (v : Int)))) := by
        have := inv.queue
        simpa using this
      have hanc : a ∉ st.called := by
        intro hc
        exact (List.nodup_append.1 inv.nodup).2.2 hc (by simp : a ∈ (a :: A') ++ B)
      have hex : st.visited_tracker.getD a 0 ≠ EXPLORED :=
        fun hc => hanc ((inv.expl a ha).1 hc)
      rw [bfs_loop_visit hwf SIZE LEVELBREAK hint fuel st a _ ha hq (hLB a ha) hex] at h
      obtain ⟨t, ht⟩ := bfs_loop_ignored SIZE LEVELBREAK g fuel _ st' h
      rw [ht] at hquiet
      obtain ⟨B', inv'⟩ := enqueue_neighbors_inv hwf SIZE LEVELBREAK hint a ha (g.vtx a).edges
        _ A' B inv.visit (fun e he => he) (by simp) (append_eq_nil_left hquiet)
      exact bfs_loop_inv hwf SIZE LEVELBREAK hint hLB h0 fuel _ st' A' B' a inv' h
        (by rw [ht]; exact hquiet)

/-! ## Breadth-first traversal: the whole run -/

theorem walkOfLength_zero_eq {g : Graph} {s t : Nat} (h : WalkOfLength g s t 0) : t = s := by
  obtain ⟨p, ⟨hh, hlast, _, _⟩, hlen⟩ := h
  cases p with
  | nil => simp at hlen
  | cons a rest =>
    have : rest = [] := by
      simp only [List.length_cons, Nat.zero_add, Nat.add_left_eq_self] at hlen
      exact List.length_eq_zero.1 hlen
    subst this
    simp only [List.head?_cons, Option.some.injEq, List.getLast?_singleton] at hh hlast
    rw [← hh, ← hlast]

theorem nodup_all_zero : ∀ (l : List Nat), l.Nodup → (∀ v ∈ l, v = 0) → 0 ∈ l → l = [0]
  | [], _, _, h => by simp at h
  | [a], _, h, _ => by rw [h a (by simp)]
  | a :: b :: rest, hn, h, _ => by
    have ha := h a (by simp)
    have hb := h b (by simp)
    rw [ha, hb] at hn
    simp at hn

/-- The state after the first round of the loop satisfies the invariant. -/
theorem bfsInv_first {g : Graph} (SIZE : Nat) (LEVELBREAK : Int) (h0 : 0 < g.size)
    (hn : g.nb_vertices = g.size) (q : queue_t) (hq : QueueHolds SIZE q [LEVELBREAK])
    (hquiet : q.ignored = []) :
    BfsInv g SIZE LEVELBREAK
      { visited_tracker := (List.replicate g.nb_vertices 0).set 0 EXPLORED
        bfs_queue := q
        current_breadth := 0
        calls := [(0, 0)] }
      [] [] 0 (g.vtx 0).edges := by
  have hlen : 0 < (List.replicate g.nb_vertices 0).length := by simp; omega
  refine ⟨by simpa using hq, hquiet, by simp [hn], by simp, by simp, ?_, by
    simp [BfsState.called], ?_, ?_, by simp, by simp, ?_, by simp, ?_,
    Or.inr ⟨(0, 0), by simp, rfl⟩, ?_⟩
  · intro v hv
    simp only [BfsState.called, List.map_cons, List.map_nil, List.mem_singleton] at hv
    rw [hv]; exact h0
  · intro v _
    show ((List.replicate g.nb_vertices 0).set 0 EXPLORED).getD v 0 = EXPLORED ↔ v ∈ [0]
    by_cases hEq : v = 0
    · subst hEq
      rw [getD_set_eq _ _ _ _ hlen]
      simp
    · rw [getD_set_ne _ _ _ _ _ (Ne.symm hEq), getD_replicate]
      simp [hEq, EXPLORED]
  · intro v _
    show ((List.replicate g.nb_vertices 0).set 0 EXPLORED).getD v 0 = UNEXPLORED ↔
      v ∉ [0] ∧ v ∉ [] ∧ v ∉ []
    by_cases hEq : v = 0
    · subst hEq
      rw [getD_set_eq _ _ _ _ hlen]
      simp [EXPLORED, UNEXPLORED]
    · rw [getD_set_ne _ _ _ _ _ (Ne.symm hEq), getD_replicate]
      simp [hEq, UNEXPLORED]
  · intro c hc
    simp only [List.mem_singleton] at hc
    subst hc
    exact ⟨edgeDistance_zero g 0 h0, le_refl _⟩
  · intro v d hd hle
    left
    have hd0 : d = 0 := Nat.le_zero.1 hle
    subst hd0
    rw [walkOfLength_zero_eq hd.1]
    simp [BfsState.called]
  · intro c hc e he
    simp only [List.mem_singleton] at hc
    subst hc
    exact Or.inr (Or.inr (Or.inr ⟨rfl, he⟩))

/-- On a well-formed non-empty graph the traversal returns when `fuel` exceeds twice the
vertex count plus 3, and if it has ignored no enqueue it stops as `BfsDone` describes. -/
theorem breadth_first_traverse_done (g : Graph) (SIZE : Nat) (LEVELBREAK : Int) (fuel : Nat)
    (hwf : WellFormed g) (hne : 0 < g.size) (hint : g.nb_vertices ≤ 2147483647)
    (hLB : ∀ i, i < g.size → (i : Int) ≠ LEVELBREAK) (hfuel : 2 * g.nb_vertices + 3 < fuel) :
    ∃ st : BfsState,
      breadth_first_traverse SIZE LEVELBREAK fuel (some g) true =
        some (if st.current_breadth > 0 then st.current_breadth - 1 else 0, st.calls,
          st.bfs_queue.ignored) ∧
      (st.bfs_queue.ignored = [] → BfsDone g st) := by
  have hn : g.nb_vertices = g.size := hwf.1
  have hsz : g.size ≤ 2147483647 := by omega
  cases hv : g.vertices with
  | nil =>
    unfold Graph.size at hne
    rw [hv] at hne
    simp at hne
  | cons start rest =>
    have hstart : start.index = 0 := by
      have := hwf.2.2.1 0 hne
      unfold Graph.vtx at this
      rw [hv] at this
      simpa using this
    have hinit : bfs_initial SIZE LEVELBREAK g start =
        { visited_tracker := List.replicate g.nb_vertices 0
          bfs_queue := enqueue_vertex SIZE
            (enqueue_vertex SIZE (initialize_bfs_queue SIZE) ((0 : Nat) : Int)) LEVELBREAK
          current_breadth := 0
          calls := [] } := by
      unfold bfs_initial
      rw [hstart, int_of_size_eq 0 (by omega)]
    have hq0 := queueHolds_init SIZE
    have hcount : (List.replicate g.nb_vertices (0 : Nat)).count 0 = g.nb_vertices := by
      simp
    have hentry : ∃ P, QueueHolds SIZE
        (enqueue_vertex SIZE
          (enqueue_vertex SIZE (initialize_bfs_queue SIZE) ((0 : Nat) : Int)) LEVELBREAK) P ∧
        (P.filter (fun x => x ≠ LEVELBREAK)).length ≤ 1 := by
      rcases enqueue_vertex_spec ((0 : Nat) : Int) hq0 with ⟨_, h1⟩ | ⟨_, h1⟩
      · rcases enqueue_vertex_spec LEVELBREAK h1 with ⟨_, h2⟩ | ⟨_, h2⟩
        · refine ⟨_, h2, ?_⟩
          rw [filter_append_break]
          exact le_trans (List.length_filter_le _ _) (by simp)
        · exact ⟨_, h2, le_trans (List.length_filter_le _ _) (by simp)⟩
      · rcases enqueue_vertex_spec LEVELBREAK h1 with ⟨_, h2⟩ | ⟨_, h2⟩
        · refine ⟨_, h2, ?_⟩
          rw [filter_append_break]
          simp
        · exact ⟨_, h2, by simp⟩
    obtain ⟨P, hP, hPlen⟩ := hentry
    obtain ⟨st', hloop⟩ := bfs_loop_terminates hwf SIZE LEVELBREAK fuel
      { visited_tracker := List.replicate g.nb_vertices 0
        bfs_queue := enqueue_vertex SIZE
          (enqueue_vertex SIZE (initialize_bfs_queue SIZE) ((0 : Nat) : Int)) LEVELBREAK
        current_breadth := 0
        calls := [] } P (by simp [hn]) hP (by
          have := bfs_measure_le LEVELBREAK (List.replicate g.nb_vertices 0) P
          rw [hcount] at this
          show bfs_measure LEVELBREAK (List.replicate g.nb_vertices 0) P < fuel
          omega)
    refine ⟨st', ?_, ?_⟩
    · unfold breadth_first_traverse
      simp only [hv]
      rw [if_neg (by omega), hinit, hloop]
    · intro hquiet
      obtain ⟨t, ht⟩ := bfs_loop_ignored SIZE LEVELBREAK g fuel _ st' hloop
      rw [ht] at hquiet
      have hq0' : (enqueue_vertex SIZE
          (enqueue_vertex SIZE (initialize_bfs_queue SIZE) ((0 : Nat) : Int))
          LEVELBREAK).ignored = [] := append_eq_nil_left hquiet
      have ht0 : t = [] := (List.append_eq_nil.1 hquiet).2
      have hfull : QueueHolds SIZE
          (enqueue_vertex SIZE
            (enqueue_vertex SIZE (initialize_bfs_queue SIZE) ((0 : Nat) : Int)) LEVELBREAK)
          [((0 : Nat) : Int), LEVELBREAK] := by
        rcases enqueue_vertex_spec ((0 : Nat) : Int) hq0 with ⟨_, h1⟩ | ⟨e1, _⟩
        · rcases enqueue_vertex_spec LEVELBREAK h1 with ⟨_, h2⟩ | ⟨e2, _⟩
          · simpa using h2
          · rw [e2] at hq0'
            simp at hq0'
        · obtain ⟨t2, ht2⟩ := enqueue_vertex_ignored SIZE
            (enqueue_vertex SIZE (initialize_bfs_queue SIZE) ((0 : Nat) : Int)) LEVELBREAK
          rw [ht2, e1] at hq0'
          simp at hq0'
      cases fuel with
      | zero => simp [bfs_loop] at hloop
      | succ fuel =>
        rw [bfs_loop_visit hwf SIZE LEVELBREAK hsz fuel _ 0 [LEVELBREAK] hne hfull (hLB 0 hne)
          (by
            show (List.replicate g.nb_vertices 0).getD 0 0 ≠ EXPLORED
            rw [getD_replicate]; decide)] at hloop
        obtain ⟨_, hq1, hig⟩ := dequeue_vertex_spec hfull
        have inv1 := @bfsInv_first g SIZE LEVELBREAK hne hn _ hq1 (by rw [hig]; exact hq0')
        obtain ⟨t3, ht3⟩ := bfs_loop_ignored SIZE LEVELBREAK g fuel _ st' hloop
        have hquiet' : st'.bfs_queue.ignored = [] := by rw [ht, ht0, hq0']; rfl
        rw [ht3] at hquiet'
        obtain ⟨B', inv'⟩ := enqueue_neighbors_inv hwf SIZE LEVELBREAK hsz 0 hne (g.vtx 0).edges
          _ [] [] inv1 (fun e he => he) (by simp) (append_eq_nil_left hquiet')
        exact bfs_loop_inv hwf SIZE LEVELBREAK hsz hLB hne fuel _ st' [] B' 0 inv' hloop
          (by rw [ht3]; exact hquiet')

/-! ## Breadth-first traversal: the claims -/

/-- C12: on a well-formed non-empty graph of at most `INT_MAX` vertices, with a level
separator that is no vertex index, a visitor, and fuel above twice the vertex count plus
3, `breadth_first_traverse` returns; and if its queue never was full when a value was
enqueued (no enqueue was ignored), then among the calls it made to the visitor every
vertex that can be reached from the first vertex occurs exactly once and every other
vertex does not occur, the level passed with a vertex is the minimum number of edges on
a path from the first vertex to it, and the levels passed are in non-decreasing order. -/
theorem breadth_first_traverse_levels (g : Graph) (SIZE : Nat) (LEVELBREAK : Int) (fuel : Nat)
    (hwf : WellFormed g) (hne : 0 < g.size) (hint : g.nb_vertices ≤ 2147483647)
    (hLB : ∀ i, i < g.size → (i : Int) ≠ LEVELBREAK) (hfuel : 2 * g.nb_vertices + 3 < fuel) :
    ∃ level calls ignored,
      breadth_first_traverse SIZE LEVELBREAK fuel (some g) true =
        some (level, calls, ignored) ∧
      (ignored = [] →
        (∀ v, Linked g 0 v → (calls.map Prod.fst).count v = 1) ∧
        (∀ v, ¬ Linked g 0 v → (calls.map Prod.fst).count v = 0) ∧
        (∀ c ∈ calls, EdgeDistance g 0 c.1 c.2) ∧
        (calls.map Prod.snd).Pairwise (fun a b => a ≤ b)) := by
  obtain ⟨st, hrun, hdone⟩ :=
    breadth_first_traverse_done g SIZE LEVELBREAK fuel hwf hne hint hLB hfuel
  refine ⟨_, _, _, hrun, ?_⟩
  intro hq
  have d := hdone hq
  refine ⟨?_, ?_, d.dist, d.sorted⟩
  · intro v hl
    exact List.count_eq_one_of_mem d.nodup ((d.linked v).2 hl)
  · intro v hnl
    exact List.count_eq_zero_of_not_mem (fun hm => hnl ((d.linked v).1 hm))

/-- Witness for C12 on the graph A→B, A→C, B→D, C→D, D→A with the vertex E off it, a queue
of 16 slots and the level separator -2: the visitor is called on A at level 0, on B and C
at level 1 and on D at level 2, never on E, and no enqueue is ignored. -/
theorem breadth_first_traverse_levels_witness :
    WellFormed diamondGraph ∧
    breadth_first_traverse 16 (-2) 20 (some diamondGraph) true =
      some (2, [(0, 0), (1, 1), (2, 1), (3, 2)], []) ∧
    ∃ level calls ignored,
      breadth_first_traverse 16 (-2) 20 (some diamondGraph) true =
        some (level, calls, ignored) ∧
      (ignored = [] →
        (∀ v, Linked diamondGraph 0 v → (calls.map Prod.fst).count v = 1) ∧
        (∀ v, ¬ Linked diamondGraph 0 v → (calls.map Prod.fst).count v = 0) ∧
        (∀ c ∈ calls, EdgeDistance diamondGraph 0 c.1 c.2) ∧
        (calls.map Prod.snd).Pairwise (fun a b => a ≤ b)) :=
  ⟨by decide, by decide,
    breadth_first_traverse_levels diamondGraph 16 (-2) 20 (by decide) (by decide) (by decide)
      (fun i _ => by omega) (by decide)⟩

/-- C13: on a well-formed non-empty graph of at most `INT_MAX` vertices, with a level
separator that is no vertex index, a visitor, and fuel above twice the vertex count plus
3, `breadth_first_traverse` returns; and if no enqueue was ignored, the returned value is
the largest level passed to the visitor, which is the greatest edge distance from the
first vertex to a vertex that can be reached from it; on a graph with a single vertex the
returned value is 0 and the only call of the visitor is on that vertex at level 0. -/
theorem breadth_first_traverse_returns (g : Graph) (SIZE : Nat) (LEVELBREAK : Int)
    (fuel : Nat) (hwf : WellFormed g) (hne : 0 < g.size) (hint : g.nb_vertices ≤ 2147483647)
    (hLB : ∀ i, i < g.size → (i : Int) ≠ LEVELBREAK) (hfuel : 2 * g.nb_vertices + 3 < fuel) :
    ∃ level calls ignored,
      breadth_first_traverse SIZE LEVELBREAK fuel (some g) true =
        some (level, calls, ignored) ∧
      (ignored = [] →
        (∀ c ∈ calls, c.2 ≤ level) ∧ (∃ c ∈ calls, c.2 = level) ∧
        (∀ v d, EdgeDistance g 0 v d → d ≤ level) ∧ (∃ v, EdgeDistance g 0 v level) ∧
        (g.size = 1 → level = 0 ∧ calls = [(0, 0)])) := by
  obtain ⟨st, hrun, hdone⟩ :=
    breadth_first_traverse_done g SIZE LEVELBREAK fuel hwf hne hint hLB hfuel
  refine ⟨_, _, _, hrun, ?_⟩
  intro hq
  have d := hdone hq
  obtain ⟨ctop, hctop, htop⟩ := d.top
  have hpos : st.current_breadth > 0 := by omega
  rw [if_pos hpos]
  have hbelow : ∀ c ∈ st.calls, c.2 ≤ st.current_breadth - 1 := by
    intro c hc
    have := d.below c hc
    omega
  have htop' : ctop.2 = st.current_breadth - 1 := by omega
  refine ⟨hbelow, ⟨ctop, hctop, htop'⟩, ?_, ⟨ctop.1, htop' ▸ d.dist ctop hctop⟩, ?_⟩
  · intro v dd hdist
    have hv : v ∈ st.called := (d.linked v).2 (walkOfLength_linked hdist.1)
    obtain ⟨c, hc, hcv⟩ := List.mem_map.1 hv
    have hd' := d.dist c hc
    rw [hcv] at hd'
    rw [edgeDistance_unique hdist hd']
    exact hbelow c hc
  · intro hone
    have hall : ∀ v ∈ st.called, v = 0 := by
      intro v hv
      obtain ⟨p, _, hlast, hb, _⟩ := (d.linked v).1 hv
      have := hb v (List.mem_of_mem_getLast? hlast)
      omega
    have hroot : 0 ∈ st.called := (d.linked 0).2 (linked_refl g 0 hne)
    have hcalled := nodup_all_zero st.called d.nodup hall hroot
    have hcalls : st.calls = [(0, 0)] := by
      cases hc : st.calls with
      | nil => rw [BfsState.called, hc] at hcalled; simp at hcalled
      | cons c rest =>
        rw [BfsState.called, hc] at hcalled
        simp only [List.map_cons, List.cons.injEq, List.map_eq_nil_iff] at hcalled
        obtain ⟨hc1, hrest⟩ := hcalled
        have hd' := d.dist c (by rw [hc]; simp)
        rw [hc1] at hd'
        have hc2 : c.2 = 0 := edgeDistance_unique hd' (edgeDistance_zero g 0 hne)
        rw [hrest]
        congr 1
        exact Prod.ext hc1 hc2
    refine ⟨?_, hcalls⟩
    rw [hcalls] at hctop
    simp only [List.mem_singleton] at hctop
    rw [← htop', hctop]

/-- Witness for C13 on the graph with the single vertex A and no edge, a queue of 16 slots
and the level separator -2: the returned value is 0 and the only call is on A at level 0. -/
theorem breadth_first_traverse_returns_witness :
    WellFormed singleVertexGraph ∧
    breadth_first_traverse 16 (-2) 6 (some singleVertexGraph) true =
      some (0, [(0, 0)], []) ∧
    ∃ level calls ignored,
      breadth_first_traverse 16 (-2) 6 (some singleVertexGraph) true =
        some (level, calls, ignored) ∧
      (ignored = [] →
        (∀ c ∈ calls, c.2 ≤ level) ∧ (∃ c ∈ calls, c.2 = level) ∧
        (∀ v d, EdgeDistance singleVertexGraph 0 v d → d ≤ level) ∧
        (∃ v, EdgeDistance singleVertexGraph 0 v level) ∧
        (singleVertexGraph.size = 1 → level = 0 ∧ calls = [(0, 0)])) :=
  ⟨by decide, by decide,
    breadth_first_traverse_returns singleVertexGraph 16 (-2) 6 (by decide) (by decide)
      (by decide) (fun i _ => by omega) (by decide)⟩

/-! ## Huffman codes and the frequency comparator -/

/-- C21 (the code does not do this): on the Huffman tree of the symbols a:1, b:1, c:3,
whose nodes all have two children or none, the path of the leaf `c` spells the code `1`,
but `huffman_codes` prints `11` for it: the buffer still holds the `1` that the walk
through the left subtree wrote at position 1, and nothing ends the string at the depth of
the leaf.  The codes printed for `a` and `b` are those of their paths. -/
theorem generate_codes_recursive_stale :
    path_codes abcTree [] = [(97, "00"), (98, "01"), (99, "1")] ∧
    find_tree_depth abcTree 0 = 2 ∧
    generate_codes_recursive abcTree ['\x00', '\x00', '\x00'] 0 [] =
      (['1', '1', '\x00'], [(97, "00"), (98, "01"), (99, "11")]) ∧
    huffman_codes abcTree = (1, [(97, "00"), (98, "01"), (99, "11")]) := by
  refine ⟨by decide, by decide, by decide, by decide⟩

/-- C22 (as stated, false): for the frequencies `2 ^ 31` and 0 the comparator returns
`-2 ^ 31`, a negative value although the first frequency is the larger one, and for the
frequencies `2 ^ 32` and 0 it returns 0 although they differ. -/
theorem symbol_frequency_compare_wraps :
    symbol_frequency_compare (binary_tree_node ⟨97, 2147483648⟩) (binary_tree_node ⟨98, 0⟩) =
      -2147483648 ∧
    ¬ (symbol_frequency_compare (binary_tree_node ⟨97, 2147483648⟩)
          (binary_tree_node ⟨98, 0⟩) < 0 ↔ (2147483648 : Nat) < 0) ∧
    symbol_frequency_compare (binary_tree_node ⟨97, 4294967296⟩) (binary_tree_node ⟨98, 0⟩) =
      0 ∧
    ¬ (symbol_frequency_compare (binary_tree_node ⟨97, 4294967296⟩)
          (binary_tree_node ⟨98, 0⟩) = 0 ↔ (4294967296 : Nat) = 0) := by
  refine ⟨by decide, by decide, by decide, by decide⟩

/-- The comparator returns the difference of the two frequencies when an `int` holds
it. -/
theorem symbol_frequency_compare_eq (p1 p2 : binary_tree_node_t)
    (hlo : -2147483648 ≤ (p1.symbol.freq : Int) - (p2.symbol.freq : Int))
    (hhi : (p1.symbol.freq : Int) - (p2.symbol.freq : Int) ≤ 2147483647) :
    symbol_frequency_compare p1 p2 = (p1.symbol.freq : Int) - (p2.symbol.freq : Int) := by
  unfold symbol_frequency_compare int_of_size
  omega

/-- C22 (amended): for every two symbol nodes whose frequencies differ by an amount that
an `int` holds (the first minus the second is between `-2 ^ 31` and `2 ^ 31 - 1`),
`symbol_frequency_compare` returns that difference: the result is negative exactly when
the first frequency is smaller, zero exactly when they are equal, and positive exactly
when the first is larger. -/
theorem symbol_frequency_compare_sign (p1 p2 : binary_tree_node_t)
    (hlo : -2147483648 ≤ (p1.symbol.freq : Int) - (p2.symbol.freq : Int))
    (hhi : (p1.symbol.freq : Int) - (p2.symbol.freq : Int) ≤ 2147483647) :
    symbol_frequency_compare p1 p2 = (p1.symbol.freq : Int) - (p2.symbol.freq : Int) ∧
    (symbol_frequency_compare p1 p2 < 0 ↔ p1.symbol.freq < p2.symbol.freq) ∧
    (symbol_frequency_compare p1 p2 = 0 ↔ p1.symbol.freq = p2.symbol.freq) ∧
    (symbol_frequency_compare p1 p2 > 0 ↔ p1.symbol.freq > p2.symbol.freq) := by
  have key : symbol_frequency_compare p1 p2 =
      (p1.symbol.freq : Int) - (p2.symbol.freq : Int) :=
    symbol_frequency_compare_eq p1 p2 hlo hhi
  rw [key]
  refine ⟨rfl, ?_, ?_, ?_⟩ <;> omega

theorem symbol_frequency_compare_sign_witness :
    symbol_frequency_compare (binary_tree_node ⟨97, 1⟩) (binary_tree_node ⟨99, 3⟩) = -2 ∧
    (symbol_frequency_compare (binary_tree_node ⟨97, 1⟩) (binary_tree_node ⟨99, 3⟩) < 0 ↔
      (1 : Nat) < 3) :=
  have h := symbol_frequency_compare_sign (binary_tree_node ⟨97, 1⟩) (binary_tree_node ⟨99, 3⟩)
    (by decide) (by decide)
  ⟨h.1, h.2.1⟩

/-! ## huffman_extract_and_insert -/

theorem heap_least_nil (c : binary_tree_node_t) : heap_least c [] = c := rfl

theorem heap_least_cons (c p : binary_tree_node_t) (rest : List binary_tree_node_t) :
    heap_least c (p :: rest) =
      if symbol_frequency_compare p c < 0 then heap_least p rest else heap_least c rest := rfl

theorem heap_least_mem (c : binary_tree_node_t) (l : List binary_tree_node_t) :
    heap_least c l ∈ c :: l := by
  induction l generalizing c with
  | nil => rw [heap_least_nil]; simp
  | cons p rest ih =>
    rw [heap_least_cons]
    split
    · have := ih p
      exact List.mem_cons_of_mem _ this
    · have := ih c
      rcases List.mem_cons.1 this with h | h
      · rw [h]; simp
      · exact List.mem_cons_of_mem _ (List.mem_cons_of_mem _ h)

/-- The scan returns an element of least frequency when every frequency fits an `int`. -/
theorem heap_least_le (c : binary_tree_node_t) (l : List binary_tree_node_t)
    (hb : ∀ n ∈ c :: l, n.symbol.freq ≤ 2147483647) :
    ∀ n ∈ c :: l, (heap_least c l).symbol.freq ≤ n.symbol.freq := by
  induction l generalizing c with
  | nil =>
    intro n hn
    simp only [List.mem_singleton] at hn
    rw [hn, heap_least_nil]
  | cons p rest ih =>
    have hc := hb c (by simp)
    have hp := hb p (by simp)
    have hsign : symbol_frequency_compare p c < 0 ↔ p.symbol.freq < c.symbol.freq := by
      rw [symbol_frequency_compare_eq p c (by omega) (by omega)]
      omega
    rw [heap_least_cons]
    by_cases hlt : symbol_frequency_compare p c < 0
    · rw [if_pos hlt]
      have hpc : p.symbol.freq < c.symbol.freq := hsign.1 hlt
      have ih' := ih p (fun n hn => hb n (List.mem_cons_of_mem _ hn))
      intro n hn
      rcases List.mem_cons.1 hn with h | h
      · rw [h]
        have := ih' p (by simp)
        omega
      · exact ih' n h
    · rw [if_neg hlt]
      have hpc : ¬ p.symbol.freq < c.symbol.freq := fun h => hlt (hsign.2 h)
      have ih' := ih c (fun n hn => by
        rcases List.mem_cons.1 hn with h | h
        · rw [h]; exact hc
        · exact hb n (List.mem_cons_of_mem _ (List.mem_cons_of_mem _ h)))
      intro n hn
      rcases List.mem_cons.1 hn with h | h
      · rw [h]; exact ih' c (by simp)
      · rcases List.mem_cons.1 h with h | h
        · rw [h]
          have := ih' c (by simp)
          omega
        · exact ih' n (List.mem_cons_of_mem _ h)

/-- An extraction from a heap that is not empty removes one element of least frequency. -/
theorem heap_extract_spec (heap : heap_t) (hne : heap.nodes ≠ [])
    (hb : ∀ n ∈ heap.nodes, n.symbol.freq ≤ 2147483647) :
    (heap_extract heap).1 ∈ heap.nodes ∧
    (heap_extract heap).2.nodes = heap.nodes.erase (heap_extract heap).1 ∧
    (∀ n ∈ heap.nodes, (heap_extract heap).1.symbol.freq ≤ n.symbol.freq) := by
  unfold heap_extract
  cases hn : heap.nodes with
  | nil => exact absurd hn hne
  | cons p rest =>
    rw [hn] at hb
    exact ⟨heap_least_mem p rest, rfl, heap_least_le p rest hb⟩

theorem create_parent_node_eq (l r : binary_tree_node_t) (hl : l ≠ .nil) (hr : r ≠ .nil)
    (hsum : l.symbol.freq + r.symbol.freq < 18446744073709551616) :
    create_parent_node l r = .node ⟨-1, l.symbol.freq + r.symbol.freq⟩ l r := by
  cases l with
  | nil => exact absurd rfl hl
  | node ld ll lr =>
    cases r with
    | nil => exact absurd rfl hr
    | node rd rl rr =>
      simp only [binary_tree_node_t.symbol] at hsum
      simp only [create_parent_node, merge_symbol_frequencies, symbol_create, binary_tree_node,
        binary_tree_node_t.symbol, Nat.mod_eq_of_lt hsum]

/-- Counterexample to C30 as stated, on the heap modelled from the specification.  On the
heap of a and b with the frequency `2 ^ 63` each, the call returns 1 and the inserted node
has the frequency 0, the `size_t` sum having wrapped, where the two frequencies add up to
`2 ^ 64`.  On the heap of a:0, b:`2 ^ 31` and c:1 the comparator, which converts the
difference of the frequencies to `int`, ranks b below a and c below b: the first node
extracted is c and the second b, and the inserted node has the frequency `2 ^ 31 + 1`,
where the two smallest frequencies, 0 and 1, add up to 1. -/
theorem huffman_extract_and_insert_wraps :
    huffman_extract_and_insert (some wrappingHeap) =
      (1, some ⟨[.node ⟨-1, 0⟩ (binary_tree_node ⟨97, 9223372036854775808⟩)
        (binary_tree_node ⟨98, 9223372036854775808⟩)]⟩) ∧
    (heap_extract wrappingHeap).1.symbol.freq +
      (heap_extract (heap_extract wrappingHeap).2).1.symbol.freq = 18446744073709551616 ∧
    symbol_frequency_compare (binary_tree_node ⟨98, 2147483648⟩) (binary_tree_node ⟨97, 0⟩)
      = -2147483648 ∧
    symbol_frequency_compare (binary_tree_node ⟨99, 1⟩) (binary_tree_node ⟨98, 2147483648⟩)
      = -2147483647 ∧
    (heap_extract misorderedHeap).1 = binary_tree_node ⟨99, 1⟩ ∧
    huffman_extract_and_insert (some misorderedHeap) =
      (1, some ⟨[binary_tree_node ⟨97, 0⟩,
        .node ⟨-1, 2147483649⟩ (binary_tree_node ⟨99, 1⟩)
          (binary_tree_node ⟨98, 2147483648⟩)]⟩) := by
  refine ⟨by decide, by decide, by decide, by decide, by decide, by decide⟩

/-- C30, amended: on the heap modelled from the specification, for every heap that holds
at least two nodes, none of them `NULL` and each with a frequency of at most `INT_MAX`,
`huffman_extract_and_insert` returns 1; the heap afterwards holds one node fewer; the
node it inserted has the sentinel character -1, a frequency equal to the sum of the
frequencies of the first and the second extracted node, the first as its left child and
the second as its right child; the first has the least frequency in the heap and the
second the least among the others; and the heap afterwards holds the other nodes and the
inserted node. -/
theorem huffman_extract_and_insert_merges (pq : heap_t) (hsize : 2 ≤ pq.nodes.length)
    (hnodes : ∀ n ∈ pq.nodes, n ≠ .nil ∧ n.symbol.freq ≤ 2147483647) :
    ∃ (first second : binary_tree_node_t) (pq' : heap_t),
      huffman_extract_and_insert (some pq) = (1, some pq') ∧
      pq'.nodes.length + 1 = pq.nodes.length ∧
      first = (heap_extract pq).1 ∧ second = (heap_extract (heap_extract pq).2).1 ∧
      first ∈ pq.nodes ∧ second ∈ pq.nodes.erase first ∧
      (∀ n ∈ pq.nodes, first.symbol.freq ≤ n.symbol.freq) ∧
      (∀ n ∈ pq.nodes.erase first, second.symbol.freq ≤ n.symbol.freq) ∧
      pq'.nodes = (pq.nodes.erase first).erase second ++
        [.node ⟨-1, first.symbol.freq + second.symbol.freq⟩ first second] := by
  have hne : pq.nodes ≠ [] := by
    intro h; rw [h] at hsize; simp at hsize
  obtain ⟨a1, a2, a3⟩ := heap_extract_spec pq hne (fun n hn => (hnodes n hn).2)
  have hlen1 : (heap_extract pq).2.nodes.length = pq.nodes.length - 1 := by
    rw [a2, List.length_erase_of_mem a1]
  have hne1 : (heap_extract pq).2.nodes ≠ [] := by
    intro h; rw [h] at hlen1; simp at hlen1; omega
  have hsub : ∀ n ∈ (heap_extract pq).2.nodes, n ∈ pq.nodes := by
    intro n hn
    rw [a2] at hn
    exact List.mem_of_mem_erase hn
  obtain ⟨b1, b2, b3⟩ := heap_extract_spec (heap_extract pq).2 hne1
    (fun n hn => (hnodes n (hsub n hn)).2)
  have hf1 := hnodes _ a1
  have hf2 := hnodes _ (hsub _ b1)
  have hpar := create_parent_node_eq (heap_extract pq).1 (heap_extract (heap_extract pq).2).1
    hf1.1 hf2.1 (by omega)
  refine ⟨(heap_extract pq).1, (heap_extract (heap_extract pq).2).1,
    ⟨(heap_extract (heap_extract pq).2).2.nodes ++
      [.node ⟨-1, (heap_extract pq).1.symbol.freq +
        (heap_extract (heap_extract pq).2).1.symbol.freq⟩
        (heap_extract pq).1 (heap_extract (heap_extract pq).2).1]⟩,
    ?_, ?_, rfl, rfl, a1, by rw [← a2]; exact b1, a3, by rw [← a2]; exact b3, ?_⟩
  · unfold huffman_extract_and_insert
    simp only
    rw [if_neg (by
      intro h
      rcases h with h | h
      · exact hf1.1 h
      · exact hf2.1 h), hpar]
    simp [heap_insert]
  · simp only [List.length_append, List.length_singleton]
    rw [b2, List.length_erase_of_mem b1, hlen1]
    omega
  · simp only
    rw [b2, a2]

/-- Witness for the amended C30 on a heap holding c:3, a:1 and b:1: the inserted node has frequency 2
with `a` as left and `b` as right child, and the heap holds `c` and that node. -/
theorem huffman_extract_and_insert_merges_witness :
    huffman_extract_and_insert (some cabHeap) =
      (1, some ⟨[binary_tree_node ⟨99, 3⟩,
        .node ⟨-1, 2⟩ (binary_tree_node ⟨97, 1⟩) (binary_tree_node ⟨98, 1⟩)]⟩) ∧
    ∃ (first second : binary_tree_node_t) (pq' : heap_t),
      huffman_extract_and_insert (some cabHeap) = (1, some pq') ∧
      pq'.nodes.length + 1 = cabHeap.nodes.length ∧
      first = (heap_extract cabHeap).1 ∧ second = (heap_extract (heap_extract cabHeap).2).1 ∧
      first ∈ cabHeap.nodes ∧ second ∈ cabHeap.nodes.erase first ∧
      (∀ n ∈ cabHeap.nodes, first.symbol.freq ≤ n.symbol.freq) ∧
      (∀ n ∈ cabHeap.nodes.erase first, second.symbol.freq ≤ n.symbol.freq) ∧
      pq'.nodes = (cabHeap.nodes.erase first).erase second ++
        [.node ⟨-1, first.symbol.freq + second.symbol.freq⟩ first second] :=
  ⟨by decide, huffman_extract_and_insert_merges cabHeap (by decide) (by decide)⟩

/-! ## The invariants of the graph store -/

theorem vtx_mem {g : Graph} {i : Nat} (hi : i < g.size) : g.vtx i ∈ g.vertices := by
  unfold Graph.vtx
  rw [List.getD_eq_getElem _ _ hi]
  exact List.getElem_mem _

theorem storeInvariant_create : StoreInvariant graph_create := by
  refine ⟨rfl, ?_, ?_, ?_, ?_⟩
  · intro i hi; simp [graph_create, Graph.size] at hi
  · intro i hi; simp [graph_create, Graph.size] at hi
  · intro i hi; simp [graph_create, Graph.size] at hi
  · intro i hi; simp [graph_create, Graph.size] at hi

/-- `graph_add_vertex` keeps the invariants of the graph store. -/
theorem storeInvariant_add_vertex (g : Graph) (str : Option String) (inv : StoreInvariant g) :
    StoreInvariant ((graph_add_vertex (some g) str).2.getD g) := by
  cases str with
  | none => exact inv
  | some str =>
    by_cases h : HasLabel g str
    · rw [graph_add_vertex_dup g str h]
      exact inv
    · obtain ⟨hc, hidx, hu, hnb, hdest⟩ := inv
      obtain ⟨g1, hg1, b1, b2, b3, b4, b5⟩ := add_vertex_keeps g str hc hidx h
      have hnew := graph_add_vertex_new g str hc h
      rw [hg1] at hnew
      simp only [Prod.mk.injEq, Option.some.injEq, true_and] at hnew
      rw [hg1]
      simp only [Option.getD_some]
      have hsz : g1.size = g.size + 1 := b3
      have b5 : (g1.vtx g.size).content = str := b5
      have b4 : ∀ k, k < g.size → g1.vtx k = g.vtx k := b4
      have hlast : (g1.vtx g.size).edges = [] ∧ (g1.vtx g.size).nb_edges = 0 := by
        rw [hnew]
        simp only [Graph.vtx, Graph.size]
        rw [List.getD_append_right _ _ _ _ (Nat.le_refl _)]
        simp [create_new_vertex]
      refine ⟨b1, b2, ?_, ?_, ?_⟩
      · intro i hi j hj hij
        rw [hsz] at hi hj
        by_cases hi' : i < g.size
        · by_cases hj' : j < g.size
          · rw [b4 i hi', b4 j hj'] at hij
            exact hu i hi' j hj' hij
          · have hje : j = g.size := by omega
            subst hje
            rw [b4 i hi', b5] at hij
            exact absurd ⟨g.vtx i, vtx_mem hi', hij⟩ h
        · have hie : i = g.size := by omega
          subst hie
          by_cases hj' : j < g.size
          · rw [b4 j hj', b5] at hij
            exact absurd ⟨g.vtx j, vtx_mem hj', hij.symm⟩ h
          · omega
      · intro i hi
        rw [hsz] at hi
        by_cases hi' : i < g.size
        · rw [b4 i hi']; exact hnb i hi'
        · have hie : i = g.size := by omega
          subst hie
          rw [hlast.1, hlast.2]; rfl
      · intro i hi e he
        rw [hsz] at hi ⊢
        by_cases hi' : i < g.size
        · rw [b4 i hi'] at he
          exact Nat.lt_succ_of_lt (hdest i hi' e he)
        · have hie : i = g.size := by omega
          subst hie
          rw [hlast.1] at he
          simp at he

theorem find_endpoints_lt (src dest : String) :
    ∀ (vs : List Vertex) (pos : Nat) (s d : Option Nat),
      (∀ i, s = some i → i < pos + vs.length) → (∀ j, d = some j → j < pos + vs.length) →
      (∀ i, (find_endpoints src dest vs pos (s, d)).1 = some i → i < pos + vs.length) ∧
      (∀ j, (find_endpoints src dest vs pos (s, d)).2 = some j → j < pos + vs.length)
  | [], _, _, _, hs, hd => ⟨hs, hd⟩
  | v :: rest, pos, s, d, hs, hd => by
    have hlen : pos + (v :: rest).length = pos + 1 + rest.length := by
      simp only [List.length_cons]; omega
    rw [hlen] at hs hd ⊢
    unfold find_endpoints
    split
    · exact find_endpoints_lt src dest rest (pos + 1) (some pos) d
        (fun i hi => by simp only [Option.some.injEq] at hi; omega) hd
    · split
      · exact find_endpoints_lt src dest rest (pos + 1) s (some pos) hs
          (fun i hi => by simp only [Option.some.injEq] at hi; omega)
      · exact find_endpoints_lt src dest rest (pos + 1) s d hs hd

/-- `add_single_edge` between two vertices of the graph keeps the invariants. -/
theorem storeInvariant_add_single_edge (g : Graph) (i j : Nat) (hi : i < g.size)
    (hj : j < g.size) (inv : StoreInvariant g) :
    StoreInvariant (add_single_edge g (some i) (some j)).2 := by
  obtain ⟨hc, hidx, hu, hnb, hdest⟩ := inv
  obtain ⟨_, h2, h3, h4, h5⟩ := add_single_edge_spec g i j hi
  refine ⟨by rw [h2, h3]; exact hc, ?_, add_single_edge_labels g i j hi hu, ?_, ?_⟩
  · intro k hk
    rw [h3] at hk
    by_cases hki : k = i
    · subst hki; rw [h4]; exact hidx k hk
    · rw [h5 k hki]; exact hidx k hk
  · intro k hk
    rw [h3] at hk
    by_cases hki : k = i
    · subst hki
      rw [h4]
      simp only [List.length_append, List.length_singleton]
      rw [hnb k hk]
    · rw [h5 k hki]; exact hnb k hk
  · intro k hk e he
    rw [h3] at hk ⊢
    by_cases hki : k = i
    · subst hki
      rw [h4] at he
      simp only [List.mem_append, List.mem_singleton] at he
      rcases he with h | h
      · exact hdest k hk e h
      · rw [h]; exact hj
    · rw [h5 k hki] at he
      exact hdest k hk e he

/-- `graph_add_edge` keeps the invariants of the graph store. -/
theorem storeInvariant_add_edge (g : Graph) (src dest : Option String) (type : Int)
    (inv : StoreInvariant g) :
    StoreInvariant ((graph_add_edge (some g) src dest type).2.getD g) := by
  cases src with
  | none => exact inv
  | some src =>
    cases dest with
    | none => exact inv
    | some dest =>
      simp only [graph_add_edge]
      split
      · exact inv
      · have hlt := find_endpoints_lt src dest g.vertices 0 none none
          (fun i hi => by simp at hi) (fun i hi => by simp at hi)
        rcases hf : find_endpoints src dest g.vertices 0 (none, none) with ⟨a, b⟩
        rw [hf] at hlt
        simp only [Nat.zero_add] at hlt
        cases a with
        | none => exact inv
        | some i =>
          cases b with
          | none => exact inv
          | some j =>
            have hi : i < g.size := hlt.1 i rfl
            have hj : j < g.size := hlt.2 j rfl
            have inv1 := storeInvariant_add_single_edge g i j hi hj inv
            have hsz := (add_single_edge_spec g i j hi).2.2.1
            have inv2 := storeInvariant_add_single_edge (add_single_edge g (some i) (some j)).2
              j i (by rw [hsz]; exact hj) (by rw [hsz]; exact hi) inv1
            simp only [add_single_edge] at inv1 inv2 ⊢
            split
            · exact inv2
            · exact inv1

/-- C23: every graph obtained from `graph_create` by a sequence of `graph_add_vertex` and
`graph_add_edge` calls, whatever their arguments are, has a vertex count equal to the
length of its vertex list, pairwise distinct vertex labels, for each vertex an edge count
equal to the length of its edge list, and edges that all lead to vertices of the graph;
moreover the vertex at position `i` carries index `i`. -/
theorem graph_store_invariants (calls : List GraphCall) :
    (run_calls calls graph_create).nb_vertices = (run_calls calls graph_create).size ∧
    UniqueLabels (run_calls calls graph_create) ∧
    (∀ i, i < (run_calls calls graph_create).size →
      ((run_calls calls graph_create).vtx i).nb_edges =
        ((run_calls calls graph_create).vtx i).edges.length) ∧
    (∀ i, i < (run_calls calls graph_create).size →
      ∀ e ∈ ((run_calls calls graph_create).vtx i).edges,
        e.dest < (run_calls calls graph_create).size) ∧
    (∀ i, i < (run_calls calls graph_create).size →
      ((run_calls calls graph_create).vtx i).index = i) := by
  have key : ∀ (calls : List GraphCall) (g : Graph), StoreInvariant g →
      StoreInvariant (run_calls calls g) := by
    intro calls
    induction calls with
    | nil => intro g inv; exact inv
    | cons c rest ih =>
      intro g inv
      cases c with
      | add_vertex str => exact ih _ (storeInvariant_add_vertex g str inv)
      | add_edge src dest type => exact ih _ (storeInvariant_add_edge g src dest type inv)
  obtain ⟨h1, h2, h3, h4, h5⟩ := key calls graph_create storeInvariant_create
  exact ⟨h1, h3, h4, h5, h2⟩

/-! ## The overwrite of `f_score[current]` -/

theorem getD_set_congr {α : Type} (l l' : List α) (i j : Nat) (v d : α)
    (hlen : l.length = l'.length) (h : l.getD j d = l'.getD j d) :
    (l.set i v).getD j d = (l'.set i v).getD j d := by
  by_cases hij : i = j
  · subst hij
    by_cases hi : i < l.length
    · rw [getD_set_eq _ _ _ _ hi, getD_set_eq _ _ _ _ (by rw [← hlen]; exact hi)]
    · rw [List.set_eq_of_length_le (by omega), List.set_eq_of_length_le (by omega)]
      exact h
  · rw [getD_set_ne _ _ _ _ _ hij, getD_set_ne _ _ _ _ _ hij]
    exact h

theorem min_score_scan_congr (n : Nat) (f f' visited : List Nat)
    (h : ∀ i, visited.getD i 0 = 0 → f.getD i 0 = f'.getD i 0) :
    min_score_scan n f visited = min_score_scan n f' visited := by
  unfold min_score_scan
  apply List.foldl_ext
  intro acc i _
  by_cases hv : visited.getD i 0 = 0
  · rw [h i hv]
  · dsimp only
    rw [if_neg (fun hc => hv hc.1), if_neg (fun hc => hv hc.1)]

theorem get_min_g_score_congr (g : Graph) (f f' visited : List Nat) (idx : Nat)
    (h : ∀ i, visited.getD i 0 = 0 → f.getD i 0 = f'.getD i 0) :
    get_min_g_score g f visited idx = get_min_g_score g f' visited idx := by
  unfold get_min_g_score
  rw [min_score_scan_congr g.nb_vertices f f' visited h]

/-- The edge loop of the A* step does not read `f_score`. -/
theorem a_star_neighbors_same (pow : Int → Nat → Double) (g : Graph) (target current i k : Nat) :
    ∀ (es : List Edge) (st st' : AStarState), SameExcept k st st' →
      SameExcept k (a_star_neighbors pow g target current i es st)
        (a_star_neighbors pow g target current i es st')
  | [], _, _, h => h
  | e :: rest, st, st', h => by
    obtain ⟨h1, h2, h3, h4, h5, h6, h7⟩ := h
    unfold a_star_neighbors
    rw [← h1, ← h3]
    by_cases hv : st.visited.getD i 0 = 0
    · simp only [if_pos hv]
      by_cases hg : st.g_score.getD (g.vtx e.dest).index 0 >
          size_add (st.g_score.getD i 0) e.weight
      · simp only [if_pos hg]
        apply a_star_neighbors_same pow g target current i k rest
        refine ⟨rfl, by simp only; rw [h2], rfl, h4,
          by simp only [List.length_set]; exact h5,
          by simp only [List.length_set]; exact h6, ?_⟩
        intro j hjk hj
        exact getD_set_congr _ _ _ _ _ _ h5 (h7 j hjk hj)
      · simp only [if_neg hg]
        exact a_star_neighbors_same pow g target current i k rest st st'
          ⟨h1, h2, h3, h4, h5, h6, h7⟩
    · simp only [if_neg hv]
      exact ⟨h1, h2, h3, h4, h5, h6, h7⟩

/-- The code and the variant without the overwrite run in step: from states that differ
at most in the `f_score` of visited vertices they both run out of fuel, or both return
such states. -/
theorem recursive_a_star_same (pow : Int → Nat → Double) (g : Graph) (target : Nat) :
    ∀ (fuel : Nat) (st st' : AStarState) (idx : Nat), SameSearch st st' →
      (recursive_a_star pow g target fuel st idx = none ∧
        recursive_a_star_untouched pow g target fuel st' idx = none) ∨
      ∃ r r', recursive_a_star pow g target fuel st idx = some r ∧
        recursive_a_star_untouched pow g target fuel st' idx = some r' ∧ SameSearch r r'
  | 0, _, _, _, _ => Or.inl ⟨rfl, rfl⟩
  | fuel + 1, st, st', idx, h => by
    obtain ⟨h1, h2, h3, h4, h5, h6, h7⟩ := h
    unfold recursive_a_star recursive_a_star_untouched
    have hsame : get_min_g_score g st'.f_score st'.visited idx =
        get_min_g_score g st.f_score st.visited idx := by
      rw [← h1]
      exact (get_min_g_score_congr g st.f_score st'.f_score st.visited idx h7).symm
    rw [hsame]
    rcases hsel : get_min_g_score g st.f_score st.visited idx with ⟨c, idx'⟩
    cases c with
    | none => exact Or.inr ⟨st, st', rfl, rfl, h1, h2, h3, h4, h5, h6, h7⟩
    | some current =>
      simp only
      have hstart : SameExcept (g.vtx current).index
          { st with
            f_score := st.f_score.set (g.vtx current).index (heuristic pow g target current)
            checked := st.checked ++ [current] }
          { st' with checked := st'.checked ++ [current] } := by
        refine ⟨h1, h2, h3, by simp only; rw [h4],
          by simp only [List.length_set]; exact h5,
          by simp only [List.length_set]; exact h6, ?_⟩
        intro j hjk hj
        simp only at hj ⊢
        rw [getD_set_ne _ _ _ _ _ (Ne.symm hjk)]
        exact h7 j hj
      have hloop := a_star_neighbors_same pow g target current (g.vtx current).index
        (g.vtx current).index (g.vtx current).edges _ _ hstart
      generalize a_star_neighbors pow g target current (g.vtx current).index (g.vtx current).edges
        { st with
          f_score := st.f_score.set (g.vtx current).index (heuristic pow g target current)
          checked := st.checked ++ [current] } = A at hloop ⊢
      generalize a_star_neighbors pow g target current (g.vtx current).index (g.vtx current).edges
        { st' with checked := st'.checked ++ [current] } = B at hloop ⊢
      obtain ⟨k1, k2, k3, k4, k5, k6, k7⟩ := hloop
      have hnext : SameSearch
          { A with visited := A.visited.set (g.vtx current).index 1 }
          { B with visited := B.visited.set (g.vtx current).index 1 } := by
        refine ⟨by simp only; rw [k1], k2, k3, k4, k5,
          by simp only [List.length_set]; exact k6, ?_⟩
        intro j hj
        simp only at hj ⊢
        by_cases hjk : j = (g.vtx current).index
        · subst hjk
          by_cases hlt : (g.vtx current).index < A.visited.length
          · rw [getD_set_eq _ _ _ _ hlt] at hj
            exact absurd hj (by decide)
          · rw [List.getD_eq_default _ _ (by omega), List.getD_eq_default _ _ (by omega)]
        · rw [getD_set_ne _ _ _ _ _ (Ne.symm hjk)] at hj
          exact k7 j hjk hj
      rw [← k1] at hnext ⊢
      by_cases hdone : (A.visited.set (g.vtx current).index 1).getD (g.vtx target).index 0 = 1
      · rw [if_pos hdone, if_pos hdone]
        exact Or.inr ⟨_, _, rfl, rfl, hnext⟩
      · rw [if_neg hdone, if_neg hdone]
        exact recursive_a_star_same pow g target fuel _ _ idx' hnext

/-- C24: whatever the library function `pow` returns, for every graph, start and target
(and every fuel, present or absent arguments),
`a_star_graph` returns the same result as the variant that does not overwrite
`f_score[current]` with the bare heuristic at selection time, and both select the same
vertices in the same order: the overwritten entry belongs to a vertex that is marked
visited before the next selection, and the selection reads the scores of unvisited
vertices only. -/
theorem a_star_overwrite_harmless (pow : Int → Nat → Double) (fuel : Nat) (graph : Option Graph)
    (start target : Option Nat) (g : Graph) (s t : Nat) :
    a_star_graph pow fuel graph start target = a_star_graph_untouched pow fuel graph start target ∧
    Option.map AStarState.checked (recursive_a_star pow g t fuel (initialize_a_star pow g s t) 0) =
      Option.map AStarState.checked
        (recursive_a_star_untouched pow g t fuel (initialize_a_star pow g s t) 0) := by
  have hinit : ∀ (g : Graph) (s t : Nat),
      SameSearch (initialize_a_star pow g s t) (initialize_a_star pow g s t) := by
    intro g s t
    refine ⟨rfl, rfl, rfl, rfl, rfl, ?_, fun _ _ => rfl⟩
    simp [initialize_a_star]
  constructor
  · cases graph with
    | none => rfl
    | some gr =>
      cases start with
      | none => rfl
      | some st =>
        cases target with
        | none => rfl
        | some tg =>
          unfold a_star_graph a_star_graph_untouched
          simp only
          rcases recursive_a_star_same pow gr tg fuel _ _ 0 (hinit gr st tg) with
            ⟨e1, e2⟩ | ⟨r, r', e1, e2, hs⟩
          · rw [e1, e2]
          · rw [e1, e2]
            simp only
            rewrite [hs.2.1]
            cases reconstruct_path gr r'.came_from st tg fuel with
            | none => rfl
            | some q => cases q <;> rfl
  · rcases recursive_a_star_same pow g t fuel _ _ 0 (hinit g s t) with
      ⟨e1, e2⟩ | ⟨r, r', e1, e2, hs⟩
    · rw [e1, e2]
    · rw [e1, e2]
      simp only [Option.map_some']
      rw [hs.2.2.2.1]

/-! ## Restored marks and the selection of Dijkstra's algorithm -/

/-- C25: for every well-formed graph, target and vertex of it, and every visited array of
the size of the graph with flags 0 and 1, a call of `recursive_backtrack_graph` returns
(with fuel above the number of unmarked vertices), and when it returns failure (0) the
visited array is exactly as it was on entry; in particular a failed search from the
all-unmarked array of `backtracking_graph` leaves no vertex marked and `backtracking_graph`
returns `NULL`. -/
theorem recursive_backtrack_graph_restores (g : Graph) (hwf : WellFormed g) (t c : Nat)
    (ht : t < g.size) (hc : c < g.size) (fuel : Nat) (st : GraphState)
    (hlen : st.visited.length = g.size) (hfl : Flags01 st.visited)
    (hfuel : st.visited.count 0 < fuel) (hfuel' : g.nb_vertices < fuel) :
    (∃ res, recursive_backtrack_graph g t fuel st (some c) = some res ∧
      (res.1 = 0 → res.2.visited = st.visited)) ∧
    (∃ res, recursive_backtrack_graph g t fuel
        { visited := List.replicate g.nb_vertices 0, path := [], checked := [] } (some c) =
        some res ∧
      (res.1 = 0 → (∀ i, res.2.visited.getD i 0 = 0) ∧
        backtracking_graph fuel (some g) (some c) (some t) = some none)) := by
  have hn : g.nb_vertices = g.size := hwf.1
  constructor
  · obtain ⟨res, hres, hsf⟩ := recursive_backtrack_graph_spec hwf t ht fuel st c hc hlen hfl hfuel
    exact ⟨res, hres, fun h0 => (hsf.1 h0).1⟩
  · have hfl0 : Flags01 (List.replicate g.nb_vertices (0 : Int)) := by
      intro i
      left
      exact getD_replicate _ _ _
    obtain ⟨res, hres, hsf⟩ := recursive_backtrack_graph_spec hwf t ht fuel
      { visited := List.replicate g.nb_vertices 0, path := [], checked := [] } c hc
      (by simp [hn]) hfl0 (by simp; exact hfuel')
    refine ⟨res, hres, fun h0 => ⟨?_, ?_⟩⟩
    · intro i
      rw [(hsf.1 h0).1]
      exact getD_replicate _ _ _
    · unfold backtracking_graph
      simp only [hres]
      rw [if_neg (by rw [h0]; simp)]

/-- Witness for C25 on the graph with the cycle A→B→C→A: the search from A for the
vertex D, which cannot be reached, fails and leaves the array it was given. -/
theorem recursive_backtrack_graph_restores_witness :
    recursive_backtrack_graph cycleGraph 3 5
        { visited := [0, 0, 0, 0], path := [], checked := [] } (some 0) =
      some (0, { visited := [0, 0, 0, 0], path := [], checked := [0, 1, 2] }) ∧
    (∃ res, recursive_backtrack_graph cycleGraph 3 5
        { visited := [0, 0, 1, 0], path := [], checked := [] } (some 0) = some res ∧
      (res.1 = 0 → res.2.visited = [0, 0, 1, 0])) :=
  ⟨by decide,
    (recursive_backtrack_graph_restores cycleGraph (by decide) 3 0 (by decide) (by decide) 5
      { visited := [0, 0, 1, 0], path := [], checked := [] } rfl
      (by intro i
          rcases i with _ | _ | _ | _ | i
          · left; rfl
          · left; rfl
          · right; rfl
          · left; rfl
          · left; rfl)
      (by decide) (by decide)).1⟩

/-- C27: on a well-formed graph `find_minimum_distance_vertex` returns no vertex exactly
when every unprocessed vertex has distance `ULONG_MAX` (which includes the graph without
vertices); and a vertex it returns is unprocessed, has a distance below `ULONG_MAX` that
no unprocessed vertex undercuts, and every unprocessed vertex of smaller index has a
strictly larger distance; its index is left in `*vertex_idx`. -/
theorem find_minimum_distance_vertex_least (g : Graph) (hwf : WellFormed g)
    (distances processed : List Nat) (vertex_idx : Nat) :
    ((find_minimum_distance_vertex g distances processed vertex_idx).1 = none ↔
      ∀ j, j < g.size → processed.getD j 0 = 0 → ¬ distances.getD j 0 < ULONG_MAX) ∧
    (∀ c, (find_minimum_distance_vertex g distances processed vertex_idx).1 = some c →
      c < g.size ∧ processed.getD c 0 = 0 ∧ distances.getD c 0 < ULONG_MAX ∧
      (∀ j, j < g.size → processed.getD j 0 = 0 → distances.getD c 0 ≤ distances.getD j 0) ∧
      (∀ j, j < c → processed.getD j 0 = 0 → distances.getD c 0 < distances.getD j 0) ∧
      (find_minimum_distance_vertex g distances processed vertex_idx).2 = c) ∧
    (g.vertices = [] →
      (find_minimum_distance_vertex g distances processed vertex_idx).1 = none) := by
  rcases find_minimum_distance_vertex_spec hwf distances processed vertex_idx with
    ⟨hnone, hall⟩ | ⟨c, hc, h1, h2, h3, h4, h5⟩
  · refine ⟨⟨fun _ => hall, fun _ => hnone⟩, ?_, fun _ => hnone⟩
    intro c hc
    rw [hnone] at hc
    simp at hc
  · refine ⟨⟨?_, ?_⟩, ?_, ?_⟩
    · intro hn
      rw [hc] at hn
      simp at hn
    · intro hall
      exact absurd h3 (hall c h1 h2)
    · intro c' hc'
      rw [hc] at hc' ⊢
      simp only [Option.some.injEq] at hc'
      subst hc'
      exact ⟨h1, h2, h3, h4, h5, rfl⟩
    · intro hv
      unfold Graph.size at h1
      rw [hv] at h1
      simp at h1

/-- Witness for C27 on the graph A, B, C, D: with A processed and the distances 1, 5
recorded for B and C, vertex B is returned; with equal distances for B and C, again B. -/
theorem find_minimum_distance_vertex_least_witness :
    find_minimum_distance_vertex exampleABCD [0, 1, 5, ULONG_MAX] [1, 0, 0, 0] 0 = (some 1, 1) ∧
    find_minimum_distance_vertex exampleABCD [0, 5, 5, ULONG_MAX] [1, 0, 0, 0] 0 = (some 1, 1) ∧
    find_minimum_distance_vertex exampleABCD [0, ULONG_MAX, ULONG_MAX, ULONG_MAX] [1, 0, 0, 0] 0 =
      (none, ULONG_MAX) ∧
    ((find_minimum_distance_vertex exampleABCD [0, 5, 5, ULONG_MAX] [1, 0, 0, 0] 0).1 = none ↔
      ∀ j, j < exampleABCD.size → ([1, 0, 0, 0] : List Nat).getD j 0 = 0 →
        ¬ ([0, 5, 5, ULONG_MAX] : List Nat).getD j 0 < ULONG_MAX) :=
  ⟨by decide, by decide, by decide,
    (find_minimum_distance_vertex_least exampleABCD (by decide) [0, 5, 5, ULONG_MAX]
      [1, 0, 0, 0] 0).1⟩

/-! ## The selections of Dijkstra's algorithm -/

theorem relax_neighbors_frame (g : Graph) (a i : Nat) :
    ∀ (es : List Edge) (st : DijkstraState),
      (relax_neighbors g a i es st).processed = st.processed ∧
      (relax_neighbors g a i es st).checked = st.checked
  | [], _ => ⟨rfl, rfl⟩
  | e :: rest, st => by
    unfold relax_neighbors
    split
    · simp only
      split
      · exact relax_neighbors_frame g a i rest _
      · exact relax_neighbors_frame g a i rest st
    · exact ⟨rfl, rfl⟩

/-- The step recursion of Dijkstra's algorithm returns when `fuel` exceeds the number of
unprocessed vertices; the vertices it selects are new, and only the last of them can be
the target. -/
theorem execute_dijkstra_iteration_selects {g : Graph} (hwf : WellFormed g) (t : Nat)
    (ht : t < g.size) :
    ∀ (fuel : Nat) (st : DijkstraState) (cur : Nat), st.processed.length = g.size →
      st.checked.Nodup → (∀ v ∈ st.checked, st.processed.getD v 0 = 1) →
      st.processed.count 0 < fuel →
      ∃ st' sel, execute_dijkstra_iteration g t fuel st cur = some st' ∧
        st'.checked = st.checked ++ sel ∧ (st.checked ++ sel).Nodup ∧
        (∀ v ∈ sel, v < g.size) ∧
        (∀ k, k + 1 < sel.length → sel.getD k 0 ≠ t)
  | 0, _, _, _, _, _, hf => absurd hf (Nat.not_lt_zero _)
  | fuel + 1, st, cur, hlen, hnd, hproc, hf => by
    unfold execute_dijkstra_iteration
    rcases find_minimum_distance_vertex_spec hwf st.distances st.processed cur with
      ⟨hnone, _⟩ | ⟨c, hsome, hclt, hp, _, _, _⟩
    · cases hfm : find_minimum_distance_vertex g st.distances st.processed cur with
      | mk o idx =>
        rw [hfm] at hnone
        simp only at hnone
        subst hnone
        exact ⟨st, [], rfl, by simp, by simpa using hnd, by simp, by simp⟩
    · rw [hsome]
      simp only [hwf.2.2.1 c hclt, hwf.2.2.1 t ht]
      obtain ⟨f1, f2⟩ := relax_neighbors_frame g c c (g.vtx c).edges
        { st with checked := st.checked ++ [c] }
      have hcnew : c ∉ st.checked := by
        intro hm
        have := hproc c hm
        omega
      have hnd1 : (st.checked ++ [c]).Nodup :=
        List.nodup_append.2 ⟨hnd, List.nodup_singleton _, fun a ha hb => by
          simp only [List.mem_singleton] at hb
          exact hcnew (hb ▸ ha)⟩
      have hclen : c < st.processed.length := by rw [hlen]; exact hclt
      split
      · refine ⟨_, [c], rfl, by simp only; exact f2, hnd1, ?_, ?_⟩
        · intro v hv
          simp only [List.mem_singleton] at hv
          rw [hv]; exact hclt
        · intro k hk
          simp at hk
      · rename_i hdone
        simp only [f1] at hdone
        have hct : c ≠ t := by
          intro hEq
          apply hdone
          rw [← hEq]
          exact getD_set_eq _ _ _ _ hclen
        obtain ⟨st', sel, hrun, hchk, hnd', hb', hlast'⟩ :=
          execute_dijkstra_iteration_selects hwf t ht fuel
            { relax_neighbors g c c (g.vtx c).edges { st with checked := st.checked ++ [c] } with
              processed := (relax_neighbors g c c (g.vtx c).edges
                { st with checked := st.checked ++ [c] }).processed.set c 1 }
            c
            (by simp only [List.length_set, f1]; exact hlen)
            (by simp only [f2]; exact hnd1)
            (by
              simp only [f1, f2]
              intro v hv
              by_cases hvc : v = c
              · rw [hvc]; exact getD_set_eq _ _ _ _ hclen
              · rw [getD_set_ne _ _ _ _ _ (Ne.symm hvc)]
                rcases List.mem_append.1 hv with h | h
                · exact hproc v h
                · simp only [List.mem_singleton] at h
                  exact absurd h hvc)
            (by
              simp only [f1]
              have := count_zero_set st.processed c hclen hp
              omega)
        simp only [f2] at hchk hnd'
        refine ⟨st', c :: sel, hrun, by rw [hchk]; simp, by simpa using hnd', ?_, ?_⟩
        · intro v hv
          rcases List.mem_cons.1 hv with h | h
          · rw [h]; exact hclt
          · exact hb' v h
        · intro k hk
          cases k with
          | zero => simpa using hct
          | succ k =>
            simp only [List.getD_cons_succ]
            apply hlast' k
            simp only [List.length_cons] at hk
            omega

/-- C28: for every well-formed graph, every start and every target vertex of it, the step
recursion of `dijkstra_graph` returns for every fuel above the vertex count; it selects
at most `nb_vertices` vertices, no vertex twice, and no vertex after the target: only the
last selected vertex can be the target. -/
theorem execute_dijkstra_iteration_terminates (g : Graph) (hwf : WellFormed g) (s t : Nat)
    (ht : t < g.size) (fuel : Nat) (hfuel : g.nb_vertices < fuel) :
    ∃ st', execute_dijkstra_iteration g t fuel (dijkstra_initial g s) 0 = some st' ∧
      st'.checked.Nodup ∧ st'.checked.length ≤ g.nb_vertices ∧
      (∀ v ∈ st'.checked, v < g.size) ∧
      (∀ k, k + 1 < st'.checked.length → st'.checked.getD k 0 ≠ t) := by
  have hn : g.nb_vertices = g.size := hwf.1
  obtain ⟨st', sel, hrun, hchk, hnd, hb, hlast⟩ :=
    execute_dijkstra_iteration_selects hwf t ht fuel (dijkstra_initial g s) 0
      (by simp [dijkstra_initial, hn]) (by simp [dijkstra_initial])
      (by intro v hv; simp [dijkstra_initial] at hv)
      (by
        have : (dijkstra_initial g s).processed.count 0 = g.nb_vertices := by
          simp [dijkstra_initial]
        omega)
  have hsel : st'.checked = sel := by rw [hchk]; simp [dijkstra_initial]
  have hnd' : sel.Nodup := by
    have := hnd
    simpa [dijkstra_initial] using this
  refine ⟨st', hrun, ?_⟩
  rw [hsel]
  exact ⟨hnd', by rw [hn]; exact nodup_length_le g.size sel hnd' hb, hb, hlast⟩

/-- Witness for C28 on the graph A→B(1), B→D(1), A→C(5), C→D(1) from A to D: the vertices
A, B, D are selected, D last, and C never. -/
theorem execute_dijkstra_iteration_terminates_witness :
    Option.map DijkstraState.checked
        (execute_dijkstra_iteration exampleABCD 3 5 (dijkstra_initial exampleABCD 0) 0) =
      some [0, 1, 3] ∧
    ∃ st', execute_dijkstra_iteration exampleABCD 3 5 (dijkstra_initial exampleABCD 0) 0 =
        some st' ∧
      st'.checked.Nodup ∧ st'.checked.length ≤ exampleABCD.nb_vertices ∧
      (∀ v ∈ st'.checked, v < exampleABCD.size) ∧
      (∀ k, k + 1 < st'.checked.length → st'.checked.getD k 0 ≠ 3) :=
  ⟨by decide,
    execute_dijkstra_iteration_terminates exampleABCD (by decide) 0 3 (by decide) 5
      (by decide)⟩

/-! ## Grid backtracking: every cell is expanded at most once -/

theorem nodup_points_length_le (rows cols : Int) (l : List Point) (hnd : l.Nodup)
    (hb : ∀ c ∈ l, InBounds rows cols c) : l.length ≤ rows.toNat * cols.toNat := by
  have hinj : Function.Injective (fun c : Point => (c.x, c.y)) := by
    intro a b hab
    simp only [Prod.mk.injEq] at hab
    cases a; cases b
    simp only at hab
    simp [hab.1, hab.2]
  have hnd' : (l.map (fun c : Point => (c.x, c.y))).Nodup := hnd.map hinj
  have hsub : (l.map (fun c : Point => (c.x, c.y))).toFinset ⊆
      Finset.Ico 0 cols ×ˢ Finset.Ico 0 rows := by
    intro p hp
    simp only [List.mem_toFinset, List.mem_map] at hp
    obtain ⟨c, hc, rfl⟩ := hp
    have := hb c hc
    unfold InBounds at this
    simp only [Finset.mem_product, Finset.mem_Ico]
    omega
  have hcard := Finset.card_le_card hsub
  rw [List.toFinset_card_of_nodup hnd', List.length_map, Finset.card_product, Int.card_Ico,
    Int.card_Ico] at hcard
  simpa [Nat.mul_comm] using hcard

/-- The direction loop keeps the log of expanded cells free of repetitions. -/
theorem direction_loop_checked (rows cols : Int)
    (call : GridState → Int → Int → Option (Int × GridState)) (x y : Int)
    (hcall : ∀ st x' y' res, GridDims st.visited rows cols → st.checked.Nodup →
      (∀ c ∈ st.checked, InBounds rows cols c ∧ visited_at st.visited c.x c.y = 1) →
      call st x' y' = some res →
      GridDims res.2.visited rows cols ∧ res.2.checked.Nodup ∧
      (∀ c ∈ res.2.checked, InBounds rows cols c) ∧
      (res.1 = 0 → ∀ c ∈ res.2.checked, visited_at res.2.visited c.x c.y = 1)) :
    ∀ (ds : List Point) (st : GridState) (res : Int × GridState),
      GridDims st.visited rows cols → st.checked.Nodup →
      (∀ c ∈ st.checked, InBounds rows cols c ∧ visited_at st.visited c.x c.y = 1) →
      direction_loop call x y ds st = some res →
      GridDims res.2.visited rows cols ∧ res.2.checked.Nodup ∧
      (∀ c ∈ res.2.checked, InBounds rows cols c) ∧
      (res.1 = 0 → ∀ c ∈ res.2.checked, visited_at res.2.visited c.x c.y = 1)
  | [], st, res, hd, hnd, hall, h => by
    simp only [direction_loop, Option.some.injEq] at h
    subst h
    exact ⟨hd, hnd, fun c hc => (hall c hc).1, fun _ c hc => (hall c hc).2⟩
  | d :: rest, st, res, hd, hnd, hall, h => by
    unfold direction_loop at h
    cases hc : call st (x + d.x) (y + d.y) with
    | none => rw [hc] at h; simp at h
    | some r =>
      obtain ⟨r1, st'⟩ := r
      rw [hc] at h
      simp only at h
      obtain ⟨e1, e2, e3, e4⟩ := hcall st _ _ _ hd hnd hall hc
      by_cases hr : r1 ≠ 0
      · rw [if_pos hr] at h
        simp only [Option.some.injEq] at h
        subst h
        exact ⟨e1, e2, e3, fun h0 => by simp at h0⟩
      · rw [if_neg hr] at h
        have hr0 : r1 = 0 := by
          by_contra hne
          exact hr hne
        exact direction_loop_checked rows cols call x y hcall rest st' res e1 e2
          (fun c hc' => ⟨e3 c hc', e4 hr0 c hc'⟩) h

/-- A call of `backtrack_recursively` logs every cell it expands once: the cells logged
before are marked, and a cell passes the validity check only if it is not marked. -/
theorem backtrack_recursively_checked (map : List (List Char)) (rows cols : Int)
    (target : Point) :
    ∀ (fuel : Nat) (st : GridState) (x y : Int) (res : Int × GridState),
      GridDims st.visited rows cols → st.checked.Nodup →
      (∀ c ∈ st.checked, InBounds rows cols c ∧ visited_at st.visited c.x c.y = 1) →
      backtrack_recursively map target setup_directions rows cols fuel st x y = some res →
      GridDims res.2.visited rows cols ∧ res.2.checked.Nodup ∧
      (∀ c ∈ res.2.checked, InBounds rows cols c) ∧
      (res.1 = 0 → ∀ c ∈ res.2.checked, visited_at res.2.visited c.x c.y = 1)
  | 0, _, _, _, _, _, _, _, h => by simp [backtrack_recursively] at h
  | fuel + 1, st, x, y, res, hd, hnd, hall, h => by
    unfold backtrack_recursively at h
    by_cases hv : is_position_valid map st.visited x y rows cols = 0
    · rw [if_pos hv] at h
      simp only [Option.some.injEq] at h
      subst h
      exact ⟨hd, hnd, fun c hc => (hall c hc).1, fun _ c hc => (hall c hc).2⟩
    · rw [if_neg hv] at h
      obtain ⟨hw, hnv⟩ := (is_position_valid_ne_zero _ _ _ _ _ _).1 hv
      have hnew : (Point.mk x y) ∉ st.checked := fun hm => hnv (hall _ hm).2
      have hnd1 : (st.checked ++ [Point.mk x y]).Nodup :=
        List.nodup_append.2 ⟨hnd, List.nodup_singleton _, fun a ha hb => by
          simp only [List.mem_singleton] at hb
          exact hnew (hb ▸ ha)⟩
      have hin1 : ∀ c ∈ st.checked ++ [Point.mk x y], InBounds rows cols c := by
        intro c hc
        rcases List.mem_append.1 hc with h1 | h1
        · exact (hall c h1).1
        · simp only [List.mem_singleton] at h1
          rw [h1]; exact hw.1
      simp only at h
      by_cases ht : x = target.x ∧ y = target.y
      · rw [if_pos ht] at h
        simp only [Option.some.injEq] at h
        subst h
        exact ⟨hd, hnd1, hin1, fun h0 => by simp at h0⟩
      · rw [if_neg ht] at h
        refine direction_loop_checked rows cols
          (backtrack_recursively map target setup_directions rows cols fuel) x y
          (fun st' x' y' res' a b c d =>
            backtrack_recursively_checked map rows cols target fuel st' x' y' res' a b c d)
          _ _ res (mark_visited_dims _ rows cols hd x y) hnd1 ?_ h
        intro c hc
        refine ⟨hin1 c hc, ?_⟩
        simp only
        rw [visited_at_mark st.visited rows cols hd x y hw.1 c (hin1 c hc)]
        by_cases hcxy : c.x = x ∧ c.y = y
        · rw [if_pos hcxy]
        · rw [if_neg hcxy]
          rcases List.mem_append.1 hc with h1 | h1
          · exact (hall c h1).2
          · simp only [List.mem_singleton] at h1
            rw [h1] at hcxy
            exact absurd ⟨rfl, rfl⟩ hcxy

/-- C26: on every grid, with fuel above `rows * cols`, the search of `backtracking_array`
from the start cell returns; in the log of the cells it expanded (the cells that passed
the validity check) no cell occurs twice, every cell lies in the grid, and so at most
`rows * cols` cells were expanded. -/
theorem backtrack_recursively_expands_once (fuel : Nat) (map : List (List Char))
    (rows cols : Int) (start target : Point) (hfuel : rows.toNat * cols.toNat < fuel) :
    ∃ res, backtrack_recursively map target setup_directions rows cols fuel
        { visited := List.replicate rows.toNat (List.replicate cols.toNat 0)
          path := []
          checked := [] } start.x start.y = some res ∧
      res.2.checked.Nodup ∧ (∀ c ∈ res.2.checked, InBounds rows cols c) ∧
      res.2.checked.length ≤ rows.toNat * cols.toNat := by
  obtain ⟨res, hres⟩ := backtrack_recursively_returns map rows cols target fuel
    { visited := List.replicate rows.toNat (List.replicate cols.toNat 0)
      path := []
      checked := [] } start.x start.y (replicate_dims rows cols)
    (lt_of_le_of_lt (unvisited_count_le _ rows cols) hfuel)
  obtain ⟨_, h2, h3, _⟩ := backtrack_recursively_checked map rows cols target fuel _ _ _ res
    (replicate_dims rows cols) List.nodup_nil (fun c hc => by simp at hc) hres
  exact ⟨res, hres, h2, h3, nodup_points_length_le rows cols _ h2 h3⟩

/-- Witness for C26 on the 2×2 grid whose cells (1, 0) and (0, 1) are blocked: the search
from (0, 0) for (1, 1) expands the start cell only and fails. -/
theorem backtrack_recursively_expands_once_witness :
    Option.map (fun res : Int × GridState => (res.1, res.2.checked))
      (backtrack_recursively gridCut ⟨1, 1⟩ setup_directions 2 2 5
        { visited := List.replicate 2 (List.replicate 2 0), path := [], checked := [] } 0 0) =
      some (0, [⟨0, 0⟩]) ∧
    ∃ res, backtrack_recursively gridCut ⟨1, 1⟩ setup_directions 2 2 5
        { visited := List.replicate (2 : Int).toNat (List.replicate (2 : Int).toNat 0)
          path := []
          checked := [] } (Point.mk 0 0).x (Point.mk 0 0).y = some res ∧
      res.2.checked.Nodup ∧ (∀ c ∈ res.2.checked, InBounds 2 2 c) ∧
      res.2.checked.length ≤ (2 : Int).toNat * (2 : Int).toNat :=
  ⟨by decide,
    backtrack_recursively_expands_once 5 gridCut 2 2 ⟨0, 0⟩ ⟨1, 1⟩ (by decide)⟩

/-- C29: with fuel above `rows * cols`, `backtracking_array` returns `NULL` whenever
`rows <= 0` or `cols <= 0`, or the start cell lies outside the grid, or the target cell
lies outside the grid or is blocked. -/
theorem backtracking_array_invalid (fuel : Nat) (map : List (List Char)) (rows cols : Int)
    (start target : Point) (hfuel : rows.toNat * cols.toNat < fuel)
    (h : rows ≤ 0 ∨ cols ≤ 0 ∨ ¬ InBounds rows cols start ∨ ¬ InBounds rows cols target ∨
      map_at map target.x target.y = '1') :
    backtracking_array fuel (some map) rows cols (some start) (some target) = some none := by
  by_cases hdim : rows ≤ 0 ∨ cols ≤ 0
  · unfold backtracking_array
    simp only [if_pos hdim]
  · have hbad : ¬ (Walkable map rows cols start ∧ Walkable map rows cols target) := by
      rintro ⟨hs, ht⟩
      rcases h with h | h | h | h | h
      · exact hdim (Or.inl h)
      · exact hdim (Or.inr h)
      · exact h hs.1
      · exact h ht.1
      · exact ht.2 h
    obtain ⟨res, hres⟩ := backtrack_recursively_returns map rows cols target fuel
      { visited := List.replicate rows.toNat (List.replicate cols.toNat 0)
        path := []
        checked := [] } start.x start.y (replicate_dims rows cols)
      (lt_of_le_of_lt (unvisited_count_le _ rows cols) hfuel)
    have hpath := backtrack_recursively_path map rows cols target fuel _ _ _ res hres
    have hfail : res.1 = 0 := by
      by_contra hne
      obtain ⟨p, _, hh, hlast, hwalk, _⟩ := hpath.2 hne
      apply hbad
      constructor
      · have : (Point.mk start.x start.y) ∈ p := by
          cases p with
          | nil => simp at hh
          | cons a rest => simp at hh; simp [hh]
        exact hwalk _ this
      · exact hwalk _ (List.mem_of_mem_getLast? hlast)
    unfold backtracking_array
    simp only [if_neg hdim, hres]
    rw [if_neg (by rw [hfail]; simp)]

/-- Witness for C29 on the 2×2 grids: no rows, a start cell left of the grid, a target
cell below the grid, and a blocked target cell all give `NULL`. -/
theorem backtracking_array_invalid_witness :
    backtracking_array 5 (some grid2) 0 2 (some ⟨0, 0⟩) (some ⟨1, 1⟩) = some none ∧
    backtracking_array 5 (some grid2) 2 2 (some ⟨-1, 0⟩) (some ⟨1, 1⟩) = some none ∧
    backtracking_array 5 (some grid2) 2 2 (some ⟨0, 0⟩) (some ⟨1, 2⟩) = some none ∧
    backtracking_array 5 (some gridCut) 2 2 (some ⟨0, 0⟩) (some ⟨1, 0⟩) = some none :=
  ⟨backtracking_array_invalid 5 grid2 0 2 ⟨0, 0⟩ ⟨1, 1⟩ (by decide) (Or.inl (by decide)),
    backtracking_array_invalid 5 grid2 2 2 ⟨-1, 0⟩ ⟨1, 1⟩ (by decide)
      (Or.inr (Or.inr (Or.inl (by decide)))),
    backtracking_array_invalid 5 grid2 2 2 ⟨0, 0⟩ ⟨1, 2⟩ (by decide)
      (Or.inr (Or.inr (Or.inr (Or.inl (by decide))))),
    backtracking_array_invalid 5 gridCut 2 2 ⟨0, 0⟩ ⟨1, 0⟩ (by decide)
      (Or.inr (Or.inr (Or.inr (Or.inr (by decide)))))⟩

/-! ## The depth of a tree, and extraction from a heap of one node -/

theorem tree_levels_pos (data : symbol_t) (left right : binary_tree_node_t) :
    tree_levels (.node data left right) =
      1 + max (tree_levels left) (tree_levels right) := rfl

theorem find_tree_depth_right (data rdata : symbol_t) (rleft rright : binary_tree_node_t)
    (d : Nat) :
    find_tree_depth (.node data .nil (.node rdata rleft rright)) d =
      if (-1 : Int) > int_of_size (find_tree_depth (.node rdata rleft rright) (d + 1)) then
        size_of_int (-1)
      else size_of_int (int_of_size (find_tree_depth (.node rdata rleft rright) (d + 1))) :=
  rfl

theorem find_tree_depth_both (data ldata rdata : symbol_t)
    (lleft lright rleft rright : binary_tree_node_t) (d : Nat) :
    find_tree_depth (.node data (.node ldata lleft lright) (.node rdata rleft rright)) d =
      if int_of_size (find_tree_depth (.node ldata lleft lright) (d + 1)) >
          int_of_size (find_tree_depth (.node rdata rleft rright) (d + 1)) then
        size_of_int (int_of_size (find_tree_depth (.node ldata lleft lright) (d + 1)))
      else size_of_int (int_of_size (find_tree_depth (.node rdata rleft rright) (d + 1))) :=
  rfl

theorem tree_depth_right (data rdata : symbol_t) (left rleft rright : binary_tree_node_t) :
    tree_depth (.node data left (.node rdata rleft rright)) =
      max (tree_levels left) (tree_depth (.node rdata rleft rright) + 1) := by
  unfold tree_depth
  rw [tree_levels_pos, tree_levels_pos]
  omega

theorem tree_levels_node (data : symbol_t) (left right : binary_tree_node_t) :
    tree_levels (.node data left right) = tree_depth (.node data left right) + 1 := by
  unfold tree_depth
  rw [tree_levels_pos]
  omega

theorem depth_select_right (d b : Nat) (hb : d + (b + 1) ≤ 2147483647) :
    (if (-1 : Int) > int_of_size (d + 1 + b) then size_of_int (-1)
      else size_of_int (int_of_size (d + 1 + b))) = d + max 0 (b + 1) := by
  unfold int_of_size size_of_int
  split <;> omega

theorem depth_select_both (d a b : Nat) (hb : d + max (a + 1) (b + 1) ≤ 2147483647) :
    (if int_of_size (d + 1 + a) > int_of_size (d + 1 + b) then
        size_of_int (int_of_size (d + 1 + a))
      else size_of_int (int_of_size (d + 1 + b))) = d + max (a + 1) (b + 1) := by
  unfold int_of_size size_of_int
  split <;> omega

/-- On a tree in which every node with a left child has a right child too, and whose
depth plus the starting depth fits an `int`, `find_tree_depth` returns the starting depth
plus the depth of the tree. -/
theorem find_tree_depth_eq (t : binary_tree_node_t) :
    ∀ (d : Nat), t ≠ .nil → NoLeftOnly t → d + tree_depth t ≤ 2147483647 →
      find_tree_depth t d = d + tree_depth t := by
  induction t with
  | nil => intro d h; exact absurd rfl h
  | node data left right ihl ihr =>
    intro d _ hn hb
    obtain ⟨hlr, hnl, hnr⟩ := hn
    cases right with
    | nil =>
      have hl : left = .nil := by
        by_contra hl
        exact hlr hl rfl
      subst hl
      have h1 : find_tree_depth (.node data .nil .nil) d = d := rfl
      have h2 : tree_depth (.node data .nil .nil) = 0 := rfl
      rw [h1, h2]
      rfl
    | node rdata rleft rright =>
      rw [tree_depth_right] at hb ⊢
      cases left with
      | nil =>
        have h0 : tree_levels .nil = 0 := rfl
        rw [h0] at hb ⊢
        have hr := ihr (d + 1) (fun h => binary_tree_node_t.noConfusion h) hnr (by omega)
        rw [find_tree_depth_right, hr]
        exact depth_select_right d _ (by omega)
      | node ldata lleft lright =>
        rw [tree_levels_node] at hb ⊢
        have hr := ihr (d + 1) (fun h => binary_tree_node_t.noConfusion h) hnr (by omega)
        have hl := ihl (d + 1) (fun h => binary_tree_node_t.noConfusion h) hnl (by omega)
        rw [find_tree_depth_both, hr, hl]
        exact depth_select_both d _ _ hb

/-- The node built by `create_parent_node` from two trees without a left-only node has no
left-only node: it has both children. -/
theorem create_parent_node_noLeftOnly (left_child right_child : binary_tree_node_t)
    (hl : NoLeftOnly left_child) (hr : NoLeftOnly right_child) :
    NoLeftOnly (create_parent_node left_child right_child) := by
  cases left_child with
  | nil => trivial
  | node ls ll lr =>
    cases right_child with
    | nil => trivial
    | node rs rl rr =>
      simp only [create_parent_node, merge_symbol_frequencies, symbol_create, binary_tree_node]
      exact ⟨fun _ => by simp, hl, hr⟩

/-- Counterexample to C31 as stated: the non-empty tree whose root has a left child and no
right child has depth 1, the one edge from the root to the child, but `find_tree_depth`
returns 0 for it: when the right child is `NULL` the function returns the depth of the
node itself and drops the depth it has computed for the left subtree.  For the mirror
tree, whose root has only a right child, it returns 1. -/
theorem find_tree_depth_left_only :
    leftOnlyTree ≠ .nil ∧ tree_depth leftOnlyTree = 1 ∧ find_tree_depth leftOnlyTree 0 = 0 ∧
    tree_depth rightOnlyTree = 1 ∧ find_tree_depth rightOnlyTree 0 = 1 := by
  refine ⟨by decide, by decide, by decide, by decide, by decide⟩

/-- C31, amended: for every non-empty binary tree in which each node with a left child
also has a right child, and whose depth is at most `INT_MAX`, `find_tree_depth(root, 0)`
returns the depth of the tree, the largest number of edges on a path from the root to any
node. -/
theorem find_tree_depth_returns_depth (t : binary_tree_node_t) (ht : t ≠ .nil)
    (hn : NoLeftOnly t) (hb : tree_depth t ≤ 2147483647) :
    find_tree_depth t 0 = tree_depth t := by
  have := find_tree_depth_eq t 0 ht hn (by omega)
  omega

/-- Witness for the amended C31 on the tree of a:1, b:1, c:3, of depth 2. -/
theorem find_tree_depth_returns_depth_witness :
    abcTree ≠ .nil ∧ NoLeftOnly abcTree ∧ tree_depth abcTree = 2 ∧
    find_tree_depth abcTree 0 = tree_depth abcTree :=
  ⟨by decide, by simp [NoLeftOnly, abcTree, binary_tree_node], by decide,
    find_tree_depth_returns_depth abcTree (by decide)
      (by simp [NoLeftOnly, abcTree, binary_tree_node]) (by decide)⟩

/-- C35: when the heap holds exactly one node, `huffman_extract_and_insert` returns 0 and
leaves the heap empty: the node taken by the first extraction is not put back, so the heap
is not left as it was. -/
theorem huffman_extract_and_insert_single (pq : heap_t) (h : pq.nodes.length = 1) :
    huffman_extract_and_insert (some pq) = (0, some { nodes := [] }) ∧
    (huffman_extract_and_insert (some pq)).2 ≠ some pq := by
  obtain ⟨nodes⟩ := pq
  cases nodes with
  | nil => simp at h
  | cons p rest =>
    cases rest with
    | cons q rest => simp at h
    | nil =>
      have h1 : heap_extract { nodes := [p] } = (p, { nodes := [] }) := by
        simp [heap_extract, heap_least_nil]
      have h2 : heap_extract { nodes := [] } = (.nil, { nodes := [] }) := rfl
      have hres : huffman_extract_and_insert (some { nodes := [p] }) =
          (0, some { nodes := [] }) := by
        unfold huffman_extract_and_insert
        simp only [h1, h2, or_true, if_true]
      rw [hres]
      exact ⟨rfl, by simp⟩

theorem huffman_extract_and_insert_single_witness :
    singleHeap.nodes.length = 1 ∧
    huffman_extract_and_insert (some singleHeap) = (0, some { nodes := [] }) ∧
    (huffman_extract_and_insert (some singleHeap)).2 ≠ some singleHeap :=
  ⟨rfl, huffman_extract_and_insert_single singleHeap rfl⟩

/-! ## The backtracking searches return simple paths -/

/-- The direction loop pushes a path without repeated cells, made of cells that were not
marked when the loop started, when the calls it makes do. -/
theorem direction_loop_simple (map : List (List Char)) (rows cols : Int) (target : Point)
    (call : GridState → Int → Int → Option (Int × GridState)) (x y : Int)
    (hexp : ∀ st x' y' res, GridDims st.visited rows cols → call st x' y' = some res →
      Explored map rows cols target x' y' st res)
    (hpath : ∀ st x' y' res, call st x' y' = some res →
      PathPushed map rows cols target x' y' st res)
    (hcall : ∀ st x' y' res, GridDims st.visited rows cols → call st x' y' = some res →
      res.1 ≠ 0 → ∃ p, res.2.path = p ++ st.path ∧ p.Nodup ∧
        ∀ c ∈ p, InBounds rows cols c ∧ visited_at st.visited c.x c.y ≠ 1) :
    ∀ (ds : List Point) (st : GridState) (res : Int × GridState),
      GridDims st.visited rows cols → direction_loop call x y ds st = some res →
      res.1 ≠ 0 → ∃ p, res.2.path = ⟨x, y⟩ :: p ++ st.path ∧ p.Nodup ∧
        ∀ c ∈ p, InBounds rows cols c ∧ visited_at st.visited c.x c.y ≠ 1
  | [], st, res, _, h, hr => by
    simp only [direction_loop, Option.some.injEq] at h
    subst h
    exact absurd rfl hr
  | d :: rest, st, res, hd, h, hres => by
    unfold direction_loop at h
    cases hc : call st (x + d.x) (y + d.y) with
    | none => rw [hc] at h; simp at h
    | some r =>
      obtain ⟨r, st'⟩ := r
      rw [hc] at h
      simp only at h
      by_cases hr : r ≠ 0
      · rw [if_pos hr] at h
        simp only [Option.some.injEq] at h
        subst h
        obtain ⟨p, hp, hnd, hcells⟩ := hcall st _ _ _ hd hc hr
        simp only at hp
        exact ⟨p, by simp only [hp]; rfl, hnd, hcells⟩
      · rw [if_neg hr] at h
        have hr0 : r = 0 := by simpa using hr
        have he := hexp st _ _ _ hd hc
        have hsame := (hpath st _ _ _ hc).1 hr0
        simp only at hsame
        obtain ⟨p, hp, hnd, hcells⟩ :=
          direction_loop_simple map rows cols target call x y hexp hpath hcall rest st' res
            he.1 h hres
        refine ⟨p, by rw [hp, hsame], hnd, fun c hc' => ⟨(hcells c hc').1, fun hv => ?_⟩⟩
        exact (hcells c hc').2 (he.2.1 c (hcells c hc').1 hv)

/-- A successful call of `backtrack_recursively` has pushed a path without repeated
cells, made of cells that were not marked when it started. -/
theorem backtrack_recursively_simple (map : List (List Char)) (rows cols : Int)
    (target : Point) :
    ∀ (fuel : Nat) (st : GridState) (x y : Int) (res : Int × GridState),
      GridDims st.visited rows cols →
      backtrack_recursively map target setup_directions rows cols fuel st x y = some res →
      res.1 ≠ 0 → ∃ p, res.2.path = p ++ st.path ∧ p.Nodup ∧
        ∀ c ∈ p, InBounds rows cols c ∧ visited_at st.visited c.x c.y ≠ 1
  | 0, _, _, _, _, _, h, _ => by simp [backtrack_recursively] at h
  | fuel + 1, st, x, y, res, hd, h, hres => by
    unfold backtrack_recursively at h
    by_cases hv : is_position_valid map st.visited x y rows cols = 0
    · rw [if_pos hv] at h
      simp only [Option.some.injEq] at h
      subst h
      exact absurd rfl hres
    · rw [if_neg hv] at h
      obtain ⟨hw, hnv⟩ := (is_position_valid_ne_zero _ _ _ _ _ _).1 hv
      simp only at h
      by_cases ht : x = target.x ∧ y = target.y
      · rw [if_pos ht] at h
        simp only [Option.some.injEq] at h
        subst h
        refine ⟨[⟨x, y⟩], rfl, List.nodup_singleton _, fun c hc => ?_⟩
        simp only [List.mem_singleton] at hc
        subst hc
        exact ⟨hw.1, hnv⟩
      · rw [if_neg ht] at h
        obtain ⟨p, hp, hnd, hcells⟩ :=
          direction_loop_simple map rows cols target _ x y
            (fun st' x' y' res' hd' hc =>
              backtrack_recursively_explored map rows cols target fuel st' x' y' res' hd' hc)
            (fun st' x' y' res' hc =>
              backtrack_recursively_path map rows cols target fuel st' x' y' res' hc)
            (fun st' x' y' res' hd' hc hr =>
              backtrack_recursively_simple map rows cols target fuel st' x' y' res' hd' hc hr)
            _ _ res (mark_visited_dims st.visited rows cols hd x y) h hres
        simp only at hp hcells
        have hmark : ∀ c ∈ p, c ≠ ⟨x, y⟩ ∧ visited_at st.visited c.x c.y ≠ 1 := by
          intro c hc
          obtain ⟨hin, hnm⟩ := hcells c hc
          rw [visited_at_mark st.visited rows cols hd x y hw.1 c hin] at hnm
          by_cases hxy : c.x = x ∧ c.y = y
          · rw [if_pos hxy] at hnm
            exact absurd rfl hnm
          · rw [if_neg hxy] at hnm
            refine ⟨fun hc' => hxy ?_, hnm⟩
            rw [hc']
            exact ⟨rfl, rfl⟩
        refine ⟨⟨x, y⟩ :: p, hp.trans rfl, ?_, ?_⟩
        · exact List.nodup_cons.2 ⟨fun hm => (hmark _ hm).1 rfl, hnd⟩
        · intro c hc
          rcases List.mem_cons.1 hc with rfl | hc
          · exact ⟨hw.1, hnv⟩
          · exact ⟨(hcells c hc).1, (hmark c hc).2⟩

/-- C34: on a well-formed graph, with fuel above the vertex count, every path returned by
`backtracking_graph` contains no vertex label twice; and on every grid, for every fuel,
every path returned by `backtracking_array` contains no cell twice. -/
theorem backtracking_paths_simple (g : Graph) (s t fuel : Nat) (hwf : WellFormed g)
    (hs : s < g.size) (ht : t < g.size) (hfuel : g.nb_vertices < fuel)
    (gfuel : Nat) (map : List (List Char)) (rows cols : Int) (start target : Point) :
    (∀ path, backtracking_graph fuel (some g) (some s) (some t) = some (some path) →
      path.Nodup) ∧
    (∀ path, backtracking_array gfuel (some map) rows cols (some start) (some target)
        = some (some path) → path.Nodup) := by
  constructor
  · intro path h
    have hn : g.nb_vertices = g.size := hwf.1
    have hfl : Flags01 (List.replicate g.nb_vertices (0 : Int)) := by
      intro i
      left
      exact getD_replicate _ _ _
    obtain ⟨⟨r, st⟩, hrun, hsf⟩ := recursive_backtrack_graph_spec hwf t ht fuel
      { visited := List.replicate g.nb_vertices 0, path := [], checked := [] } s hs
      (by simp [hn]) hfl (by simp; exact hfuel)
    unfold backtracking_graph at h
    simp only [hrun] at h
    by_cases hr : r ≠ 0
    · rw [if_pos hr] at h
      simp only [Option.some.injEq] at h
      obtain ⟨p, hp, hlp, hnd, _⟩ := hsf.2 hr
      simp only [List.append_nil] at hp
      rw [← h, hp]
      unfold labels
      exact List.Nodup.map_on
        (fun a ha b hb hab => hwf.2.2.2.2.2 a (hlp.2.2.1 a ha) b (hlp.2.2.1 b hb) hab) hnd
    · rw [if_neg hr] at h
      simp at h
  · intro path h
    unfold backtracking_array at h
    simp only at h
    by_cases hdim : rows ≤ 0 ∨ cols ≤ 0
    · rw [if_pos hdim] at h; simp at h
    · rw [if_neg hdim] at h
      cases hrun : backtrack_recursively map target setup_directions rows cols gfuel
          { visited := List.replicate rows.toNat (List.replicate cols.toNat 0)
            path := []
            checked := [] } start.x start.y with
      | none => rw [hrun] at h; simp at h
      | some res =>
        obtain ⟨found, st⟩ := res
        rw [hrun] at h
        simp only at h
        by_cases hf : found ≠ 0
        · rw [if_pos hf] at h
          simp only [Option.some.injEq] at h
          obtain ⟨p, hp, hnd, _⟩ := backtrack_recursively_simple map rows cols target gfuel
            _ _ _ _ (replicate_dims rows cols) hrun hf
          simp only [List.append_nil] at hp
          rw [← h, hp]
          exact hnd
        · rw [if_neg hf] at h; simp at h

/-- Witness for C34: on the graph with the cycle A→B→C→A and the self-loop A→A the search
from A to C returns A, B, C, and on the all-walkable 3×3 grid the search from (0,0) to
(2,2) returns five cells; neither repeats an entry. -/
theorem backtracking_paths_simple_witness :
    WellFormed cycleGraph ∧
    backtracking_graph 5 (some cycleGraph) (some 0) (some 2) = some (some ["A", "B", "C"]) ∧
    (["A", "B", "C"] : List String).Nodup ∧
    backtracking_array 10 (some grid3) 3 3 (some ⟨0, 0⟩) (some ⟨2, 2⟩)
      = some (some [⟨0, 0⟩, ⟨1, 0⟩, ⟨2, 0⟩, ⟨2, 1⟩, ⟨2, 2⟩]) ∧
    ([⟨0, 0⟩, ⟨1, 0⟩, ⟨2, 0⟩, ⟨2, 1⟩, ⟨2, 2⟩] : List Point).Nodup :=
  have h := backtracking_paths_simple cycleGraph 0 2 5 (by decide) (by decide) (by decide)
    (by decide) 10 grid3 3 3 ⟨0, 0⟩ ⟨2, 2⟩
  ⟨by decide, by decide, h.1 _ (by decide), by decide, h.2 _ (by decide)⟩

/-! ## Dijkstra: the predecessor map has no cycle -/

theorem follow_predecessors_zero (g : Graph) (pred : List (Option Nat)) (v : Nat) :
    follow_predecessors g pred 0 v = some v := rfl

theorem follow_predecessors_none (g : Graph) (pred : List (Option Nat)) (k v : Nat)
    (h : pred.getD v none = none) : follow_predecessors g pred (k + 1) v = none := by
  unfold follow_predecessors
  rw [h]

theorem follow_predecessors_some (g : Graph) (pred : List (Option Nat)) (k v p : Nat)
    (h : pred.getD v none = some p) :
    follow_predecessors g pred (k + 1) v = follow_predecessors g pred k (g.vtx p).index := by
  conv => lhs; unfold follow_predecessors
  rw [h]

/-- Following `a + b` links is following `a` links and then `b` links. -/
theorem follow_predecessors_add (g : Graph) (pred : List (Option Nat)) (b : Nat) :
    ∀ (a v : Nat), follow_predecessors g pred (a + b) v =
      (follow_predecessors g pred a v).bind (follow_predecessors g pred b)
  | 0, v => by rw [Nat.zero_add, follow_predecessors_zero]; rfl
  | a + 1, v => by
    have he : a + 1 + b = (a + b) + 1 := by omega
    rw [he]
    cases hp : pred.getD v none with
    | none =>
      rw [follow_predecessors_none g pred _ v hp, follow_predecessors_none g pred _ v hp]
      rfl
    | some p =>
      rw [follow_predecessors_some g pred _ v p hp, follow_predecessors_some g pred _ v p hp]
      exact follow_predecessors_add g pred b a _

/-- A vertex that comes back to itself after `k` links comes back after every multiple
of `k` links. -/
theorem follow_predecessors_mul (g : Graph) (pred : List (Option Nat)) (k v : Nat)
    (h : follow_predecessors g pred k v = some v) :
    ∀ m, follow_predecessors g pred (k * m) v = some v
  | 0 => by rw [Nat.mul_zero]; rfl
  | m + 1 => by
    have he : k * (m + 1) = k * m + k := by ring
    rw [he, follow_predecessors_add, follow_predecessors_mul g pred k v h m]
    exact h

/-- Along a chain of predecessor links the trace-back reaches the last vertex of the
chain. -/
theorem follow_predecessors_chain {g : Graph} (hwf : WellFormed g) {s : Nat}
    {dist : List Nat} {pred : List (Option Nat)} :
    ∀ (rp : List Nat) (x : Nat), rp.head? = some x → rp.getLast? = some s →
      (∀ a ∈ rp, a < g.size) → rp.Chain' (BackLink g dist pred) →
      follow_predecessors g pred (rp.length - 1) x = some s
  | [], _, hh, _, _, _ => by simp at hh
  | [a], x, hh, hl, _, _ => by
    simp at hh hl
    rw [← hh, hl]
    rfl
  | a :: p :: rest, x, hh, hl, hb, hc => by
    simp at hh
    subst hh
    obtain ⟨hlink, hc'⟩ := List.chain'_cons.1 hc
    have hl' : (p :: rest).getLast? = some s := by
      simpa [List.getLast?_cons_cons] using hl
    have hplt : p < g.size := hb p (by simp)
    have ih := follow_predecessors_chain hwf (p :: rest) p rfl hl'
      (fun y hy => hb y (List.mem_cons_of_mem _ hy)) hc'
    have hlen : (a :: p :: rest).length - 1 = ((p :: rest).length - 1) + 1 := by simp
    rw [hlen, follow_predecessors_some g pred _ a p hlink.1, hwf.2.2.1 p hplt]
    exact ih

/-- C32: on a well-formed graph with non-negative weights whose path sums do not
overflow, for every fuel above the vertex count the Dijkstra iterations return, and in the
predecessor map they leave the start vertex has no predecessor, following predecessors
from any vertex that has one reaches the start vertex after at least one and fewer than
`nb_vertices` steps, and no vertex is reached again from itself (the map has no cycle);
path reconstruction returns, and a returned sequence begins with the start label. -/
theorem dijkstra_predecessors_acyclic (g : Graph) (s t fuel : Nat) (hwf : WellFormed g)
    (hs : s < g.size) (ht : t < g.size) (hnn : NonNegWeights g) (hfit : PathSumsFit g s)
    (hfuel : g.nb_vertices < fuel) :
    ∃ st, execute_dijkstra_iteration g t fuel (dijkstra_initial g s) 0 = some st ∧
      st.predecessor_map.getD s none = none ∧
      (∀ v, st.predecessor_map.getD v none ≠ none →
        ∃ k, 0 < k ∧ k < g.nb_vertices ∧
          follow_predecessors g st.predecessor_map k v = some s) ∧
      (∀ v k, 0 < k → follow_predecessors g st.predecessor_map k v ≠ some v) ∧
      ∃ r, dijkstra_graph fuel (some g) (some s) (some t) = some r ∧
        ∀ p, r = some p → p.head? = some (g.vtx s).content := by
  obtain ⟨st, B, hrun, inv, _⟩ := dijkstra_run hwf hnn hfit hs t ht fuel hfuel
  have hn : g.nb_vertices = g.size := hwf.1
  have hchain : ∀ v, st.predecessor_map.getD v none ≠ none →
      v ≠ s ∧ v < g.size ∧
      ∃ rp, BackPath g s (settledOf g st.processed) st.distances st.predecessor_map v rp := by
    intro v hv
    have hvs : v ≠ s := fun h => hv (h ▸ inv.start_pred)
    have hlt : v < g.size := by
      by_contra hge
      apply hv
      rw [List.getD_eq_default _ _ (by rw [inv.len_pred]; omega)]
    have hfin : st.distances.getD v 0 < ULONG_MAX := by
      apply lt_of_le_of_ne (inv.dist_le v hlt)
      intro hinf
      exact hv (inv.unreached v hlt hinf)
    exact ⟨hvs, hlt, inv.paths v hlt hfin⟩
  have hreach : ∀ v, st.predecessor_map.getD v none ≠ none →
      ∃ k, 0 < k ∧ k < g.nb_vertices ∧
        follow_predecessors g st.predecessor_map k v = some s := by
    intro v hv
    obtain ⟨hvs, hlt, rp, bp⟩ := hchain v hv
    have hlen := nodup_length_le g.size rp bp.nodup bp.bound
    have hfol := follow_predecessors_chain hwf rp v bp.head bp.last bp.bound bp.chain
    refine ⟨rp.length - 1, ?_, ?_, hfol⟩
    · cases rp with
      | nil => have := bp.head; simp at this
      | cons a rest =>
        cases rest with
        | nil =>
          have h1 := bp.head
          have h2 := bp.last
          simp at h1 h2
          omega
        | cons b rest => simp
    · cases rp with
      | nil => have := bp.head; simp at this
      | cons a rest => simp at hlen ⊢; omega
  refine ⟨st, hrun, inv.start_pred, hreach, ?_, ?_⟩
  · intro v k hk hcyc
    obtain ⟨k', rfl⟩ : ∃ k', k = k' + 1 := ⟨k - 1, by omega⟩
    have hv : st.predecessor_map.getD v none ≠ none := by
      intro hnone
      rw [follow_predecessors_none g _ k' v hnone] at hcyc
      simp at hcyc
    obtain ⟨j, _, _, hj⟩ := hreach v hv
    have hmul := follow_predecessors_mul g st.predecessor_map (k' + 1) v hcyc (j + 1)
    obtain ⟨r, hr⟩ : ∃ r, (k' + 1) * (j + 1) = j + (r + 1) :=
      ⟨(k' + 1) * (j + 1) - j - 1, by
        have : j + 1 ≤ (k' + 1) * (j + 1) := Nat.le_mul_of_pos_left _ (by omega)
        omega⟩
    rw [hr, follow_predecessors_add, hj] at hmul
    simp only [Option.bind] at hmul
    rw [follow_predecessors_none g _ r s inv.start_pred] at hmul
    simp at hmul
  · cases hpt : st.predecessor_map.getD t none with
    | none =>
      refine ⟨none, ?_, fun p hp => by simp at hp⟩
      unfold dijkstra_graph
      simp only [hrun, reconstruct_shortest_path, hwf.2.2.1 t ht, hpt]
    | some q =>
      obtain ⟨hts, _, rp, bp⟩ := hchain t (by rw [hpt]; simp)
      have hrec := reconstruct_shortest_path_chain hwf hs ht (Ne.symm hts) rp bp fuel
        (by omega)
      have hhead : (labels g rp.reverse).head? = some (g.vtx s).content := by
        unfold labels
        rw [List.head?_map, List.head?_reverse, bp.last]
        rfl
      unfold dijkstra_graph
      simp only [hrun, hrec]
      cases hlab : labels g rp.reverse with
      | nil => rw [hlab] at hhead; simp at hhead
      | cons front rest =>
        refine ⟨some (front :: rest), rfl, fun p hp => ?_⟩
        simp only [Option.some.injEq] at hp
        rw [← hp, ← hlab]
        exact hhead

/-- Witness for C32 on the graph A→B(1), B→D(1), A→C(5), C→D(1): the hypotheses hold, the
search from A to D returns `[A, B, D]`, which begins with the start label, and the
predecessor map it leaves has no cycle. -/
theorem dijkstra_predecessors_acyclic_witness :
    WellFormed exampleABCD ∧ NonNegWeights exampleABCD ∧ PathSumsFit exampleABCD 0 ∧
    dijkstra_graph 5 (some exampleABCD) (some 0) (some 3) = some (some ["A", "B", "D"]) ∧
    ∃ st, execute_dijkstra_iteration exampleABCD 3 5 (dijkstra_initial exampleABCD 0) 0
        = some st ∧
      st.predecessor_map.getD 0 none = none ∧
      (∀ v, st.predecessor_map.getD v none ≠ none →
        ∃ k, 0 < k ∧ k < exampleABCD.nb_vertices ∧
          follow_predecessors exampleABCD st.predecessor_map k v = some 0) ∧
      (∀ v k, 0 < k → follow_predecessors exampleABCD st.predecessor_map k v ≠ some v) ∧
      ∃ r, dijkstra_graph 5 (some exampleABCD) (some 0) (some 3) = some r ∧
        ∀ p, r = some p → p.head? = some (exampleABCD.vtx 0).content :=
  have hfit : PathSumsFit exampleABCD 0 :=
    pathSumsFit_of_bound (by decide) 5 (by decide) (by decide) 0
  ⟨by decide, by decide, hfit, by decide,
    dijkstra_predecessors_acyclic exampleABCD 0 3 5 (by decide) (by decide) (by decide)
      (by decide) hfit (by decide)⟩

/-! ## The star graph -/

theorem star_label_injective (i j : Nat) (h : star_label i = star_label j) : i = j := by
  have h1 := congrArg String.data h
  have h2 := congrArg List.length h1
  simpa [star_label] using h2

theorem starGraph_size (n : Nat) : (starGraph n).size = n + 1 := by
  simp [Graph.size, starGraph]

theorem starGraph_vtx_zero (n : Nat) :
    (starGraph n).vtx 0 =
      ⟨0, star_label 0, 0, 0, n, (List.range' 1 n).map (fun i => ⟨i, 1⟩)⟩ := rfl

theorem starGraph_vtx_succ (n i : Nat) (h : i < n) :
    (starGraph n).vtx (i + 1) = ⟨i + 1, star_label (i + 1), 0, 0, 0, []⟩ := by
  unfold Graph.vtx starGraph
  simp only [List.getD_cons_succ]
  rw [List.getD_eq_getElem?_getD, List.getElem?_map, List.getElem?_range' 1 1 h]
  simp [Nat.add_comm]

theorem starGraph_index (n i : Nat) (h : i < n + 1) : ((starGraph n).vtx i).index = i := by
  cases i with
  | zero => rfl
  | succ i => rw [starGraph_vtx_succ n i (by omega)]

theorem starGraph_wf (n : Nat) (hn : n + 1 ≤ ULONG_MAX) : WellFormed (starGraph n) := by
  refine ⟨?_, hn, ?_, ?_, ?_, ?_⟩
  · rw [starGraph_size]; rfl
  · intro i hi
    rw [starGraph_size] at hi
    exact starGraph_index n i hi
  · intro i hi e he
    rw [starGraph_size] at hi ⊢
    cases i with
    | zero =>
      rw [starGraph_vtx_zero] at he
      simp only [List.mem_map, List.mem_range'_1] at he
      obtain ⟨j, hj, rfl⟩ := he
      simp only
      omega
    | succ i =>
      rw [starGraph_vtx_succ n i (by omega)] at he
      simp at he
  · intro i hi
    rw [starGraph_size] at hi
    cases i with
    | zero => rw [starGraph_vtx_zero]; simp
    | succ i => rw [starGraph_vtx_succ n i (by omega)]; rfl
  · intro i hi j hj h
    rw [starGraph_size] at hi hj
    have hc : ∀ k, k < n + 1 → ((starGraph n).vtx k).content = star_label k := by
      intro k hk
      cases k with
      | zero => rfl
      | succ k => rw [starGraph_vtx_succ n k (by omega)]
    rw [hc i hi, hc j hj] at h
    exact star_label_injective i j h

theorem starGraph_linked (n : Nat) (hn : n + 1 ≤ ULONG_MAX) (v : Nat) (hv : v < n + 1) :
    Linked (starGraph n) 0 v := by
  have h0 : Linked (starGraph n) 0 0 := linked_refl _ 0 (by rw [starGraph_size]; omega)
  cases v with
  | zero => exact h0
  | succ v =>
    have he : (⟨v + 1, 1⟩ : Edge) ∈ ((starGraph n).vtx 0).edges := by
      rw [starGraph_vtx_zero]
      simp only [List.mem_map, List.mem_range'_1]
      exact ⟨v + 1, by omega, rfl⟩
    exact linked_step (starGraph_wf n hn) 0 0 ⟨v + 1, 1⟩ h0 (by rw [starGraph_size]; omega) he

/-! ## Breadth-first traversal of a star with a full queue -/

theorem enqueue_vertex_items (SIZE : Nat) (q : queue_t) (v : Int) :
    ∀ x ∈ (enqueue_vertex SIZE q v).items, x ∈ q.items ∨ x = v := by
  intro x hx
  unfold enqueue_vertex at hx
  split at hx
  · exact Or.inl hx
  · exact List.mem_or_eq_of_mem_set hx

theorem enqueue_vertex_rear (SIZE : Nat) (q : queue_t) (v : Int) (h : -1 ≤ q.rear) :
    -1 ≤ (enqueue_vertex SIZE q v).rear := by
  unfold enqueue_vertex
  split
  · exact h
  · simp only
    omega

theorem dequeue_vertex_items (q : queue_t) (peek : Int) :
    (dequeue_vertex q peek).2.items = q.items := by
  unfold dequeue_vertex
  split
  · rfl
  · split
    · rfl
    · simp only
      split <;> rfl

theorem dequeue_vertex_rear (q : queue_t) (peek : Int) (h : -1 ≤ q.rear) :
    -1 ≤ (dequeue_vertex q peek).2.rear := by
  unfold dequeue_vertex
  split
  · exact h
  · split
    · exact h
    · simp only
      split
      · exact le_refl _
      · exact h

theorem dequeue_vertex_value (q : queue_t) (h : q.rear ≠ -1) :
    (dequeue_vertex q 0).1 ∈ q.items ∨ (dequeue_vertex q 0).1 = 0 := by
  have hv : (dequeue_vertex q 0).1 = q.items.getD q.front.toNat 0 := by
    unfold dequeue_vertex
    rw [if_neg h]
    simp only [ne_eq, not_true_eq_false, if_false]
    split <;> rfl
  rw [hv]
  by_cases hlt : q.front.toNat < q.items.length
  · left
    rw [List.getD_eq_getElem _ _ hlt]
    exact List.getElem_mem _
  · right
    exact List.getD_eq_default _ _ (by omega)

theorem enqueue_neighbors_fresh (SIZE : Nat) (g : Graph) (e : Edge) (rest : List Edge)
    (st : BfsState) (h : st.visited_tracker.getD (g.vtx e.dest).index 0 = UNEXPLORED) :
    enqueue_neighbors SIZE g (e :: rest) st =
      enqueue_neighbors SIZE g rest
        { st with
          bfs_queue := enqueue_vertex SIZE st.bfs_queue (int_of_size (g.vtx e.dest).index)
          visited_tracker := st.visited_tracker.set (g.vtx e.dest).index BACKTRACK } := by
  conv => lhs; unfold enqueue_neighbors
  simp only
  rw [if_pos h]

/-- The edge loop of the traversal over the edges to the vertices `s .. s + k - 1` of a
star, none of them flagged: every one of them is flagged as queued, and a value is written
to the queue array only for a vertex whose turn came before the queue was full. -/
theorem enqueue_neighbors_star (SIZE n : Nat) (hint : n ≤ 2147483647) :
    ∀ (k s : Nat) (st : BfsState), s + k ≤ n + 1 → st.visited_tracker.length = n + 1 →
      (∀ i, s ≤ i → i < s + k → st.visited_tracker.getD i 0 = 0) →
      (enqueue_neighbors SIZE (starGraph n)
          ((List.range' s k).map (fun i => (⟨i, 1⟩ : Edge))) st).calls = st.calls ∧
      (enqueue_neighbors SIZE (starGraph n)
          ((List.range' s k).map (fun i => (⟨i, 1⟩ : Edge))) st).visited_tracker.length
        = n + 1 ∧
      (∀ j, j < s ∨ s + k ≤ j →
        (enqueue_neighbors SIZE (starGraph n)
          ((List.range' s k).map (fun i => (⟨i, 1⟩ : Edge))) st).visited_tracker.getD j 0
          = st.visited_tracker.getD j 0) ∧
      (∀ j, s ≤ j → j < s + k →
        (enqueue_neighbors SIZE (starGraph n)
          ((List.range' s k).map (fun i => (⟨i, 1⟩ : Edge))) st).visited_tracker.getD j 0
          = BACKTRACK) ∧
      (∀ x ∈ (enqueue_neighbors SIZE (starGraph n)
          ((List.range' s k).map (fun i => (⟨i, 1⟩ : Edge))) st).bfs_queue.items,
        x ∈ st.bfs_queue.items ∨
          ∃ i, s ≤ i ∧ i < s + k ∧ x = (i : Int) ∧
            st.bfs_queue.rear + ((i : Int) - s) < (SIZE : Int) - 1)
  | 0, s, st, _, hlen, _ => by
    have h0 : enqueue_neighbors SIZE (starGraph n)
        ((List.range' s 0).map (fun i => (⟨i, 1⟩ : Edge))) st = st := rfl
    rw [h0]
    exact ⟨rfl, hlen, fun _ _ => rfl, fun j h1 h2 => by omega, fun x hx => Or.inl hx⟩
  | k + 1, s, st, hs, hlen, hz => by
    rw [List.range'_succ, List.map_cons]
    have hidx : ((starGraph n).vtx (⟨s, 1⟩ : Edge).dest).index = s :=
      starGraph_index n s (by omega)
    rw [enqueue_neighbors_fresh SIZE (starGraph n) ⟨s, 1⟩ _ st
      (by rw [hidx]; exact hz s (le_refl _) (by omega)), hidx, int_of_size_eq s (by omega)]
    have hz1 : ∀ i, s + 1 ≤ i → i < s + 1 + k →
        (st.visited_tracker.set s BACKTRACK).getD i 0 = 0 := by
      intro i h1 h2
      rw [getD_set_ne _ _ _ _ _ (by omega)]
      exact hz i (by omega) (by omega)
    obtain ⟨c1, c2, c3, c4, c5⟩ := enqueue_neighbors_star SIZE n hint k (s + 1)
      { st with
        bfs_queue := enqueue_vertex SIZE st.bfs_queue (s : Int)
        visited_tracker := st.visited_tracker.set s BACKTRACK }
      (by omega) (by simp only [List.length_set]; exact hlen) hz1
    refine ⟨c1, c2, ?_, ?_, ?_⟩
    · intro j hj
      rw [c3 j (by omega)]
      exact getD_set_ne _ _ _ _ _ (by omega)
    · intro j h1 h2
      by_cases hjs : j = s
      · rw [c3 j (by omega), hjs]
        exact getD_set_eq _ _ _ _ (by omega)
      · exact c4 j (by omega) (by omega)
    · intro x hx
      rcases c5 x hx with h | ⟨i, h1, h2, h3, h4⟩
      · simp only at h
        unfold enqueue_vertex at h
        split at h
        · exact Or.inl h
        · rename_i hfull
          rcases List.mem_or_eq_of_mem_set h with h | h
          · exact Or.inl h
          · exact Or.inr ⟨s, le_refl _, by omega, h, by omega⟩
      · right
        refine ⟨i, by omega, by omega, h3, ?_⟩
        simp only at h4
        unfold enqueue_vertex at h4
        split at h4
        · rename_i hfull
          simp only at h4
          omega
        · simp only at h4
          omega

theorem starBefore_dequeue (LEVELBREAK : Int) (n : Nat) (st : BfsState)
    (h : StarBefore LEVELBREAK n st) :
    StarBefore LEVELBREAK n { st with bfs_queue := (dequeue_vertex st.bfs_queue 0).2 } := by
  obtain ⟨h1, h2, h3, h4⟩ := h
  refine ⟨h1, h2, dequeue_vertex_rear _ _ h3, ?_⟩
  intro x hx
  simp only at hx
  rw [dequeue_vertex_items] at hx
  exact h4 x hx

theorem starAfter_dequeue (LEVELBREAK : Int) (n : Nat) (st : BfsState)
    (h : StarAfter LEVELBREAK n st) :
    StarAfter LEVELBREAK n { st with bfs_queue := (dequeue_vertex st.bfs_queue 0).2 } := by
  obtain ⟨h1, h2, h3, h4, h5⟩ := h
  refine ⟨h1, h2, h3, h4, ?_⟩
  intro x hx
  simp only at hx
  rw [dequeue_vertex_items] at hx
  exact h5 x hx

theorem starBefore_break (SIZE : Nat) (LEVELBREAK : Int) (n : Nat) (st : BfsState)
    (h : StarBefore LEVELBREAK n st) :
    StarBefore LEVELBREAK n
      { st with
        current_breadth := st.current_breadth + 1
        bfs_queue := enqueue_vertex SIZE st.bfs_queue LEVELBREAK } := by
  obtain ⟨h1, h2, h3, h4⟩ := h
  refine ⟨h1, h2, enqueue_vertex_rear _ _ _ h3, ?_⟩
  intro x hx
  rcases enqueue_vertex_items SIZE _ _ x hx with hx | hx
  · exact h4 x hx
  · exact Or.inr hx

theorem starAfter_break (SIZE : Nat) (LEVELBREAK : Int) (n : Nat) (st : BfsState)
    (h : StarAfter LEVELBREAK n st) :
    StarAfter LEVELBREAK n
      { st with
        current_breadth := st.current_breadth + 1
        bfs_queue := enqueue_vertex SIZE st.bfs_queue LEVELBREAK } := by
  obtain ⟨h1, h2, h3, h4, h5⟩ := h
  refine ⟨h1, h2, h3, h4, ?_⟩
  intro x hx
  rcases enqueue_vertex_items SIZE _ _ x hx with hx | hx
  · exact h5 x hx
  · exact Or.inl hx

/-- The visit of the centre of the star with `SIZE + 1` leaves: the enqueue of the last
leaf is ignored. -/
theorem starAfter_centre (SIZE : Nat) (LEVELBREAK : Int) (n : Nat) (hn : n = SIZE + 1)
    (hint : n ≤ 2147483647) (st : BfsState) (h : StarBefore LEVELBREAK n st) :
    StarAfter LEVELBREAK n
      (enqueue_neighbors SIZE (starGraph n) ((starGraph n).vtx 0).edges
        { st with
          visited_tracker := st.visited_tracker.set 0 EXPLORED
          calls := st.calls ++ [(0, st.current_breadth)] }) := by
  obtain ⟨h1, h2, h3, h4⟩ := h
  have hlen : st.visited_tracker.length = n + 1 := by rw [h2]; simp
  have hz : ∀ i, 1 ≤ i → i < 1 + n → (st.visited_tracker.set 0 EXPLORED).getD i 0 = 0 := by
    intro i hi _
    rw [getD_set_ne _ _ _ _ _ (by omega), h2]
    exact getD_replicate _ _ _
  rw [starGraph_vtx_zero]
  obtain ⟨c1, c2, c3, c4, c5⟩ := enqueue_neighbors_star SIZE n hint n 1
    { st with
      visited_tracker := st.visited_tracker.set 0 EXPLORED
      calls := st.calls ++ [(0, st.current_breadth)] }
    (by omega) (by simp only [List.length_set]; exact hlen) hz
  refine ⟨?_, c2, ?_, c4 n (by omega) (by omega), ?_⟩
  · rw [c1, h1]
    simp only [List.nil_append, List.map_cons, List.map_nil, List.mem_singleton]
    omega
  · rw [c3 0 (by omega)]
    exact getD_set_eq _ _ _ _ (by omega)
  · intro x hx
    rcases c5 x hx with hx | ⟨i, i1, i2, i3, i4⟩
    · rcases h4 x hx with h0 | hl
      · exact Or.inr ⟨0, by omega, by rw [h0]; rfl⟩
      · exact Or.inl hl
    · refine Or.inr ⟨i, ?_, i3⟩
      simp only at i4
      omega

/-- The visit of a leaf of the star. -/
theorem starAfter_leaf (LEVELBREAK : Int) (n i : Nat) (hi0 : i ≠ 0) (hin : i < n)
    (st : BfsState) (h : StarAfter LEVELBREAK n st) :
    StarAfter LEVELBREAK n
      { st with
        visited_tracker := st.visited_tracker.set i EXPLORED
        calls := st.calls ++ [(i, st.current_breadth)] } := by
  obtain ⟨h1, h2, h3, h4, h5⟩ := h
  refine ⟨?_, by simp only [List.length_set]; exact h2, ?_, ?_, h5⟩
  · simp only [List.map_append, List.map_cons, List.map_nil, List.mem_append,
      List.mem_singleton, not_or]
    exact ⟨h1, by omega⟩
  · show (st.visited_tracker.set i EXPLORED).getD 0 0 = EXPLORED
    rw [getD_set_ne _ _ _ _ _ hi0]
    exact h3
  · show (st.visited_tracker.set i EXPLORED).getD n 0 = BACKTRACK
    rw [getD_set_ne _ _ _ _ _ (by omega)]
    exact h4

/-- The two descriptions of the traversal of the star with `SIZE + 1` leaves hold from
round to round: when the loop ends, either no vertex was visited or the last leaf was
not. -/
theorem bfs_loop_star (SIZE : Nat) (LEVELBREAK : Int) (n : Nat) (hn : n = SIZE + 1)
    (hint : n ≤ 2147483646) :
    ∀ (fuel : Nat) (st st' : BfsState),
      StarBefore LEVELBREAK n st ∨ StarAfter LEVELBREAK n st →
      bfs_loop SIZE LEVELBREAK (starGraph n) fuel st = some st' →
      StarBefore LEVELBREAK n st' ∨ StarAfter LEVELBREAK n st'
  | 0, _, _, _, h => by simp [bfs_loop] at h
  | fuel + 1, st, st', hinv, h => by
    have hwf : WellFormed (starGraph n) := starGraph_wf n (by unfold ULONG_MAX; omega)
    unfold bfs_loop at h
    by_cases hrear : st.bfs_queue.rear = -1
    · rw [if_pos hrear] at h
      simp only [Option.some.injEq] at h
      subst h
      exact hinv
    · rw [if_neg hrear] at h
      simp only at h
      have hdq := hinv.imp (starBefore_dequeue LEVELBREAK n st)
        (starAfter_dequeue LEVELBREAK n st)
      have hval := dequeue_vertex_value st.bfs_queue hrear
      by_cases hlb : (dequeue_vertex st.bfs_queue 0).1 = LEVELBREAK
      · rw [if_pos hlb] at h
        have hbr := hdq.imp (starBefore_break SIZE LEVELBREAK n _)
          (starAfter_break SIZE LEVELBREAK n _)
        split at h
        · simp only [Option.some.injEq] at h
          subst h
          exact hbr
        · exact bfs_loop_star SIZE LEVELBREAK n hn hint fuel _ st' hbr h
      · rw [if_neg hlb] at h
        have hci : ∃ i, i < n ∧ (dequeue_vertex st.bfs_queue 0).1 = (i : Int) ∧
            (StarBefore LEVELBREAK n st → i = 0) := by
          rcases hinv with hb | ha
          · have h0 : (dequeue_vertex st.bfs_queue 0).1 = 0 := by
              rcases hval with hm | h0
              · rcases hb.2.2.2 _ hm with h0 | hl
                · exact h0
                · exact absurd hl hlb
              · exact h0
            exact ⟨0, by omega, by rw [h0]; rfl, fun _ => rfl⟩
          · rcases hval with hm | h0
            · rcases ha.2.2.2.2 _ hm with hl | ⟨i, hi, hx⟩
              · exact absurd hl hlb
              · refine ⟨i, hi, hx, fun hb => ?_⟩
                have h1 := ha.2.2.1
                rw [hb.2.1, getD_replicate] at h1
                exact absurd h1 (by decide)
            · refine ⟨0, by omega, by rw [h0]; rfl, fun _ => rfl⟩
        obtain ⟨i, hin, hi, hbi⟩ := hci
        rw [hi, size_of_int_eq i (by omega),
          locate_vertex_by_index_wf hwf i (by rw [starGraph_size]; omega)] at h
        simp only at h
        rw [starGraph_index n i (by omega)] at h
        by_cases hexp : st.visited_tracker.getD i 0 = EXPLORED
        · rw [if_pos hexp] at h
          exact bfs_loop_star SIZE LEVELBREAK n hn hint fuel _ st' hdq h
        · rw [if_neg hexp] at h
          refine bfs_loop_star SIZE LEVELBREAK n hn hint fuel _ st' (Or.inr ?_) h
          rcases hdq with hb | ha
          · have hi0 : i = 0 := hbi (by rcases hinv with hb' | ha'
                                        · exact hb'
                                        · exfalso
                                          have h1 := ha'.2.2.1
                                          have h2 := hb.2.1
                                          simp only at h2
                                          rw [h2, getD_replicate] at h1
                                          exact absurd h1 (by decide))
            subst hi0
            exact starAfter_centre SIZE LEVELBREAK n hn (by omega) _ hb
          · have hi0 : i ≠ 0 := by
              intro h0
              apply hexp
              rw [h0]
              exact ha.2.2.1
            obtain ⟨j, rfl⟩ : ∃ j, i = j + 1 := ⟨i - 1, by omega⟩
            rw [starGraph_vtx_succ n j (by omega)]
            exact starAfter_leaf LEVELBREAK n (j + 1) hi0 hin _ ha

/-- The loop of the traversal returns from its first state on every well-formed graph,
whatever the capacity of the queue and the level separator are. -/
theorem bfs_initial_terminates {g : Graph} (hwf : WellFormed g) (SIZE : Nat)
    (LEVELBREAK : Int) (start : Vertex) (fuel : Nat) (hfuel : 2 * g.nb_vertices + 3 < fuel) :
    ∃ st', bfs_loop SIZE LEVELBREAK g fuel (bfs_initial SIZE LEVELBREAK g start) = some st' := by
  have hn : g.nb_vertices = g.size := hwf.1
  have hcount : (List.replicate g.nb_vertices (0 : Nat)).count 0 = g.nb_vertices := by
    simp
  have hentry : ∃ P, QueueHolds SIZE
      (enqueue_vertex SIZE
        (enqueue_vertex SIZE (initialize_bfs_queue SIZE) (int_of_size start.index))
        LEVELBREAK) P ∧
      (P.filter (fun x => x ≠ LEVELBREAK)).length ≤ 1 := by
    rcases enqueue_vertex_spec (int_of_size start.index) (queueHolds_init SIZE) with
      ⟨_, h1⟩ | ⟨_, h1⟩
    · rcases enqueue_vertex_spec LEVELBREAK h1 with ⟨_, h2⟩ | ⟨_, h2⟩
      · refine ⟨_, h2, ?_⟩
        rw [filter_append_break]
        exact le_trans (List.length_filter_le _ _) (by simp)
      · exact ⟨_, h2, le_trans (List.length_filter_le _ _) (by simp)⟩
    · rcases enqueue_vertex_spec LEVELBREAK h1 with ⟨_, h2⟩ | ⟨_, h2⟩
      · refine ⟨_, h2, ?_⟩
        rw [filter_append_break]
        simp
      · exact ⟨_, h2, by simp⟩
  obtain ⟨P, hP, hPlen⟩ := hentry
  refine bfs_loop_terminates hwf SIZE LEVELBREAK fuel (bfs_initial SIZE LEVELBREAK g start) P
    ?_ hP ?_
  · show (List.replicate g.nb_vertices 0).length = g.size
    simp [hn]
  · have := bfs_measure_le LEVELBREAK (List.replicate g.nb_vertices 0) P
    rw [hcount] at this
    show bfs_measure LEVELBREAK (List.replicate g.nb_vertices 0) P < fuel
    omega

/-- The state in which the traversal of a star enters its loop. -/
theorem starBefore_initial (SIZE : Nat) (LEVELBREAK : Int) (n : Nat) :
    StarBefore LEVELBREAK n
      (bfs_initial SIZE LEVELBREAK (starGraph n) ((starGraph n).vtx 0)) := by
  unfold StarBefore bfs_initial
  simp only
  refine ⟨trivial, ?_, ?_, ?_⟩
  · show List.replicate (n + 1) 0 = List.replicate (n + 1) 0
    rfl
  · exact enqueue_vertex_rear _ _ _ (enqueue_vertex_rear _ _ _ (le_refl _))
  · intro x hx
    rcases enqueue_vertex_items SIZE _ _ x hx with hx | hx
    · rcases enqueue_vertex_items SIZE _ _ x hx with hx | hx
      · left
        exact List.eq_of_mem_replicate hx
      · left
        rw [hx]
        exact int_of_size_eq 0 (by omega)
    · exact Or.inr hx

/-- C33: for every capacity `SIZE` of the queue array (with `SIZE + 2` at most `INT_MAX`)
and every level separator there is a well-formed graph, the star whose centre is the
first vertex and has an edge to each of `SIZE + 1` leaves, on which
`breadth_first_traverse` returns for every fuel above twice the vertex count plus 3 and
never calls the visitor on some vertex that can be reached from the first vertex; and when
the level separator is no vertex index, the queue has ignored an enqueue. -/
theorem breadth_first_traverse_overflow (SIZE : Nat) (LEVELBREAK : Int)
    (hS : SIZE + 2 ≤ 2147483647) :
    ∃ g, WellFormed g ∧ g.nb_vertices = SIZE + 2 ∧ (∀ v, v < g.size → Linked g 0 v) ∧
      ∀ fuel, 2 * g.nb_vertices + 3 < fuel →
        ∃ level calls ignored,
          breadth_first_traverse SIZE LEVELBREAK fuel (some g) true =
            some (level, calls, ignored) ∧
          (∃ v, v < g.size ∧ Linked g 0 v ∧ v ∉ calls.map Prod.fst) ∧
          ((∀ i, i < g.size → (i : Int) ≠ LEVELBREAK) → ignored ≠ []) := by
  have hU : SIZE + 1 + 1 ≤ ULONG_MAX := by unfold ULONG_MAX; omega
  have hwf : WellFormed (starGraph (SIZE + 1)) := starGraph_wf (SIZE + 1) hU
  have hsize : (starGraph (SIZE + 1)).size = SIZE + 2 := starGraph_size (SIZE + 1)
  have hlinked : ∀ v, v < (starGraph (SIZE + 1)).size → Linked (starGraph (SIZE + 1)) 0 v :=
    fun v hv => starGraph_linked (SIZE + 1) hU v (by rw [hsize] at hv; omega)
  refine ⟨starGraph (SIZE + 1), hwf, rfl, hlinked, ?_⟩
  intro fuel hfuel
  obtain ⟨st, hloop⟩ := bfs_initial_terminates hwf SIZE LEVELBREAK
    ((starGraph (SIZE + 1)).vtx 0) fuel hfuel
  have hrun : breadth_first_traverse SIZE LEVELBREAK fuel (some (starGraph (SIZE + 1))) true =
      some (if st.current_breadth > 0 then st.current_breadth - 1 else 0, st.calls,
        st.bfs_queue.ignored) := by
    have hv : (starGraph (SIZE + 1)).vertices =
        (starGraph (SIZE + 1)).vtx 0 :: (List.range' 1 (SIZE + 1)).map
          (fun i => ⟨i, star_label i, 0, 0, 0, []⟩) := rfl
    have hnb : ¬ (starGraph (SIZE + 1)).nb_vertices = 0 := by
      show ¬ SIZE + 1 + 1 = 0
      omega
    unfold breadth_first_traverse
    simp only [hv]
    rw [if_neg hnb, hloop]
  have hinv := bfs_loop_star SIZE LEVELBREAK (SIZE + 1) rfl (by omega) fuel _ st
    (Or.inl (starBefore_initial SIZE LEVELBREAK (SIZE + 1))) hloop
  have homit : ∃ v, v < (starGraph (SIZE + 1)).size ∧ Linked (starGraph (SIZE + 1)) 0 v ∧
      v ∉ st.calls.map Prod.fst := by
    rcases hinv with hb | ha
    · refine ⟨0, by rw [hsize]; omega, hlinked 0 (by rw [hsize]; omega), ?_⟩
      rw [hb.1]
      simp
    · exact ⟨SIZE + 1, by rw [hsize]; omega, hlinked _ (by rw [hsize]; omega), ha.1⟩
  refine ⟨_, _, _, hrun, homit, ?_⟩
  intro hLB hquiet
  obtain ⟨st2, hrun2, hdone⟩ := breadth_first_traverse_done (starGraph (SIZE + 1)) SIZE
    LEVELBREAK fuel hwf (by rw [hsize]; omega)
    (by show SIZE + 1 + 1 ≤ 2147483647; omega) hLB hfuel
  rw [hrun] at hrun2
  simp only [Option.some.injEq, Prod.mk.injEq] at hrun2
  obtain ⟨_, hcalls, hign⟩ := hrun2
  have d := hdone (by rw [← hign]; exact hquiet)
  obtain ⟨v, _, hl, hv⟩ := homit
  apply hv
  rw [hcalls]
  exact (d.linked v).2 hl

/-- Witness for C33 with a queue of 5 slots and the level separator -2: on the star with
6 leaves the traversal visits the centre and the leaves 1, 2 and 3; the enqueues of the
leaves 4, 5 and 6 and of a level separator are ignored. -/
theorem breadth_first_traverse_overflow_witness :
    breadth_first_traverse 5 (-2) 20 (some (starGraph 6)) true =
      some (0, [(0, 0), (1, 1), (2, 1), (3, 1)], [4, 5, 6, -2]) ∧
    ∃ g, WellFormed g ∧ g.nb_vertices = 5 + 2 ∧ (∀ v, v < g.size → Linked g 0 v) ∧
      ∀ fuel, 2 * g.nb_vertices + 3 < fuel →
        ∃ level calls ignored,
          breadth_first_traverse 5 (-2) fuel (some g) true = some (level, calls, ignored) ∧
          (∃ v, v < g.size ∧ Linked g 0 v ∧ v ∉ calls.map Prod.fst) ∧
          ((∀ i, i < g.size → (i : Int) ≠ -2) → ignored ≠ []) :=
  ⟨by decide, breadth_first_traverse_overflow 5 (-2) (by decide)⟩

end Alu
